import Mathlib

/-! TinyInfiniTensor: allocator, graph ordering and memory planning

A shallow embedding of `src/core/allocator.cc` and of the parts of
`src/core/graph.cc` that order operators and plan memory, followed by the
properties proved about them.

Conventions of the embedding

* `size_t` values are natural numbers; every arithmetic operation of the source
  that can wrap is written with an explicit `% SIZE_MOD`.
* `std::map<size_t, size_t>` is a list of `(key, value)` pairs kept in strictly
  ascending key order; an iterator into the map is represented by the key it
  designates.
* Object pointers (`Operator`, `Tensor`) are natural-number identities, a null
  pointer is `none`.
-/

namespace infini

/-! ## `size_t` and `std::map<size_t, size_t>` -/

/-- Number of values of `size_t` (64-bit). -/
def SIZE_MOD : Nat := 18446744073709551616

/-- The member `freeBlocks`: block start offset to block size, ascending keys. -/
abbrev FreeMap := List (Nat × Nat)

/-- Strictly ascending keys, the representation invariant of `std::map`. -/
def KeysAscending (m : FreeMap) : Prop := m.Pairwise (fun x y => x.1 < y.1)

instance (m : FreeMap) : Decidable (KeysAscending m) := by
  unfold KeysAscending; infer_instance

/-- The lookup `m.find(k)`, giving the mapped value. -/
def mapFind : FreeMap → Nat → Option Nat
  | [], _ => none
  | (k', v') :: rest, k => if k' = k then some v' else mapFind rest k

/-- The call `m.insert({k, v})`: adds the pair at its place in key order; when the key is
already present the map is left as it is. -/
def mapInsert : FreeMap → Nat → Nat → FreeMap
  | [], k, v => [(k, v)]
  | (k', v') :: rest, k, v =>
    if k < k' then (k, v) :: (k', v') :: rest
    else if k = k' then (k', v') :: rest
    else (k', v') :: mapInsert rest k v

/-- The assignment `m[k] = v`: adds the pair at its place in key order, or overwrites the value
of a key already present. -/
def mapAssign : FreeMap → Nat → Nat → FreeMap
  | [], k, v => [(k, v)]
  | (k', v') :: rest, k, v =>
    if k < k' then (k, v) :: (k', v') :: rest
    else if k = k' then (k, v) :: rest
    else (k', v') :: mapAssign rest k v

/-- The call `m.erase(it)` for the iterator designating key `k`. -/
def mapErase (m : FreeMap) (k : Nat) : FreeMap :=
  m.filter (fun e => decide (e.1 ≠ k))

/-- The neighbour `std::next(it)` for the iterator designating key `k`: the entry with the
least key above `k`, `none` standing for `end()`. -/
def mapNext (m : FreeMap) (k : Nat) : Option (Nat × Nat) :=
  m.find? (fun e => decide (k < e.1))

/-- The neighbour `std::prev(it)` for the iterator designating key `k`: the entry with the
greatest key below `k`; `none` when `it == begin()`. -/
def mapPrev (m : FreeMap) (k : Nat) : Option (Nat × Nat) :=
  (m.filter (fun e => decide (e.1 < k))).getLast?

/-! ## Outcomes of calls -/

/-- How a call ends. -/
inductive Outcome (α : Type) where
  /-- The call returns the value. -/
  | value (v : α)
  /-- An `IT_ASSERT` fails. -/
  | fatal
  /-- The call runs into behaviour that C++ leaves undefined: an access outside a
  vector, or the use of an erased iterator. -/
  | undefined
  deriving DecidableEq, Repr

/-- Sequencing: the first call that does not return ends the computation. -/
def Outcome.bind {α β : Type} (x : Outcome α) (f : α → Outcome β) : Outcome β :=
  match x with
  | Outcome.value v => f v
  | Outcome.fatal => Outcome.fatal
  | Outcome.undefined => Outcome.undefined

/-! ## `Allocator` -/

/-- The member `alignment`, set once by the constructor to `sizeof(uint64_t)`. -/
def alignment : Nat := 8

/-- The data members of `Allocator` that the planning code reads and writes.
`ptr = none` is `nullptr`. -/
structure Allocator where
  used : Nat
  peak : Nat
  ptr : Option Nat
  freeBlocks : FreeMap
  deriving DecidableEq, Repr

/-- State left by the constructor `Allocator::Allocator`. -/
def Allocator.fresh : Allocator :=
  { used := 0, peak := 0, ptr := none, freeBlocks := [] }

/-- The `size_t` subtraction `size - 1`, which wraps to the largest value at 0. -/
def sizeMinusOne (size : Nat) : Nat :=
  if size = 0 then SIZE_MOD - 1 else size - 1

/-- Method `Allocator::getAlignedSize`: `((size - 1) / alignment + 1) * alignment` in
`size_t` arithmetic. -/
def getAlignedSize (size : Nat) : Nat :=
  ((sizeMinusOne size / alignment + 1) * alignment) % SIZE_MOD

/-- The scan loop of `Allocator::alloc` over the blocks not yet visited.
`minFragmentSize` and `best` (the pair `bestIt` designates, `none` for
`freeBlocks.end()`) are the loop-carried variables; the result is `bestIt` when
the loop is left. -/
def bestFitScan (size : Nat) : FreeMap → Nat → Option (Nat × Nat) → Option (Nat × Nat)
  | [], _, best => best
  | (addr, blockSize) :: rest, minFragmentSize, best =>
    if size ≤ blockSize then
      let fragmentSize := blockSize - size
      let minFragmentSize' := if fragmentSize < minFragmentSize then fragmentSize else minFragmentSize
      let best' := if fragmentSize < minFragmentSize then some (addr, blockSize) else best
      if fragmentSize = 0 then best'
      else bestFitScan size rest minFragmentSize' best'
    else bestFitScan size rest minFragmentSize best

/-- Outcome of a call of `Allocator::alloc`: the allocator afterwards and the
returned offset, `none` when `IT_ASSERT(this->ptr == nullptr)` fails. -/
structure AllocResult where
  state : Allocator
  offset : Option Nat
  deriving DecidableEq, Repr

/-- Method `Allocator::alloc`. -/
def Allocator.alloc (a : Allocator) (size : Nat) : AllocResult :=
  if a.ptr ≠ none then { state := a, offset := none }
  else
    let size := getAlignedSize size
    match bestFitScan size a.freeBlocks (SIZE_MOD - 1) none with
    | some (bestAddr, bestSize) =>
      let remainingSize := bestSize - size
      let erased := mapErase a.freeBlocks bestAddr
      let blocks :=
        if 0 < remainingSize then mapAssign erased ((bestAddr + size) % SIZE_MOD) remainingSize
        else erased
      { state := { a with freeBlocks := blocks }, offset := some bestAddr }
    | none =>
      let used := (a.used + size) % SIZE_MOD
      let peak := if a.peak < used then used else a.peak
      { state := { a with used := used, peak := peak }, offset := some a.used }

/-- The local state of `Allocator::free` after the two merge steps: the map, the
fields `it->first` and `it->second` last held by the node `it` designates, and
whether that node has been erased by the merge into the left neighbour. -/
structure MergeState where
  blocks : FreeMap
  itFirst : Nat
  itSecond : Nat
  itErased : Bool
  deriving DecidableEq, Repr

/-- Lines 103-107 of `Allocator::free`: merge the block at `addr`, whose size is
`v`, with the next block when it starts where this one ends. Gives the map and
`it->second` afterwards. -/
def mergeRight (m : FreeMap) (addr v : Nat) : FreeMap × Nat :=
  match mapNext m addr with
  | some (nextAddr, nextSize) =>
    if (addr + v) % SIZE_MOD = nextAddr then
      (mapErase (mapAssign m addr ((v + nextSize) % SIZE_MOD)) nextAddr,
        (v + nextSize) % SIZE_MOD)
    else (m, v)
  | none => (m, v)

/-- Lines 111-117 of `Allocator::free`: when `it` is not the first node and the
previous block ends where the block at `addr` (of size `v`) starts, add `v` to
the previous block and erase the node of `it`. -/
def mergeLeft (m : FreeMap) (addr v : Nat) : MergeState :=
  match mapPrev m addr with
  | some (prevAddr, prevSize) =>
    if (prevAddr + prevSize) % SIZE_MOD = addr then
      { blocks := mapErase (mapAssign m prevAddr ((prevSize + v) % SIZE_MOD)) addr,
        itFirst := addr, itSecond := v, itErased := true }
    else { blocks := m, itFirst := addr, itSecond := v, itErased := false }
  | none => { blocks := m, itFirst := addr, itSecond := v, itErased := false }

/-- Lines 99-117 of `Allocator::free`, for the already aligned `size`: insert
the block (`insert` keeps an entry already stored under `addr`), merge it with a
touching right neighbour, then with a touching left neighbour. -/
def freeMerge (blocks : FreeMap) (addr size : Nat) : MergeState :=
  let m1 := mapInsert blocks addr size
  let v1 := (mapFind m1 addr).getD size
  let right := mergeRight m1 addr v1
  mergeLeft right.1 addr right.2

/-- Outcome of a call of `Allocator::free`: the allocator afterwards, whether the
call got past `IT_ASSERT(this->ptr == nullptr)`, and whether it ran into
undefined behaviour. A call with `undefined` set does not return; its `state`
is the allocator the call was made on and stands for nothing the call leaves. -/
structure FreeResult where
  state : Allocator
  passed : Bool
  undefined : Bool := false
  deriving DecidableEq, Repr

/-- Method `Allocator::free`.

After a merge into the left neighbour the source has erased the node `it`
designates (line 115) and still evaluates `it->first + it->second` (line 120),
which C++ leaves undefined. The embedding reads the fields the node held when
it was erased. When they do not add up to `used` the call returns with the
merged table. When they do, lines 121-122 go on to erase the erased node a
second time: the call does not return, and the result has `undefined` set. -/
def Allocator.free (a : Allocator) (addr size : Nat) : FreeResult :=
  if a.ptr ≠ none then { state := a, passed := false }
  else
    let size := getAlignedSize size
    let ms := freeMerge a.freeBlocks addr size
    if (ms.itFirst + ms.itSecond) % SIZE_MOD = a.used then
      if ms.itErased = true then { state := a, passed := true, undefined := true }
      else
        { state := { a with used := ms.itFirst, freeBlocks := mapErase ms.blocks ms.itFirst },
          passed := true }
    else { state := { a with freeBlocks := ms.blocks }, passed := true }

/-- Method `Allocator::getPtr`, with the pointer handed out by `runtime->alloc(peak)` as
a parameter (`none` for a null pointer). -/
def Allocator.getPtr (runtimeAlloc : Nat → Option Nat) (a : Allocator) : Allocator × Option Nat :=
  match a.ptr with
  | none => ({ a with ptr := runtimeAlloc a.peak }, runtimeAlloc a.peak)
  | some p => (a, some p)

/-- Whether a call `free(addr, size)` in state `a` reads the erased node with a
successful tail test: the block was merged into its left neighbour and the
fields of the erased node add up to `used`. While `ptr` is null these are the
calls that do not return. -/
def Allocator.freeReadsErased (a : Allocator) (addr size : Nat) : Bool :=
  let ms := freeMerge a.freeBlocks addr (getAlignedSize size)
  ms.itErased && decide ((ms.itFirst + ms.itSecond) % SIZE_MOD = a.used)

/-! ## Call sequences on one allocator

Sequences of `alloc` and `free` calls on one allocator. An allocation is live
from the `alloc` that returned its offset until the `free` that releases it. -/

/-- One call of the planning interface of the allocator. -/
inductive Call where
  | alloc (size : Nat)
  | free (addr size : Nat)
  deriving DecidableEq, Repr

/-- An allocator together with its live allocations, each recorded as the offset
`alloc` returned and the size it was requested with (most recent first). -/
structure Session where
  a : Allocator
  live : List (Nat × Nat)
  deriving DecidableEq, Repr

/-- A fresh allocator with nothing live. -/
def Session.init : Session := { a := Allocator.fresh, live := [] }

/-- Perform one call. The result is `none` when the call is not admissible: an
`alloc` whose assertion fails, a `free` that does not release a live allocation
with the offset and size it was obtained with, or a `free` that does not
return. -/
def Session.step (s : Session) : Call → Option Session
  | Call.alloc size =>
    match (s.a.alloc size).offset with
    | some off => some { a := (s.a.alloc size).state, live := (off, size) :: s.live }
    | none => none
  | Call.free addr size =>
    if (addr, size) ∈ s.live ∧ (s.a.free addr size).passed = true ∧
        (s.a.free addr size).undefined = false then
      some { a := (s.a.free addr size).state, live := s.live.erase (addr, size) }
    else none

/-- Perform a sequence of calls from left to right. -/
def Session.run (s : Session) : List Call → Option Session
  | [] => some s
  | c :: cs =>
    match s.step c with
    | some s' => s'.run cs
    | none => none

/-- Sum of the aligned sizes of all `alloc` calls of a sequence. -/
def totalAligned : List Call → Nat
  | [] => 0
  | Call.alloc size :: cs => getAlignedSize size + totalAligned cs
  | Call.free _ _ :: cs => totalAligned cs

/-- Sum of the aligned sizes of a list of live allocations. -/
def liveAligned (live : List (Nat × Nat)) : Nat :=
  (live.map (fun l => getAlignedSize l.2)).sum

/-- The largest value of `liveAligned` over the states a run passes through,
the starting state included; `none` when the run is not admissible. -/
def Session.maxLiveAligned (s : Session) : List Call → Option Nat
  | [] => some (liveAligned s.live)
  | c :: cs =>
    match s.step c with
    | some s' =>
      match s'.maxLiveAligned cs with
      | some m => some (max (liveAligned s.live) m)
      | none => none
    | none => none

/-- Two allocations, given as (offset, requested size), share a byte of their
ranges `[offset, offset + alignedSize)`. -/
def rangesOverlap (x y : Nat × Nat) : Prop :=
  max x.1 y.1 < min (x.1 + getAlignedSize x.2) (y.1 + getAlignedSize y.2)

instance (x y : Nat × Nat) : Decidable (rangesOverlap x y) := by
  unfold rangesOverlap; infer_instance

/-! ## Graph: tensors, operators, ordering

`Tensor` and `Operator` are shared pointers in the source. An object is
identified here by a natural number, and the graph carries the objects the
identities stand for. -/

/-- Modelled from the spec: the kind tag `OpType` of an operator, declared outside the
sources at hand. The rewriter tells MatMul and Transpose from each other and
from every other kind. -/
inductive OpType where
  | MatMul
  | Transpose
  | Other
  deriving DecidableEq, Repr

/-- The members of `TensorObj` read by the ordering, rewriting and planning code. -/
structure TensorObj where
  /-- Result of `getSource()`, `none` for a tensor no operator writes. -/
  source : Option Nat
  /-- Result of `getTargets()`. -/
  targets : List Nat
  /-- Result of `getBytes()`. -/
  bytes : Nat
  /-- Address held by the data blob, `none` while no blob is bound. -/
  data : Option Nat := none
  /-- Result of `getFuid()`. -/
  fuid : Nat := 0
  deriving DecidableEq, Repr

/-- The members of `OperatorObj` read by the ordering, rewriting and planning code,
with the members `transA`, `transB` of `MatmulObj` and `transposePermute` of
`TransposeObj`. -/
structure OperatorObj where
  /-- Result of `getInputs()`. -/
  inputs : List Nat
  /-- Result of `getOutputs()`. -/
  outputs : List Nat
  /-- Result of `getOpType()`. -/
  opType : OpType := OpType.Other
  /-- Result of `getPredecessors()`. -/
  predecessors : List Nat := []
  /-- Result of `getSuccessors()`. -/
  successors : List Nat := []
  /-- Result of `getTransA()`. -/
  transA : Bool := false
  /-- Result of `getTransB()`. -/
  transB : Bool := false
  /-- Result of `getPermute()`. -/
  transposePermute : List Int := []
  deriving DecidableEq, Repr

/-- The members of `GraphObj`. `tensorObj` and `opObj` give the object behind
each tensor and operator identity. -/
structure GraphObj where
  tensors : List Nat
  ops : List Nat
  sorted : Bool
  allocator : Allocator
  tensorObj : Nat → TensorObj
  opObj : Nat → OperatorObj

/-- The lambda handed to `std::all_of` in `GraphObj::topo_sort`: the input has no
source, or its source is already in `flags`. -/
def inputPlaced (g : GraphObj) (flags : List Nat) (input : Nat) : Bool :=
  match (g.tensorObj input).source with
  | none => true
  | some ptr => decide (ptr ∈ flags)

/-- Local state of `GraphObj::topo_sort`: the vector `sorted`, the set `flags`
and, inside a pass, the variable `modified`. -/
structure TopoState where
  sorted : List Nat
  flags : List Nat
  modified : Bool
  deriving DecidableEq, Repr

/-- The `for (auto const &op : ops)` loop of `GraphObj::topo_sort` over the
operators not yet visited in this pass. -/
def topoPass (g : GraphObj) : List Nat → TopoState → TopoState
  | [], st => st
  | op :: rest, st =>
    if op ∉ st.flags ∧ (g.opObj op).inputs.all (inputPlaced g st.flags) = true then
      topoPass g rest { sorted := st.sorted ++ [op], flags := op :: st.flags, modified := true }
    else topoPass g rest st

/-- How the `while` loop of `GraphObj::topo_sort` ends. -/
inductive TopoOutcome where
  /-- The loop condition became false; the operators in their new order. -/
  | done (sorted : List Nat)
  /-- A pass moved no operator: `return false`. -/
  | stuck
  /-- The iteration budget of the embedding ran out. -/
  | outOfFuel
  deriving DecidableEq, Repr

/-- The `while (sorted.size() < ops.size())` loop of `GraphObj::topo_sort`, run
for at most `fuel` iterations. -/
def topoLoop (g : GraphObj) : Nat → List Nat → List Nat → TopoOutcome
  | 0, _, _ => TopoOutcome.outOfFuel
  | fuel + 1, sorted, flags =>
    if sorted.length < g.ops.length then
      let st := topoPass g g.ops { sorted := sorted, flags := flags, modified := false }
      if st.modified = false then TopoOutcome.stuck
      else topoLoop g fuel st.sorted st.flags
    else TopoOutcome.done sorted

/-- Method `GraphObj::topo_sort`: the returned flag and the graph afterwards. The loop
gets `ops.size() + 1` iterations; `none` would mean they did not suffice. -/
def GraphObj.topo_sort (g : GraphObj) : Option (Bool × GraphObj) :=
  if g.sorted then some (true, g)
  else
    match topoLoop g (g.ops.length + 1) [] [] with
    | TopoOutcome.done sorted => some (true, { g with ops := sorted, sorted := true })
    | TopoOutcome.stuck => some (false, g)
    | TopoOutcome.outOfFuel => none

/-- Operator `p` writes a tensor that operator `q` reads. -/
def produces (g : GraphObj) (p q : Nat) : Prop :=
  ∃ t ∈ (g.opObj q).inputs, (g.tensorObj t).source = some p

/-- States of an allocator whose arena has not been materialised: the fresh
allocator and every state `alloc` or `free` leaves when called, with any
`size_t` arguments, in such a state and returning. -/
inductive Allocator.Reachable : Allocator → Prop where
  | fresh : Allocator.Reachable Allocator.fresh
  | alloc (a : Allocator) (size : Nat) :
      Allocator.Reachable a → size < SIZE_MOD → Allocator.Reachable (a.alloc size).state
  | free (a : Allocator) (addr size : Nat) :
      Allocator.Reachable a → addr < SIZE_MOD → size < SIZE_MOD →
      (a.free addr size).undefined = false →
      Allocator.Reachable (a.free addr size).state

/-! ## `dataMalloc` -/

/-- Local variables of `GraphObj::dataMalloc` together with the allocator member:
the maps `offsets` and `refCount`, keyed by tensor. -/
structure PlanState where
  allocator : Allocator
  offsets : Nat → Option Nat
  refCount : Nat → Option Nat

/-- The statements `size = tensor->getBytes(); if (size > 0) offsets[tensor] =
allocator.alloc(size);` of `dataMalloc`; fatal when the assertion of `alloc`
fails. -/
def planAlloc (g : GraphObj) (st : PlanState) (t : Nat) : Outcome PlanState :=
  if 0 < (g.tensorObj t).bytes then
    match (st.allocator.alloc (g.tensorObj t).bytes).offset with
    | some off =>
      Outcome.value
        { st with allocator := (st.allocator.alloc (g.tensorObj t).bytes).state,
                  offsets := Function.update st.offsets t (some off) }
    | none => Outcome.fatal
  else Outcome.value st

/-- The loop of `dataMalloc` that allocates every tensor without a source. -/
def planSources (g : GraphObj) : List Nat → PlanState → Outcome PlanState
  | [], st => Outcome.value st
  | t :: ts, st =>
    if (g.tensorObj t).source = none then
      (planAlloc g st t).bind fun st' => planSources g ts st'
    else planSources g ts st

/-- The loop of `dataMalloc` over the outputs of one operator. -/
def planOutputs (g : GraphObj) : List Nat → PlanState → Outcome PlanState
  | [], st => Outcome.value st
  | t :: ts, st => (planAlloc g st t).bind fun st' => planOutputs g ts st'

/-- The body of the loop of `dataMalloc` over the inputs of one operator: count
the use down (a `size_t` decrement) and free the tensor when the count reaches
zero and the tensor has an offset. The outcome is that of the call of `free`:
undefined when it does not return, fatal when its assertion fails. -/
def planRelease (g : GraphObj) (st : PlanState) (t : Nat) : Outcome PlanState :=
  match st.refCount t with
  | some c =>
    let st1 := { st with refCount := Function.update st.refCount t (some (sizeMinusOne c)) }
    if sizeMinusOne c = 0 then
      match st.offsets t with
      | some off =>
        if (st.allocator.free off (g.tensorObj t).bytes).undefined = true then
          Outcome.undefined
        else if (st.allocator.free off (g.tensorObj t).bytes).passed = true then
          Outcome.value
            { st1 with allocator := (st.allocator.free off (g.tensorObj t).bytes).state }
        else Outcome.fatal
      | none => Outcome.value st1
    else Outcome.value st1
  | none => Outcome.value st

/-- The loop of `dataMalloc` over the inputs of one operator. -/
def planInputs (g : GraphObj) : List Nat → PlanState → Outcome PlanState
  | [], st => Outcome.value st
  | t :: ts, st => (planRelease g st t).bind fun st' => planInputs g ts st'

/-- The loop of `dataMalloc` over the operators: allocate the outputs, then
release the inputs. -/
def planOps (g : GraphObj) : List Nat → PlanState → Outcome PlanState
  | [], st => Outcome.value st
  | op :: rest, st =>
    (planOutputs g (g.opObj op).outputs st).bind fun st1 =>
      (planInputs g (g.opObj op).inputs st1).bind fun st2 => planOps g rest st2

/-- What `dataMalloc` leaves: the graph, and the local map `offsets` it bound the
tensors from. -/
structure PlanResult where
  graph : GraphObj
  offsets : Nat → Option Nat

/-- The local state of `dataMalloc` when its first two loops are done: the use
counts of the listed tensors and the offsets of the tensors without a source. -/
def planStart (g : GraphObj) : Outcome PlanState :=
  planSources g g.tensors
    { allocator := g.allocator
      offsets := fun _ => none
      refCount := fun t =>
        if t ∈ g.tensors then some (g.tensorObj t).targets.length else none }

/-- Method `GraphObj::dataMalloc`, with `runtime->alloc` as a parameter. The outcome
is fatal when an assertion fails (`topo_sort` does not return true, or the
arena was already materialised) and undefined when a call of `free` does not
return. A tensor that got an offset and has a non-zero size is bound to the
arena pointer plus its offset. -/
def GraphObj.dataMalloc (runtimeAlloc : Nat → Option Nat) (g : GraphObj) : Outcome PlanResult :=
  match g.topo_sort with
  | some (true, g1) =>
    (planStart g1).bind fun st1 =>
      (planOps g1 g1.ops st1).bind fun st2 =>
        Outcome.value
          { graph :=
              { g1 with
                allocator := (st2.allocator.getPtr runtimeAlloc).1
                tensorObj := fun t =>
                  match st2.offsets t with
                  | some off =>
                    if t ∈ g1.tensors ∧ 0 < (g1.tensorObj t).bytes then
                      { g1.tensorObj t with
                        data := some ((st2.allocator.getPtr runtimeAlloc).2.getD 0 + off) }
                    else g1.tensorObj t
                  | none => g1.tensorObj t }
            offsets := st2.offsets }
  | _ => Outcome.fatal

/-! ## Example graphs -/

/-- A chain `t0 -> op 0 -> t1 -> op 1 -> t2 -> op 2 -> t3` of 16-byte tensors whose
operator list is stored in the order `[2, 1, 0]`. -/
def chainGraph : GraphObj :=
  { tensors := [0, 1, 2, 3]
    ops := [2, 1, 0]
    sorted := false
    allocator := Allocator.fresh
    tensorObj := fun t =>
      match t with
      | 0 => { source := none, targets := [0], bytes := 16 }
      | 1 => { source := some 0, targets := [1], bytes := 16 }
      | 2 => { source := some 1, targets := [2], bytes := 16 }
      | _ => { source := some 2, targets := [], bytes := 16 }
    opObj := fun o =>
      match o with
      | 0 => { inputs := [0], outputs := [1] }
      | 1 => { inputs := [1], outputs := [2] }
      | _ => { inputs := [2], outputs := [3] } }

/-- Two operators feeding each other: operator 0 reads `t1` and writes `t0`,
operator 1 reads `t0` and writes `t1`. -/
def cycleGraph : GraphObj :=
  { tensors := [0, 1]
    ops := [0, 1]
    sorted := false
    allocator := Allocator.fresh
    tensorObj := fun t =>
      match t with
      | 0 => { source := some 0, targets := [1], bytes := 16 }
      | _ => { source := some 1, targets := [0], bytes := 16 }
    opObj := fun o =>
      match o with
      | 0 => { inputs := [1], outputs := [0] }
      | _ => { inputs := [0], outputs := [1] } }

/-- A graph of `float` tensors: `t1 = Transpose(t0)`, `t3 = MatMul(t1, t2)`,
`t4 = Transpose(t3)`, `t6 = MatMul(t4, t5)`, `t8 = MatMul(t6, t7)` with shapes
`t0, t1 : [1,1]`, `t2, t3, t5 : [1,3]`, `t4, t7, t8 : [3,1]`, `t6 : [3,3]`. -/
def matmulChainGraph : GraphObj :=
  { tensors := [0, 1, 2, 3, 4, 5, 6, 7, 8]
    ops := [0, 1, 2, 3, 4]
    sorted := false
    allocator := Allocator.fresh
    tensorObj := fun t =>
      match t with
      | 0 => { source := none, targets := [0], bytes := 4 }
      | 1 => { source := some 0, targets := [1], bytes := 4 }
      | 2 => { source := none, targets := [1], bytes := 12 }
      | 3 => { source := some 1, targets := [2], bytes := 12 }
      | 4 => { source := some 2, targets := [3], bytes := 12 }
      | 5 => { source := none, targets := [3], bytes := 12 }
      | 6 => { source := some 3, targets := [4], bytes := 36 }
      | 7 => { source := none, targets := [4], bytes := 12 }
      | _ => { source := some 4, targets := [], bytes := 12 }
    opObj := fun o =>
      match o with
      | 0 => { inputs := [0], outputs := [1] }
      | 1 => { inputs := [1, 2], outputs := [3] }
      | 2 => { inputs := [3], outputs := [4] }
      | 3 => { inputs := [4, 5], outputs := [6] }
      | _ => { inputs := [6, 7], outputs := [8] } }

/-! ## Predicates used in the proofs -/

/-- Every block size in the map is a `size_t` value and a multiple of the
alignment. -/
def BlocksAligned (m : FreeMap) : Prop := ∀ e ∈ m, e.2 % 8 = 0 ∧ e.2 < SIZE_MOD

/-- Aligned size a single call adds to the total requested so far. -/
def callAligned : Call → Nat
  | Call.alloc size => getAlignedSize size
  | Call.free _ _ => 0

/-- The arena is not materialised, `used` is at most `peak`, `peak` is at most
`total`, and every free block and every live range ends at or below `peak`. -/
def PeakBound (s : Session) (total : Nat) : Prop :=
  s.a.ptr = none ∧ s.a.used ≤ s.a.peak ∧ s.a.peak ≤ total ∧
  (∀ e ∈ s.a.freeBlocks, e.1 + e.2 ≤ s.a.peak) ∧
  (∀ l ∈ s.live, l.1 + getAlignedSize l.2 ≤ s.a.peak)

/-- What the loops of `topo_sort` keep true of `sorted` and `flags`: they hold the
same operators, `sorted` has no duplicates and only operators of the graph, and
in `sorted` every operator stands after all of its producers. -/
def TopoInv (g : GraphObj) (sorted flags : List Nat) : Prop :=
  (∀ x, x ∈ flags ↔ x ∈ sorted) ∧ sorted.Nodup ∧ (∀ x ∈ sorted, x ∈ g.ops) ∧
  (∀ (l1 l2 : List Nat) (q : Nat), sorted = l1 ++ q :: l2 →
    ∀ p, produces g p q → p ∈ l1)

/-- Two byte ranges, each given by start and length, share no byte. -/
def noOverlap (x y : Nat × Nat) : Prop :=
  x.2 = 0 ∨ y.2 = 0 ∨ x.1 + x.2 ≤ y.1 ∨ y.1 + y.2 ≤ x.1

/-- The byte range of a live allocation: its offset and its aligned size. -/
def liveRange (l : Nat × Nat) : Nat × Nat := (l.1, getAlignedSize l.2)

/-- Whether some `free` of a run reads the erased node with a successful tail
test (`Allocator.freeReadsErased`), the path on which line 120 of `free` uses
an erased iterator to lower `used`. -/
def Session.readsErased (s : Session) : List Call → Bool
  | [] => false
  | Call.alloc size :: cs =>
    match s.step (Call.alloc size) with
    | some s' => s'.readsErased cs
    | none => false
  | Call.free addr size :: cs =>
    s.a.freeReadsErased addr size ||
      match s.step (Call.free addr size) with
      | some s' => s'.readsErased cs
      | none => false

/-- No live range and no free block reaches above `used`, and live ranges and
free blocks are pairwise free of overlap (empty ranges and blocks aside). -/
def Safe (s : Session) : Prop :=
  (∀ e ∈ s.a.freeBlocks, e.2 = 0 ∨ e.1 + e.2 ≤ s.a.used) ∧
  (∀ l ∈ s.live, (liveRange l).2 = 0 ∨ (liveRange l).1 + (liveRange l).2 ≤ s.a.used) ∧
  s.live.Pairwise (fun x y => noOverlap (liveRange x) (liveRange y)) ∧
  (∀ l ∈ s.live, ∀ e ∈ s.a.freeBlocks, noOverlap (liveRange l) e) ∧
  (∀ e1 ∈ s.a.freeBlocks, ∀ e2 ∈ s.a.freeBlocks, e1.1 ≠ e2.1 → noOverlap e1 e2)

/-- What the merge steps of `free` keep true of the map `m` and the size `v` of
the block at `o`, for a property `P` of single blocks and a relation `R`
between blocks: every block has `P`, blocks under different keys are related,
and the block at `o` has `P` and is related to every block under another key. -/
def MergeInv (P : Nat × Nat → Prop) (R : Nat × Nat → Nat × Nat → Prop) (o : Nat)
    (m : FreeMap) (v : Nat) : Prop :=
  (∀ e ∈ m, P e) ∧ (∀ e1 ∈ m, ∀ e2 ∈ m, e1.1 ≠ e2.1 → R e1 e2) ∧ P (o, v) ∧
  (∀ e ∈ m, e.1 ≠ o → R (o, v) e)

/-- A block that is free space: it does not reach above `used` (unless empty) nor
above `peak`, and overlaps no live range. -/
def FreeSpace (used peak : Nat) (live : List (Nat × Nat)) (e : Nat × Nat) : Prop :=
  (e.2 = 0 ∨ e.1 + e.2 ≤ used) ∧ e.1 + e.2 ≤ peak ∧
  ∀ l ∈ live, noOverlap (liveRange l) e

/-- The byte `x` lies in the range given by start and length. -/
def inRange (x : Nat) (r : Nat × Nat) : Prop := r.1 ≤ x ∧ x < r.1 + r.2

/-- Every byte below `used` lies in a live range or in a free block. -/
def Covered (used : Nat) (live : List (Nat × Nat)) (m : FreeMap) : Prop :=
  ∀ x, x < used → (∃ l ∈ live, inRange x (liveRange l)) ∨ (∃ e ∈ m, inRange x e)

/-- The free-block table is tight: keys ascend, every block is non-empty and ends
below `used`, a block ends below the start of every block after it (no overlap,
no two adjacent blocks), live ranges are non-empty, and every byte below
`used` is live or free. -/
def Tight (s : Session) : Prop :=
  KeysAscending s.a.freeBlocks ∧
  (∀ e ∈ s.a.freeBlocks, 0 < e.2 ∧ e.1 + e.2 < s.a.used) ∧
  (∀ e1 ∈ s.a.freeBlocks, ∀ e2 ∈ s.a.freeBlocks, e1.1 < e2.1 → e1.1 + e1.2 < e2.1) ∧
  (∀ l ∈ s.live, 0 < (liveRange l).2) ∧
  Covered s.a.used s.live s.a.freeBlocks

/-- The table between the steps of `free`, with the block at `o` of size `v` in
place: as `Tight`, except that nothing is said yet about how the block at `o`
lies to its neighbours and to `used`. -/
def TightMid (used : Nat) (live : List (Nat × Nat)) (o : Nat) (m : FreeMap) (v : Nat) : Prop :=
  KeysAscending m ∧ (o, v) ∈ m ∧ (∀ e ∈ m, 0 < e.2) ∧
  (∀ e ∈ m, e.1 ≠ o → e.1 + e.2 < used) ∧
  (∀ e1 ∈ m, ∀ e2 ∈ m, e1.1 ≠ o → e2.1 ≠ o → e1.1 < e2.1 → e1.1 + e1.2 < e2.1) ∧
  Covered used live m

/-- Every request of the sequence has a size from 1 to 2^64 - 8, the sizes whose
aligned size is positive and does not wrap. -/
def positiveSizes : List Call → Prop
  | [] => True
  | Call.alloc size :: cs => 1 ≤ size ∧ size ≤ SIZE_MOD - 8 ∧ positiveSizes cs
  | Call.free _ _ :: cs => positiveSizes cs

/-! ## Shapes and shape inference

`Shape` is `vector<int>`. A vector size converted to `int` (`int r = perm.size()`,
`int rank = A->getRank()`) is taken over unchanged: vectors of 2^31 or more
entries are outside the embedding. -/

/-- The type `Shape`, a `vector<int>`. -/
abbrev Shape := List Int

/-- The unchecked element access `v[i]` with an `int` index. -/
def vecAt (v : List Int) (i : Int) : Outcome Int :=
  if 0 ≤ i ∧ i < v.length then
    match v[i.toNat]? with
    | some x => Outcome.value x
    | none => Outcome.undefined
  else Outcome.undefined

/-- The loop `for (int i = 0; i < r - 2; ++i) if (perm[i] != i) return false;` of
`isSwapLastTwo`, with `n` iterations still to run from index `i`. The value is
`false` when the loop returns, `true` when it runs to its end. -/
def swapPrefixLoop (perm : List Int) : Nat → Int → Outcome Bool
  | 0, _ => Outcome.value true
  | n + 1, i =>
    (vecAt perm i).bind fun p =>
      if p ≠ i then Outcome.value false else swapPrefixLoop perm n (i + 1)

/-- The lambda `isSwapLastTwo` of `GraphObj::optimize`. -/
def isSwapLastTwo (perm : List Int) : Outcome Bool :=
  let r : Int := perm.length
  if r < 2 then Outcome.value false
  else
    (swapPrefixLoop perm (r - 2).toNat 0).bind fun identical =>
      if identical = false then Outcome.value false
      else
        (vecAt perm (r - 1)).bind fun last =>
          if last = r - 2 then
            (vecAt perm (r - 2)).bind fun before => Outcome.value (decide (before = r - 1))
          else Outcome.value false

/-- The loop `for (int i = 0; i < rank; ++i) output[i] = input_dim[transposePermute[i]];`
of `TransposeObj::inferShape`, with `n` iterations still to run from index `i`;
the value is the part of `output` written by them. -/
def transposeLoop (transposePermute : List Int) (input_dim : Shape) : Nat → Int → Outcome Shape
  | 0, _ => Outcome.value []
  | n + 1, i =>
    (vecAt transposePermute i).bind fun p =>
      (vecAt input_dim p).bind fun d =>
        (transposeLoop transposePermute input_dim n (i + 1)).bind fun rest =>
          Outcome.value (d :: rest)

/-- Method `TransposeObj::inferShape`, for the member `transposePermute` and the dimensions
of `inputs[0]`. -/
def TransposeObj.inferShape (transposePermute : List Int) (input_dim : Shape) :
    Outcome (List Shape) :=
  (transposeLoop transposePermute input_dim input_dim.length 0).bind fun output =>
    Outcome.value [output]

/-- Modelled from the spec: the helper `infer_broadcast` of `utils/operator_utils`, whose
source is not at hand, on two shapes given innermost dimension first. Two
dimensions are compatible when they are equal or one of them is 1; a dimension
absent on one side is taken from the other; dimensions that are not compatible
are fatal. -/
def broadcastAligned : Shape → Shape → Outcome Shape
  | [], ys => Outcome.value ys
  | x :: xs, [] => Outcome.value (x :: xs)
  | x :: xs, y :: ys =>
    if x = y ∨ x = 1 ∨ y = 1 then
      (broadcastAligned xs ys).bind fun rest => Outcome.value ((if x = 1 then y else x) :: rest)
    else Outcome.fatal

/-- Modelled from the spec: the helper `infer_broadcast` of `utils/operator_utils`, whose
source is not at hand. Standard broadcasting of two shapes aligned at their
innermost dimension. -/
def infer_broadcast (a b : Shape) : Outcome Shape :=
  (broadcastAligned a.reverse b.reverse).bind fun r => Outcome.value r.reverse

/-- Method `MatmulObj::inferShape`, for the members `transA` and `transB` and the dimensions
of `inputs[0]` and `inputs[1]`; the helper `infer_broadcast` is a parameter. -/
def MatmulObj.inferShape (broadcast : Shape → Shape → Outcome Shape) (transA transB : Bool)
    (shapeA shapeB : Shape) : Outcome (List Shape) :=
  (vecAt shapeA (if transA then (shapeA.length : Int) - 1 else (shapeA.length : Int) - 2)).bind
    fun M =>
  (vecAt shapeA (if transA then (shapeA.length : Int) - 2 else (shapeA.length : Int) - 1)).bind
    fun KA =>
  (vecAt shapeB (if transB then (shapeB.length : Int) - 1 else (shapeB.length : Int) - 2)).bind
    fun KB =>
  (vecAt shapeB (if transB then (shapeB.length : Int) - 2 else (shapeB.length : Int) - 1)).bind
    fun N =>
  if KA ≠ KB then Outcome.fatal
  else
    (broadcast (shapeA.take (shapeA.length - 2)) (shapeB.take (shapeB.length - 2))).bind
      fun resShape => Outcome.value [resShape ++ [M, N]]

/-! ## `GraphObj::optimize`

The rewriter mutates tensors and operators through shared pointers. Here it
transforms the graph value, whose `tensorObj` and `opObj` hold the objects. -/

/-- Modelled from the spec: the method `TensorObj::addTarget`, declared outside the sources
at hand. The operator is appended to the targets of the tensor. -/
def GraphObj.addTarget (g : GraphObj) (t op : Nat) : GraphObj :=
  { g with tensorObj := (Function.update g.tensorObj t
      { g.tensorObj t with targets := (g.tensorObj t).targets ++ [op] }) }

/-- Modelled from the spec: the method `TensorObj::removeTarget`, declared outside the
sources at hand. Every entry for the operator leaves the targets of the tensor. -/
def GraphObj.removeTarget (g : GraphObj) (t op : Nat) : GraphObj :=
  { g with tensorObj := (Function.update g.tensorObj t
      { g.tensorObj t with
        targets := (g.tensorObj t).targets.filter (fun o => decide (o ≠ op)) }) }

/-- Modelled from the spec: the method `OperatorObj::replaceInput`, declared outside the
sources at hand. Every occurrence of `t1` among the inputs of the operator
becomes `t2`. -/
def GraphObj.replaceInput (g : GraphObj) (op t1 t2 : Nat) : GraphObj :=
  { g with opObj := (Function.update g.opObj op
      { g.opObj op with
        inputs := (g.opObj op).inputs.map (fun t => if t = t1 then t2 else t) }) }

/-- Modelled from the spec: the accessor `OperatorObj::getOutput`, declared outside the
sources at hand, for an operator with one output (a Transpose is built with
one). With any other number of outputs the call is taken to be fatal. -/
def GraphObj.getOutput (g : GraphObj) (op : Nat) : Outcome Nat :=
  match (g.opObj op).outputs with
  | [t] => Outcome.value t
  | _ => Outcome.fatal

/-- The statements `t1->removeTarget(op); t2->addTarget(op); op->replaceInput(t1, t2);`
that both rules use to make `op` read `t2` instead of `t1`. -/
def GraphObj.rewire (g : GraphObj) (op t1 t2 : Nat) : GraphObj :=
  ((g.removeTarget t1 op).addTarget t2 op).replaceInput op t1 t2

/-- The graph and the variable `changed` during a pass of `GraphObj::optimize`. -/
structure RewriteState where
  g : GraphObj
  changed : Bool

/-- The statements `if (i == 0) matmul->setTransA(!matmul->getTransA()); else
matmul->setTransB(!matmul->getTransB());` of `GraphObj::optimize` (lines 136-137). -/
def GraphObj.flipTrans (g : GraphObj) (op i : Nat) : GraphObj :=
  { g with opObj := (Function.update g.opObj op
      (if i = 0 then { g.opObj op with transA := !(g.opObj op).transA }
       else { g.opObj op with transB := !(g.opObj op).transB })) }

/-- Round `i` of the loop `for (int i = 0; i < 2; ++i)` of `GraphObj::optimize` (lines
129-147) for the MatMul `op`: when input `i` is written by a Transpose that
swaps the last two axes, flip the flag of that operand and read the input of
the Transpose instead. -/
def foldTranspose (st : RewriteState) (op i : Nat) : Outcome RewriteState :=
  match (st.g.opObj op).inputs[i]? with
  | none => Outcome.undefined
  | some input =>
    match (st.g.tensorObj input).source with
    | none => Outcome.value st
    | some prevOp =>
      if (st.g.opObj prevOp).opType = OpType.Transpose then
        (isSwapLastTwo (st.g.opObj prevOp).transposePermute).bind fun swap =>
          if swap = true then
            match ((st.g.flipTrans op i).opObj prevOp).inputs[0]? with
            | none => Outcome.undefined
            | some originIn =>
              Outcome.value
                { g := (st.g.flipTrans op i).rewire op input originIn, changed := true }
          else Outcome.value st
      else Outcome.value st

/-- The loop `for (auto &nextOp : targets)` of `GraphObj::optimize` (lines 163-167) over the
copy `targets` of the targets of `outputT2`. -/
def redirectTargets (outputT2 originIn : Nat) : List Nat → GraphObj → GraphObj
  | [], g => g
  | nextOp :: rest, g => redirectTargets outputT2 originIn rest (g.rewire nextOp outputT2 originIn)

/-- Lines 151-171 of `GraphObj::optimize` for the Transpose `op`: when its input is written
by a Transpose and both swap the last two axes, every reader of the output of
`op` reads the input of the first Transpose instead. -/
def dropDoubleTranspose (st : RewriteState) (op : Nat) : Outcome RewriteState :=
  match (st.g.opObj op).inputs[0]? with
  | none => Outcome.undefined
  | some inputT2 =>
    match (st.g.tensorObj inputT2).source with
    | none => Outcome.value st
    | some prevOp =>
      if (st.g.opObj prevOp).opType = OpType.Transpose then
        (isSwapLastTwo (st.g.opObj prevOp).transposePermute).bind fun swap1 =>
          (if swap1 = true then isSwapLastTwo (st.g.opObj op).transposePermute
           else Outcome.value false).bind fun both =>
            if both = true then
              match (st.g.opObj prevOp).inputs[0]? with
              | none => Outcome.undefined
              | some originIn =>
                (st.g.getOutput op).bind fun outputT2 =>
                  Outcome.value
                    { g := redirectTargets outputT2 originIn (st.g.tensorObj outputT2).targets st.g,
                      changed := true }
            else Outcome.value st
      else Outcome.value st

/-- The body of the loop `for (auto &op : ops)` of `GraphObj::optimize` (lines 125-172). -/
def rewriteOp (st : RewriteState) (op : Nat) : Outcome RewriteState :=
  (if (st.g.opObj op).opType = OpType.MatMul then
      (foldTranspose st op 0).bind fun st1 => foldTranspose st1 op 1
    else Outcome.value st).bind fun st2 =>
      if (st2.g.opObj op).opType = OpType.Transpose then dropDoubleTranspose st2 op
      else Outcome.value st2

/-- The loop `for (auto &op : ops)` of `GraphObj::optimize` over the operators not yet
visited. -/
def rewriteScan : List Nat → RewriteState → Outcome RewriteState
  | [], st => Outcome.value st
  | op :: rest, st => (rewriteOp st op).bind fun st1 => rewriteScan rest st1

/-- What the predicate handed to `std::remove_if` over `ops` returns (lines 176-185): the
operator is not a MatMul and none of its outputs has a target. -/
def GraphObj.unused (g : GraphObj) (o : Nat) : Bool :=
  decide ((g.opObj o).opType ≠ OpType.MatMul) &&
    (g.opObj o).outputs.all (fun out => (g.tensorObj out).targets.isEmpty)

/-- The loop `for (auto &in : o->getInputs()) in->removeTarget(o);` of that predicate. -/
def detachInputs (o : Nat) : List Nat → GraphObj → GraphObj
  | [], g => g
  | t :: ts, g => detachInputs o ts (g.removeTarget t o)

/-- The graph during `std::remove_if` over `ops`, the operators kept so far and those
removed so far. -/
structure SweepState where
  g : GraphObj
  kept : List Nat
  removed : List Nat

/-- The pass of `std::remove_if` over `ops` (lines 176-185), which calls the predicate once
on every operator, in order. -/
def sweepOps : List Nat → SweepState → SweepState
  | [], st => st
  | o :: rest, st =>
    if st.g.unused o = true then
      sweepOps rest
        { g := detachInputs o (st.g.opObj o).inputs st.g, kept := st.kept,
          removed := st.removed ++ [o] }
    else sweepOps rest { st with kept := st.kept ++ [o] }

/-- Modelled from the spec: the source of a tensor is a weak reference (the comment at line
175 of `graph.cc`: erasing an operator from `ops` destroys it). Once the
operators `removed` have left `ops`, `getSource()` gives null for the tensors
they wrote. -/
def GraphObj.expireSources (g : GraphObj) (removed : List Nat) : GraphObj :=
  { g with tensorObj := fun t =>
      match (g.tensorObj t).source with
      | some o =>
        if o ∈ removed ∧ o ∉ g.ops then { g.tensorObj t with source := none }
        else g.tensorObj t
      | none => g.tensorObj t }

/-- The statement `tensors.erase(std::remove_if(...))` of `GraphObj::optimize` (lines 188-192):
tensors with neither a source nor a target leave the tensor list. -/
def GraphObj.sweepTensors (g : GraphObj) : GraphObj :=
  { g with tensors := g.tensors.filter fun t =>
      !(decide ((g.tensorObj t).source = none) && (g.tensorObj t).targets.isEmpty) }

/-- The statement `ops.erase(std::remove_if(...))` of `GraphObj::optimize` (lines 176-185):
the operators the sweep keeps become the operator list, and the references to
the operators that left it expire. -/
def GraphObj.eraseOps (g : GraphObj) : GraphObj :=
  ({ (sweepOps g.ops { g := g, kept := [], removed := [] }).g with
      ops := (sweepOps g.ops { g := g, kept := [], removed := [] }).kept } : GraphObj).expireSources
    (sweepOps g.ops { g := g, kept := [], removed := [] }).removed

/-- One iteration of the loop `while (changed)` of `GraphObj::optimize` (lines 122-192):
the graph afterwards and the value of `changed`. -/
def optimizePass (g : GraphObj) : Outcome RewriteState :=
  (rewriteScan g.ops { g := g, changed := false }).bind fun st =>
    Outcome.value { g := st.g.eraseOps.sweepTensors, changed := st.changed }

/-- The loop `while (changed)` of `GraphObj::optimize`, run for at most `fuel` iterations;
`none` when they do not suffice. -/
def optimizeLoop : Nat → GraphObj → Option (Outcome GraphObj)
  | 0, _ => none
  | fuel + 1, g =>
    match optimizePass g with
    | Outcome.value st => if st.changed = true then optimizeLoop fuel st.g else some (Outcome.value st.g)
    | Outcome.fatal => some Outcome.fatal
    | Outcome.undefined => some Outcome.undefined

/-- The statements `op->predecessors.clear(); op->successors.clear();` of
`GraphObj::optimize` (lines 198-199). -/
def GraphObj.clearOp (g : GraphObj) (op : Nat) : GraphObj :=
  { g with opObj := (Function.update g.opObj op
      { g.opObj op with predecessors := [], successors := [] }) }

/-- The loop of `GraphObj::optimize` that clears `predecessors` and `successors` (lines
197-200). -/
def clearAdjacency : List Nat → GraphObj → GraphObj
  | [], g => g
  | op :: rest, g => clearAdjacency rest (g.clearOp op)

/-- Modelled from the spec: the method `OperatorObj::addPredecessors`, declared outside the
sources at hand. The operator `sourceOp` is appended to the predecessors of
`op`. -/
def GraphObj.addPredecessor (g : GraphObj) (op sourceOp : Nat) : GraphObj :=
  { g with opObj := (Function.update g.opObj op
      { g.opObj op with predecessors := (g.opObj op).predecessors ++ [sourceOp] }) }

/-- Modelled from the spec: the method `OperatorObj::addSuccessors`, declared outside the
sources at hand. The operator `op` is appended to the successors of `sourceOp`. -/
def GraphObj.addSuccessor (g : GraphObj) (sourceOp op : Nat) : GraphObj :=
  { g with opObj := (Function.update g.opObj sourceOp
      { g.opObj sourceOp with successors := (g.opObj sourceOp).successors ++ [op] }) }

/-- The statements `op->addPredecessors(sourceOp); sourceOp->addSuccessors(op);` of
`GraphObj::optimize` (lines 204-205). -/
def GraphObj.connect (g : GraphObj) (op sourceOp : Nat) : GraphObj :=
  (g.addPredecessor op sourceOp).addSuccessor sourceOp op

/-- The loop `for (auto &inTensor : op->getInputs())` of lines 202-207. -/
def connectInputs (op : Nat) : List Nat → GraphObj → GraphObj
  | [], g => g
  | inTensor :: rest, g =>
    match (g.tensorObj inTensor).source with
    | some sourceOp => connectInputs op rest (g.connect op sourceOp)
    | none => connectInputs op rest g

/-- The loop `for (auto &op : ops)` of lines 201-208. -/
def connectOps : List Nat → GraphObj → GraphObj
  | [], g => g
  | op :: rest, g => connectOps rest (connectInputs op (g.opObj op).inputs g)

/-- Lines 195-211 of `GraphObj::optimize`: rebuild the adjacency of the operators from the
tensors and clear the `sorted` flag. -/
def GraphObj.rebuildAdjacency (g : GraphObj) : GraphObj :=
  { connectOps g.ops (clearAdjacency g.ops g) with sorted := false }

/-- Method `GraphObj::optimize`, with at most `fuel` iterations of its loop; `none` when
they do not suffice. -/
def GraphObj.optimize (fuel : Nat) (g : GraphObj) : Option (Outcome GraphObj) :=
  match optimizeLoop fuel g with
  | some (Outcome.value g1) => some (Outcome.value g1.rebuildAdjacency)
  | some Outcome.fatal => some Outcome.fatal
  | some Outcome.undefined => some Outcome.undefined
  | none => none

/-- Method `GraphObj::checkValid`: true when every assertion holds. -/
def GraphObj.checkValid (g : GraphObj) : Bool :=
  g.tensors.all (fun tensor =>
    !(decide ((g.tensorObj tensor).targets.length = 0) &&
        decide ((g.tensorObj tensor).source = none)) &&
    (g.tensorObj tensor).targets.all (fun op => decide (op ∈ g.ops)) &&
    (match (g.tensorObj tensor).source with
     | some op => decide (op ∈ g.ops)
     | none => true)) &&
  g.ops.all (fun op =>
    (g.opObj op).inputs.all (fun tensor => decide (tensor ∈ g.tensors)) &&
    (g.opObj op).outputs.all (fun tensor => decide (tensor ∈ g.tensors)) &&
    (g.opObj op).predecessors.all (fun pre => decide (pre ∈ g.ops)) &&
    (g.opObj op).successors.all (fun suc => decide (suc ∈ g.ops))) &&
  decide ((g.tensors.map fun tensor => (g.tensorObj tensor).fuid).Nodup)

/-! ## Predicates used in the proofs about the rewriter -/

/-- The links of the graph agree with each other and the operators have the
inputs and outputs their constructors give them: no operator is listed twice, a
MatMul has its two inputs, a Transpose an input and exactly one output, a
listed operator is a target of exactly the listed tensors it reads, and it is
the source of the tensors it writes. -/
structure Consistent (g : GraphObj) : Prop where
  nodupOps : g.ops.Nodup
  arityMatMul : ∀ o ∈ g.ops, (g.opObj o).opType = OpType.MatMul →
    2 ≤ (g.opObj o).inputs.length
  arityTranspose : ∀ o ∈ g.ops, (g.opObj o).opType = OpType.Transpose →
    1 ≤ (g.opObj o).inputs.length ∧ (g.opObj o).outputs.length = 1
  reads : ∀ o ∈ g.ops, ∀ t ∈ g.tensors,
    t ∈ (g.opObj o).inputs ↔ o ∈ (g.tensorObj t).targets
  writes : ∀ o ∈ g.ops, ∀ t ∈ (g.opObj o).outputs, (g.tensorObj t).source = some o

/-- The references of the graph stay inside the graph: targets and sources of
listed tensors are listed operators, inputs and outputs of listed operators are
listed tensors. -/
structure Closed (g : GraphObj) : Prop where
  targetsIn : ∀ t ∈ g.tensors, ∀ o ∈ (g.tensorObj t).targets, o ∈ g.ops
  sourceIn : ∀ t ∈ g.tensors, ∀ o, (g.tensorObj t).source = some o → o ∈ g.ops
  inputsIn : ∀ o ∈ g.ops, ∀ t ∈ (g.opObj o).inputs, t ∈ g.tensors
  outputsIn : ∀ o ∈ g.ops, ∀ t ∈ (g.opObj o).outputs, t ∈ g.tensors

/-- The rank `ρ` of operators grows along the producer relation: an operator
ranks above the source of each of its inputs. -/
def Ranked (ρ : Nat → Nat) (g : GraphObj) : Prop :=
  ∀ q ∈ g.ops, ∀ t ∈ (g.opObj q).inputs, ∀ p, (g.tensorObj t).source = some p → ρ p < ρ q

/-- Weight of a tensor as an input: one more than the rank of its source, 0
without a source. -/
def inputWeight (ρ : Nat → Nat) (g : GraphObj) (t : Nat) : Nat :=
  match (g.tensorObj t).source with
  | some p => ρ p + 1
  | none => 0

/-- Weight of an operator: one more than the weights of its inputs. -/
def opWeight (ρ : Nat → Nat) (g : GraphObj) (o : Nat) : Nat :=
  1 + ((g.opObj o).inputs.map (inputWeight ρ g)).sum

/-- The measure that passes of the rewriter decrease: the weights of the listed
operators. -/
def graphWeight (ρ : Nat → Nat) (g : GraphObj) : Nat :=
  (g.ops.map (opWeight ρ g)).sum

/-- The graph `g'` has the lists and the links of `g`: the same operators and
tensors, and for each of them the same inputs, outputs, kind, permutation,
targets, source and id. The two may differ in the flags of a MatMul, in the
adjacency caches and in the `sorted` flag. -/
def SameLinks (g g' : GraphObj) : Prop :=
  g'.ops = g.ops ∧ g'.tensors = g.tensors ∧
  (∀ o, (g'.opObj o).inputs = (g.opObj o).inputs ∧ (g'.opObj o).outputs = (g.opObj o).outputs ∧
    (g'.opObj o).opType = (g.opObj o).opType ∧
    (g'.opObj o).transposePermute = (g.opObj o).transposePermute) ∧
  (∀ t, (g'.tensorObj t).targets = (g.tensorObj t).targets ∧
    (g'.tensorObj t).source = (g.tensorObj t).source ∧
    (g'.tensorObj t).fuid = (g.tensorObj t).fuid)

/-- What every step of a pass of the rewriter keeps true, for a rank `ρ`. -/
def RewriteInv (ρ : Nat → Nat) (g : GraphObj) : Prop :=
  Consistent g ∧ Closed g ∧ Ranked ρ g

/-- A listed operator that the next sweep over `ops` removes: it is not a MatMul and
none of its outputs has a target. -/
def Doomed (g : GraphObj) (d : Nat) : Prop :=
  d ∈ g.ops ∧ g.unused d = true

/-- How a step of the scan of the rewriter relates the state before it to the
state after it: the lists, kinds, outputs, permutations, sources and ids are
kept, the weight does not grow, operators to be swept stay so, `changed` is
only ever set, and when it is newly set the weight has dropped or some operator
is to be swept. -/
def Progress (ρ : Nat → Nat) (st st' : RewriteState) : Prop :=
  st'.g.ops = st.g.ops ∧ st'.g.tensors = st.g.tensors ∧
  (∀ o, (st'.g.opObj o).opType = (st.g.opObj o).opType ∧
    (st'.g.opObj o).outputs = (st.g.opObj o).outputs ∧
    (st'.g.opObj o).transposePermute = (st.g.opObj o).transposePermute) ∧
  (∀ t, (st'.g.tensorObj t).source = (st.g.tensorObj t).source ∧
    (st'.g.tensorObj t).fuid = (st.g.tensorObj t).fuid) ∧
  graphWeight ρ st'.g ≤ graphWeight ρ st.g ∧
  (∀ d, Doomed st.g d → Doomed st'.g d) ∧
  (st.changed = true → st'.changed = true) ∧
  (st'.changed = true →
    st.changed = true ∨ graphWeight ρ st'.g < graphWeight ρ st.g ∨ ∃ d, Doomed st'.g d)

/-- No listed tensor is without both a source and a target. -/
def NoOrphan (g : GraphObj) : Prop :=
  ∀ t ∈ g.tensors, ¬ ((g.tensorObj t).source = none ∧ (g.tensorObj t).targets = [])

/-- The adjacency caches of the listed operators name listed operators. -/
def AdjacencyIn (g : GraphObj) : Prop :=
  ∀ o ∈ g.ops, (∀ x ∈ (g.opObj o).predecessors, x ∈ g.ops) ∧
    (∀ x ∈ (g.opObj o).successors, x ∈ g.ops)

/-- The operator `p` is a Transpose whose permutation the test `isSwapLastTwo` of
`GraphObj::optimize` accepts. -/
def SwapT (g : GraphObj) (p : Nat) : Prop :=
  (g.opObj p).opType = OpType.Transpose ∧
    isSwapLastTwo (g.opObj p).transposePermute = Outcome.value true

/-- What lets rule A make the listed MatMul `n` read `t2` instead of its input `t1`:
the source of `t1` is a listed Transpose that swaps the last two axes and
whose first input is `t2`. -/
def FoldStep (g : GraphObj) (n t1 t2 : Nat) : Prop :=
  n ∈ g.ops ∧ (g.opObj n).opType = OpType.MatMul ∧ t1 ∈ (g.opObj n).inputs ∧
  ∃ p, p ∈ g.ops ∧ (g.tensorObj t1).source = some p ∧ SwapT g p ∧
    (g.opObj p).inputs[0]? = some t2

/-- What lets rule B make the listed operator `n` read `t2` instead of `t1`: `t1` is
the output of a listed Transpose `v`, the first input `m` of `v` is written by
a listed Transpose `q`, both swap the last two axes, and the first input of
`q` is `t2`. -/
def BypassStep (g : GraphObj) (n t1 t2 : Nat) : Prop :=
  n ∈ g.ops ∧
  ∃ v m q, v ∈ g.ops ∧ SwapT g v ∧ (g.opObj v).outputs = [t1] ∧
    (g.opObj v).inputs[0]? = some m ∧ (g.tensorObj m).source = some q ∧ q ∈ g.ops ∧
    SwapT g q ∧ (g.opObj q).inputs[0]? = some t2

/-- The property `J` of graphs is kept by what the rules do to a graph with the
invariant: a change of the flags of a MatMul, a step of rule A and a step of
rule B. -/
structure StepInv (ρ : Nat → Nat) (J : GraphObj → Prop) : Prop where
  links : ∀ g g', RewriteInv ρ g → SameLinks g g' → J g → J g'
  fold : ∀ g n t1 t2, RewriteInv ρ g → J g → FoldStep g n t1 t2 → J (g.rewire n t1 t2)
  bypass : ∀ g n t1 t2, RewriteInv ρ g → J g → BypassStep g n t1 t2 → J (g.rewire n t1 t2)

/-- The chain `x -> Transpose first -> a -> Transpose second -> b` as the graph to be
rewritten holds it: both Transposes are listed and swap the last two axes,
`first` reads `x` and writes `a`, `second` reads `a` and writes `b`, `a` is
consumed only by `second`, `x` is not written by a Transpose that swaps the
last two axes, `b` is the only tensor that names `second` as its source, no
consumer of `b` is a Transpose that swaps the last two axes, and every listed
MatMul has two inputs. -/
structure TransposeChain (g : GraphObj) (first second x a b : Nat) : Prop where
  firstIn : first ∈ g.ops
  secondIn : second ∈ g.ops
  swapFirst : SwapT g first
  swapSecond : SwapT g second
  inFirst : (g.opObj first).inputs = [x]
  outFirst : (g.opObj first).outputs = [a]
  inSecond : (g.opObj second).inputs = [a]
  outSecond : (g.opObj second).outputs = [b]
  onlyReader : (g.tensorObj a).targets = [second]
  plainSource : ∀ p, (g.tensorObj x).source = some p → ¬ SwapT g p
  onlyOutput : ∀ t, (g.tensorObj t).source = some second → t = b
  plainReaders : ∀ n ∈ (g.tensorObj b).targets, ¬ SwapT g n
  arity : ∀ o ∈ g.ops, (g.opObj o).opType = OpType.MatMul → (g.opObj o).inputs.length = 2

/-- What stays true of the chain `x -> first -> a -> second -> b` while the rewriter
works on the graph: the two operators keep their kind, permutation, output and
first input, the sources of `x`, `a` and `b` are as at the start or expired,
only `second` among the listed swapping Transposes reads `a` first and none
reads `b` first, every reader of `a` other than `second` is a MatMul, `first`
is listed as long as `second` is, and `a` and `b` have left the tensor list once
their writers have left the operator list. -/
structure Chain (g : GraphObj) (first second x a b : Nat) : Prop where
  swapFirst : SwapT g first
  swapSecond : SwapT g second
  outFirst : (g.opObj first).outputs = [a]
  outSecond : (g.opObj second).outputs = [b]
  inFirst : (g.opObj first).inputs[0]? = some x
  inSecond : (g.opObj second).inputs[0]? = some a
  srcX : ∀ p, (g.tensorObj x).source = some p → ¬ SwapT g p
  srcA : ∀ p, (g.tensorObj a).source = some p → p = first
  srcB : ∀ p, (g.tensorObj b).source = some p → p = second
  onlyB : ∀ t, (g.tensorObj t).source = some second → t = b
  heads : ∀ q ∈ g.ops, SwapT g q → ∀ t, (g.opObj q).inputs[0]? = some t →
    t ≠ b ∧ (t = a → q = second)
  readersA : ∀ n ∈ (g.tensorObj a).targets, n = second ∨ (g.opObj n).opType = OpType.MatMul
  arity : ∀ o ∈ g.ops, (g.opObj o).opType = OpType.MatMul → (g.opObj o).inputs.length = 2
  keepFirst : second ∈ g.ops → first ∈ g.ops
  goneA : first ∉ g.ops → a ∉ g.tensors
  goneB : second ∉ g.ops → b ∉ g.tensors

/-- Where the operator `op` read `b` when its inputs were `ins`, it reads `b`, `a`
or `x`. -/
def Follows (g : GraphObj) (op : Nat) (ins : List Nat) (x a b : Nat) : Prop :=
  ∀ i : Nat, ins[i]? = some b →
    (g.opObj op).inputs[i]? = some b ∨ (g.opObj op).inputs[i]? = some a ∨
      (g.opObj op).inputs[i]? = some x

/-- The graph is made of the MatMul `mm` and the two Transposes `ta : x -> a` and
`tb : y -> b` that write its two operands: these are the listed operators,
both Transposes swap the last two axes, `x` and `y` have no source, and `mm` is
the only reader of `a` and of `b`. -/
structure FusionPattern (g : GraphObj) (ta tb mm x y a b : Nat) : Prop where
  made : g.ops.Perm [ta, tb, mm]
  distinct : ta ≠ tb
  swapA : SwapT g ta
  swapB : SwapT g tb
  kind : (g.opObj mm).opType = OpType.MatMul
  inA : (g.opObj ta).inputs = [x]
  outA : (g.opObj ta).outputs = [a]
  inB : (g.opObj tb).inputs = [y]
  outB : (g.opObj tb).outputs = [b]
  operands : (g.opObj mm).inputs = [a, b]
  srcX : (g.tensorObj x).source = none
  srcY : (g.tensorObj y).source = none
  srcA : (g.tensorObj a).source = some ta
  srcB : (g.tensorObj b).source = some tb
  onlyA : (g.tensorObj a).targets = [mm]
  onlyB : (g.tensorObj b).targets = [mm]

/-- The graph `g'` differs from `g` in the adjacency caches of the operators and in
the `sorted` flag at most. -/
def SameCore (g g' : GraphObj) : Prop :=
  g'.ops = g.ops ∧ g'.tensors = g.tensors ∧ g'.tensorObj = g.tensorObj ∧
  ∀ o, (g'.opObj o).inputs = (g.opObj o).inputs ∧ (g'.opObj o).outputs = (g.opObj o).outputs ∧
    (g'.opObj o).opType = (g.opObj o).opType ∧
    (g'.opObj o).transposePermute = (g.opObj o).transposePermute ∧
    (g'.opObj o).transA = (g.opObj o).transA ∧ (g'.opObj o).transB = (g.opObj o).transB

/-- No rule of `GraphObj::optimize` matches in the graph: neither of the two operands
of a listed MatMul is written by a Transpose that swaps the last two axes, and
no listed Transpose that swaps the last two axes reads the output of another
one. -/
def NoMatch (g : GraphObj) : Prop :=
  (∀ op ∈ g.ops, (g.opObj op).opType = OpType.MatMul → ∀ i : Nat, i < 2 →
    ∀ t, (g.opObj op).inputs[i]? = some t →
      ∀ p, (g.tensorObj t).source = some p → ¬ SwapT g p) ∧
  (∀ op ∈ g.ops, SwapT g op → ∀ t, (g.opObj op).inputs[0]? = some t →
    ∀ p, (g.tensorObj t).source = some p → ¬ SwapT g p)

/-! ## Example graphs for the rewriter -/

/-- The graph `c = MatMul(Transpose(X), Transpose(Y))` with both flags clear: tensors
`X = 0`, `Y = 1`, `a = 2`, `b = 3`, `c = 4`, operators `Transpose 0 : X -> a`,
`Transpose 1 : Y -> b` (both swapping the last two axes) and `MatMul 2`. -/
def fusionGraph : GraphObj :=
  { tensors := [0, 1, 2, 3, 4]
    ops := [0, 1, 2]
    sorted := false
    allocator := Allocator.fresh
    tensorObj := fun t =>
      match t with
      | 0 => { source := none, targets := [0], bytes := 24, fuid := 0 }
      | 1 => { source := none, targets := [1], bytes := 24, fuid := 1 }
      | 2 => { source := some 0, targets := [2], bytes := 24, fuid := 2 }
      | 3 => { source := some 1, targets := [2], bytes := 24, fuid := 3 }
      | _ => { source := some 2, targets := [], bytes := 16, fuid := 4 }
    opObj := fun o =>
      match o with
      | 0 => { inputs := [0], outputs := [2], opType := OpType.Transpose,
               transposePermute := [1, 0] }
      | 1 => { inputs := [1], outputs := [3], opType := OpType.Transpose,
               transposePermute := [1, 0] }
      | _ => { inputs := [2, 3], outputs := [4], opType := OpType.MatMul } }

/-- The graph `c = MatMul(Transpose(Transpose(X)), W)`: tensors `X = 0`, `a = 1`, `b = 2`,
`W = 3`, `c = 4`, operators `Transpose 0 : X -> a`, `Transpose 1 : a -> b` (both
swapping the last two axes) and `MatMul 2 : (b, W) -> c`. -/
def doubleTransposeGraph : GraphObj :=
  { tensors := [0, 1, 2, 3, 4]
    ops := [0, 1, 2]
    sorted := false
    allocator := Allocator.fresh
    tensorObj := fun t =>
      match t with
      | 0 => { source := none, targets := [0], bytes := 16, fuid := 0 }
      | 1 => { source := some 0, targets := [1], bytes := 16, fuid := 1 }
      | 2 => { source := some 1, targets := [2], bytes := 16, fuid := 2 }
      | 3 => { source := none, targets := [2], bytes := 16, fuid := 3 }
      | _ => { source := some 2, targets := [], bytes := 16, fuid := 4 }
    opObj := fun o =>
      match o with
      | 0 => { inputs := [0], outputs := [1], opType := OpType.Transpose,
               transposePermute := [1, 0] }
      | 1 => { inputs := [1], outputs := [2], opType := OpType.Transpose,
               transposePermute := [1, 0] }
      | _ => { inputs := [2, 3], outputs := [4], opType := OpType.MatMul } }

/-- The graph `c = MatMul(Transpose(Transpose(Transpose(W))), V)`: tensors `W = 0`, `X = 1`,
`a = 2`, `b = 3`, `V = 4`, `c = 5`, operators `Transpose 0 : W -> X`,
`Transpose 1 : X -> a`, `Transpose 2 : a -> b` (all swapping the last two axes)
and `MatMul 3 : (b, V) -> c`. -/
def tripleTransposeGraph : GraphObj :=
  { tensors := [0, 1, 2, 3, 4, 5]
    ops := [0, 1, 2, 3]
    sorted := false
    allocator := Allocator.fresh
    tensorObj := fun t =>
      match t with
      | 0 => { source := none, targets := [0], bytes := 16, fuid := 0 }
      | 1 => { source := some 0, targets := [1], bytes := 16, fuid := 1 }
      | 2 => { source := some 1, targets := [2], bytes := 16, fuid := 2 }
      | 3 => { source := some 2, targets := [3], bytes := 16, fuid := 3 }
      | 4 => { source := none, targets := [3], bytes := 16, fuid := 4 }
      | _ => { source := some 3, targets := [], bytes := 16, fuid := 5 }
    opObj := fun o =>
      match o with
      | 0 => { inputs := [0], outputs := [1], opType := OpType.Transpose,
               transposePermute := [1, 0] }
      | 1 => { inputs := [1], outputs := [2], opType := OpType.Transpose,
               transposePermute := [1, 0] }
      | 2 => { inputs := [2], outputs := [3], opType := OpType.Transpose,
               transposePermute := [1, 0] }
      | _ => { inputs := [3, 4], outputs := [5], opType := OpType.MatMul } }

/-- The graph `c = MatMul(Other(Transpose(Transpose(Transpose(X)))), W)`: tensors `X = 0`,
`a = 1`, `b = 2`, `d = 3`, `e = 4`, `W = 5`, `c = 6`, operators
`Transpose 0 : X -> a`, `Transpose 1 : a -> b`, `Transpose 2 : b -> d` (all swapping
the last two axes), an operator `3 : d -> e` of another kind and
`MatMul 4 : (e, W) -> c`. The operator list starts with `Transpose 2`. -/
def transposeReaderGraph : GraphObj :=
  { tensors := [0, 1, 2, 3, 4, 5, 6]
    ops := [2, 0, 1, 3, 4]
    sorted := false
    allocator := Allocator.fresh
    tensorObj := fun t =>
      match t with
      | 0 => { source := none, targets := [0], bytes := 16, fuid := 0 }
      | 1 => { source := some 0, targets := [1], bytes := 16, fuid := 1 }
      | 2 => { source := some 1, targets := [2], bytes := 16, fuid := 2 }
      | 3 => { source := some 2, targets := [3], bytes := 16, fuid := 3 }
      | 4 => { source := some 3, targets := [4], bytes := 16, fuid := 4 }
      | 5 => { source := none, targets := [4], bytes := 16, fuid := 5 }
      | _ => { source := some 4, targets := [], bytes := 16, fuid := 6 }
    opObj := fun o =>
      match o with
      | 0 => { inputs := [0], outputs := [1], opType := OpType.Transpose,
               transposePermute := [1, 0] }
      | 1 => { inputs := [1], outputs := [2], opType := OpType.Transpose,
               transposePermute := [1, 0] }
      | 2 => { inputs := [2], outputs := [3], opType := OpType.Transpose,
               transposePermute := [1, 0] }
      | 3 => { inputs := [3], outputs := [4], opType := OpType.Other }
      | _ => { inputs := [4, 5], outputs := [6], opType := OpType.MatMul } }

/-- The graph `b = Transpose(Transpose(X))` of rank 3 whose two operators exchange
the first two axes: tensors `X = 0`, `a = 1`, `b = 2` (the graph output),
operators `Transpose 0 : X -> a` and `Transpose 1 : a -> b` with permutation
`[1, 0, 2]`. -/
def transposeTailGraph : GraphObj :=
  { tensors := [0, 1, 2]
    ops := [0, 1]
    sorted := false
    allocator := Allocator.fresh
    tensorObj := fun t =>
      match t with
      | 0 => { source := none, targets := [0], bytes := 96, fuid := 0 }
      | 1 => { source := some 0, targets := [1], bytes := 96, fuid := 1 }
      | _ => { source := some 1, targets := [], bytes := 96, fuid := 2 }
    opObj := fun o =>
      match o with
      | 0 => { inputs := [0], outputs := [1], opType := OpType.Transpose,
               transposePermute := [1, 0, 2] }
      | _ => { inputs := [1], outputs := [2], opType := OpType.Transpose,
               transposePermute := [1, 0, 2] } }

/-- Two Transpose operators swapping the last two axes, `Transpose 0 : b -> a` and
`Transpose 1 : a -> b`, with tensors `a = 0` and `b = 1`, where `b` does not
name `Transpose 1` as its source although that operator lists it as output. -/
def unsourcedOutputGraph : GraphObj :=
  { tensors := [0, 1]
    ops := [0, 1]
    sorted := false
    allocator := Allocator.fresh
    tensorObj := fun t =>
      match t with
      | 0 => { source := some 0, targets := [1], bytes := 16, fuid := 0 }
      | _ => { source := none, targets := [0], bytes := 16, fuid := 1 }
    opObj := fun o =>
      match o with
      | 0 => { inputs := [1], outputs := [0], opType := OpType.Transpose,
               transposePermute := [1, 0] }
      | _ => { inputs := [0], outputs := [1], opType := OpType.Transpose,
               transposePermute := [1, 0] } }

/-- Two Transpose operators swapping the last two axes that feed each other:
`Transpose 0 : b -> a` and `Transpose 1 : a -> b`, with tensors `a = 0` and `b = 1`. -/
def transposeCycleGraph : GraphObj :=
  { tensors := [0, 1]
    ops := [0, 1]
    sorted := false
    allocator := Allocator.fresh
    tensorObj := fun t =>
      match t with
      | 0 => { source := some 0, targets := [1], bytes := 16, fuid := 0 }
      | _ => { source := some 1, targets := [0], bytes := 16, fuid := 1 }
    opObj := fun o =>
      match o with
      | 0 => { inputs := [1], outputs := [0], opType := OpType.Transpose,
               transposePermute := [1, 0] }
      | _ => { inputs := [0], outputs := [1], opType := OpType.Transpose,
               transposePermute := [1, 0] } }

/-- The graph `d = Transpose(MatMul(X, W))`: tensors `X = 0`, `W = 1`, `c = 2`, `d = 3`
(the graph output), operators `MatMul 0 : (X, W) -> c` and `Transpose 1 : c -> d`,
which swaps the last two axes. -/
def matmulTransposeGraph : GraphObj :=
  { tensors := [0, 1, 2, 3]
    ops := [0, 1]
    sorted := false
    allocator := Allocator.fresh
    tensorObj := fun t =>
      match t with
      | 0 => { source := none, targets := [0], bytes := 24, fuid := 0 }
      | 1 => { source := none, targets := [0], bytes := 48, fuid := 1 }
      | 2 => { source := some 0, targets := [1], bytes := 32, fuid := 2 }
      | _ => { source := some 1, targets := [], bytes := 32, fuid := 3 }
    opObj := fun o =>
      match o with
      | 0 => { inputs := [0, 1], outputs := [2], opType := OpType.MatMul }
      | _ => { inputs := [2], outputs := [3], opType := OpType.Transpose,
               transposePermute := [1, 0] } }

/-- What a call of a method on the graph leaves, read off with `f`; `none` when the
call does not return a graph. -/
def observe {α : Type} (f : GraphObj → α) : Option (Outcome GraphObj) → Option α
  | some (Outcome.value g) => some (f g)
  | _ => none

/-- A second call of `GraphObj::optimize` right after a first one. -/
def optimizeTwice (fuel : Nat) (g : GraphObj) : Option (Outcome GraphObj) :=
  match g.optimize fuel with
  | some (Outcome.value g1) => g1.optimize fuel
  | r => r

/-! ## Arithmetic of `size_t` and of `getAlignedSize` -/

theorem SIZE_MOD_eq : SIZE_MOD = 18446744073709551616 := by
  rfl

theorem getAlignedSize_mod (s : Nat) : getAlignedSize s % 8 = 0 := by
  simp only [getAlignedSize, sizeMinusOne, alignment, SIZE_MOD_eq]
  omega

theorem getAlignedSize_lt (s : Nat) : getAlignedSize s < SIZE_MOD := by
  simp only [getAlignedSize, sizeMinusOne, alignment, SIZE_MOD_eq]
  omega

/-! ## The ordered map -/

theorem mem_mapErase {m : FreeMap} {k : Nat} {e : Nat × Nat} :
    e ∈ mapErase m k ↔ e ∈ m ∧ e.1 ≠ k := by
  simp [mapErase]

theorem mem_mapAssign {m : FreeMap} {k v : Nat} {e : Nat × Nat} (h : e ∈ mapAssign m k v) :
    e = (k, v) ∨ e ∈ m := by
  induction m with
  | nil => simp [mapAssign] at h; exact Or.inl h
  | cons hd tl ih =>
    obtain ⟨k', v'⟩ := hd
    simp only [mapAssign] at h
    split_ifs at h with h1 h2
    · simp only [List.mem_cons] at h
      rcases h with h | h | h
      · exact Or.inl h
      · exact Or.inr (by simp [h])
      · exact Or.inr (by simp [h])
    · simp only [List.mem_cons] at h
      rcases h with h | h
      · exact Or.inl h
      · exact Or.inr (by simp [h])
    · simp only [List.mem_cons] at h
      rcases h with h | h
      · exact Or.inr (by simp [h])
      · rcases ih h with h | h
        · exact Or.inl h
        · exact Or.inr (by simp [h])

theorem mem_mapInsert {m : FreeMap} {k v : Nat} {e : Nat × Nat} (h : e ∈ mapInsert m k v) :
    e = (k, v) ∨ e ∈ m := by
  induction m with
  | nil => simp [mapInsert] at h; exact Or.inl h
  | cons hd tl ih =>
    obtain ⟨k', v'⟩ := hd
    simp only [mapInsert] at h
    split_ifs at h with h1 h2
    · simp only [List.mem_cons] at h
      rcases h with h | h | h
      · exact Or.inl h
      · exact Or.inr (by simp [h])
      · exact Or.inr (by simp [h])
    · exact Or.inr h
    · simp only [List.mem_cons] at h
      rcases h with h | h
      · exact Or.inr (by simp [h])
      · rcases ih h with h | h
        · exact Or.inl h
        · exact Or.inr (by simp [h])

theorem mapFind_mem {m : FreeMap} {k v : Nat} (h : mapFind m k = some v) : (k, v) ∈ m := by
  induction m with
  | nil => simp [mapFind] at h
  | cons hd tl ih =>
    obtain ⟨k', v'⟩ := hd
    simp only [mapFind] at h
    split_ifs at h with h1
    · simp only [Option.some.injEq] at h; subst h1; subst h; simp
    · exact List.mem_cons_of_mem _ (ih h)

theorem mapFind_mapInsert (m : FreeMap) (k v : Nat) :
    ∃ w, mapFind (mapInsert m k v) k = some w := by
  induction m with
  | nil => exact ⟨v, by simp [mapInsert, mapFind]⟩
  | cons hd tl ih =>
    obtain ⟨k', v'⟩ := hd
    simp only [mapInsert]
    split_ifs with h1 h2
    · exact ⟨v, by simp [mapFind]⟩
    · exact ⟨v', by simp [mapFind, h2]⟩
    · obtain ⟨w, hw⟩ := ih
      refine ⟨w, ?_⟩
      simp only [mapFind]
      rw [if_neg (fun h => h2 h.symm)]
      exact hw

theorem mapFind_mapAssign (m : FreeMap) (k v : Nat) : mapFind (mapAssign m k v) k = some v := by
  induction m with
  | nil => simp [mapAssign, mapFind]
  | cons hd tl ih =>
    obtain ⟨k', v'⟩ := hd
    simp only [mapAssign]
    split_ifs with h1 h2
    · simp [mapFind]
    · simp [mapFind]
    · simp only [mapFind]
      rw [if_neg (fun h => h2 h.symm)]
      exact ih

theorem mapNext_mem {m : FreeMap} {k : Nat} {e : Nat × Nat} (h : mapNext m k = some e) :
    e ∈ m ∧ k < e.1 := by
  unfold mapNext at h
  refine ⟨List.mem_of_find?_eq_some h, ?_⟩
  have := List.find?_some h
  simpa using this

theorem mapPrev_mem {m : FreeMap} {k : Nat} {e : Nat × Nat} (h : mapPrev m k = some e) :
    e ∈ m ∧ e.1 < k := by
  unfold mapPrev at h
  have h1 := List.mem_of_getLast?_eq_some h
  simp only [List.mem_filter, decide_eq_true_eq] at h1
  exact h1

/-! ## The scan of `alloc` -/

/-- What the scan loop leaves in `bestIt`: either nothing beat the fragment size
it started with, or a block of the map that fits and is no larger than any
other block that fits. -/
theorem bestFitScan_spec (size : Nat) (m : FreeMap) (mf : Nat) (best : Option (Nat × Nat)) :
    (bestFitScan size m mf best = best ∧ ∀ e ∈ m, size ≤ e.2 → mf ≤ e.2 - size) ∨
    (∃ e ∈ m, bestFitScan size m mf best = some e ∧ size ≤ e.2 ∧ e.2 - size < mf ∧
      ∀ e' ∈ m, size ≤ e'.2 → e.2 ≤ e'.2) := by
  induction m generalizing mf best with
  | nil => left; simp [bestFitScan]
  | cons hd tl ih =>
    obtain ⟨k, bs⟩ := hd
    simp only [bestFitScan]
    by_cases hfit : size ≤ bs
    · simp only [hfit, if_true]
      by_cases hlt : bs - size < mf
      · simp only [hlt, if_true]
        by_cases hz : bs - size = 0
        · simp only [hz, if_true]
          right
          refine ⟨(k, bs), by simp, rfl, hfit, hlt, ?_⟩
          intro e' _ he'
          simp only
          omega
        · simp only [hz, if_false]
          rcases ih (bs - size) (some (k, bs)) with ⟨h1, h2⟩ | ⟨e, he, h1, h2, h3, h4⟩
          · right
            refine ⟨(k, bs), by simp, h1, hfit, hlt, ?_⟩
            intro e' he' hs
            simp only [List.mem_cons] at he'
            rcases he' with he' | he'
            · subst he'; exact le_refl _
            · have := h2 e' he' hs
              simp only
              omega
          · right
            refine ⟨e, List.mem_cons_of_mem _ he, h1, h2, by omega, ?_⟩
            intro e' he' hs
            simp only [List.mem_cons] at he'
            rcases he' with he' | he'
            · subst he'; simp only; omega
            · exact h4 e' he' hs
      · simp only [hlt, if_false]
        by_cases hz : bs - size = 0
        · simp only [hz, if_true]
          left
          refine ⟨trivial, ?_⟩
          intro e' _ _
          omega
        · simp only [hz, if_false]
          rcases ih mf best with ⟨h1, h2⟩ | ⟨e, he, h1, h2, h3, h4⟩
          · left
            refine ⟨h1, ?_⟩
            intro e' he' hs
            simp only [List.mem_cons] at he'
            rcases he' with he' | he'
            · subst he'; simp only; omega
            · exact h2 e' he' hs
          · right
            refine ⟨e, List.mem_cons_of_mem _ he, h1, h2, h3, ?_⟩
            intro e' he' hs
            simp only [List.mem_cons] at he'
            rcases he' with he' | he'
            · subst he'; simp only; omega
            · exact h4 e' he' hs
    · simp only [hfit, if_false]
      rcases ih mf best with ⟨h1, h2⟩ | ⟨e, he, h1, h2, h3, h4⟩
      · left
        refine ⟨h1, ?_⟩
        intro e' he' hs
        simp only [List.mem_cons] at he'
        rcases he' with he' | he'
        · subst he'; exact absurd hs hfit
        · exact h2 e' he' hs
      · right
        refine ⟨e, List.mem_cons_of_mem _ he, h1, h2, h3, ?_⟩
        intro e' he' hs
        simp only [List.mem_cons] at he'
        rcases he' with he' | he'
        · subst he'; exact absurd hs hfit
        · exact h4 e' he' hs

/-- From the initial values of the loop variables the scan finds nothing only
when every fitting block leaves a fragment of `SIZE_MOD - 1` or more. -/
theorem bestFitScan_initial (size : Nat) (m : FreeMap) :
    (bestFitScan size m (SIZE_MOD - 1) none = none ∧
      ∀ e ∈ m, size ≤ e.2 → SIZE_MOD - 1 ≤ e.2 - size) ∨
    (∃ e ∈ m, bestFitScan size m (SIZE_MOD - 1) none = some e ∧ size ≤ e.2 ∧
      ∀ e' ∈ m, size ≤ e'.2 → e.2 ≤ e'.2) := by
  rcases bestFitScan_spec size m (SIZE_MOD - 1) none with h | ⟨e, he, h1, h2, _, h4⟩
  · exact Or.inl h
  · exact Or.inr ⟨e, he, h1, h2, h4⟩

/-! ## The merge steps of `free` -/

theorem mergeLeft_itFirst (m : FreeMap) (o v : Nat) : (mergeLeft m o v).itFirst = o := by
  unfold mergeLeft
  split
  · split <;> rfl
  · rfl

theorem mergeLeft_itSecond (m : FreeMap) (o v : Nat) : (mergeLeft m o v).itSecond = v := by
  unfold mergeLeft
  split
  · split <;> rfl
  · rfl

theorem freeMerge_itFirst (m : FreeMap) (o s : Nat) : (freeMerge m o s).itFirst = o := by
  unfold freeMerge
  exact mergeLeft_itFirst _ _ _

/-- A property of single blocks that holds of the blocks of the map and of the
inserted block, and is kept by both merge steps, holds of every block
`freeMerge` leaves and of the block the iterator last designated. -/
theorem freeMerge_forall (P : Nat × Nat → Prop) (m : FreeMap) (o s : Nat)
    (h0 : ∀ e ∈ m, P e) (h1 : P (o, s))
    (hR : ∀ v n, P (o, v) → P n → (o + v) % SIZE_MOD = n.1 → P (o, (v + n.2) % SIZE_MOD))
    (hL : ∀ p v, P p → P (o, v) → (p.1 + p.2) % SIZE_MOD = o →
      P (p.1, (p.2 + v) % SIZE_MOD)) :
    (∀ e ∈ (freeMerge m o s).blocks, P e) ∧ P (o, (freeMerge m o s).itSecond) := by
  have hm1 : ∀ e ∈ mapInsert m o s, P e := by
    intro e he
    rcases mem_mapInsert he with h | h
    · rw [h]; exact h1
    · exact h0 e h
  obtain ⟨w, hw⟩ := mapFind_mapInsert m o s
  have hw' : P (o, w) := hm1 _ (mapFind_mem hw)
  have left : ∀ (m2 : FreeMap) (v2 : Nat), (∀ e ∈ m2, P e) → P (o, v2) →
      (∀ e ∈ (mergeLeft m2 o v2).blocks, P e) ∧ P (o, (mergeLeft m2 o v2).itSecond) := by
    intro m2 v2 hm2 hv2
    rw [mergeLeft_itSecond]
    refine ⟨?_, hv2⟩
    unfold mergeLeft
    cases hp : mapPrev m2 o with
    | none => exact hm2
    | some p =>
      obtain ⟨pk, pv⟩ := p
      simp only
      split_ifs with hadj
      · intro e he
        simp only at he
        rw [mem_mapErase] at he
        rcases mem_mapAssign he.1 with h | h
        · rw [h]; exact hL (pk, pv) v2 (hm2 _ (mapPrev_mem hp).1) hv2 hadj
        · exact hm2 e h
      · exact hm2
  unfold freeMerge
  simp only [hw, Option.getD_some]
  apply left
  · unfold mergeRight
    cases hn : mapNext (mapInsert m o s) o with
    | none => exact hm1
    | some n =>
      obtain ⟨nk, nv⟩ := n
      simp only
      split_ifs with hadj
      · intro e he
        simp only at he
        rw [mem_mapErase] at he
        rcases mem_mapAssign he.1 with h | h
        · rw [h]; exact hR w (nk, nv) hw' (hm1 _ (mapNext_mem hn).1) hadj
        · exact hm1 e h
      · exact hm1
  · unfold mergeRight
    cases hn : mapNext (mapInsert m o s) o with
    | none => exact hw'
    | some n =>
      obtain ⟨nk, nv⟩ := n
      simp only
      split_ifs with hadj
      · exact hR w (nk, nv) hw' (hm1 _ (mapNext_mem hn).1) hadj
      · exact hw'

/-! ## The branches of `alloc` and `free` -/

theorem alloc_of_materialised (a : Allocator) (size : Nat) (h : a.ptr ≠ none) :
    a.alloc size = { state := a, offset := none } := by
  unfold Allocator.alloc
  rw [if_pos h]

theorem alloc_of_found (a : Allocator) (size addr bs : Nat) (h : a.ptr = none)
    (hs : bestFitScan (getAlignedSize size) a.freeBlocks (SIZE_MOD - 1) none = some (addr, bs)) :
    a.alloc size =
      { state := { a with freeBlocks :=
          (if 0 < bs - getAlignedSize size then
            (mapAssign (mapErase a.freeBlocks addr) ((addr + getAlignedSize size) % SIZE_MOD)
              (bs - getAlignedSize size))
          else mapErase a.freeBlocks addr) },
        offset := some addr } := by
  unfold Allocator.alloc
  rw [if_neg (by simp [h])]
  simp only [hs]

theorem alloc_of_not_found (a : Allocator) (size : Nat) (h : a.ptr = none)
    (hs : bestFitScan (getAlignedSize size) a.freeBlocks (SIZE_MOD - 1) none = none) :
    a.alloc size =
      { state := { a with used := (a.used + getAlignedSize size) % SIZE_MOD,
                          peak := if a.peak < (a.used + getAlignedSize size) % SIZE_MOD
                                  then (a.used + getAlignedSize size) % SIZE_MOD else a.peak },
        offset := some a.used } := by
  unfold Allocator.alloc
  rw [if_neg (by simp [h])]
  simp only [hs]

theorem free_of_materialised (a : Allocator) (addr size : Nat) (h : a.ptr ≠ none) :
    a.free addr size = { state := a, passed := false } := by
  unfold Allocator.free
  rw [if_pos h]

theorem free_of_tail (a : Allocator) (addr size : Nat) (h : a.ptr = none)
    (ht : (addr + (freeMerge a.freeBlocks addr (getAlignedSize size)).itSecond) % SIZE_MOD
      = a.used)
    (he : (freeMerge a.freeBlocks addr (getAlignedSize size)).itErased = false) :
    a.free addr size =
      { state := { a with used := addr,
                          freeBlocks := mapErase
                            (freeMerge a.freeBlocks addr (getAlignedSize size)).blocks addr },
        passed := true } := by
  unfold Allocator.free
  rw [if_neg (by simp [h])]
  simp only [freeMerge_itFirst]
  rw [if_pos ht, if_neg (by rw [he]; simp)]

theorem free_of_erased_tail (a : Allocator) (addr size : Nat) (h : a.ptr = none)
    (ht : (addr + (freeMerge a.freeBlocks addr (getAlignedSize size)).itSecond) % SIZE_MOD
      = a.used)
    (he : (freeMerge a.freeBlocks addr (getAlignedSize size)).itErased = true) :
    a.free addr size = { state := a, passed := true, undefined := true } := by
  unfold Allocator.free
  rw [if_neg (by simp [h])]
  simp only [freeMerge_itFirst]
  rw [if_pos ht, if_pos he]

theorem free_of_not_tail (a : Allocator) (addr size : Nat) (h : a.ptr = none)
    (ht : (addr + (freeMerge a.freeBlocks addr (getAlignedSize size)).itSecond) % SIZE_MOD
      ≠ a.used) :
    a.free addr size =
      { state := { a with
          freeBlocks := (freeMerge a.freeBlocks addr (getAlignedSize size)).blocks },
        passed := true } := by
  unfold Allocator.free
  rw [if_neg (by simp [h])]
  simp only [freeMerge_itFirst]
  rw [if_neg ht]

/-! ## Block sizes in reachable states -/

theorem alloc_blocksAligned (a : Allocator) (size : Nat) (h : BlocksAligned a.freeBlocks) :
    BlocksAligned (a.alloc size).state.freeBlocks := by
  by_cases hp : a.ptr = none
  · rcases bestFitScan_initial (getAlignedSize size) a.freeBlocks with
      ⟨h1, _⟩ | ⟨⟨k, v⟩, he, h1, h2, _⟩
    · rw [alloc_of_not_found a size hp h1]; exact h
    · rw [alloc_of_found a size k v hp h1]
      have hv := h _ he
      have hal := getAlignedSize_mod size
      simp only at hv h2 ⊢
      split_ifs with hrem
      · intro e' he'
        rcases mem_mapAssign he' with h' | h'
        · rw [h']; simp only; rw [SIZE_MOD_eq] at *; omega
        · exact h _ (mem_mapErase.1 h').1
      · intro e' he'
        exact h _ (mem_mapErase.1 he').1
  · rw [alloc_of_materialised a size hp]; exact h

theorem free_blocksAligned (a : Allocator) (addr size : Nat) (h : BlocksAligned a.freeBlocks) :
    BlocksAligned (a.free addr size).state.freeBlocks := by
  have hal := getAlignedSize_mod size
  have hlt := getAlignedSize_lt size
  have key := (freeMerge_forall (fun e => e.2 % 8 = 0 ∧ e.2 < SIZE_MOD) a.freeBlocks addr
    (getAlignedSize size) h ⟨hal, hlt⟩
    (by
      intro v n hv hn _
      simp only [SIZE_MOD_eq] at *
      omega)
    (by
      intro p v hp hv _
      simp only [SIZE_MOD_eq] at *
      omega)).1
  by_cases hp : a.ptr = none
  · by_cases ht : (addr + (freeMerge a.freeBlocks addr (getAlignedSize size)).itSecond) % SIZE_MOD
      = a.used
    · cases he : (freeMerge a.freeBlocks addr (getAlignedSize size)).itErased with
      | true =>
        rw [free_of_erased_tail a addr size hp ht he]
        exact h
      | false =>
        rw [free_of_tail a addr size hp ht he]
        intro e he'
        exact key _ (mem_mapErase.1 he').1
    · rw [free_of_not_tail a addr size hp ht]
      exact key
  · rw [free_of_materialised a addr size hp]; exact h

theorem alloc_ptr (a : Allocator) (size : Nat) : (a.alloc size).state.ptr = a.ptr := by
  by_cases hp : a.ptr = none
  · rcases bestFitScan_initial (getAlignedSize size) a.freeBlocks with
      ⟨h1, _⟩ | ⟨⟨k, v⟩, _, h1, _, _⟩
    · rw [alloc_of_not_found a size hp h1]
    · rw [alloc_of_found a size k v hp h1]
  · rw [alloc_of_materialised a size hp]

theorem free_ptr (a : Allocator) (addr size : Nat) : (a.free addr size).state.ptr = a.ptr := by
  by_cases hp : a.ptr = none
  · by_cases ht : (addr + (freeMerge a.freeBlocks addr (getAlignedSize size)).itSecond) % SIZE_MOD
      = a.used
    · cases he : (freeMerge a.freeBlocks addr (getAlignedSize size)).itErased with
      | true => rw [free_of_erased_tail a addr size hp ht he]
      | false => rw [free_of_tail a addr size hp ht he]
    · rw [free_of_not_tail a addr size hp ht]
  · rw [free_of_materialised a addr size hp]

/-- While `ptr` is null, the calls of `free` that do not return are those that
read the erased node with a successful tail test. -/
theorem free_undefined_iff (a : Allocator) (addr size : Nat) (hp : a.ptr = none) :
    (a.free addr size).undefined = true ↔ a.freeReadsErased addr size = true := by
  unfold Allocator.freeReadsErased
  simp only [freeMerge_itFirst, Bool.and_eq_true, decide_eq_true_eq]
  by_cases ht : (addr + (freeMerge a.freeBlocks addr (getAlignedSize size)).itSecond) % SIZE_MOD
      = a.used
  · cases he : (freeMerge a.freeBlocks addr (getAlignedSize size)).itErased with
    | true =>
      rw [free_of_erased_tail a addr size hp ht he]
      simp [ht]
    | false =>
      rw [free_of_tail a addr size hp ht he]
      simp
  · rw [free_of_not_tail a addr size hp ht]
    simp [ht]

theorem reachable_ptr {a : Allocator} (h : a.Reachable) : a.ptr = none := by
  induction h with
  | fresh => rfl
  | alloc a size _ _ ih => rw [alloc_ptr]; exact ih
  | free a addr size _ _ _ _ ih => rw [free_ptr]; exact ih

theorem reachable_blocksAligned {a : Allocator} (h : a.Reachable) :
    BlocksAligned a.freeBlocks := by
  induction h with
  | fresh => intro e he; simp [Allocator.fresh] at he
  | alloc a size _ _ ih => exact alloc_blocksAligned a size ih
  | free a addr size _ _ _ _ ih => exact free_blocksAligned a addr size ih

/-! ## Single calls of `alloc` -/

/-- C4. In every state reachable before the arena is materialised, when some
free block is at least as large as the aligned request, `alloc` returns the
start of a fitting block of least size, removes that block from the table,
stores the remainder (when positive) under the returned offset plus the
aligned size (in `size_t` arithmetic), and leaves `used` and `peak` as they
were. -/
theorem alloc_takes_best_fit (a : Allocator) (size : Nat) (hreach : a.Reachable)
    (hfit : ∃ e ∈ a.freeBlocks, getAlignedSize size ≤ e.2) :
    ∃ addr blockSize,
      (addr, blockSize) ∈ a.freeBlocks ∧ getAlignedSize size ≤ blockSize ∧
      (∀ e ∈ a.freeBlocks, getAlignedSize size ≤ e.2 → blockSize ≤ e.2) ∧
      (a.alloc size).offset = some addr ∧
      (a.alloc size).state.freeBlocks =
        (if 0 < blockSize - getAlignedSize size then
          mapAssign (mapErase a.freeBlocks addr) ((addr + getAlignedSize size) % SIZE_MOD)
            (blockSize - getAlignedSize size)
        else mapErase a.freeBlocks addr) ∧
      (0 < blockSize - getAlignedSize size →
        mapFind (a.alloc size).state.freeBlocks ((addr + getAlignedSize size) % SIZE_MOD) =
          some (blockSize - getAlignedSize size)) ∧
      (a.alloc size).state.used = a.used ∧ (a.alloc size).state.peak = a.peak := by
  have hp := reachable_ptr hreach
  have hal := reachable_blocksAligned hreach
  rcases bestFitScan_initial (getAlignedSize size) a.freeBlocks with
    ⟨_, h2⟩ | ⟨⟨k, v⟩, he, h1, h2, h3⟩
  · exfalso
    obtain ⟨e, he, hle⟩ := hfit
    have := h2 e he hle
    have := hal e he
    rw [SIZE_MOD_eq] at *
    omega
  · refine ⟨k, v, he, h2, h3, ?_⟩
    rw [alloc_of_found a size k v hp h1]
    refine ⟨rfl, rfl, ?_, rfl, rfl⟩
    intro hpos
    simp only [if_pos hpos]
    exact mapFind_mapAssign _ _ _

/-- C5. When no free block is as large as the aligned request, `alloc` returns
the current `used`, adds the aligned size to `used` (in `size_t` arithmetic, so
exactly when the sum is below 2^64), raises `peak` to the new `used` when that
is larger, and leaves the table as it was. -/
theorem alloc_extends_arena (a : Allocator) (size : Nat) (hptr : a.ptr = none)
    (hnofit : ∀ e ∈ a.freeBlocks, e.2 < getAlignedSize size) :
    (a.alloc size).offset = some a.used ∧
    (a.alloc size).state.used = (a.used + getAlignedSize size) % SIZE_MOD ∧
    (a.used + getAlignedSize size < SIZE_MOD →
      (a.alloc size).state.used = a.used + getAlignedSize size) ∧
    (a.alloc size).state.peak = max a.peak (a.alloc size).state.used ∧
    (a.alloc size).state.freeBlocks = a.freeBlocks := by
  rcases bestFitScan_initial (getAlignedSize size) a.freeBlocks with
    ⟨h1, _⟩ | ⟨e, he, _, h2, _⟩
  · rw [alloc_of_not_found a size hptr h1]
    refine ⟨rfl, rfl, ?_, ?_, rfl⟩
    · intro hlt
      exact Nat.mod_eq_of_lt hlt
    · simp only
      split_ifs with hlt
      · exact (max_eq_right (le_of_lt hlt)).symm
      · exact (max_eq_left (not_lt.1 hlt)).symm
  · exact absurd (hnofit e he) (not_lt.2 h2)

/-- C7. When `getPtr` hands out a non-null arena pointer, `ptr` is set; in every
state with `ptr` set, `alloc` and `free` fail their assertion and leave the
allocator (so `used`, `peak` and the table) as it was; while `ptr` is null
neither call fails on that assertion. -/
theorem assertion_after_getPtr (runtimeAlloc : Nat → Option Nat) (a : Allocator)
    (size addr : Nat) :
    ((a.getPtr runtimeAlloc).2 ≠ none → (a.getPtr runtimeAlloc).1.ptr ≠ none) ∧
    (a.ptr ≠ none →
      a.alloc size = { state := a, offset := none } ∧
      a.free addr size = { state := a, passed := false }) ∧
    (a.ptr = none → (a.alloc size).offset ≠ none ∧ (a.free addr size).passed = true) := by
  refine ⟨?_, ?_, ?_⟩
  · intro h
    unfold Allocator.getPtr at h ⊢
    cases hptr : a.ptr with
    | none => simp only [hptr] at h ⊢; exact h
    | some p => simp [hptr]
  · intro hp
    exact ⟨alloc_of_materialised _ size hp, free_of_materialised _ addr size hp⟩
  · intro hp
    constructor
    · rcases bestFitScan_initial (getAlignedSize size) a.freeBlocks with
        ⟨h1, _⟩ | ⟨⟨k, v⟩, _, h1, _, _⟩
      · rw [alloc_of_not_found a size hp h1]; simp
      · rw [alloc_of_found a size k v hp h1]; simp
    · by_cases ht : (addr + (freeMerge a.freeBlocks addr (getAlignedSize size)).itSecond)
          % SIZE_MOD = a.used
      · cases he : (freeMerge a.freeBlocks addr (getAlignedSize size)).itErased with
        | true => rw [free_of_erased_tail a addr size hp ht he]
        | false => rw [free_of_tail a addr size hp ht he]
      · rw [free_of_not_tail a addr size hp ht]

/-! ## Bounds kept along admissible runs -/

/-- A call of `free` that passes the tail test and returns has not erased the node
of `it`. -/
theorem free_not_erased (a : Allocator) (addr size : Nat) (hp : a.ptr = none)
    (ht : (addr + (freeMerge a.freeBlocks addr (getAlignedSize size)).itSecond) % SIZE_MOD
      = a.used)
    (hu : (a.free addr size).undefined = false) :
    (freeMerge a.freeBlocks addr (getAlignedSize size)).itErased = false := by
  cases he : (freeMerge a.freeBlocks addr (getAlignedSize size)).itErased with
  | true =>
    rw [free_of_erased_tail a addr size hp ht he] at hu
    simp at hu
  | false => rfl

theorem totalAligned_cons (c : Call) (cs : List Call) :
    totalAligned (c :: cs) = callAligned c + totalAligned cs := by
  cases c with
  | alloc size => rfl
  | free addr size => simp [totalAligned, callAligned]

theorem peakBound_init : PeakBound Session.init 0 := by
  refine ⟨rfl, le_refl _, le_refl _, ?_, ?_⟩
  · intro e he; simp [Session.init, Allocator.fresh] at he
  · intro l hl; simp [Session.init] at hl

theorem peakBound_alloc (s s' : Session) (total size : Nat) (h : PeakBound s total)
    (hstep : s.step (Call.alloc size) = some s')
    (hfit : total + getAlignedSize size < SIZE_MOD) :
    PeakBound s' (total + getAlignedSize size) := by
  obtain ⟨hp, hup, hpt, hb, hl⟩ := h
  rcases bestFitScan_initial (getAlignedSize size) s.a.freeBlocks with
    ⟨h1, _⟩ | ⟨⟨k, v⟩, he, h1, h2, _⟩
  · have heq := alloc_of_not_found s.a size hp h1
    simp only [Session.step, heq, Option.some.injEq] at hstep
    subst hstep
    have hmod : (s.a.used + getAlignedSize size) % SIZE_MOD = s.a.used + getAlignedSize size :=
      Nat.mod_eq_of_lt (by omega)
    simp only [hmod]
    refine ⟨hp, ?_, ?_, ?_, ?_⟩
    · simp only; split_ifs <;> omega
    · simp only; split_ifs <;> omega
    · intro e he
      have := hb e he
      simp only; split_ifs <;> omega
    · intro l hl'
      simp only [List.mem_cons] at hl'
      rcases hl' with hl' | hl'
      · subst hl'; simp only; split_ifs <;> omega
      · have := hl l hl'
        simp only; split_ifs <;> omega
  · have heq := alloc_of_found s.a size k v hp h1
    simp only [Session.step, heq, Option.some.injEq] at hstep
    subst hstep
    have hkv := hb _ he
    simp only at hkv h2
    refine ⟨hp, hup, by simp only; omega, ?_, ?_⟩
    · intro e he'
      simp only at he' ⊢
      split_ifs at he' with hrem
      · rcases mem_mapAssign he' with h' | h'
        · rw [h']
          simp only
          rw [Nat.mod_eq_of_lt (by omega)]
          omega
        · exact hb e (mem_mapErase.1 h').1
      · exact hb e (mem_mapErase.1 he').1
    · intro l hl'
      simp only [List.mem_cons] at hl'
      rcases hl' with hl' | hl'
      · subst hl'; simp only; omega
      · exact hl l hl'

theorem peakBound_free (s s' : Session) (total addr size : Nat) (h : PeakBound s total)
    (hstep : s.step (Call.free addr size) = some s') (hfit : total < SIZE_MOD) :
    PeakBound s' total := by
  obtain ⟨hp, hup, hpt, hb, hl⟩ := h
  simp only [Session.step] at hstep
  split_ifs at hstep with hlive
  simp only [Option.some.injEq] at hstep
  subst hstep
  have hrange := hl _ hlive.1
  simp only at hrange
  have key := freeMerge_forall (fun e => e.1 + e.2 ≤ s.a.peak) s.a.freeBlocks addr
    (getAlignedSize size) hb hrange
    (by
      intro v n hv hn hadj
      simp only at hv hn ⊢
      rw [Nat.mod_eq_of_lt (by omega)] at hadj
      rw [Nat.mod_eq_of_lt (by omega)]
      omega)
    (by
      intro p v hp' hv hadj
      simp only at hp' hv ⊢
      rw [Nat.mod_eq_of_lt (by omega)] at hadj
      rw [Nat.mod_eq_of_lt (by omega)]
      omega)
  obtain ⟨kb, ki⟩ := key
  simp only at ki
  have hlive' : ∀ l ∈ s.live.erase (addr, size), l.1 + getAlignedSize l.2 ≤ s.a.peak :=
    fun l hl' => hl l (List.mem_of_mem_erase hl')
  by_cases ht : (addr + (freeMerge s.a.freeBlocks addr (getAlignedSize size)).itSecond)
      % SIZE_MOD = s.a.used
  · rw [free_of_tail s.a addr size hp ht (free_not_erased s.a addr size hp ht hlive.2.2)]
    rw [Nat.mod_eq_of_lt (by omega)] at ht
    refine ⟨hp, by simp only; omega, hpt, ?_, hlive'⟩
    intro e he
    simp only at he ⊢
    exact kb e (mem_mapErase.1 he).1
  · rw [free_of_not_tail s.a addr size hp ht]
    exact ⟨hp, hup, hpt, kb, hlive'⟩

theorem peakBound_run (cs : List Call) : ∀ (s s' : Session) (total : Nat),
    PeakBound s total → s.run cs = some s' → total + totalAligned cs < SIZE_MOD →
    PeakBound s' (total + totalAligned cs) := by
  induction cs with
  | nil =>
    intro s s' total h hrun _
    simp only [Session.run, Option.some.injEq] at hrun
    subst hrun
    simpa [totalAligned] using h
  | cons c cs ih =>
    intro s s' total h hrun hfit
    simp only [Session.run] at hrun
    cases hstep : s.step c with
    | none => simp [hstep] at hrun
    | some s1 =>
      simp only [hstep] at hrun
      rw [totalAligned_cons] at hfit ⊢
      have h1 : PeakBound s1 (total + callAligned c) := by
        cases c with
        | alloc size =>
          exact peakBound_alloc s s1 total size h hstep (by simp only [callAligned] at hfit; omega)
        | free addr size =>
          simp only [callAligned, Nat.add_zero]
          exact peakBound_free s s1 total addr size h hstep (by omega)
      have := ih s1 s' (total + callAligned c) h1 hrun (by omega)
      rw [Nat.add_assoc] at this
      exact this

/-- C3, as amended. Along every run of `alloc` and `free` calls from a fresh
allocator in which each `free` releases one live allocation, and whose aligned
request sizes add up to less than 2^64, `peak` is at most the sum of the
aligned sizes of all `alloc` calls made, live or already freed. -/
theorem peak_le_total_requested (calls : List Call) (s : Session)
    (hrun : Session.init.run calls = some s) (hfit : totalAligned calls < SIZE_MOD) :
    s.a.peak ≤ totalAligned calls := by
  have h := peakBound_run calls Session.init s 0 peakBound_init hrun (by omega)
  have := h.2.2.1
  omega

/-! ## Concrete runs -/

/-- C3, counterexample. After `alloc(16)`, `alloc(16)`, `free(0, 16)`, `alloc(32)`
the freed 16-byte hole cannot hold the 32-byte request, so the arena grows to
`peak = 64`, while the live allocations never add up to more than 48. -/
theorem peak_exceeds_live_maximum :
    (Session.init.run [Call.alloc 16, Call.alloc 16, Call.free 0 16, Call.alloc 32]).map
        (fun s => s.a.peak) = some 64 ∧
    Session.init.maxLiveAligned [Call.alloc 16, Call.alloc 16, Call.free 0 16, Call.alloc 32]
      = some 48 := by
  decide

theorem peak_le_total_requested_witness :
    Session.init.run [Call.alloc 16, Call.alloc 16, Call.free 0 16, Call.alloc 32] =
      some { a := { used := 64, peak := 64, ptr := none, freeBlocks := [(0, 16)] },
             live := [(32, 32), (16, 16)] } ∧
    totalAligned [Call.alloc 16, Call.alloc 16, Call.free 0 16, Call.alloc 32] < SIZE_MOD ∧
    (64 : Nat) ≤ totalAligned [Call.alloc 16, Call.alloc 16, Call.free 0 16, Call.alloc 32] :=
  ⟨by decide, by decide,
    peak_le_total_requested [Call.alloc 16, Call.alloc 16, Call.free 0 16, Call.alloc 32]
      { a := { used := 64, peak := 64, ptr := none, freeBlocks := [(0, 16)] },
        live := [(32, 32), (16, 16)] } (by decide) (by decide)⟩

/-- C6, failing input. After `alloc(16)`, `alloc(16)`, `free(0, 16)` the
allocator holds `used = 32` and the free block `(0, 16)`. The call `free(16, 16)`
is absorbed into that left neighbour, which erases the node of `it`
(allocator.cc line 115), and the fields last stored in that node add up to
`used`: the tail test reads the erased node and erases it a second time, so the
call does not return and the allocator never gets to `used = 0` with an empty
table. -/
theorem free_left_merge_at_tail_never_returns :
    (((Allocator.fresh.alloc 16).state.alloc 16).state.free 0 16) =
      { state := { used := 32, peak := 32, ptr := none, freeBlocks := [(0, 16)] },
        passed := true } ∧
    freeMerge [(0, 16)] 16 (getAlignedSize 16) =
      { blocks := [(0, 32)], itFirst := 16, itSecond := 16, itErased := true } ∧
    ({ used := 32, peak := 32, ptr := none, freeBlocks := [(0, 16)] } : Allocator).free 16 16 =
      { state := { used := 32, peak := 32, ptr := none, freeBlocks := [(0, 16)] },
        passed := true, undefined := true } := by
  decide

theorem alloc_takes_best_fit_witness :
    ((((Allocator.fresh.alloc 16).state.alloc 32).state.alloc 16).state.free 16 32).state
      = { used := 64, peak := 64, ptr := none, freeBlocks := [(16, 32)] } ∧
    (({ used := 64, peak := 64, ptr := none, freeBlocks := [(16, 32)] } : Allocator).alloc 8)
      = { state := { used := 64, peak := 64, ptr := none, freeBlocks := [(24, 24)] },
          offset := some 16 } ∧
    ∃ addr blockSize,
      (addr, blockSize) ∈ [((16 : Nat), (32 : Nat))] ∧ getAlignedSize 8 ≤ blockSize ∧
      (∀ e ∈ [((16 : Nat), (32 : Nat))], getAlignedSize 8 ≤ e.2 → blockSize ≤ e.2) ∧
      (({ used := 64, peak := 64, ptr := none, freeBlocks := [(16, 32)] } : Allocator).alloc
        8).offset = some addr ∧
      (({ used := 64, peak := 64, ptr := none, freeBlocks := [(16, 32)] } : Allocator).alloc
        8).state.freeBlocks =
        (if 0 < blockSize - getAlignedSize 8 then
          mapAssign (mapErase [(16, 32)] addr) ((addr + getAlignedSize 8) % SIZE_MOD)
            (blockSize - getAlignedSize 8)
        else mapErase [(16, 32)] addr) ∧
      (0 < blockSize - getAlignedSize 8 →
        mapFind (({ used := 64, peak := 64, ptr := none, freeBlocks := [(16, 32)] } :
          Allocator).alloc 8).state.freeBlocks ((addr + getAlignedSize 8) % SIZE_MOD) =
          some (blockSize - getAlignedSize 8)) ∧
      (({ used := 64, peak := 64, ptr := none, freeBlocks := [(16, 32)] } : Allocator).alloc
        8).state.used = 64 ∧
      (({ used := 64, peak := 64, ptr := none, freeBlocks := [(16, 32)] } : Allocator).alloc
        8).state.peak = 64 :=
  ⟨by decide, by decide,
    alloc_takes_best_fit { used := 64, peak := 64, ptr := none, freeBlocks := [(16, 32)] } 8
      (Allocator.Reachable.free _ 16 32
        (Allocator.Reachable.alloc _ 16
          (Allocator.Reachable.alloc _ 32
            (Allocator.Reachable.alloc _ 16 Allocator.Reachable.fresh (by decide))
            (by decide))
          (by decide))
        (by decide) (by decide) (by decide))
      ⟨(16, 32), by decide, by decide⟩⟩

theorem alloc_extends_arena_witness :
    (Allocator.fresh.alloc 16) =
      { state := { used := 16, peak := 16, ptr := none, freeBlocks := [] },
        offset := some 0 } ∧
    (({ used := 16, peak := 16, ptr := none, freeBlocks := [] } : Allocator).alloc 32) =
      { state := { used := 48, peak := 48, ptr := none, freeBlocks := [] },
        offset := some 16 } ∧
    (({ used := 48, peak := 48, ptr := none, freeBlocks := [] } : Allocator).alloc 16) =
      { state := { used := 64, peak := 64, ptr := none, freeBlocks := [] },
        offset := some 48 } ∧
    ({ used := 48, peak := 48, ptr := none, freeBlocks := [] } : Allocator).ptr = none ∧
    (∀ e ∈ ({ used := 48, peak := 48, ptr := none, freeBlocks := [] } : Allocator).freeBlocks,
      e.2 < getAlignedSize 16) ∧
    ((({ used := 48, peak := 48, ptr := none, freeBlocks := [] } : Allocator).alloc 16).offset
        = some 48 ∧
      (({ used := 48, peak := 48, ptr := none, freeBlocks := [] } : Allocator).alloc
        16).state.used = (48 + getAlignedSize 16) % SIZE_MOD ∧
      (48 + getAlignedSize 16 < SIZE_MOD →
        (({ used := 48, peak := 48, ptr := none, freeBlocks := [] } : Allocator).alloc
          16).state.used = 48 + getAlignedSize 16) ∧
      (({ used := 48, peak := 48, ptr := none, freeBlocks := [] } : Allocator).alloc
        16).state.peak =
        max 48 (({ used := 48, peak := 48, ptr := none, freeBlocks := [] } : Allocator).alloc
          16).state.used ∧
      (({ used := 48, peak := 48, ptr := none, freeBlocks := [] } : Allocator).alloc
        16).state.freeBlocks = []) :=
  ⟨by decide, by decide, by decide, rfl, by decide,
    alloc_extends_arena { used := 48, peak := 48, ptr := none, freeBlocks := [] } 16 rfl
      (by decide)⟩

theorem assertion_after_getPtr_witness :
    (Allocator.fresh.getPtr (fun _ => some 4096)).2 ≠ none ∧
    (Allocator.fresh.getPtr (fun _ => some 4096)).1.ptr ≠ none ∧
    ((Allocator.fresh.getPtr (fun _ => some 4096)).1.alloc 16 =
        { state := (Allocator.fresh.getPtr (fun _ => some 4096)).1, offset := none } ∧
      (Allocator.fresh.getPtr (fun _ => some 4096)).1.free 0 16 =
        { state := (Allocator.fresh.getPtr (fun _ => some 4096)).1, passed := false }) ∧
    Allocator.fresh.ptr = none ∧
    ((Allocator.fresh.alloc 16).offset ≠ none ∧ (Allocator.fresh.free 0 16).passed = true) :=
  ⟨by decide,
    (assertion_after_getPtr (fun _ => some 4096) Allocator.fresh 16 0).1 (by decide),
    (assertion_after_getPtr (fun _ => some 4096)
      (Allocator.fresh.getPtr (fun _ => some 4096)).1 16 0).2.1 (by decide),
    rfl,
    (assertion_after_getPtr (fun _ => some 4096) Allocator.fresh 16 0).2.2 rfl⟩

/-! ## `topo_sort` -/

/-- The `all_of` test of `topo_sort` holds for an operator exactly when all of
its producers are in `flags`. -/
theorem inputs_placed_iff (g : GraphObj) (flags : List Nat) (op : Nat) :
    (g.opObj op).inputs.all (inputPlaced g flags) = true ↔
      ∀ p, produces g p op → p ∈ flags := by
  rw [List.all_eq_true]
  constructor
  · intro h p ⟨t, ht, hsrc⟩
    have := h t ht
    simp only [inputPlaced, hsrc, decide_eq_true_eq] at this
    exact this
  · intro h t ht
    unfold inputPlaced
    cases hsrc : (g.tensorObj t).source with
    | none => rfl
    | some p => simp only [decide_eq_true_eq]; exact h p ⟨t, ht, hsrc⟩

theorem topoInv_nil (g : GraphObj) : TopoInv g [] [] := by
  refine ⟨fun x => Iff.rfl, List.nodup_nil, ?_, ?_⟩
  · intro x hx; simp at hx
  · intro l1 l2 q h; simp at h

theorem topoInv_snoc (g : GraphObj) (sorted flags : List Nat) (op : Nat)
    (h : TopoInv g sorted flags) (hop : op ∈ g.ops) (hnew : op ∉ flags)
    (hready : ∀ p, produces g p op → p ∈ flags) :
    TopoInv g (sorted ++ [op]) (op :: flags) := by
  obtain ⟨h1, h2, h3, h4⟩ := h
  refine ⟨?_, ?_, ?_, ?_⟩
  · intro x
    simp only [List.mem_cons, List.mem_append, List.mem_singleton, h1 x]
    tauto
  · rw [List.nodup_append]
    refine ⟨h2, List.nodup_singleton _, ?_⟩
    intro x hx hx'
    simp only [List.mem_singleton] at hx'
    subst hx'
    exact hnew ((h1 x).2 hx)
  · intro x hx
    simp only [List.mem_append, List.mem_singleton] at hx
    rcases hx with hx | hx
    · exact h3 x hx
    · subst hx; exact hop
  · intro l1 l2 q hsplit p hp
    rcases List.eq_nil_or_concat l2 with hl2 | ⟨l2', x, hl2⟩
    · subst hl2
      have : sorted ++ [op] = l1 ++ [q] := hsplit
      have hinj := List.append_inj' this rfl
      have hq : op = q := by simpa using hinj.2
      rw [← hinj.1]
      subst hq
      exact (h1 p).1 (hready p hp)
    · subst hl2
      have : sorted ++ [op] = (l1 ++ q :: l2') ++ [x] := by
        rw [hsplit]; simp
      have hinj := List.append_inj' this rfl
      exact h4 l1 l2' q hinj.1 p hp

theorem topoPass_inv (g : GraphObj) (rest : List Nat) : ∀ (st : TopoState),
    (∀ x ∈ rest, x ∈ g.ops) → TopoInv g st.sorted st.flags →
    TopoInv g (topoPass g rest st).sorted (topoPass g rest st).flags := by
  induction rest with
  | nil => intro st _ h; exact h
  | cons op rest ih =>
    intro st hrest h
    simp only [topoPass]
    split_ifs with hc
    · apply ih
      · intro x hx; exact hrest x (List.mem_cons_of_mem _ hx)
      · exact topoInv_snoc g st.sorted st.flags op h (hrest op (List.mem_cons_self _ _)) hc.1
          ((inputs_placed_iff g st.flags op).1 hc.2)
    · exact ih st (fun x hx => hrest x (List.mem_cons_of_mem _ hx)) h

theorem topoPass_length (g : GraphObj) (rest : List Nat) : ∀ (st : TopoState),
    st.sorted.length ≤ (topoPass g rest st).sorted.length ∧
    ((topoPass g rest st).modified = true → st.modified = false →
      st.sorted.length < (topoPass g rest st).sorted.length) := by
  induction rest with
  | nil => intro st; exact ⟨le_refl _, fun h1 h2 => by simp [topoPass, h2] at h1⟩
  | cons op rest ih =>
    intro st
    simp only [topoPass]
    split_ifs with hc
    · have := (ih { sorted := st.sorted ++ [op], flags := op :: st.flags, modified := true }).1
      simp only [List.length_append, List.length_singleton] at this
      exact ⟨by omega, fun _ _ => by omega⟩
    · exact ih st

theorem topoPass_modified_mono (g : GraphObj) (rest : List Nat) : ∀ (st : TopoState),
    st.modified = true → (topoPass g rest st).modified = true := by
  induction rest with
  | nil => intro st h; exact h
  | cons op rest ih =>
    intro st h
    simp only [topoPass]
    split_ifs with hc
    · exact ih _ rfl
    · exact ih st h

theorem topoPass_flags_mono (g : GraphObj) (rest : List Nat) : ∀ (st : TopoState) (x : Nat),
    x ∈ st.flags → x ∈ (topoPass g rest st).flags := by
  induction rest with
  | nil => intro st x h; exact h
  | cons op rest ih =>
    intro st x h
    simp only [topoPass]
    split_ifs with hc
    · exact ih _ x (List.mem_cons_of_mem _ h)
    · exact ih st x h

/-- A pass that meets an operator which is not yet placed and whose producers
are all placed moves at least one operator. -/
theorem topoPass_modified (g : GraphObj) (rest : List Nat) : ∀ (st : TopoState) (op : Nat),
    op ∈ rest → op ∉ st.flags → (∀ p, produces g p op → p ∈ st.flags) →
    (topoPass g rest st).modified = true := by
  induction rest with
  | nil => intro st op h; simp at h
  | cons x rest ih =>
    intro st op hmem hnew hready
    simp only [topoPass]
    split_ifs with hc
    · exact topoPass_modified_mono g rest _ rfl
    · simp only [List.mem_cons] at hmem
      rcases hmem with hmem | hmem
      · subst hmem
        exact absurd ⟨hnew, (inputs_placed_iff g st.flags op).2 hready⟩ hc
      · exact ih st op hmem hnew hready

/-- A set of operators in which every member has a producer in the set is never
entered by `flags`. -/
theorem topoPass_avoids (g : GraphObj) (C : Nat → Prop)
    (hC : ∀ x, C x → ∃ y, C y ∧ produces g y x) (rest : List Nat) : ∀ (st : TopoState),
    (∀ x ∈ st.flags, ¬ C x) → ∀ x ∈ (topoPass g rest st).flags, ¬ C x := by
  induction rest with
  | nil => intro st h; exact h
  | cons op rest ih =>
    intro st h
    simp only [topoPass]
    split_ifs with hc
    · apply ih
      intro x hx
      simp only [List.mem_cons] at hx
      rcases hx with hx | hx
      · subst hx
        intro hCx
        obtain ⟨y, hy, hprod⟩ := hC x hCx
        exact h y ((inputs_placed_iff g st.flags x).1 hc.2 y hprod) hy
      · exact h x hx
    · exact ih st h

/-- In a graph where every producer of an operator of the list is in the list
and no operator of the list lies on a cycle, the producer relation into the
list is well founded. -/
theorem produces_wellFounded (g : GraphObj)
    (hclosed : ∀ q ∈ g.ops, ∀ p, produces g p q → p ∈ g.ops)
    (hacyc : ∀ o ∈ g.ops, ¬ Relation.TransGen (produces g) o o) :
    WellFounded (fun p q => produces g p q ∧ q ∈ g.ops) := by
  have hfin : Finite {x // x ∈ g.ops} := Finite.of_fintype _
  let r : {x // x ∈ g.ops} → {x // x ∈ g.ops} → Prop :=
    fun a b => Relation.TransGen (produces g) a.1 b.1
  have htrans : IsTrans _ r := ⟨fun a b c hab hbc => Relation.TransGen.trans hab hbc⟩
  have hirr : IsIrrefl _ r := ⟨fun a ha => hacyc a.1 a.2 ha⟩
  have hwf : WellFounded r := Finite.wellFounded_of_trans_of_irrefl r
  constructor
  intro x
  by_cases hx : x ∈ g.ops
  · have key : ∀ s : {x // x ∈ g.ops}, Acc (fun p q => produces g p q ∧ q ∈ g.ops) s.1 := by
      intro s
      induction s using hwf.induction with
      | _ s ih =>
        constructor
        intro y hy
        exact ih ⟨y, hclosed s.1 s.2 y hy.1⟩ (Relation.TransGen.single hy.1)
    exact key ⟨x, hx⟩
  · constructor
    intro y hy
    exact absurd hy.2 hx

/-- While an operator of the list is not placed, some operator of the list is not
placed and has all its producers placed. -/
theorem exists_ready (g : GraphObj) (flags : List Nat)
    (hclosed : ∀ q ∈ g.ops, ∀ p, produces g p q → p ∈ g.ops)
    (hacyc : ∀ o ∈ g.ops, ¬ Relation.TransGen (produces g) o o)
    (o : Nat) (ho : o ∈ g.ops) (hnew : o ∉ flags) :
    ∃ m ∈ g.ops, m ∉ flags ∧ ∀ p, produces g p m → p ∈ flags := by
  have hwf := produces_wellFounded g hclosed hacyc
  obtain ⟨m, hm, hmin⟩ := hwf.has_min {x | x ∈ g.ops ∧ x ∉ flags} ⟨o, ho, hnew⟩
  refine ⟨m, hm.1, hm.2, ?_⟩
  intro p hp
  by_contra hpf
  exact hmin p ⟨hclosed m hm.1 p hp, hpf⟩ ⟨hp, hm.1⟩

theorem exists_unplaced (ops sorted : List Nat) (hnd : ops.Nodup)
    (hlen : sorted.length < ops.length) : ∃ o ∈ ops, o ∉ sorted := by
  by_contra h
  push_neg at h
  have := (List.subperm_of_subset hnd h).length_le
  omega

theorem length_lt_of_missing (ops sorted : List Nat) (o : Nat) (hnd : sorted.Nodup)
    (hsub : ∀ x ∈ sorted, x ∈ ops) (ho : o ∈ ops) (hnew : o ∉ sorted) :
    sorted.length < ops.length := by
  have hnd' : (o :: sorted).Nodup := List.nodup_cons.2 ⟨hnew, hnd⟩
  have hsub' : (o :: sorted) ⊆ ops := by
    intro x hx
    simp only [List.mem_cons] at hx
    rcases hx with hx | hx
    · subst hx; exact ho
    · exact hsub x hx
  have := (List.subperm_of_subset hnd' hsub').length_le
  simp only [List.length_cons] at this
  omega

/-- On an acyclic, closed graph without duplicate operators the loop of
`topo_sort` ends with all operators placed, given one iteration more than
operators still to place. -/
theorem topoLoop_done (g : GraphObj) (hnd : g.ops.Nodup)
    (hclosed : ∀ q ∈ g.ops, ∀ p, produces g p q → p ∈ g.ops)
    (hacyc : ∀ o ∈ g.ops, ¬ Relation.TransGen (produces g) o o) :
    ∀ (fuel : Nat) (sorted flags : List Nat), TopoInv g sorted flags →
      g.ops.length + 1 ≤ fuel + sorted.length →
      ∃ final, topoLoop g fuel sorted flags = TopoOutcome.done final ∧
        TopoInv g final final ∧ g.ops.length ≤ final.length := by
  intro fuel
  induction fuel with
  | zero =>
    intro sorted flags hinv hfuel
    have := (List.subperm_of_subset hinv.2.1 hinv.2.2.1).length_le
    omega
  | succ fuel ih =>
    intro sorted flags hinv hfuel
    simp only [topoLoop]
    split_ifs with hlt hmod
    · exfalso
      obtain ⟨o, ho, hnew⟩ := exists_unplaced g.ops sorted hnd hlt
      obtain ⟨m, hm, hmnew, hready⟩ := exists_ready g flags hclosed hacyc o ho
        (fun h => hnew ((hinv.1 o).1 h))
      have := topoPass_modified g g.ops { sorted := sorted, flags := flags, modified := false }
        m hm hmnew hready
      rw [hmod] at this
      exact Bool.false_ne_true this
    · have hinv' := topoPass_inv g g.ops { sorted := sorted, flags := flags, modified := false }
        (fun x hx => hx) hinv
      have hlen := (topoPass_length g g.ops
        { sorted := sorted, flags := flags, modified := false }).2
        (by simpa using hmod) rfl
      simp only at hlen
      exact ih _ _ hinv' (by omega)
    · refine ⟨sorted, rfl, ?_, by omega⟩
      obtain ⟨h1, h2, h3, h4⟩ := hinv
      exact ⟨fun x => Iff.rfl, h2, h3, h4⟩

/-- While some operator of the list lies on a cycle the loop of `topo_sort` ends
in `return false`, given one iteration more than operators in the list. -/
theorem topoLoop_stuck (g : GraphObj) (o : Nat) (ho : o ∈ g.ops)
    (hcyc : Relation.TransGen (produces g) o o) :
    ∀ (fuel : Nat) (sorted flags : List Nat), TopoInv g sorted flags →
      (∀ x ∈ flags, ¬ Relation.TransGen (produces g) x x) →
      g.ops.length + 1 ≤ fuel + sorted.length →
      topoLoop g fuel sorted flags = TopoOutcome.stuck := by
  have hC : ∀ x, Relation.TransGen (produces g) x x →
      ∃ y, Relation.TransGen (produces g) y y ∧ produces g y x := by
    intro x hx
    obtain ⟨y, hxy, hyx⟩ := Relation.TransGen.tail'_iff.1 hx
    exact ⟨y, Relation.TransGen.head' hyx hxy, hyx⟩
  have hshort : ∀ (sorted flags : List Nat), TopoInv g sorted flags →
      (∀ x ∈ flags, ¬ Relation.TransGen (produces g) x x) → sorted.length < g.ops.length := by
    intro sorted flags hinv hav
    exact length_lt_of_missing g.ops sorted o hinv.2.1 hinv.2.2.1 ho
      (fun h => hav o ((hinv.1 o).2 h) hcyc)
  intro fuel
  induction fuel with
  | zero =>
    intro sorted flags hinv hav hfuel
    have := hshort sorted flags hinv hav
    omega
  | succ fuel ih =>
    intro sorted flags hinv hav hfuel
    have hlt := hshort sorted flags hinv hav
    simp only [topoLoop, if_pos hlt]
    split_ifs with hmod
    · rfl
    · have hinv' := topoPass_inv g g.ops { sorted := sorted, flags := flags, modified := false }
        (fun x hx => hx) hinv
      have hav' := topoPass_avoids g (fun x => Relation.TransGen (produces g) x x) hC g.ops
        { sorted := sorted, flags := flags, modified := false } hav
      have hlen := (topoPass_length g g.ops
        { sorted := sorted, flags := flags, modified := false }).2
        (by simpa using hmod) rfl
      simp only at hlen
      exact ih _ _ hinv' hav' (by omega)

/-- C8. For a graph whose `sorted` flag is false, whose operator list has no
duplicates, in which every producer of a listed operator is listed and no
listed operator lies on a producer cycle, `topo_sort` returns true, sets
`sorted`, and replaces the operator list by a permutation of it in which every
operator stands after all operators producing one of its inputs; nothing else
in the graph changes. -/
theorem topo_sort_orders_acyclic_graph (g : GraphObj) (hs : g.sorted = false)
    (hnd : g.ops.Nodup)
    (hclosed : ∀ q ∈ g.ops, ∀ p, produces g p q → p ∈ g.ops)
    (hacyc : ∀ o ∈ g.ops, ¬ Relation.TransGen (produces g) o o) :
    ∃ ops', g.topo_sort = some (true, { g with ops := ops', sorted := true }) ∧
      ops'.Perm g.ops ∧
      ∀ (l1 l2 : List Nat) (q : Nat), ops' = l1 ++ q :: l2 →
        ∀ p, produces g p q → p ∈ l1 := by
  obtain ⟨final, hloop, hinv, hlen⟩ :=
    topoLoop_done g hnd hclosed hacyc (g.ops.length + 1) [] [] (topoInv_nil g) (by simp)
  refine ⟨final, ?_, ?_, hinv.2.2.2⟩
  · unfold GraphObj.topo_sort
    simp only [hs, hloop]
    rfl
  · exact (List.subperm_of_subset hinv.2.1 hinv.2.2.1).perm_of_length_le hlen

/-- C9. For a graph whose `sorted` flag is false and in which some listed
operator lies on a producer cycle, `topo_sort` returns false and leaves the
graph, so the operator list and the `sorted` flag, as it was. -/
theorem topo_sort_fails_on_cycle (g : GraphObj) (hs : g.sorted = false)
    (o : Nat) (ho : o ∈ g.ops) (hcyc : Relation.TransGen (produces g) o o) :
    g.topo_sort = some (false, g) := by
  have hloop := topoLoop_stuck g o ho hcyc (g.ops.length + 1) [] [] (topoInv_nil g)
    (by intro x hx; simp at hx) (by simp)
  unfold GraphObj.topo_sort
  simp only [hs, hloop]
  rfl

theorem acyclic_of_increasing (g : GraphObj) (h : ∀ p q, produces g p q → p < q) :
    ∀ o ∈ g.ops, ¬ Relation.TransGen (produces g) o o := by
  have key : ∀ a b, Relation.TransGen (produces g) a b → a < b := by
    intro a b hab
    induction hab with
    | single h1 => exact h _ _ h1
    | tail _ h2 ih => exact lt_trans ih (h _ _ h2)
  intro o _ ho
  exact lt_irrefl o (key o o ho)

theorem chainGraph_produces (p q : Nat) (h : produces chainGraph p q) :
    (p = 0 ∧ q = 1) ∨ (p = 1 ∧ q ≠ 0 ∧ q ≠ 1) := by
  obtain ⟨t, ht, hsrc⟩ := h
  match q with
  | 0 =>
    simp only [chainGraph, List.mem_singleton] at ht
    subst ht
    simp [chainGraph] at hsrc
  | 1 =>
    simp only [chainGraph, List.mem_singleton] at ht
    subst ht
    simp only [chainGraph, Option.some.injEq] at hsrc
    exact Or.inl ⟨hsrc.symm, rfl⟩
  | q + 2 =>
    simp only [chainGraph, List.mem_singleton] at ht
    subst ht
    simp only [chainGraph, Option.some.injEq] at hsrc
    exact Or.inr ⟨hsrc.symm, by omega, by omega⟩

theorem topo_sort_orders_acyclic_graph_witness :
    chainGraph.sorted = false ∧ chainGraph.ops.Nodup ∧
    (∀ q ∈ chainGraph.ops, ∀ p, produces chainGraph p q → p ∈ chainGraph.ops) ∧
    (∀ o ∈ chainGraph.ops, ¬ Relation.TransGen (produces chainGraph) o o) ∧
    (chainGraph.topo_sort.map (fun r => (r.1, r.2.ops, r.2.sorted)) =
      some (true, [0, 1, 2], true)) ∧
    ∃ ops', chainGraph.topo_sort =
        some (true, { chainGraph with ops := ops', sorted := true }) ∧
      ops'.Perm chainGraph.ops ∧
      ∀ (l1 l2 : List Nat) (q : Nat), ops' = l1 ++ q :: l2 →
        ∀ p, produces chainGraph p q → p ∈ l1 := by
  have hclosed : ∀ q ∈ chainGraph.ops, ∀ p, produces chainGraph p q → p ∈ chainGraph.ops := by
    intro q _ p hp
    rcases chainGraph_produces p q hp with ⟨h, _⟩ | ⟨h, _⟩ <;> subst h <;> decide
  have hacyc : ∀ o ∈ chainGraph.ops, ¬ Relation.TransGen (produces chainGraph) o o := by
    apply acyclic_of_increasing
    intro p q hp
    rcases chainGraph_produces p q hp with ⟨h1, h2⟩ | ⟨h1, h2, h3⟩ <;> omega
  exact ⟨rfl, by decide, hclosed, hacyc, by decide,
    topo_sort_orders_acyclic_graph chainGraph rfl (by decide) hclosed hacyc⟩

theorem topo_sort_fails_on_cycle_witness :
    cycleGraph.sorted = false ∧ (0 : Nat) ∈ cycleGraph.ops ∧
    Relation.TransGen (produces cycleGraph) 0 0 ∧
    (cycleGraph.topo_sort.map (fun r => (r.1, r.2.ops, r.2.sorted)) =
      some (false, [0, 1], false)) ∧
    cycleGraph.topo_sort = some (false, cycleGraph) := by
  have h01 : produces cycleGraph 0 1 := ⟨0, by decide, rfl⟩
  have h10 : produces cycleGraph 1 0 := ⟨1, by decide, rfl⟩
  have hcyc : Relation.TransGen (produces cycleGraph) 0 0 :=
    Relation.TransGen.tail (Relation.TransGen.single h01) h10
  exact ⟨rfl, by decide, hcyc, by decide,
    topo_sort_fails_on_cycle cycleGraph rfl 0 (by decide) hcyc⟩

/-! ## `dataMalloc` -/

/-- C10, failing graph. `dataMalloc` walks the operators of `matmulChainGraph` in
the order 0 to 4. When the second Transpose has got its output `t4`, the
allocator holds `used = 80` and the free blocks `(16, 8)` and `(56, 8)`, and the
input `t3` (12 bytes, one reader left) lies at offset 64. Releasing it,
`free(64, 12)` merges the block into its left neighbour `(56, 8)`, erases the
node of `it`, finds that the fields last stored in that node add up to `used`
and erases the node a second time: the call does not return, so `dataMalloc`
does not return and binds no tensor. -/
theorem dataMalloc_never_returns_on_matmul_chain :
    matmulChainGraph.topo_sort.map (fun r => (r.1, r.2.ops)) = some (true, [0, 1, 2, 3, 4]) ∧
    ((planStart matmulChainGraph).bind fun st0 =>
      (planOps matmulChainGraph [0, 1] st0).bind fun st1 =>
        (planOutputs matmulChainGraph (matmulChainGraph.opObj 2).outputs st1).bind fun st2 =>
          Outcome.value (st2.allocator, st2.offsets 3, st2.refCount 3)) =
      Outcome.value
        ({ used := 80, peak := 80, ptr := none, freeBlocks := [(16, 8), (56, 8)] },
          some 64, some 1) ∧
    (matmulChainGraph.opObj 2).inputs = [3] ∧ (matmulChainGraph.tensorObj 3).bytes = 12 ∧
    freeMerge [(16, 8), (56, 8)] 64 (getAlignedSize 12) =
      { blocks := [(16, 8), (56, 24)], itFirst := 64, itSecond := 16, itErased := true } ∧
    ({ used := 80, peak := 80, ptr := none, freeBlocks := [(16, 8), (56, 8)] } : Allocator).free
        64 12 =
      { state := { used := 80, peak := 80, ptr := none, freeBlocks := [(16, 8), (56, 8)] },
        passed := true, undefined := true } ∧
    matmulChainGraph.dataMalloc (fun _ => some 4096) = Outcome.undefined :=
  ⟨by decide, by decide, by decide, by decide, by decide, by decide, rfl⟩

/-- A property `P` of single blocks and a symmetric relation `R` between blocks
that hold of the map with the new block and are kept when two touching blocks
are merged hold of what `freeMerge` leaves: every block has `P`, blocks under
different keys are related, the block the iterator last designated has `P`,
and, unless its node was erased, it is related to every other block. -/
theorem freeMerge_pairs (P : Nat × Nat → Prop) (R : Nat × Nat → Nat × Nat → Prop)
    (m : FreeMap) (o s : Nat)
    (hsymm : ∀ x y, R x y → R y x)
    (h0 : ∀ e ∈ m, P e) (h1 : P (o, s))
    (hp0 : ∀ e1 ∈ m, ∀ e2 ∈ m, e1.1 ≠ e2.1 → R e1 e2)
    (hp1 : ∀ e ∈ m, e.1 ≠ o → R (o, s) e)
    (hR : ∀ v n, P (o, v) → P n → (o + v) % SIZE_MOD = n.1 → P (o, (v + n.2) % SIZE_MOD))
    (hL : ∀ p v, P p → P (o, v) → (p.1 + p.2) % SIZE_MOD = o →
      P (p.1, (p.2 + v) % SIZE_MOD))
    (cR : ∀ v n e, P (o, v) → P n → (o + v) % SIZE_MOD = n.1 → R (o, v) e → R n e →
      R (o, (v + n.2) % SIZE_MOD) e)
    (cL : ∀ p v e, P p → P (o, v) → (p.1 + p.2) % SIZE_MOD = o → R p e → R (o, v) e →
      R (p.1, (p.2 + v) % SIZE_MOD) e) :
    (∀ e ∈ (freeMerge m o s).blocks, P e) ∧
    (∀ e1 ∈ (freeMerge m o s).blocks, ∀ e2 ∈ (freeMerge m o s).blocks,
      e1.1 ≠ e2.1 → R e1 e2) ∧
    P (o, (freeMerge m o s).itSecond) ∧
    ((freeMerge m o s).itErased = false →
      ∀ e ∈ (freeMerge m o s).blocks, e.1 ≠ o → R (o, (freeMerge m o s).itSecond) e) := by
  -- the state carried between the steps
  let I : FreeMap → Nat → Prop := fun m v =>
    (∀ e ∈ m, P e) ∧ (∀ e1 ∈ m, ∀ e2 ∈ m, e1.1 ≠ e2.1 → R e1 e2) ∧ P (o, v) ∧
    (∀ e ∈ m, e.1 ≠ o → R (o, v) e)
  -- after the insertion
  obtain ⟨w, hw⟩ := mapFind_mapInsert m o s
  have hI1 : I (mapInsert m o s) w := by
    have ha : ∀ e ∈ mapInsert m o s, P e := by
      intro e he
      rcases mem_mapInsert he with h | h
      · rw [h]; exact h1
      · exact h0 e h
    have hb : ∀ e1 ∈ mapInsert m o s, ∀ e2 ∈ mapInsert m o s, e1.1 ≠ e2.1 → R e1 e2 := by
      intro e1 he1 e2 he2 hne
      rcases mem_mapInsert he1 with h | h <;> rcases mem_mapInsert he2 with h' | h'
      · rw [h, h'] at hne; exact absurd rfl hne
      · rw [h] at hne ⊢; exact hp1 e2 h' (fun hh => hne hh.symm)
      · rw [h'] at hne ⊢; exact hsymm _ _ (hp1 e1 h hne)
      · exact hp0 e1 h e2 h' hne
    refine ⟨ha, hb, ha _ (mapFind_mem hw), ?_⟩
    intro e he hne
    exact hb _ (mapFind_mem hw) e he (fun hh => hne hh.symm)
  -- the merge with the right neighbour
  have hright : ∀ (m : FreeMap) (v : Nat), I m v → I (mergeRight m o v).1 (mergeRight m o v).2 := by
    intro m v hI
    obtain ⟨ha, hb, hc, hd⟩ := hI
    unfold mergeRight
    cases hn : mapNext m o with
    | none => exact ⟨ha, hb, hc, hd⟩
    | some n =>
      obtain ⟨nk, nv⟩ := n
      simp only
      split_ifs with hadj
      · have hnm := (mapNext_mem hn).1
        have hnk : o ≠ nk := fun h => by
          have := (mapNext_mem hn).2
          simp only at this
          omega
        have hPn : P (nk, nv) := ha _ hnm
        have hPm : P (o, (v + nv) % SIZE_MOD) := hR v (nk, nv) hc hPn hadj
        have hRm : ∀ e ∈ m, e.1 ≠ o → e.1 ≠ nk → R (o, (v + nv) % SIZE_MOD) e := by
          intro e he h1' h2'
          exact cR v (nk, nv) e hc hPn hadj (hd e he h1')
            (hb (nk, nv) hnm e he (fun hh => h2' hh.symm))
        simp only
        refine ⟨?_, ?_, hPm, ?_⟩
        · intro e he
          rw [mem_mapErase] at he
          rcases mem_mapAssign he.1 with h | h
          · rw [h]; exact hPm
          · exact ha e h
        · intro e1 he1 e2 he2 hne
          rw [mem_mapErase] at he1 he2
          rcases mem_mapAssign he1.1 with h | h <;> rcases mem_mapAssign he2.1 with h' | h'
          · rw [h, h'] at hne; exact absurd rfl hne
          · rw [h] at hne ⊢; exact hRm e2 h' (fun hh => hne hh.symm) he2.2
          · rw [h'] at hne ⊢; exact hsymm _ _ (hRm e1 h hne he1.2)
          · exact hb e1 h e2 h' hne
        · intro e he hne
          rw [mem_mapErase] at he
          rcases mem_mapAssign he.1 with h | h
          · rw [h] at hne; exact absurd rfl hne
          · exact hRm e h hne he.2
      · exact ⟨ha, hb, hc, hd⟩
  -- the merge with the left neighbour
  have hleft : ∀ (m : FreeMap) (v : Nat), I m v →
      (∀ e ∈ (mergeLeft m o v).blocks, P e) ∧
      (∀ e1 ∈ (mergeLeft m o v).blocks, ∀ e2 ∈ (mergeLeft m o v).blocks,
        e1.1 ≠ e2.1 → R e1 e2) ∧
      P (o, (mergeLeft m o v).itSecond) ∧
      ((mergeLeft m o v).itErased = false →
        ∀ e ∈ (mergeLeft m o v).blocks, e.1 ≠ o → R (o, (mergeLeft m o v).itSecond) e) := by
    intro m v hI
    obtain ⟨ha, hb, hc, hd⟩ := hI
    rw [mergeLeft_itSecond]
    unfold mergeLeft
    cases hp : mapPrev m o with
    | none => exact ⟨ha, hb, hc, fun _ => hd⟩
    | some p =>
      obtain ⟨pk, pv⟩ := p
      simp only
      split_ifs with hadj
      · have hpm := (mapPrev_mem hp).1
        have hPp : P (pk, pv) := ha _ hpm
        have hPm : P (pk, (pv + v) % SIZE_MOD) := hL (pk, pv) v hPp hc hadj
        have hRm : ∀ e ∈ m, e.1 ≠ o → e.1 ≠ pk → R (pk, (pv + v) % SIZE_MOD) e := by
          intro e he h1' h2'
          exact cL (pk, pv) v e hPp hc hadj (hb (pk, pv) hpm e he (fun hh => h2' hh.symm))
            (hd e he h1')
        simp only
        refine ⟨?_, ?_, hc, fun h => absurd h (by simp)⟩
        · intro e he
          rw [mem_mapErase] at he
          rcases mem_mapAssign he.1 with h | h
          · rw [h]; exact hPm
          · exact ha e h
        · intro e1 he1 e2 he2 hne
          rw [mem_mapErase] at he1 he2
          rcases mem_mapAssign he1.1 with h | h <;> rcases mem_mapAssign he2.1 with h' | h'
          · rw [h, h'] at hne; exact absurd rfl hne
          · rw [h] at hne ⊢; exact hRm e2 h' he2.2 (fun hh => hne hh.symm)
          · rw [h'] at hne ⊢; exact hsymm _ _ (hRm e1 h he1.2 hne)
          · exact hb e1 h e2 h' hne
      · exact ⟨ha, hb, hc, fun _ => hd⟩
  unfold freeMerge
  simp only [hw, Option.getD_some]
  exact hleft _ _ (hright _ _ hI1)

/-! ## Live ranges stay apart -/

theorem noOverlap_symm (x y : Nat × Nat) (h : noOverlap x y) : noOverlap y x := by
  unfold noOverlap at *
  omega

theorem not_rangesOverlap_iff (x y : Nat × Nat) :
    ¬ rangesOverlap x y ↔ noOverlap (liveRange x) (liveRange y) := by
  unfold rangesOverlap noOverlap liveRange
  simp only
  omega

theorem pairwise_erase_rel {α : Type} [BEq α] [LawfulBEq α] (R : α → α → Prop)
    (hsymm : ∀ x y, R x y → R y x) (l : List α) (a : α) (h : l.Pairwise R) (ha : a ∈ l) :
    ∀ b ∈ l.erase a, R a b := by
  induction l with
  | nil => simp at ha
  | cons x xs ih =>
    rw [List.pairwise_cons] at h
    intro b hb
    by_cases hx : x = a
    · subst hx
      rw [List.erase_cons_head] at hb
      exact h.1 b hb
    · rw [List.erase_cons_tail (by simpa using hx)] at hb
      simp only [List.mem_cons] at hb ha
      rcases ha with ha | ha
      · exact absurd ha.symm hx
      · rcases hb with hb | hb
        · subst hb
          exact hsymm _ _ (h.1 a ha)
        · exact ih h.2 ha b hb

theorem safe_init : Safe Session.init := by
  refine ⟨?_, ?_, ?_, ?_, ?_⟩ <;> simp [Session.init, Allocator.fresh]

theorem safe_alloc (s s' : Session) (total size : Nat) (h : Safe s) (hb : PeakBound s total)
    (hstep : s.step (Call.alloc size) = some s')
    (hfit : total + getAlignedSize size < SIZE_MOD) : Safe s' := by
  obtain ⟨w1, w2, w3, w4, w5⟩ := h
  obtain ⟨hp, hup, hpt, hbb, hbl⟩ := hb
  rcases bestFitScan_initial (getAlignedSize size) s.a.freeBlocks with
    ⟨h1, _⟩ | ⟨⟨k, v⟩, he, h1, h2, _⟩
  · have heq := alloc_of_not_found s.a size hp h1
    simp only [Session.step, heq, Option.some.injEq] at hstep
    subst hstep
    have hmod : (s.a.used + getAlignedSize size) % SIZE_MOD = s.a.used + getAlignedSize size :=
      Nat.mod_eq_of_lt (by omega)
    simp only [hmod]
    refine ⟨?_, ?_, ?_, ?_, w5⟩
    · intro e he
      have := w1 e he
      simp only; omega
    · intro l hl
      simp only [List.mem_cons] at hl
      rcases hl with hl | hl
      · subst hl; simp only [liveRange]; omega
      · have := w2 l hl
        simp only; omega
    · rw [List.pairwise_cons]
      refine ⟨?_, w3⟩
      intro l hl
      have := w2 l hl
      unfold noOverlap
      simp only [liveRange] at this ⊢
      omega
    · intro l hl e he
      simp only [List.mem_cons] at hl
      rcases hl with hl | hl
      · subst hl
        have := w1 e he
        unfold noOverlap
        simp only [liveRange]
        omega
      · exact w4 l hl e he
  · have heq := alloc_of_found s.a size k v hp h1
    simp only [Session.step, heq, Option.some.injEq] at hstep
    subst hstep
    have hkv := hbb _ he
    have hkv1 := w1 _ he
    simp only at hkv hkv1 h2
    have hrem : (k + getAlignedSize size) % SIZE_MOD = k + getAlignedSize size :=
      Nat.mod_eq_of_lt (by omega)
    -- every remaining block is the remainder or an old block under another key
    have hmem : ∀ e, e ∈ (if 0 < v - getAlignedSize size then
          mapAssign (mapErase s.a.freeBlocks k) ((k + getAlignedSize size) % SIZE_MOD)
            (v - getAlignedSize size)
        else mapErase s.a.freeBlocks k) →
        (e = (k + getAlignedSize size, v - getAlignedSize size) ∧ 0 < v - getAlignedSize size) ∨
        (e ∈ s.a.freeBlocks ∧ e.1 ≠ k) := by
      intro e he'
      split_ifs at he' with hpos
      · rcases mem_mapAssign he' with h' | h'
        · rw [hrem] at h'; exact Or.inl ⟨h', hpos⟩
        · exact Or.inr (mem_mapErase.1 h')
      · exact Or.inr (mem_mapErase.1 he')
    refine ⟨?_, ?_, ?_, ?_, ?_⟩
    · intro e he'
      rcases hmem e he' with ⟨h', hpos⟩ | ⟨h', _⟩
      · rw [h']; simp only; omega
      · exact w1 e h'
    · intro l hl
      simp only [List.mem_cons] at hl
      rcases hl with hl | hl
      · subst hl; simp only [liveRange]; omega
      · exact w2 l hl
    · rw [List.pairwise_cons]
      refine ⟨?_, w3⟩
      intro l hl
      have := w4 l hl _ he
      unfold noOverlap at this ⊢
      simp only [liveRange] at this ⊢
      omega
    · intro l hl e he'
      simp only [List.mem_cons] at hl
      rcases hmem e he' with ⟨h', hpos⟩ | ⟨h', hne⟩
      · rw [h']
        rcases hl with hl | hl
        · subst hl; unfold noOverlap; simp only [liveRange]; omega
        · have := w4 l hl _ he
          unfold noOverlap at this ⊢
          simp only at this ⊢
          omega
      · rcases hl with hl | hl
        · subst hl
          have := w5 _ he e h' (fun hh => hne hh.symm)
          unfold noOverlap at this ⊢
          simp only [liveRange] at this ⊢
          omega
        · exact w4 l hl e h'
    · intro e1 he1 e2 he2 hne
      rcases hmem e1 he1 with ⟨h', hpos⟩ | ⟨h', hne1⟩ <;>
        rcases hmem e2 he2 with ⟨h'', hpos'⟩ | ⟨h'', hne2⟩
      · rw [h', h''] at hne; exact absurd rfl hne
      · rw [h']
        have := w5 _ he e2 h'' (fun hh => hne2 hh.symm)
        unfold noOverlap at this ⊢
        simp only at this ⊢
        omega
      · rw [h'']
        have := w5 _ he e1 h' (fun hh => hne1 hh.symm)
        unfold noOverlap at this ⊢
        simp only at this ⊢
        omega
      · exact w5 e1 h' e2 h'' hne

theorem safe_free (s s' : Session) (total addr size : Nat) (h : Safe s) (hb : PeakBound s total)
    (hstep : s.step (Call.free addr size) = some s') (hfit : total < SIZE_MOD)
    (hslip : s.a.freeReadsErased addr size = false) : Safe s' := by
  obtain ⟨w1, w2, w3, w4, w5⟩ := h
  obtain ⟨hp, hup, hpt, hbb, hbl⟩ := hb
  simp only [Session.step] at hstep
  split_ifs at hstep with hlive
  simp only [Option.some.injEq] at hstep
  subst hstep
  have hmem := hlive.1
  have w3' : (s.live.erase (addr, size)).Pairwise
      (fun x y => noOverlap (liveRange x) (liveRange y)) :=
    w3.sublist (List.erase_sublist _ _)
  have hothers : ∀ l ∈ s.live.erase (addr, size),
      noOverlap (liveRange (addr, size)) (liveRange l) :=
    pairwise_erase_rel (fun x y => noOverlap (liveRange x) (liveRange y))
      (fun x y hxy => noOverlap_symm _ _ hxy) s.live (addr, size) w3 hmem
  have w2' : ∀ l ∈ s.live.erase (addr, size),
      (liveRange l).2 = 0 ∨ (liveRange l).1 + (liveRange l).2 ≤ s.a.used :=
    fun l hl => w2 l (List.mem_of_mem_erase hl)
  have w4' : ∀ l ∈ s.live.erase (addr, size), ∀ e ∈ s.a.freeBlocks,
      noOverlap (liveRange l) e :=
    fun l hl => w4 l (List.mem_of_mem_erase hl)
  have hr2 := w2 _ hmem
  have hrp := hbl _ hmem
  simp only [liveRange] at hr2 hrp hothers
  -- what holds of a block that is free space
  let P : Nat × Nat → Prop := fun e =>
    (e.2 = 0 ∨ e.1 + e.2 ≤ s.a.used) ∧ e.1 + e.2 ≤ s.a.peak ∧
    ∀ l ∈ s.live.erase (addr, size), noOverlap (liveRange l) e
  have key := freeMerge_pairs P noOverlap s.a.freeBlocks addr (getAlignedSize size)
    noOverlap_symm
    (fun e he => ⟨w1 e he, hbb e he, fun l hl => w4' l hl e he⟩)
    ⟨hr2, hrp, fun l hl => noOverlap_symm _ _ (hothers l hl)⟩
    w5
    (fun e he _ => w4 _ hmem e he)
    (by
      intro v n hv hn hadj
      obtain ⟨hv1, hv2, hv3⟩ := hv
      obtain ⟨hn1, hn2, hn3⟩ := hn
      simp only at hv1 hv2 hn1 hn2
      rw [Nat.mod_eq_of_lt (by omega)] at hadj
      rw [Nat.mod_eq_of_lt (by omega)]
      refine ⟨by simp only; omega, by simp only; omega, ?_⟩
      intro l hl
      have a1 := hv3 l hl
      have a2 := hn3 l hl
      unfold noOverlap at a1 a2 ⊢
      simp only at a1 a2 ⊢
      omega)
    (by
      intro p v hp' hv hadj
      obtain ⟨hv1, hv2, hv3⟩ := hv
      obtain ⟨hp1, hp2, hp3⟩ := hp'
      simp only at hv1 hv2 hp1 hp2
      rw [Nat.mod_eq_of_lt (by omega)] at hadj
      rw [Nat.mod_eq_of_lt (by omega)]
      refine ⟨by simp only; omega, by simp only; omega, ?_⟩
      intro l hl
      have a1 := hv3 l hl
      have a2 := hp3 l hl
      unfold noOverlap at a1 a2 ⊢
      simp only at a1 a2 ⊢
      omega)
    (by
      intro v n e hv hn hadj a1 a2
      obtain ⟨_, hv2, _⟩ := hv
      obtain ⟨_, hn2, _⟩ := hn
      simp only at hv2 hn2
      rw [Nat.mod_eq_of_lt (by omega)] at hadj
      rw [Nat.mod_eq_of_lt (by omega)]
      unfold noOverlap at a1 a2 ⊢
      simp only at a1 a2 ⊢
      omega)
    (by
      intro p v e hp' hv hadj a1 a2
      obtain ⟨_, hv2, _⟩ := hv
      obtain ⟨_, hp2, _⟩ := hp'
      simp only at hv2 hp2
      rw [Nat.mod_eq_of_lt (by omega)] at hadj
      rw [Nat.mod_eq_of_lt (by omega)]
      unfold noOverlap at a1 a2 ⊢
      simp only at a1 a2 ⊢
      omega)
  obtain ⟨ka, kb, kc, kd⟩ := key
  obtain ⟨kc1, kc2, kc3⟩ := kc
  simp only at kc1 kc2
  by_cases ht : (addr + (freeMerge s.a.freeBlocks addr (getAlignedSize size)).itSecond)
      % SIZE_MOD = s.a.used
  · -- the tail test succeeds: the node of `it` is still in the map
    have hne : (freeMerge s.a.freeBlocks addr (getAlignedSize size)).itErased = false := by
      unfold Allocator.freeReadsErased at hslip
      simp only [freeMerge_itFirst, Bool.and_eq_false_imp, decide_eq_true_eq] at hslip
      cases hE : (freeMerge s.a.freeBlocks addr (getAlignedSize size)).itErased with
      | false => rfl
      | true => exact absurd ht (by simpa using hslip hE)
    have kd' := kd hne
    rw [free_of_tail s.a addr size hp ht hne]
    rw [Nat.mod_eq_of_lt (by omega)] at ht
    refine ⟨?_, ?_, w3', ?_, ?_⟩
    · intro e he
      simp only at he
      rw [mem_mapErase] at he
      have a1 := (ka e he.1).1
      have a2 := kd' e he.1 he.2
      unfold noOverlap at a2
      simp only at a1 a2 ⊢
      omega
    · intro l hl
      have a1 := w2' l hl
      have a2 := kc3 l hl
      unfold noOverlap at a2
      simp only at a1 a2 ⊢
      omega
    · intro l hl e he
      simp only [Bool.false_eq_true, if_false] at he
      rw [mem_mapErase] at he
      exact (ka e he.1).2.2 l hl
    · intro e1 he1 e2 he2 hne'
      simp only [Bool.false_eq_true, if_false] at he1 he2
      rw [mem_mapErase] at he1 he2
      exact kb e1 he1.1 e2 he2.1 hne'
  · rw [free_of_not_tail s.a addr size hp ht]
    exact ⟨fun e he => (ka e he).1, w2', w3', fun l hl e he => (ka e he).2.2 l hl, kb⟩

theorem safe_run (cs : List Call) : ∀ (s s' : Session) (total : Nat),
    Safe s → PeakBound s total → s.run cs = some s' → total + totalAligned cs < SIZE_MOD →
    s.readsErased cs = false → Safe s' := by
  induction cs with
  | nil =>
    intro s s' total h _ hrun _ _
    simp only [Session.run, Option.some.injEq] at hrun
    subst hrun
    exact h
  | cons c cs ih =>
    intro s s' total h hb hrun hfit hslip
    simp only [Session.run] at hrun
    cases hstep : s.step c with
    | none => simp [hstep] at hrun
    | some s1 =>
      simp only [hstep] at hrun
      rw [totalAligned_cons] at hfit
      cases c with
      | alloc size =>
        simp only [callAligned] at hfit
        simp only [Session.readsErased, hstep] at hslip
        exact ih s1 s' (total + getAlignedSize size)
          (safe_alloc s s1 total size h hb hstep (by omega))
          (peakBound_alloc s s1 total size hb hstep (by omega)) hrun (by omega) hslip
      | free addr size =>
        simp only [callAligned] at hfit
        simp only [Session.readsErased, hstep, Bool.or_eq_false_iff] at hslip
        exact ih s1 s' total
          (safe_free s s1 total addr size h hb hstep (by omega) hslip.1)
          (peakBound_free s s1 total addr size hb hstep (by omega)) hrun (by omega) hslip.2

/-- C1, as amended. Along every run of `alloc` and `free` calls from a fresh
allocator in which each `free` releases one live allocation, whose aligned
request sizes add up to less than 2^64 and in which no `free` lowers `used`
through an erased iterator (`Session.readsErased`), no two live allocations have
overlapping byte ranges `[offset, offset + alignedSize)`. -/
theorem live_ranges_disjoint (calls : List Call) (s : Session)
    (hrun : Session.init.run calls = some s) (hfit : totalAligned calls < SIZE_MOD)
    (hslip : Session.init.readsErased calls = false) :
    s.live.Pairwise (fun x y => ¬ rangesOverlap x y) := by
  have h := safe_run calls Session.init s 0 safe_init peakBound_init hrun (by omega) hslip
  exact h.2.2.1.imp (fun hxy => (not_rangesOverlap_iff _ _).2 hxy)

/-- The tail step of `free` on the path without a left merge: when the node of
`it` is still in the map and its block ends at `used`, `used` is lowered to the
block's start, the block is erased, and `peak` stays. -/
theorem free_tail_without_left_merge (a : Allocator) (addr size : Nat) (hp : a.ptr = none)
    (hkeep : (freeMerge a.freeBlocks addr (getAlignedSize size)).itErased = false)
    (ht : (addr + (freeMerge a.freeBlocks addr (getAlignedSize size)).itSecond) % SIZE_MOD
      = a.used) :
    (a.free addr size).state.used = addr ∧
    (a.free addr size).state.freeBlocks =
      mapErase (freeMerge a.freeBlocks addr (getAlignedSize size)).blocks addr ∧
    (∀ e ∈ (a.free addr size).state.freeBlocks, e.1 ≠ addr) ∧
    (a.free addr size).state.peak = a.peak := by
  rw [free_of_tail a addr size hp ht hkeep]
  refine ⟨rfl, rfl, ?_, rfl⟩
  intro e he
  exact (mem_mapErase.1 he).2

/-- C1, counterexample outside the slip of `free`: two requests of 2^63 bytes
wrap `used` to 0, so a third allocation is placed at offset 0 again. -/
theorem live_ranges_overlap_after_wrap :
    Session.init.run [Call.alloc 9223372036854775808, Call.alloc 9223372036854775808,
        Call.alloc 8] =
      some { a := { used := 8, peak := 9223372036854775808, ptr := none, freeBlocks := [] },
             live := [(0, 8), (9223372036854775808, 9223372036854775808),
               (0, 9223372036854775808)] } ∧
    rangesOverlap (0, 8) (0, 9223372036854775808) := by
  decide

theorem live_ranges_disjoint_witness :
    Session.init.run [Call.alloc 16, Call.alloc 32, Call.alloc 16, Call.free 16 32,
        Call.alloc 8] =
      some { a := { used := 64, peak := 64, ptr := none, freeBlocks := [(24, 24)] },
             live := [(16, 8), (48, 16), (0, 16)] } ∧
    totalAligned [Call.alloc 16, Call.alloc 32, Call.alloc 16, Call.free 16 32, Call.alloc 8]
      < SIZE_MOD ∧
    Session.init.readsErased [Call.alloc 16, Call.alloc 32, Call.alloc 16, Call.free 16 32,
        Call.alloc 8] = false ∧
    [((16 : Nat), (8 : Nat)), (48, 16), (0, 16)].Pairwise (fun x y => ¬ rangesOverlap x y) :=
  ⟨by decide, by decide, by decide,
    live_ranges_disjoint
      [Call.alloc 16, Call.alloc 32, Call.alloc 16, Call.free 16 32, Call.alloc 8]
      { a := { used := 64, peak := 64, ptr := none, freeBlocks := [(24, 24)] },
        live := [(16, 8), (48, 16), (0, 16)] } (by decide) (by decide) (by decide)⟩

/-! ## The ordered map with ascending keys -/

theorem keysAscending_cons {e : Nat × Nat} {m : FreeMap} :
    KeysAscending (e :: m) ↔ (∀ e' ∈ m, e.1 < e'.1) ∧ KeysAscending m := by
  unfold KeysAscending
  exact List.pairwise_cons

theorem keysAscending_mapErase {m : FreeMap} (k : Nat) (h : KeysAscending m) :
    KeysAscending (mapErase m k) := by
  unfold KeysAscending mapErase at *
  exact h.sublist (List.filter_sublist _)

theorem keysAscending_mapInsert {m : FreeMap} (k v : Nat) (h : KeysAscending m) :
    KeysAscending (mapInsert m k v) := by
  induction m with
  | nil => simp [mapInsert, KeysAscending]
  | cons hd tl ih =>
    obtain ⟨k', v'⟩ := hd
    rw [keysAscending_cons] at h
    simp only [mapInsert]
    split_ifs with h1 h2
    · rw [keysAscending_cons]
      refine ⟨?_, keysAscending_cons.2 h⟩
      intro e he
      simp only [List.mem_cons] at he
      rcases he with he | he
      · subst he; exact h1
      · have := h.1 e he
        simp only at this ⊢
        omega
    · exact keysAscending_cons.2 h
    · rw [keysAscending_cons]
      refine ⟨?_, ih h.2⟩
      intro e he
      rcases mem_mapInsert he with he | he
      · subst he; simp only; omega
      · exact h.1 e he

theorem keysAscending_mapAssign {m : FreeMap} (k v : Nat) (h : KeysAscending m) :
    KeysAscending (mapAssign m k v) := by
  induction m with
  | nil => simp [mapAssign, KeysAscending]
  | cons hd tl ih =>
    obtain ⟨k', v'⟩ := hd
    rw [keysAscending_cons] at h
    simp only [mapAssign]
    split_ifs with h1 h2
    · rw [keysAscending_cons]
      refine ⟨?_, keysAscending_cons.2 h⟩
      intro e he
      simp only [List.mem_cons] at he
      rcases he with he | he
      · subst he; exact h1
      · have := h.1 e he
        simp only at this ⊢
        omega
    · rw [keysAscending_cons]
      refine ⟨?_, h.2⟩
      intro e he
      have := h.1 e he
      simp only at this ⊢
      omega
    · rw [keysAscending_cons]
      refine ⟨?_, ih h.2⟩
      intro e he
      rcases mem_mapAssign he with he | he
      · subst he; simp only; omega
      · exact h.1 e he

/-- Two entries under the same key of a map with ascending keys are the same. -/
theorem keys_unique {m : FreeMap} (h : KeysAscending m) {e1 e2 : Nat × Nat}
    (h1 : e1 ∈ m) (h2 : e2 ∈ m) (hk : e1.1 = e2.1) : e1 = e2 := by
  induction m with
  | nil => simp at h1
  | cons hd tl ih =>
    rw [keysAscending_cons] at h
    simp only [List.mem_cons] at h1 h2
    rcases h1 with h1 | h1 <;> rcases h2 with h2 | h2
    · rw [h1, h2]
    · subst h1
      have := h.1 e2 h2
      omega
    · subst h2
      have := h.1 e1 h1
      omega
    · exact ih h.2 h1 h2

theorem mem_mapInsert_of_mem {m : FreeMap} {k v : Nat} {e : Nat × Nat} (h : e ∈ m) :
    e ∈ mapInsert m k v := by
  induction m with
  | nil => simp at h
  | cons hd tl ih =>
    obtain ⟨k', v'⟩ := hd
    simp only [mapInsert]
    split_ifs with h1 h2
    · exact List.mem_cons_of_mem _ h
    · exact h
    · simp only [List.mem_cons] at h ⊢
      rcases h with h | h
      · exact Or.inl h
      · exact Or.inr (ih h)

theorem mem_mapInsert_self {m : FreeMap} {k v : Nat} (h : ∀ e ∈ m, e.1 ≠ k) :
    (k, v) ∈ mapInsert m k v := by
  induction m with
  | nil => simp [mapInsert]
  | cons hd tl ih =>
    obtain ⟨k', v'⟩ := hd
    simp only [mapInsert]
    split_ifs with h1 h2
    · exact List.mem_cons_self _ _
    · exact absurd h2.symm (h (k', v') (List.mem_cons_self _ _))
    · exact List.mem_cons_of_mem _ (ih (fun e he => h e (List.mem_cons_of_mem _ he)))

theorem mem_mapAssign_self (m : FreeMap) (k v : Nat) : (k, v) ∈ mapAssign m k v :=
  mapFind_mem (mapFind_mapAssign m k v)

theorem mem_mapAssign_of_ne {m : FreeMap} {k v : Nat} {e : Nat × Nat} (h : e ∈ m)
    (hne : e.1 ≠ k) : e ∈ mapAssign m k v := by
  induction m with
  | nil => simp at h
  | cons hd tl ih =>
    obtain ⟨k', v'⟩ := hd
    simp only [mapAssign]
    split_ifs with h1 h2
    · exact List.mem_cons_of_mem _ h
    · simp only [List.mem_cons] at h ⊢
      rcases h with h | h
      · subst h; exact absurd h2.symm hne
      · exact Or.inr h
    · simp only [List.mem_cons] at h ⊢
      rcases h with h | h
      · exact Or.inl h
      · exact Or.inr (ih h)

theorem mapFind_of_mem {m : FreeMap} (h : KeysAscending m) {k v : Nat} (hm : (k, v) ∈ m) :
    mapFind m k = some v := by
  induction m with
  | nil => simp at hm
  | cons hd tl ih =>
    obtain ⟨k', v'⟩ := hd
    rw [keysAscending_cons] at h
    simp only [List.mem_cons] at hm
    simp only [mapFind]
    rcases hm with hm | hm
    · simp only [Prod.mk.injEq] at hm
      rw [if_pos hm.1.symm, hm.2]
    · have := h.1 _ hm
      simp only at this
      rw [if_neg (by omega)]
      exact ih h.2 hm

/-- In a map with ascending keys `std::next` gives the entry with the least key
above `k`. -/
theorem mapNext_least {m : FreeMap} (h : KeysAscending m) {k : Nat} {n : Nat × Nat}
    (hn : mapNext m k = some n) : ∀ e ∈ m, k < e.1 → n.1 ≤ e.1 := by
  induction m with
  | nil => simp [mapNext] at hn
  | cons hd tl ih =>
    rw [keysAscending_cons] at h
    unfold mapNext at hn ih
    simp only [List.find?_cons] at hn
    intro e he hk
    simp only [List.mem_cons] at he
    by_cases hc : k < hd.1
    · simp only [hc, decide_True, Option.some.injEq] at hn
      subst hn
      rcases he with he | he
      · rw [he]
      · exact le_of_lt (h.1 e he)
    · simp only [hc, decide_False] at hn
      rcases he with he | he
      · rw [he] at hk; exact absurd hk hc
      · exact ih h.2 hn e he hk

theorem mapNext_none {m : FreeMap} {k : Nat} (hn : mapNext m k = none) :
    ∀ e ∈ m, e.1 ≤ k := by
  unfold mapNext at hn
  rw [List.find?_eq_none] at hn
  intro e he
  have := hn e he
  simpa using this

/-- In a map with ascending keys `std::prev` gives the entry with the greatest
key below `k`. -/
theorem mapPrev_greatest {m : FreeMap} (h : KeysAscending m) {k : Nat} {p : Nat × Nat}
    (hp : mapPrev m k = some p) : ∀ e ∈ m, e.1 < k → e.1 ≤ p.1 := by
  unfold mapPrev at hp
  have hsorted : (m.filter (fun e => decide (e.1 < k))).Pairwise (fun x y => x.1 < y.1) :=
    List.Pairwise.sublist (List.filter_sublist _) h
  have hsplit := List.dropLast_append_getLast? p hp
  rw [← hsplit] at hsorted
  rw [List.pairwise_append] at hsorted
  intro e he hk
  have hmem : e ∈ m.filter (fun e => decide (e.1 < k)) := by
    simp only [List.mem_filter, decide_eq_true_eq]
    exact ⟨he, hk⟩
  rw [← hsplit] at hmem
  simp only [List.mem_append, List.mem_singleton] at hmem
  rcases hmem with hmem | hmem
  · exact le_of_lt (hsorted.2.2 e hmem p (List.mem_singleton_self p))
  · rw [hmem]

theorem mapPrev_none {m : FreeMap} {k : Nat} (hp : mapPrev m k = none) :
    ∀ e ∈ m, k ≤ e.1 := by
  unfold mapPrev at hp
  rw [List.getLast?_eq_none_iff] at hp
  intro e he
  by_contra hlt
  have : e ∈ m.filter (fun e => decide (e.1 < k)) := by
    simp only [List.mem_filter, decide_eq_true_eq]
    exact ⟨he, by omega⟩
  rw [hp] at this
  simp at this

/-! ## The merge steps, one at a time -/

theorem mergeInv_insert (P : Nat × Nat → Prop) (R : Nat × Nat → Nat × Nat → Prop)
    (m : FreeMap) (o s : Nat)
    (hsymm : ∀ x y, R x y → R y x)
    (h0 : ∀ e ∈ m, P e) (h1 : P (o, s))
    (hp0 : ∀ e1 ∈ m, ∀ e2 ∈ m, e1.1 ≠ e2.1 → R e1 e2)
    (hp1 : ∀ e ∈ m, e.1 ≠ o → R (o, s) e) :
    MergeInv P R o (mapInsert m o s) ((mapFind (mapInsert m o s) o).getD s) := by
  obtain ⟨w, hw⟩ := mapFind_mapInsert m o s
  simp only [hw, Option.getD_some]
  have ha : ∀ e ∈ mapInsert m o s, P e := by
    intro e he
    rcases mem_mapInsert he with h | h
    · rw [h]; exact h1
    · exact h0 e h
  have hb : ∀ e1 ∈ mapInsert m o s, ∀ e2 ∈ mapInsert m o s, e1.1 ≠ e2.1 → R e1 e2 := by
    intro e1 he1 e2 he2 hne
    rcases mem_mapInsert he1 with h | h <;> rcases mem_mapInsert he2 with h' | h'
    · rw [h, h'] at hne; exact absurd rfl hne
    · rw [h] at hne ⊢; exact hp1 e2 h' (fun hh => hne hh.symm)
    · rw [h'] at hne ⊢; exact hsymm _ _ (hp1 e1 h hne)
    · exact hp0 e1 h e2 h' hne
  refine ⟨ha, hb, ha _ (mapFind_mem hw), ?_⟩
  intro e he hne
  exact hb _ (mapFind_mem hw) e he (fun hh => hne hh.symm)

theorem mergeInv_mergeRight (P : Nat × Nat → Prop) (R : Nat × Nat → Nat × Nat → Prop)
    (m : FreeMap) (o v : Nat)
    (hsymm : ∀ x y, R x y → R y x)
    (hR : ∀ v n, P (o, v) → P n → (o + v) % SIZE_MOD = n.1 → P (o, (v + n.2) % SIZE_MOD))
    (cR : ∀ v n e, P (o, v) → P n → (o + v) % SIZE_MOD = n.1 → R (o, v) e → R n e →
      R (o, (v + n.2) % SIZE_MOD) e)
    (hI : MergeInv P R o m v) :
    MergeInv P R o (mergeRight m o v).1 (mergeRight m o v).2 := by
  obtain ⟨ha, hb, hc, hd⟩ := hI
  unfold mergeRight
  cases hn : mapNext m o with
  | none => exact ⟨ha, hb, hc, hd⟩
  | some n =>
    obtain ⟨nk, nv⟩ := n
    simp only
    split_ifs with hadj
    · have hnm := (mapNext_mem hn).1
      have hPn : P (nk, nv) := ha _ hnm
      have hPm : P (o, (v + nv) % SIZE_MOD) := hR v (nk, nv) hc hPn hadj
      have hRm : ∀ e ∈ m, e.1 ≠ o → e.1 ≠ nk → R (o, (v + nv) % SIZE_MOD) e := by
        intro e he h1' h2'
        exact cR v (nk, nv) e hc hPn hadj (hd e he h1')
          (hb (nk, nv) hnm e he (fun hh => h2' hh.symm))
      simp only
      refine ⟨?_, ?_, hPm, ?_⟩
      · intro e he
        rw [mem_mapErase] at he
        rcases mem_mapAssign he.1 with h | h
        · rw [h]; exact hPm
        · exact ha e h
      · intro e1 he1 e2 he2 hne
        rw [mem_mapErase] at he1 he2
        rcases mem_mapAssign he1.1 with h | h <;> rcases mem_mapAssign he2.1 with h' | h'
        · rw [h, h'] at hne; exact absurd rfl hne
        · rw [h] at hne ⊢; exact hRm e2 h' (fun hh => hne hh.symm) he2.2
        · rw [h'] at hne ⊢; exact hsymm _ _ (hRm e1 h hne he1.2)
        · exact hb e1 h e2 h' hne
      · intro e he hne
        rw [mem_mapErase] at he
        rcases mem_mapAssign he.1 with h | h
        · rw [h] at hne; exact absurd rfl hne
        · exact hRm e h hne he.2
    · exact ⟨ha, hb, hc, hd⟩

theorem noOverlap_apart {x y : Nat × Nat} (h : noOverlap x y) (hx : 0 < x.2) (hy : 0 < y.2) :
    x.1 + x.2 ≤ y.1 ∨ y.1 + y.2 ≤ x.1 := by
  unfold noOverlap at h
  omega

/-- The closure facts of `FreeSpace` and `noOverlap` that the merge lemmas ask
for, given that `peak` is a `size_t` value. -/
theorem freeSpace_mergeRight (used peak : Nat) (live : List (Nat × Nat)) (o : Nat)
    (hpk : peak < SIZE_MOD) (v : Nat) (n : Nat × Nat)
    (hv : FreeSpace used peak live (o, v)) (hn : FreeSpace used peak live n)
    (hadj : (o + v) % SIZE_MOD = n.1) :
    FreeSpace used peak live (o, (v + n.2) % SIZE_MOD) := by
  obtain ⟨hv1, hv2, hv3⟩ := hv
  obtain ⟨hn1, hn2, hn3⟩ := hn
  simp only at hv1 hv2 hn1 hn2
  rw [Nat.mod_eq_of_lt (by omega)] at hadj
  rw [Nat.mod_eq_of_lt (by omega)]
  refine ⟨by simp only; omega, by simp only; omega, ?_⟩
  intro l hl
  have a1 := hv3 l hl
  have a2 := hn3 l hl
  unfold noOverlap at a1 a2 ⊢
  simp only at a1 a2 ⊢
  omega

theorem freeSpace_mergeLeft (used peak : Nat) (live : List (Nat × Nat)) (o : Nat)
    (hpk : peak < SIZE_MOD) (p : Nat × Nat) (v : Nat)
    (hp : FreeSpace used peak live p) (hv : FreeSpace used peak live (o, v))
    (hadj : (p.1 + p.2) % SIZE_MOD = o) :
    FreeSpace used peak live (p.1, (p.2 + v) % SIZE_MOD) := by
  obtain ⟨hv1, hv2, hv3⟩ := hv
  obtain ⟨hp1, hp2, hp3⟩ := hp
  simp only at hv1 hv2 hp1 hp2
  rw [Nat.mod_eq_of_lt (by omega)] at hadj
  rw [Nat.mod_eq_of_lt (by omega)]
  refine ⟨by simp only; omega, by simp only; omega, ?_⟩
  intro l hl
  have a1 := hv3 l hl
  have a2 := hp3 l hl
  unfold noOverlap at a1 a2 ⊢
  simp only at a1 a2 ⊢
  omega

theorem noOverlap_mergeRight (used peak : Nat) (live : List (Nat × Nat)) (o : Nat)
    (hpk : peak < SIZE_MOD) (v : Nat) (n e : Nat × Nat)
    (hv : FreeSpace used peak live (o, v)) (hn : FreeSpace used peak live n)
    (hadj : (o + v) % SIZE_MOD = n.1) (a1 : noOverlap (o, v) e) (a2 : noOverlap n e) :
    noOverlap (o, (v + n.2) % SIZE_MOD) e := by
  obtain ⟨_, hv2, _⟩ := hv
  obtain ⟨_, hn2, _⟩ := hn
  simp only at hv2 hn2
  rw [Nat.mod_eq_of_lt (by omega)] at hadj
  rw [Nat.mod_eq_of_lt (by omega)]
  unfold noOverlap at a1 a2 ⊢
  simp only at a1 a2 ⊢
  omega

theorem noOverlap_mergeLeft (used peak : Nat) (live : List (Nat × Nat)) (o : Nat)
    (hpk : peak < SIZE_MOD) (p : Nat × Nat) (v : Nat) (e : Nat × Nat)
    (hp : FreeSpace used peak live p) (hv : FreeSpace used peak live (o, v))
    (hadj : (p.1 + p.2) % SIZE_MOD = o) (a1 : noOverlap p e) (a2 : noOverlap (o, v) e) :
    noOverlap (p.1, (p.2 + v) % SIZE_MOD) e := by
  obtain ⟨_, hv2, _⟩ := hv
  obtain ⟨_, hp2, _⟩ := hp
  simp only at hv2 hp2
  rw [Nat.mod_eq_of_lt (by omega)] at hadj
  rw [Nat.mod_eq_of_lt (by omega)]
  unfold noOverlap at a1 a2 ⊢
  simp only at a1 a2 ⊢
  omega

/-! ## The table stays tight -/

theorem getAlignedSize_pos (size : Nat) (h1 : 1 ≤ size) (h2 : size ≤ SIZE_MOD - 8) :
    0 < getAlignedSize size := by
  simp only [getAlignedSize, sizeMinusOne, alignment, SIZE_MOD_eq] at *
  split_ifs
  · omega
  · omega

theorem tight_init : Tight Session.init := by
  refine ⟨?_, ?_, ?_, ?_, ?_⟩
  · simp [Session.init, Allocator.fresh, KeysAscending]
  · simp [Session.init, Allocator.fresh]
  · simp [Session.init, Allocator.fresh]
  · simp [Session.init]
  · intro x hx
    simp [Session.init, Allocator.fresh] at hx

theorem tight_alloc (s s' : Session) (total size : Nat) (hs : Safe s) (hb : PeakBound s total)
    (h : Tight s) (hstep : s.step (Call.alloc size) = some s')
    (hfit : total + getAlignedSize size < SIZE_MOD) (hpos : 0 < getAlignedSize size) :
    Tight s' := by
  obtain ⟨w1, w2, w3, w4, w5⟩ := hs
  obtain ⟨hp, hup, hpt, hbb, hbl⟩ := hb
  obtain ⟨t1, t2, t3, t4, t5⟩ := h
  rcases bestFitScan_initial (getAlignedSize size) s.a.freeBlocks with
    ⟨h1, _⟩ | ⟨⟨k, v⟩, he, h1, h2, _⟩
  · have heq := alloc_of_not_found s.a size hp h1
    simp only [Session.step, heq, Option.some.injEq] at hstep
    subst hstep
    have hmod : (s.a.used + getAlignedSize size) % SIZE_MOD = s.a.used + getAlignedSize size :=
      Nat.mod_eq_of_lt (by omega)
    simp only [hmod]
    refine ⟨t1, ?_, t3, ?_, ?_⟩
    · intro e he
      have := t2 e he
      simp only; omega
    · intro l hl
      simp only [List.mem_cons] at hl
      rcases hl with hl | hl
      · subst hl; exact hpos
      · exact t4 l hl
    · intro x hx
      simp only at hx
      by_cases hxu : x < s.a.used
      · rcases t5 x hxu with ⟨l, hl, hin⟩ | hblk
        · exact Or.inl ⟨l, List.mem_cons_of_mem _ hl, hin⟩
        · exact Or.inr hblk
      · refine Or.inl ⟨(s.a.used, size), List.mem_cons_self _ _, ?_⟩
        unfold inRange liveRange
        simp only
        omega
  · have heq := alloc_of_found s.a size k v hp h1
    simp only [Session.step, heq, Option.some.injEq] at hstep
    subst hstep
    have hkv := hbb _ he
    have hkv2 := t2 _ he
    simp only at hkv hkv2 h2
    have hrem : (k + getAlignedSize size) % SIZE_MOD = k + getAlignedSize size :=
      Nat.mod_eq_of_lt (by omega)
    have hmem : ∀ e, e ∈ (if 0 < v - getAlignedSize size then
          mapAssign (mapErase s.a.freeBlocks k) ((k + getAlignedSize size) % SIZE_MOD)
            (v - getAlignedSize size)
        else mapErase s.a.freeBlocks k) →
        (e = (k + getAlignedSize size, v - getAlignedSize size) ∧ 0 < v - getAlignedSize size) ∨
        (e ∈ s.a.freeBlocks ∧ e.1 ≠ k) := by
      intro e he'
      split_ifs at he' with hpos'
      · rcases mem_mapAssign he' with h' | h'
        · rw [hrem] at h'; exact Or.inl ⟨h', hpos'⟩
        · exact Or.inr (mem_mapErase.1 h')
      · exact Or.inr (mem_mapErase.1 he')
    -- an old block under another key lies wholly before or wholly after the chosen one
    have hside : ∀ e ∈ s.a.freeBlocks, e.1 ≠ k → e.1 + e.2 < k ∨ k + v < e.1 := by
      intro e he' hne
      rcases Nat.lt_or_gt_of_ne hne with hlt | hgt
      · exact Or.inl (t3 e he' (k, v) he hlt)
      · exact Or.inr (t3 (k, v) he e he' hgt)
    refine ⟨?_, ?_, ?_, ?_, ?_⟩
    · simp only
      split_ifs
      · exact keysAscending_mapAssign _ _ (keysAscending_mapErase _ t1)
      · exact keysAscending_mapErase _ t1
    · intro e he'
      rcases hmem e he' with ⟨h', hpos'⟩ | ⟨h', _⟩
      · rw [h']; simp only; omega
      · exact t2 e h'
    · intro e1 he1 e2 he2 hlt
      rcases hmem e1 he1 with ⟨h', hpos'⟩ | ⟨h', hne1⟩ <;>
        rcases hmem e2 he2 with ⟨h'', hpos''⟩ | ⟨h'', hne2⟩
      · rw [h', h''] at hlt; simp only at hlt; omega
      · rw [h'] at hlt ⊢
        have := hside e2 h'' hne2
        have := (t2 e2 h'').1
        simp only at hlt ⊢
        omega
      · rw [h''] at hlt ⊢
        have := hside e1 h' hne1
        have := (t2 e1 h').1
        simp only at hlt ⊢
        omega
      · exact t3 e1 h' e2 h'' hlt
    · intro l hl
      simp only [List.mem_cons] at hl
      rcases hl with hl | hl
      · subst hl; exact hpos
      · exact t4 l hl
    · intro x hx
      simp only at hx
      rcases t5 x hx with ⟨l, hl, hin⟩ | ⟨e, he', hin⟩
      · exact Or.inl ⟨l, List.mem_cons_of_mem _ hl, hin⟩
      · by_cases hek : e.1 = k
        · have heq' : e = (k, v) := keys_unique t1 he' he hek
          subst heq'
          unfold inRange at hin
          simp only at hin
          by_cases hx1 : x < k + getAlignedSize size
          · refine Or.inl ⟨(k, size), List.mem_cons_self _ _, ?_⟩
            unfold inRange liveRange
            simp only
            omega
          · right
            refine ⟨(k + getAlignedSize size, v - getAlignedSize size), ?_, ?_⟩
            · simp only
              rw [if_pos (by omega), hrem]
              exact mem_mapAssign_self _ _ _
            · unfold inRange
              simp only
              omega
        · right
          refine ⟨e, ?_, hin⟩
          have hside' := hside e he' hek
          have hpe := (t2 e he').1
          simp only
          split_ifs with hpos'
          · apply mem_mapAssign_of_ne (mem_mapErase.2 ⟨he', hek⟩)
            rw [hrem]
            omega
          · exact mem_mapErase.2 ⟨he', hek⟩

theorem tightMid_insert (used : Nat) (live : List (Nat × Nat)) (m : FreeMap) (o size : Nat)
    (hK : KeysAscending m)
    (h2 : ∀ e ∈ m, 0 < e.2 ∧ e.1 + e.2 < used)
    (h3 : ∀ e1 ∈ m, ∀ e2 ∈ m, e1.1 < e2.1 → e1.1 + e1.2 < e2.1)
    (hcov : Covered used live m) (hpos : 0 < getAlignedSize size)
    (habsent : ∀ e ∈ m, e.1 ≠ o) :
    TightMid used (live.erase (o, size)) o (mapInsert m o (getAlignedSize size))
      (getAlignedSize size) := by
  refine ⟨keysAscending_mapInsert _ _ hK, mem_mapInsert_self habsent, ?_, ?_, ?_, ?_⟩
  · intro e he
    rcases mem_mapInsert he with h | h
    · rw [h]; exact hpos
    · exact (h2 e h).1
  · intro e he hne
    rcases mem_mapInsert he with h | h
    · rw [h] at hne; exact absurd rfl hne
    · exact (h2 e h).2
  · intro e1 he1 e2 he2 hne1 hne2 hlt
    rcases mem_mapInsert he1 with h | h
    · rw [h] at hne1; exact absurd rfl hne1
    · rcases mem_mapInsert he2 with h' | h'
      · rw [h'] at hne2; exact absurd rfl hne2
      · exact h3 e1 h e2 h' hlt
  · intro x hx
    rcases hcov x hx with ⟨l, hl, hin⟩ | ⟨e, he, hin⟩
    · by_cases hl' : l = (o, size)
      · subst hl'
        exact Or.inr ⟨(o, getAlignedSize size), mem_mapInsert_self habsent, hin⟩
      · exact Or.inl ⟨l, (List.mem_erase_of_ne hl').2 hl, hin⟩
    · exact Or.inr ⟨e, mem_mapInsert_of_mem he, hin⟩

theorem tightMid_mergeRight (used peak : Nat) (live : List (Nat × Nat)) (o : Nat)
    (m : FreeMap) (v : Nat) (hpk : peak < SIZE_MOD) (hv : 0 < v)
    (hI : MergeInv (FreeSpace used peak live) noOverlap o m v)
    (hT : TightMid used live o m v) :
    TightMid used live o (mergeRight m o v).1 (mergeRight m o v).2 ∧
    0 < (mergeRight m o v).2 ∧
    (∀ e ∈ (mergeRight m o v).1, o < e.1 → o + (mergeRight m o v).2 < e.1) := by
  obtain ⟨ia, ib, ic, id⟩ := hI
  obtain ⟨tK, tmem, tpos, tlt, tpair, tcov⟩ := hT
  have hov : o + v ≤ peak := ic.2.1
  simp only at hov
  -- the block at `o` ends at or before every block that starts after it
  have hafter : ∀ e ∈ m, o < e.1 → o + v ≤ e.1 := by
    intro e he hlt
    have := noOverlap_apart (id e he (by omega)) hv (tpos e he)
    simp only at this
    have := tpos e he
    omega
  unfold mergeRight
  cases hn : mapNext m o with
  | none =>
    refine ⟨⟨tK, tmem, tpos, tlt, tpair, tcov⟩, hv, ?_⟩
    intro e he hlt
    have := mapNext_none hn e he
    omega
  | some n =>
    obtain ⟨nk, nv⟩ := n
    have hnm := (mapNext_mem hn).1
    have hnk : o < nk := (mapNext_mem hn).2
    have hleast := mapNext_least tK hn
    simp only at hleast
    have hnend : nk + nv ≤ peak := (ia _ hnm).2.1
    simp only
    split_ifs with hadj
    · rw [Nat.mod_eq_of_lt (by omega)] at hadj
      have hsum : (v + nv) % SIZE_MOD = v + nv := Nat.mod_eq_of_lt (by omega)
      simp only [hsum]
      have hin : (o, v + nv) ∈ mapErase (mapAssign m o (v + nv)) nk :=
        mem_mapErase.2 ⟨mem_mapAssign_self _ _ _, by simp only; omega⟩
      have hold : ∀ e ∈ mapErase (mapAssign m o (v + nv)) nk, e.1 ≠ o → e ∈ m ∧ e.1 ≠ nk := by
        intro e he hne
        rw [mem_mapErase] at he
        rcases mem_mapAssign he.1 with h | h
        · rw [h] at hne; exact absurd rfl hne
        · exact ⟨h, he.2⟩
      refine ⟨⟨keysAscending_mapErase _ (keysAscending_mapAssign _ _ tK), hin, ?_, ?_, ?_, ?_⟩,
        by omega, ?_⟩
      · intro e he
        rw [mem_mapErase] at he
        rcases mem_mapAssign he.1 with h | h
        · rw [h]; simp only; omega
        · exact tpos e h
      · intro e he hne
        exact tlt e (hold e he hne).1 hne
      · intro e1 he1 e2 he2 hne1 hne2 hlt
        exact tpair e1 (hold e1 he1 hne1).1 e2 (hold e2 he2 hne2).1 hne1 hne2 hlt
      · intro x hx
        rcases tcov x hx with hl | ⟨e, he, hin'⟩
        · exact Or.inl hl
        · right
          by_cases h1 : e.1 = o
          · have : e = (o, v) := keys_unique tK he tmem h1
            subst this
            refine ⟨(o, v + nv), hin, ?_⟩
            unfold inRange at hin' ⊢
            simp only at hin' ⊢
            omega
          · by_cases h2 : e.1 = nk
            · have : e = (nk, nv) := keys_unique tK he hnm h2
              subst this
              refine ⟨(o, v + nv), hin, ?_⟩
              unfold inRange at hin' ⊢
              simp only at hin' ⊢
              omega
            · exact ⟨e, mem_mapErase.2 ⟨mem_mapAssign_of_ne he h1, h2⟩, hin'⟩
      · intro e he hlt
        have hne : e.1 ≠ o := by omega
        obtain ⟨hem, hek⟩ := hold e he hne
        have h1 := hleast e hem hlt
        have := tpair (nk, nv) hnm e hem (by simp only; omega) hne (by simp only; omega)
        simp only at this
        omega
    · refine ⟨⟨tK, tmem, tpos, tlt, tpair, tcov⟩, hv, ?_⟩
      intro e he hlt
      have h1 := hleast e he hlt
      have h2 := hafter e he hlt
      have h3 := hafter (nk, nv) hnm hnk
      simp only at h3
      have hadj' : o + v ≠ nk := by
        intro hh
        apply hadj
        rw [Nat.mod_eq_of_lt (by omega)]
        exact hh
      omega

/-- The merge into the left neighbour, for a block at `o` that already lies
strictly before every block after it. When the node of `it` is erased the
table is tight except that the merged block may end at `used`; otherwise the
map is unchanged and every block before `o` ends strictly before `o`. -/
theorem tight_mergeLeft (used peak : Nat) (live : List (Nat × Nat)) (o : Nat)
    (m : FreeMap) (v : Nat) (hpk : peak < SIZE_MOD) (hv : 0 < v)
    (hI : MergeInv (FreeSpace used peak live) noOverlap o m v)
    (hT : TightMid used live o m v)
    (hright : ∀ e ∈ m, o < e.1 → o + v < e.1) :
    KeysAscending (mergeLeft m o v).blocks ∧
    (∀ e ∈ (mergeLeft m o v).blocks, 0 < e.2) ∧
    ((mergeLeft m o v).itErased = true →
      (∀ e ∈ (mergeLeft m o v).blocks, e.1 ≠ o ∧ (e.1 + e.2 < used ∨ e.1 + e.2 = o + v)) ∧
      (∀ e1 ∈ (mergeLeft m o v).blocks, ∀ e2 ∈ (mergeLeft m o v).blocks,
        e1.1 < e2.1 → e1.1 + e1.2 < e2.1) ∧
      Covered used live (mergeLeft m o v).blocks) ∧
    ((mergeLeft m o v).itErased = false →
      (mergeLeft m o v).blocks = m ∧ ∀ e ∈ m, e.1 < o → e.1 + e.2 < o) := by
  obtain ⟨ia, ib, ic, id⟩ := hI
  obtain ⟨tK, tmem, tpos, tlt, tpair, tcov⟩ := hT
  have hov : o + v ≤ peak := ic.2.1
  simp only at hov
  -- every block that starts before `o` ends at or before `o`
  have hbefore : ∀ e ∈ m, e.1 < o → e.1 + e.2 ≤ o := by
    intro e he hlt
    have := noOverlap_apart (id e he (by omega)) hv (tpos e he)
    simp only at this
    omega
  unfold mergeLeft
  cases hp : mapPrev m o with
  | none =>
    refine ⟨tK, tpos, fun h => absurd h (by simp), fun _ => ⟨rfl, ?_⟩⟩
    intro e he hlt
    have := mapPrev_none hp e he
    omega
  | some p =>
    obtain ⟨pk, pv⟩ := p
    have hpm := (mapPrev_mem hp).1
    have hpk' : pk < o := (mapPrev_mem hp).2
    have hgreatest := mapPrev_greatest tK hp
    simp only at hgreatest
    have hpend : pk + pv ≤ peak := (ia _ hpm).2.1
    simp only
    split_ifs with hadj
    · rw [Nat.mod_eq_of_lt (by omega)] at hadj
      have hsum : (pv + v) % SIZE_MOD = pv + v := Nat.mod_eq_of_lt (by omega)
      simp only [hsum]
      have hin : (pk, pv + v) ∈ mapErase (mapAssign m pk (pv + v)) o :=
        mem_mapErase.2 ⟨mem_mapAssign_self _ _ _, by simp only; omega⟩
      have hcases : ∀ e ∈ mapErase (mapAssign m pk (pv + v)) o,
          e = (pk, pv + v) ∨ (e ∈ m ∧ e.1 ≠ o) := by
        intro e he
        rw [mem_mapErase] at he
        rcases mem_mapAssign he.1 with h | h
        · exact Or.inl h
        · exact Or.inr ⟨h, he.2⟩
      refine ⟨keysAscending_mapErase _ (keysAscending_mapAssign _ _ tK), ?_,
        fun _ => ⟨?_, ?_, ?_⟩, fun h => absurd h (by simp)⟩
      · intro e he
        rcases hcases e he with h | h
        · rw [h]; simp only; omega
        · exact tpos e h.1
      · intro e he
        rcases hcases e he with h | h
        · rw [h]; simp only; omega
        · exact ⟨h.2, Or.inl (tlt e h.1 h.2)⟩
      · intro e1 he1 e2 he2 hlt
        rcases hcases e1 he1 with h | h <;> rcases hcases e2 he2 with h' | h'
        · rw [h, h'] at hlt; simp only at hlt; omega
        · rw [h] at hlt ⊢
          simp only at hlt ⊢
          have hgt : o < e2.1 := by
            by_contra hle
            have := hgreatest e2 h'.1 (by have := h'.2; omega)
            omega
          have := hright e2 h'.1 hgt
          omega
        · rw [h'] at hlt ⊢
          simp only at hlt ⊢
          have := tpair e1 h.1 (pk, pv) hpm h.2 (by simp only; omega) hlt
          simp only at this
          omega
        · exact tpair e1 h.1 e2 h'.1 h.2 h'.2 hlt
      · intro x hx
        rcases tcov x hx with hl | ⟨e, he, hin'⟩
        · exact Or.inl hl
        · right
          by_cases h1 : e.1 = o
          · have : e = (o, v) := keys_unique tK he tmem h1
            subst this
            refine ⟨(pk, pv + v), hin, ?_⟩
            unfold inRange at hin' ⊢
            simp only at hin' ⊢
            omega
          · by_cases h2 : e.1 = pk
            · have : e = (pk, pv) := keys_unique tK he hpm h2
              subst this
              refine ⟨(pk, pv + v), hin, ?_⟩
              unfold inRange at hin' ⊢
              simp only at hin' ⊢
              omega
            · exact ⟨e, mem_mapErase.2 ⟨mem_mapAssign_of_ne he h2, h1⟩, hin'⟩
    · refine ⟨tK, tpos, fun h => absurd h (by simp), fun _ => ⟨rfl, ?_⟩⟩
      intro e he hlt
      have h1 := hgreatest e he hlt
      have h2 := hbefore e he hlt
      have h3 := hbefore (pk, pv) hpm hpk'
      simp only at h3
      have hadj' : pk + pv ≠ o := by
        intro hh
        apply hadj
        rw [Nat.mod_eq_of_lt (by omega)]
        exact hh
      by_cases hk : e.1 = pk
      · have : e = (pk, pv) := keys_unique tK he hpm hk
        subst this
        simp only
        omega
      · have := tpair e he (pk, pv) hpm (by omega) (by simp only; omega) (by simp only; omega)
        simp only at this
        omega

section

attribute [local irreducible] getAlignedSize

theorem tight_free (s s' : Session) (total addr size : Nat) (hs : Safe s)
    (hb : PeakBound s total) (h : Tight s)
    (hstep : s.step (Call.free addr size) = some s') (hfit : total < SIZE_MOD)
    (hslip : s.a.freeReadsErased addr size = false) : Tight s' := by
  obtain ⟨w1, w2, w3, w4, w5⟩ := hs
  obtain ⟨hp, hup, hpt, hbb, hbl⟩ := hb
  obtain ⟨t1, t2, t3, t4, t5⟩ := h
  simp only [Session.step] at hstep
  split_ifs at hstep with hlive
  simp only [Option.some.injEq] at hstep
  subst hstep
  have hmem := hlive.1
  have hpos : 0 < getAlignedSize size := t4 _ hmem
  have hr2 := w2 _ hmem
  have hrp := hbl _ hmem
  simp only [liveRange] at hr2 hrp
  have hpk : s.a.peak < SIZE_MOD := by omega
  have hothers : ∀ l ∈ s.live.erase (addr, size),
      noOverlap (liveRange (addr, size)) (liveRange l) :=
    pairwise_erase_rel (fun x y => noOverlap (liveRange x) (liveRange y))
      (fun x y hxy => noOverlap_symm _ _ hxy) s.live (addr, size) w3 hmem
  have t4' : ∀ l ∈ s.live.erase (addr, size), 0 < (liveRange l).2 :=
    fun l hl => t4 l (List.mem_of_mem_erase hl)
  -- no block is stored under the freed offset
  have habsent : ∀ e ∈ s.a.freeBlocks, e.1 ≠ addr := by
    intro e he hk
    have h1 := noOverlap_apart (w4 _ hmem e he) hpos (t2 e he).1
    have h2 := (t2 e he).1
    simp only [liveRange] at h1
    omega
  -- the state after the insertion
  have hI1 := mergeInv_insert (FreeSpace s.a.used s.a.peak (s.live.erase (addr, size)))
    noOverlap s.a.freeBlocks addr (getAlignedSize size) noOverlap_symm
    (fun e he => ⟨Or.inr (le_of_lt (t2 e he).2), hbb e he,
      fun l hl => w4 l (List.mem_of_mem_erase hl) e he⟩)
    ⟨hr2, hrp, fun l hl => noOverlap_symm _ _ (hothers l hl)⟩
    w5
    (fun e he _ => w4 _ hmem e he)
  have hT1 := tightMid_insert s.a.used s.live s.a.freeBlocks addr size t1 t2 t3 t5 hpos habsent
  have hfind : mapFind (mapInsert s.a.freeBlocks addr (getAlignedSize size)) addr
      = some (getAlignedSize size) := mapFind_of_mem hT1.1 hT1.2.1
  simp only [hfind, Option.getD_some] at hI1
  -- the state after the merge with the right neighbour
  have hI2 := mergeInv_mergeRight (FreeSpace s.a.used s.a.peak (s.live.erase (addr, size)))
    noOverlap (mapInsert s.a.freeBlocks addr (getAlignedSize size)) addr (getAlignedSize size)
    noOverlap_symm
    (fun v n => freeSpace_mergeRight s.a.used s.a.peak _ addr hpk v n)
    (fun v n e => noOverlap_mergeRight s.a.used s.a.peak _ addr hpk v n e)
    hI1
  obtain ⟨hT2, hv2, hright⟩ := tightMid_mergeRight s.a.used s.a.peak
    (s.live.erase (addr, size)) addr _ _ hpk hpos hI1 hT1
  -- the state after the merge with the left neighbour
  obtain ⟨fK, fpos, fer, fkeep⟩ := tight_mergeLeft s.a.used s.a.peak
    (s.live.erase (addr, size)) addr _ _ hpk hv2 hI2 hT2 hright
  have hms : freeMerge s.a.freeBlocks addr (getAlignedSize size) =
      mergeLeft (mergeRight (mapInsert s.a.freeBlocks addr (getAlignedSize size)) addr
        (getAlignedSize size)).1 addr
        (mergeRight (mapInsert s.a.freeBlocks addr (getAlignedSize size)) addr
          (getAlignedSize size)).2 := by
    unfold freeMerge
    simp only [hfind, Option.getD_some]
  have hsecond : (freeMerge s.a.freeBlocks addr (getAlignedSize size)).itSecond =
      (mergeRight (mapInsert s.a.freeBlocks addr (getAlignedSize size)) addr
          (getAlignedSize size)).2 := by
    rw [hms, mergeLeft_itSecond]
  have hend := hI2.2.2.1
  obtain ⟨hend1, hend2, _⟩ := hend
  simp only at hend1 hend2
  obtain ⟨mK, mmem, mpos, mlt, mpair, mcov⟩ := hT2
  by_cases ht : (addr + (freeMerge s.a.freeBlocks addr (getAlignedSize size)).itSecond)
      % SIZE_MOD = s.a.used
  · -- the block ends at `used`; the node of `it` is still there
    have hne : (freeMerge s.a.freeBlocks addr (getAlignedSize size)).itErased = false := by
      unfold Allocator.freeReadsErased at hslip
      simp only [freeMerge_itFirst, Bool.and_eq_false_imp, decide_eq_true_eq] at hslip
      cases hE : (freeMerge s.a.freeBlocks addr (getAlignedSize size)).itErased with
      | false => rfl
      | true => exact absurd ht (by simpa using hslip hE)
    rw [free_of_tail s.a addr size hp ht hne]
    rw [hsecond, Nat.mod_eq_of_lt (by omega)] at ht
    rw [hms] at hne ⊢
    obtain ⟨hblocks, hleft⟩ := fkeep hne
    rw [hblocks]
    refine ⟨keysAscending_mapErase _ mK, ?_, ?_, t4', ?_⟩
    · intro e he
      rw [mem_mapErase] at he
      refine ⟨mpos e he.1, ?_⟩
      simp only
      rcases Nat.lt_or_gt_of_ne he.2 with hlt | hgt
      · exact hleft e he.1 hlt
      · have := hright e he.1 hgt
        have := mlt e he.1 he.2
        omega
    · intro e1 he1 e2 he2 hlt
      rw [mem_mapErase] at he1 he2
      exact mpair e1 he1.1 e2 he2.1 he1.2 he2.2 hlt
    · intro x hx
      simp only at hx
      rcases mcov x (by omega) with hl | ⟨e, he, hin⟩
      · exact Or.inl hl
      · right
        refine ⟨e, mem_mapErase.2 ⟨he, ?_⟩, hin⟩
        intro hk
        have : e = (addr, _) := keys_unique mK he mmem hk
        rw [this] at hin
        unfold inRange at hin
        simp only at hin
        omega
  · rw [free_of_not_tail s.a addr size hp ht]
    rw [hsecond, Nat.mod_eq_of_lt (by omega)] at ht
    have hlt : addr + (mergeRight (mapInsert s.a.freeBlocks addr (getAlignedSize size)) addr
        (getAlignedSize size)).2 < s.a.used := by omega
    rw [hms]
    cases hE : (mergeLeft (mergeRight (mapInsert s.a.freeBlocks addr (getAlignedSize size)) addr
        (getAlignedSize size)).1 addr
        (mergeRight (mapInsert s.a.freeBlocks addr (getAlignedSize size)) addr
          (getAlignedSize size)).2).itErased with
    | true =>
      obtain ⟨e1, e2, e3⟩ := fer hE
      refine ⟨fK, ?_, e2, t4', e3⟩
      intro e he
      have := (e1 e he).2
      exact ⟨fpos e he, by simp only; omega⟩
    | false =>
      obtain ⟨hblocks, hleft⟩ := fkeep hE
      simp only [hblocks]
      refine ⟨mK, ?_, ?_, t4', mcov⟩
      · intro e he
        refine ⟨mpos e he, ?_⟩
        by_cases hk : e.1 = addr
        · have : e = (addr, _) := keys_unique mK he mmem hk
          rw [this]
          exact hlt
        · exact mlt e he hk
      · intro e1 he1 e2 he2 hlt'
        by_cases hk1 : e1.1 = addr
        · have : e1 = (addr, _) := keys_unique mK he1 mmem hk1
          rw [this] at hlt' ⊢
          exact hright e2 he2 hlt'
        · by_cases hk2 : e2.1 = addr
          · have h2' := hleft e1 he1 (by omega)
            omega
          · exact mpair e1 he1 e2 he2 hk1 hk2 hlt'

theorem tight_run (cs : List Call) : ∀ (s s' : Session) (total : Nat),
    Safe s → PeakBound s total → Tight s → s.run cs = some s' →
    total + totalAligned cs < SIZE_MOD → positiveSizes cs → s.readsErased cs = false →
    Tight s' := by
  induction cs with
  | nil =>
    intro s s' total _ _ h hrun _ _ _
    simp only [Session.run, Option.some.injEq] at hrun
    subst hrun
    exact h
  | cons c cs ih =>
    intro s s' total hs hb h hrun hfit hpos hslip
    simp only [Session.run] at hrun
    cases hstep : s.step c with
    | none => simp [hstep] at hrun
    | some s1 =>
      simp only [hstep] at hrun
      rw [totalAligned_cons] at hfit
      cases c with
      | alloc size =>
        simp only [callAligned] at hfit
        simp only [Session.readsErased, hstep] at hslip
        simp only [positiveSizes] at hpos
        exact ih s1 s' (total + getAlignedSize size)
          (safe_alloc s s1 total size hs hb hstep (by omega))
          (peakBound_alloc s s1 total size hb hstep (by omega))
          (tight_alloc s s1 total size hs hb h hstep (by omega)
            (getAlignedSize_pos size hpos.1 hpos.2.1))
          hrun (by omega) hpos.2.2 hslip
      | free addr size =>
        simp only [callAligned] at hfit
        simp only [Session.readsErased, hstep, Bool.or_eq_false_iff] at hslip
        simp only [positiveSizes] at hpos
        exact ih s1 s' total
          (safe_free s s1 total addr size hs hb hstep (by omega) hslip.1)
          (peakBound_free s s1 total addr size hb hstep (by omega))
          (tight_free s s1 total addr size hs hb h hstep (by omega) hslip.1)
          hrun (by omega) hpos hslip.2

/-- A tight table with nothing live is the empty arena. -/
theorem tight_empty (s : Session) (h : Tight s) (hlive : s.live = []) :
    s.a.used = 0 ∧ s.a.freeBlocks = [] := by
  obtain ⟨_, t2, _, _, t5⟩ := h
  have hused : s.a.used = 0 := by
    by_contra hne
    rcases t5 (s.a.used - 1) (by omega) with ⟨l, hl, _⟩ | ⟨e, he, hin⟩
    · rw [hlive] at hl; simp at hl
    · have := (t2 e he).2
      unfold inRange at hin
      omega
  refine ⟨hused, ?_⟩
  rw [List.eq_nil_iff_forall_not_mem]
  intro e he
  have := (t2 e he).2
  omega

end

/-! ## Freeing everything -/

/-- C2, as amended. Along every run of `alloc` and `free` calls from a fresh
allocator in which each `free` releases one live allocation, every requested
size is from 1 to 2^64 - 8, the aligned sizes add up to less than 2^64 and no
`free` lowers `used` through an erased iterator (`Session.readsErased`): once
nothing is live, `used` is 0 and the free-block table is empty. -/
theorem free_all_returns_to_empty (calls : List Call) (s : Session)
    (hrun : Session.init.run calls = some s) (hpos : positiveSizes calls)
    (hfit : totalAligned calls < SIZE_MOD)
    (hslip : Session.init.readsErased calls = false) (hlive : s.live = []) :
    s.a.used = 0 ∧ s.a.freeBlocks = [] := by
  have h := tight_run calls Session.init s 0 safe_init peakBound_init tight_init hrun
    (by omega) hpos hslip
  exact tight_empty s h hlive

/-- C2, counterexample outside the slip of `free`. A zero-size request leaves a
block of size 0 under offset 0, where `insert` then keeps it instead of the 16
bytes freed there; and three requests that wrap `used` leave `used = 8` and a
block of size 0. Neither run reads an erased iterator. -/
theorem free_all_leaves_arena_not_empty :
    (Session.init.run [Call.alloc 0, Call.alloc 16, Call.free 0 0, Call.free 0 16] =
      some { a := { used := 16, peak := 16, ptr := none, freeBlocks := [(0, 0)] },
             live := [] } ∧
     Session.init.readsErased [Call.alloc 0, Call.alloc 16, Call.free 0 0, Call.free 0 16]
      = false) ∧
    (Session.init.run [Call.alloc 9223372036854775808, Call.alloc 9223372036854775808,
        Call.alloc 8, Call.free 0 9223372036854775808, Call.free 0 8,
        Call.free 9223372036854775808 9223372036854775808] =
      some { a := { used := 8, peak := 9223372036854775808, ptr := none,
                    freeBlocks := [(0, 0)] },
             live := [] } ∧
     Session.init.readsErased [Call.alloc 9223372036854775808,
        Call.alloc 9223372036854775808, Call.alloc 8, Call.free 0 9223372036854775808,
        Call.free 0 8, Call.free 9223372036854775808 9223372036854775808] = false) := by
  decide

theorem free_all_returns_to_empty_witness :
    Session.init.run [Call.alloc 16, Call.alloc 32, Call.alloc 16, Call.free 48 16,
        Call.free 16 32, Call.free 0 16] =
      some { a := { used := 0, peak := 64, ptr := none, freeBlocks := [] }, live := [] } ∧
    positiveSizes [Call.alloc 16, Call.alloc 32, Call.alloc 16, Call.free 48 16,
        Call.free 16 32, Call.free 0 16] ∧
    totalAligned [Call.alloc 16, Call.alloc 32, Call.alloc 16, Call.free 48 16,
        Call.free 16 32, Call.free 0 16] < SIZE_MOD ∧
    Session.init.readsErased [Call.alloc 16, Call.alloc 32, Call.alloc 16, Call.free 48 16,
        Call.free 16 32, Call.free 0 16] = false ∧
    (({ used := 0, peak := 64, ptr := none, freeBlocks := [] } : Allocator).used = 0 ∧
      ({ used := 0, peak := 64, ptr := none, freeBlocks := [] } : Allocator).freeBlocks = []) :=
  ⟨by decide, by simp [positiveSizes, SIZE_MOD], by decide, by decide,
    free_all_returns_to_empty
      [Call.alloc 16, Call.alloc 32, Call.alloc 16, Call.free 48 16, Call.free 16 32,
        Call.free 0 16]
      { a := { used := 0, peak := 64, ptr := none, freeBlocks := [] }, live := [] }
      (by decide) (by simp [positiveSizes, SIZE_MOD]) (by decide) (by decide) rfl⟩

/-! ## The table keeps its keys in ascending order -/

theorem keysAscending_mergeRight {m : FreeMap} (o v : Nat) (h : KeysAscending m) :
    KeysAscending (mergeRight m o v).1 := by
  unfold mergeRight
  split
  · split_ifs
    · exact keysAscending_mapErase _ (keysAscending_mapAssign _ _ h)
    · exact h
  · exact h

theorem keysAscending_mergeLeft {m : FreeMap} (o v : Nat) (h : KeysAscending m) :
    KeysAscending (mergeLeft m o v).blocks := by
  unfold mergeLeft
  split
  · split_ifs
    · exact keysAscending_mapErase _ (keysAscending_mapAssign _ _ h)
    · exact h
  · exact h

theorem keysAscending_freeMerge {m : FreeMap} (o s : Nat) (h : KeysAscending m) :
    KeysAscending (freeMerge m o s).blocks := by
  unfold freeMerge
  exact keysAscending_mergeLeft _ _ (keysAscending_mergeRight _ _ (keysAscending_mapInsert _ _ h))

theorem alloc_keysAscending (a : Allocator) (size : Nat) (h : KeysAscending a.freeBlocks) :
    KeysAscending (a.alloc size).state.freeBlocks := by
  by_cases hp : a.ptr = none
  · rcases bestFitScan_initial (getAlignedSize size) a.freeBlocks with
      ⟨h1, _⟩ | ⟨⟨k, v⟩, _, h1, _, _⟩
    · rw [alloc_of_not_found a size hp h1]; exact h
    · rw [alloc_of_found a size k v hp h1]
      simp only
      split_ifs
      · exact keysAscending_mapAssign _ _ (keysAscending_mapErase _ h)
      · exact keysAscending_mapErase _ h
  · rw [alloc_of_materialised a size hp]; exact h

theorem free_keysAscending (a : Allocator) (addr size : Nat) (h : KeysAscending a.freeBlocks) :
    KeysAscending (a.free addr size).state.freeBlocks := by
  have key := keysAscending_freeMerge addr (getAlignedSize size) h
  by_cases hp : a.ptr = none
  · by_cases ht : (addr + (freeMerge a.freeBlocks addr (getAlignedSize size)).itSecond)
        % SIZE_MOD = a.used
    · cases he : (freeMerge a.freeBlocks addr (getAlignedSize size)).itErased with
      | true => rw [free_of_erased_tail a addr size hp ht he]; exact h
      | false =>
        rw [free_of_tail a addr size hp ht he]
        exact keysAscending_mapErase _ key
    · rw [free_of_not_tail a addr size hp ht]
      exact key
  · rw [free_of_materialised a addr size hp]; exact h

/-- In every reachable state the list that stands for `freeBlocks` has strictly
ascending keys, as the `std::map` it stands for. -/
theorem reachable_keysAscending {a : Allocator} (h : a.Reachable) :
    KeysAscending a.freeBlocks := by
  induction h with
  | fresh => simp [Allocator.fresh, KeysAscending]
  | alloc a size _ _ ih => exact alloc_keysAscending a size ih
  | free a addr size _ _ _ _ ih => exact free_keysAscending a addr size ih

/-- What `free` does in every state on the erased-iterator path: when the block
has been merged into its left neighbour and the fields of the erased node add up
to `used`, the call erases the erased node again and does not return. -/
theorem free_after_left_merge_at_tail (a : Allocator) (addr size : Nat) (hp : a.ptr = none)
    (h : a.freeReadsErased addr size = true) :
    (a.free addr size).undefined = true :=
  (free_undefined_iff a addr size hp).2 h

/-! ## Shape inference -/

theorem vecAt_of_lt (v : List Int) (i : Nat) (h : i < v.length) :
    vecAt v (i : Int) = Outcome.value (v.get ⟨i, h⟩) := by
  unfold vecAt
  have h1 : (0 : Int) ≤ (i : Int) ∧ (i : Int) < (v.length : Int) := ⟨by omega, by omega⟩
  rw [if_pos h1]
  simp [List.getElem?_eq_getElem h]

theorem vecAt_eq_value (v : List Int) (i : Nat) (x : Int) (h : v[i]? = some x) :
    vecAt v (i : Int) = Outcome.value x := by
  obtain ⟨hlt, hx⟩ := List.getElem?_eq_some_iff.1 h
  rw [vecAt_of_lt v i hlt]
  simp [List.get_eq_getElem, hx]

/-- The prefix loop of `isSwapLastTwo` stays inside the vector and tells whether
the entries it visits are the identity. -/
theorem swapPrefixLoop_spec (perm : List Int) (n i : Nat) (h : i + n ≤ perm.length) :
    ∃ b, swapPrefixLoop perm n (i : Int) = Outcome.value b ∧
      (b = true ↔ ∀ j, i ≤ j → j < i + n → perm[j]? = some (j : Int)) := by
  induction n generalizing i with
  | zero =>
    refine ⟨true, rfl, ?_⟩
    simp only [true_iff]
    intro j h1 h2
    omega
  | succ n ih =>
    have hi : i < perm.length := by omega
    unfold swapPrefixLoop
    rw [vecAt_of_lt perm i hi]
    simp only [Outcome.bind]
    by_cases hp : perm.get ⟨i, hi⟩ = (i : Int)
    · rw [if_neg (by simpa using hp)]
      obtain ⟨b, hb, hiff⟩ := ih (i + 1) (by omega)
      refine ⟨b, by simpa using hb, ?_⟩
      rw [hiff]
      constructor
      · intro hall j h1 h2
        rcases Nat.eq_or_lt_of_le h1 with h3 | h3
        · subst h3
          rw [List.getElem?_eq_getElem hi]
          simpa [List.get_eq_getElem] using hp
        · exact hall j (by omega) (by omega)
      · intro hall j h1 h2
        exact hall j (by omega) (by omega)
    · rw [if_pos (by simpa using hp)]
      refine ⟨false, rfl, ?_⟩
      simp only [Bool.false_eq_true, false_iff]
      intro hall
      have := hall i (le_refl _) (by omega)
      rw [List.getElem?_eq_getElem hi] at this
      apply hp
      simpa [List.get_eq_getElem] using this

/-- What `isSwapLastTwo` returns, for every vector. -/
theorem isSwapLastTwo_spec (perm : List Int) :
    ∃ b, isSwapLastTwo perm = Outcome.value b ∧
      (b = true ↔
        2 ≤ perm.length ∧
        (∀ i, i < perm.length - 2 → perm[i]? = some (i : Int)) ∧
        perm[perm.length - 2]? = some ((perm.length : Int) - 1) ∧
        perm[perm.length - 1]? = some ((perm.length : Int) - 2)) ∧
      (perm.length < 2 → b = false) := by
  unfold isSwapLastTwo
  by_cases hr : perm.length < 2
  · have hr2 : ((perm.length : Nat) : Int) < 2 := by omega
    simp only [hr2, if_true]
    refine ⟨false, rfl, ?_, fun _ => rfl⟩
    simp only [Bool.false_eq_true, false_iff]
    intro h
    omega
  · have hr2 : ¬ ((perm.length : Nat) : Int) < 2 := by omega
    simp only [hr2, if_false]
    have hn : ((perm.length : Int) - 2).toNat = perm.length - 2 := by omega
    rw [hn]
    obtain ⟨b, hb, hiff⟩ := swapPrefixLoop_spec perm (perm.length - 2) 0 (by omega)
    have hb0 : swapPrefixLoop perm (perm.length - 2) 0 = Outcome.value b := by simpa using hb
    rw [hb0]
    simp only [Outcome.bind]
    have e1 : (perm.length : Int) - 1 = ((perm.length - 1 : Nat) : Int) := by omega
    have e2 : (perm.length : Int) - 2 = ((perm.length - 2 : Nat) : Int) := by omega
    have l1 : perm.length - 1 < perm.length := by omega
    have l2 : perm.length - 2 < perm.length := by omega
    have g1 : perm[perm.length - 1]? = some (perm.get ⟨perm.length - 1, l1⟩) := by
      rw [List.getElem?_eq_getElem l1]; rfl
    have g2 : perm[perm.length - 2]? = some (perm.get ⟨perm.length - 2, l2⟩) := by
      rw [List.getElem?_eq_getElem l2]; rfl
    have hpre : (∀ j, 0 ≤ j → j < 0 + (perm.length - 2) → perm[j]? = some (j : Int)) ↔
        (∀ i, i < perm.length - 2 → perm[i]? = some (i : Int)) := by
      constructor
      · intro h i hi; exact h i (Nat.zero_le _) (by omega)
      · intro h j _ hj; exact h j (by omega)
    rw [hpre] at hiff
    cases b with
    | false =>
      simp only [if_true]
      refine ⟨false, rfl, ?_, fun h => absurd h hr⟩
      simp only [Bool.false_eq_true, false_iff]
      intro h
      have := hiff.2 h.2.1
      simp at this
    | true =>
      have hall := hiff.1 rfl
      simp only [Bool.true_eq_false, if_false]
      rw [e1, vecAt_of_lt perm _ l1]
      simp only [Outcome.bind]
      by_cases hlast : perm.get ⟨perm.length - 1, l1⟩ = (perm.length : Int) - 2
      · rw [← e1, if_pos hlast, e2, vecAt_of_lt perm _ l2]
        simp only [Outcome.bind]
        refine ⟨_, rfl, ?_, fun h => absurd h hr⟩
        rw [decide_eq_true_iff, g1, g2, ← e2]
        constructor
        · intro h
          exact ⟨by omega, hall, by rw [h], by rw [hlast]⟩
        · intro h
          exact Option.some.inj h.2.2.1
      · rw [← e1, if_neg hlast]
        refine ⟨false, rfl, ?_, fun h => absurd h hr⟩
        simp only [Bool.false_eq_true, false_iff]
        intro h
        apply hlast
        rw [g1] at h
        exact Option.some.inj h.2.2.2

/-- C20. For every vector `perm`, of length `r`, `isSwapLastTwo` returns a value
without reading outside the vector; the value is true exactly when `r ≥ 2`,
`perm[i] = i` for every `i < r - 2`, `perm[r-2] = r-1` and `perm[r-1] = r-2`;
so it is false for every vector of length 0 or 1. -/
theorem isSwapLastTwo_iff_swaps_last_two (perm : List Int) :
    ∃ b, isSwapLastTwo perm = Outcome.value b ∧
      (b = true ↔
        2 ≤ perm.length ∧
        (∀ i, i < perm.length - 2 → perm[i]? = some (i : Int)) ∧
        perm[perm.length - 2]? = some ((perm.length : Int) - 1) ∧
        perm[perm.length - 1]? = some ((perm.length : Int) - 2)) ∧
      (perm.length < 2 → b = false) :=
  isSwapLastTwo_spec perm

theorem vecAt_of_range (v : List Int) (p : Int) (h0 : 0 ≤ p) (h1 : p < v.length) :
    vecAt v p = Outcome.value (v.getD p.toNat 0) := by
  obtain ⟨k, rfl⟩ := Int.eq_ofNat_of_zero_le h0
  have hk : k < v.length := by omega
  rw [vecAt_of_lt v k hk]
  simp [List.getD_eq_getElem?_getD, List.getElem?_eq_getElem hk, List.get_eq_getElem]

/-- The copy loop of `TransposeObj::inferShape` writes, for each index it visits,
the input dimension the permutation names. -/
theorem transposeLoop_spec (perm : List Int) (dims : Shape)
    (hrange : ∀ p ∈ perm, 0 ≤ p ∧ p < dims.length) (n i : Nat) (h : i + n ≤ perm.length) :
    transposeLoop perm dims n (i : Int) =
      Outcome.value (((perm.drop i).take n).map (fun p => dims.getD p.toNat 0)) := by
  induction n generalizing i with
  | zero => simp [transposeLoop]
  | succ n ih =>
    have hi : i < perm.length := by omega
    have hmem : perm.get ⟨i, hi⟩ ∈ perm := List.get_mem perm i hi
    unfold transposeLoop
    rw [vecAt_of_lt perm i hi]
    simp only [Outcome.bind]
    rw [vecAt_of_range dims _ (hrange _ hmem).1 (hrange _ hmem).2]
    simp only [Outcome.bind]
    have := ih (i + 1) (by omega)
    rw [show ((i : Int) + 1) = ((i + 1 : Nat) : Int) by omega, this]
    simp only [Outcome.bind]
    rw [List.drop_eq_getElem_cons hi, List.take_succ_cons, List.map_cons]
    rfl

theorem map_getD_range (l : List Int) :
    (List.range l.length).map (fun i => l.getD i 0) = l := by
  apply List.ext_getElem
  · simp
  · intro i h1 h2
    simp [List.getD_eq_getElem?_getD, List.getElem?_eq_getElem h2]

/-- C17. For an input shape of rank `r` and a permutation `perm` of `0..r-1`,
`TransposeObj::inferShape` returns the single shape `out` of rank `r` with
`out[i] = in[perm[i]]` for every `i`; `out` is a rearrangement of the input
dimensions. -/
theorem transpose_inferShape_permutes (perm : List Int) (dims : Shape)
    (hperm : perm.Perm ((List.range dims.length).map Int.ofNat)) :
    ∃ out, TransposeObj.inferShape perm dims = Outcome.value [out] ∧
      out.length = dims.length ∧
      (∀ (i : Nat) (p : Int), perm[i]? = some p → out[i]? = dims[p.toNat]? ∧ out[i]? ≠ none) ∧
      out.Perm dims := by
  have hlen : perm.length = dims.length := by simpa using hperm.length_eq
  have hrange : ∀ p ∈ perm, 0 ≤ p ∧ p < dims.length := by
    intro p hp
    have := (hperm.mem_iff).1 hp
    simp only [List.mem_map, List.mem_range] at this
    obtain ⟨k, hk, rfl⟩ := this
    simp only [Int.ofNat_eq_coe]
    exact ⟨by omega, by omega⟩
  have hloop := transposeLoop_spec perm dims hrange dims.length 0 (by omega)
  refine ⟨perm.map (fun p => dims.getD p.toNat 0), ?_, by simp [hlen], ?_, ?_⟩
  · unfold TransposeObj.inferShape
    have h0 : transposeLoop perm dims dims.length 0 =
        Outcome.value (perm.map (fun p => dims.getD p.toNat 0)) := by
      have := hloop
      simp only [Nat.cast_zero, List.drop_zero] at this
      rw [this, ← hlen, List.take_length]
    rw [h0]
    rfl
  · intro i p hp
    have hpm : p ∈ perm := List.getElem?_mem hp
    have hr := hrange p hpm
    have hlt : p.toNat < dims.length := by omega
    simp [List.getElem?_map, hp, List.getD_eq_getElem?_getD, List.getElem?_eq_getElem hlt]
  · have h1 := hperm.map (fun p : Int => dims.getD p.toNat 0)
    refine h1.trans ?_
    rw [List.map_map]
    have : ((fun p : Int => dims.getD p.toNat 0) ∘ Int.ofNat) =
        fun i => dims.getD i 0 := by
      funext i; simp
    rw [this, map_getD_range]

theorem transpose_inferShape_permutes_witness :
    TransposeObj.inferShape [0, 2, 1] [2, 3, 4] = Outcome.value [[2, 4, 3]] ∧
    ∃ out, TransposeObj.inferShape [0, 2, 1] [2, 3, 4] = Outcome.value [out] ∧
      out.length = ([2, 3, 4] : Shape).length ∧
      (∀ (i : Nat) (p : Int), ([0, 2, 1] : List Int)[i]? = some p →
        out[i]? = ([2, 3, 4] : Shape)[p.toNat]? ∧ out[i]? ≠ none) ∧
      out.Perm [2, 3, 4] :=
  ⟨by decide, transpose_inferShape_permutes [0, 2, 1] [2, 3, 4] (by decide)⟩

theorem vecAt_append_last (b : Shape) (x y : Int) :
    vecAt (b ++ [x, y]) (((b ++ [x, y]).length : Int) - 1) = Outcome.value y := by
  have h : (((b ++ [x, y]).length : Int) - 1) = ((b.length + 1 : Nat) : Int) := by
    simp; omega
  rw [h]
  apply vecAt_eq_value
  rw [List.getElem?_append_right (by omega)]
  simp

theorem vecAt_append_before (b : Shape) (x y : Int) :
    vecAt (b ++ [x, y]) (((b ++ [x, y]).length : Int) - 2) = Outcome.value x := by
  have h : (((b ++ [x, y]).length : Int) - 2) = ((b.length : Nat) : Int) := by
    simp
  rw [h]
  apply vecAt_eq_value
  rw [List.getElem?_append_right (by omega)]
  simp

theorem take_append_two (b : Shape) (x y : Int) :
    (b ++ [x, y]).take ((b ++ [x, y]).length - 2) = b := by
  simp

/-- The value of `MatmulObj::inferShape` on two shapes of rank at least 2, written
as batch dimensions followed by the last two dimensions. -/
theorem matmul_inferShape_append (broadcast : Shape → Shape → Outcome Shape)
    (transA transB : Bool) (bA bB : Shape) (a1 a2 b1 b2 : Int) :
    MatmulObj.inferShape broadcast transA transB (bA ++ [a1, a2]) (bB ++ [b1, b2]) =
      if (if transA then a1 else a2) ≠ (if transB then b2 else b1) then Outcome.fatal
      else (broadcast bA bB).bind fun r =>
        Outcome.value [r ++ [if transA then a2 else a1, if transB then b1 else b2]] := by
  unfold MatmulObj.inferShape
  rw [take_append_two, take_append_two]
  cases transA <;> cases transB <;>
    simp only [Bool.false_eq_true, if_false, if_true, vecAt_append_last, vecAt_append_before,
      Outcome.bind]

theorem shape_split (s : Shape) (h : 2 ≤ s.length) :
    ∃ x y, s = s.take (s.length - 2) ++ [x, y] ∧
      s[s.length - 2]? = some x ∧ s[s.length - 1]? = some y := by
  have h1 : s.length - 2 < s.length := by omega
  have h2 : s.length - 1 < s.length := by omega
  refine ⟨s[s.length - 2], s[s.length - 1], ?_, List.getElem?_eq_getElem h1,
    List.getElem?_eq_getElem h2⟩
  apply List.ext_getElem?
  intro i
  by_cases hlt : i < s.length - 2
  · rw [List.getElem?_append_left (by simp; omega), List.getElem?_take_of_lt hlt]
  · rw [List.getElem?_append_right (by simp; omega)]
    have hmin : (List.take (s.length - 2) s).length = s.length - 2 := by simp
    rw [hmin]
    by_cases hc : i = s.length - 2
    · subst hc
      simp [List.getElem?_eq_getElem h1]
    · by_cases hc2 : i = s.length - 1
      · subst hc2
        have : s.length - 1 - (s.length - 2) = 1 := by omega
        rw [this]
        simp [List.getElem?_eq_getElem h2]
      · have hge : s.length ≤ i := by omega
        rw [List.getElem?_eq_none hge]
        have : 2 ≤ i - (s.length - 2) := by omega
        rw [List.getElem?_eq_none (by simpa using this)]

/-- C16, as amended. For shapes `A` and `B` of rank at least 2, with `(M, K_A)` the
last two dimensions of `A` (swapped when `transA`) and `(K_B, N)` the last two
dimensions of `B` (swapped when `transB`): `MatmulObj::inferShape` fails fatally
when `K_A` differs from `K_B`; otherwise it gives what `infer_broadcast` gives on
the two batch shapes, a failure included, with `[M, N]` appended to the shape. -/
theorem matmul_inferShape_spec (broadcast : Shape → Shape → Outcome Shape)
    (transA transB : Bool) (shapeA shapeB : Shape) (M KA KB N : Int)
    (hA : 2 ≤ shapeA.length) (hB : 2 ≤ shapeB.length)
    (hM : shapeA[shapeA.length - (if transA then 1 else 2)]? = some M)
    (hKA : shapeA[shapeA.length - (if transA then 2 else 1)]? = some KA)
    (hKB : shapeB[shapeB.length - (if transB then 1 else 2)]? = some KB)
    (hN : shapeB[shapeB.length - (if transB then 2 else 1)]? = some N) :
    MatmulObj.inferShape broadcast transA transB shapeA shapeB =
      if KA ≠ KB then Outcome.fatal
      else
        (broadcast (shapeA.take (shapeA.length - 2)) (shapeB.take (shapeB.length - 2))).bind
          fun resShape => Outcome.value [resShape ++ [M, N]] := by
  obtain ⟨a1, a2, hsA, ha1, ha2⟩ := shape_split shapeA hA
  obtain ⟨b1, b2, hsB, hb1, hb2⟩ := shape_split shapeB hB
  have e := matmul_inferShape_append broadcast transA transB
    (shapeA.take (shapeA.length - 2)) (shapeB.take (shapeB.length - 2)) a1 a2 b1 b2
  rw [← hsA, ← hsB] at e
  rw [e]
  cases transA <;> cases transB <;>
    simp only [Bool.false_eq_true, if_false, if_true] at hM hKA hKB hN ⊢ <;>
    · rw [ha1] at *
      rw [ha2] at *
      rw [hb1] at *
      rw [hb2] at *
      cases hM; cases hKA; cases hKB; cases hN
      rfl

/-- C16, counterexample. With the broadcasting rule of the spec, the shapes
`[2,3,4]` and `[3,4,5]` agree on `K = 4` and `MatmulObj::inferShape` still fails
fatally, on the batch dimensions 2 and 3. -/
theorem matmul_inferShape_fatal_on_batch :
    MatmulObj.inferShape infer_broadcast false false [2, 3, 4] [3, 4, 5] = Outcome.fatal ∧
    ([2, 3, 4] : Shape)[2]? = ([3, 4, 5] : Shape)[1]? := by
  decide

theorem matmul_inferShape_spec_witness :
    MatmulObj.inferShape infer_broadcast false false [2, 3, 4] [2, 4, 5] =
      Outcome.value [[2, 3, 5]] ∧
    MatmulObj.inferShape infer_broadcast false false [2, 3, 4] [2, 6, 5] = Outcome.fatal ∧
    MatmulObj.inferShape infer_broadcast false false [2, 3, 4] [2, 4, 5] =
      (if (4 : Int) ≠ 4 then Outcome.fatal
       else
        (infer_broadcast (([2, 3, 4] : Shape).take (([2, 3, 4] : Shape).length - 2))
          (([2, 4, 5] : Shape).take (([2, 4, 5] : Shape).length - 2))).bind
          fun resShape => Outcome.value [resShape ++ [3, 5]]) :=
  ⟨by decide, by decide,
    matmul_inferShape_spec infer_broadcast false false [2, 3, 4] [2, 4, 5] 3 4 4 5
      (by decide) (by decide) (by decide) (by decide) (by decide) (by decide)⟩

/-- A vector accepted by `isSwapLastTwo` is the identity followed by the last two
indices exchanged. -/
theorem swap_perm_form (perm : List Int) (h : isSwapLastTwo perm = Outcome.value true) :
    2 ≤ perm.length ∧
    perm = (List.range (perm.length - 2)).map Int.ofNat ++
      [(perm.length : Int) - 1, (perm.length : Int) - 2] := by
  obtain ⟨b, hb, hiff, _⟩ := isSwapLastTwo_spec perm
  rw [h] at hb
  cases hb
  obtain ⟨h2, hall, hx, hy⟩ := hiff.1 rfl
  refine ⟨h2, ?_⟩
  apply List.ext_getElem?
  intro i
  by_cases hlt : i < perm.length - 2
  · rw [List.getElem?_append_left (by simpa using hlt), hall i hlt]
    simp [List.getElem?_map, List.getElem?_range hlt]
  · rw [List.getElem?_append_right (by simp; omega)]
    simp only [List.length_map, List.length_range]
    by_cases hc : i = perm.length - 2
    · subst hc
      simp [hx]
    · by_cases hc2 : i = perm.length - 1
      · subst hc2
        have : perm.length - 1 - (perm.length - 2) = 1 := by omega
        rw [this, hy]
        simp
      · have hge : perm.length ≤ i := by omega
        rw [List.getElem?_eq_none hge]
        have : 2 ≤ i - (perm.length - 2) := by omega
        rw [List.getElem?_eq_none (by simpa using this)]

theorem map_getD_range_take (l : List Int) (n : Nat) (h : n ≤ l.length) :
    (List.range n).map (fun i => l.getD i 0) = l.take n := by
  apply List.ext_getElem?
  intro i
  by_cases hi : i < n
  · have hil : i < l.length := by omega
    rw [List.getElem?_take_of_lt hi]
    simp [List.getElem?_map, List.getElem?_range hi, List.getD_eq_getElem?_getD,
      List.getElem?_eq_getElem hil]
  · rw [List.getElem?_eq_none (by simpa using hi), List.getElem?_eq_none (by simp; omega)]

/-- A last-two-axes transpose of a shape keeps the batch dimensions and exchanges
the last two. -/
theorem transpose_swap_shape (perm : List Int) (bX : Shape) (x1 x2 : Int)
    (hswap : isSwapLastTwo perm = Outcome.value true)
    (hlen : perm.length = (bX ++ [x1, x2]).length) :
    TransposeObj.inferShape perm (bX ++ [x1, x2]) = Outcome.value [bX ++ [x2, x1]] := by
  obtain ⟨h2, hform⟩ := swap_perm_form perm hswap
  have hl : perm.length = bX.length + 2 := by simpa using hlen
  have hrange : ∀ p ∈ perm, 0 ≤ p ∧ p < (bX ++ [x1, x2]).length := by
    intro p hp
    rw [hform] at hp
    simp only [List.mem_append, List.mem_map, List.mem_range, List.mem_cons,
      List.mem_singleton, List.not_mem_nil, or_false] at hp
    rw [← hlen]
    rcases hp with ⟨k, hk, rfl⟩ | rfl | rfl
    · simp only [Int.ofNat_eq_coe]; omega
    · omega
    · omega
  have hloop := transposeLoop_spec perm (bX ++ [x1, x2]) hrange (bX ++ [x1, x2]).length 0
    (by omega)
  unfold TransposeObj.inferShape
  have h0 : transposeLoop perm (bX ++ [x1, x2]) (bX ++ [x1, x2]).length 0 =
      Outcome.value (perm.map (fun p => (bX ++ [x1, x2]).getD p.toNat 0)) := by
    have := hloop
    simp only [Nat.cast_zero, List.drop_zero] at this
    rw [this, ← hlen, List.take_length]
  rw [h0]
  simp only [Outcome.bind]
  congr 2
  have hform2 : perm = (List.range bX.length).map Int.ofNat ++
      [((bX.length + 1 : Nat) : Int), ((bX.length : Nat) : Int)] := by
    have e3 : perm.length - 2 = bX.length := by omega
    have e4 : (perm.length : Int) - 1 = ((bX.length + 1 : Nat) : Int) := by omega
    have e5 : (perm.length : Int) - 2 = ((bX.length : Nat) : Int) := by omega
    have hform3 := hform
    rw [e4, e5, e3] at hform3
    exact hform3
  rw [hform2, List.map_append, List.map_map]
  have hf : ((fun p : Int => (bX ++ [x1, x2]).getD p.toNat 0) ∘ Int.ofNat) =
      fun i => (bX ++ [x1, x2]).getD i 0 := by
    funext i; simp
  rw [hf, map_getD_range_take _ _ (by simp)]
  simp only [List.map_cons, List.map_nil, Int.toNat_ofNat, List.take_left]
  have g1 : (bX ++ [x1, x2]).getD (bX.length + 1) 0 = x2 := by
    rw [List.getD_eq_getElem?_getD, List.getElem?_append_right (by omega)]
    simp
  have g2 : (bX ++ [x1, x2]).getD bX.length 0 = x1 := by
    rw [List.getD_eq_getElem?_getD, List.getElem?_append_right (by omega)]
    simp
  rw [g1, g2]

/-- C18. For shapes `X` and `Y` of rank at least 2 and a last-two-axes swap `perm` of
the rank of `X`: `TransposeObj::inferShape` returns one shape `X'`, and
`MatmulObj::inferShape` on `(X', Y)` with flags `(tA, tB)` gives the same outcome,
failures included, as on `(X, Y)` with flags `(not tA, tB)`; likewise on
`(Y, X')` with `(tA, tB)` and on `(Y, X)` with `(tA, not tB)`. -/
theorem transpose_folds_into_matmul_shape (broadcast : Shape → Shape → Outcome Shape)
    (perm : List Int) (X Y : Shape) (tA tB : Bool)
    (hX : 2 ≤ X.length) (hY : 2 ≤ Y.length)
    (hswap : isSwapLastTwo perm = Outcome.value true) (hlen : perm.length = X.length) :
    ∃ X', TransposeObj.inferShape perm X = Outcome.value [X'] ∧
      MatmulObj.inferShape broadcast tA tB X' Y =
        MatmulObj.inferShape broadcast (!tA) tB X Y ∧
      MatmulObj.inferShape broadcast tA tB Y X' =
        MatmulObj.inferShape broadcast tA (!tB) Y X := by
  obtain ⟨x1, x2, hsX, _, _⟩ := shape_split X hX
  obtain ⟨y1, y2, hsY, _, _⟩ := shape_split Y hY
  generalize X.take (X.length - 2) = bX at hsX
  generalize Y.take (Y.length - 2) = bY at hsY
  subst hsX
  subst hsY
  refine ⟨bX ++ [x2, x1], transpose_swap_shape perm bX x1 x2 hswap hlen, ?_, ?_⟩
  · rw [matmul_inferShape_append, matmul_inferShape_append]
    cases tA <;> simp
  · rw [matmul_inferShape_append, matmul_inferShape_append]
    cases tB <;> simp

theorem transpose_folds_into_matmul_shape_witness :
    TransposeObj.inferShape [0, 2, 1] [2, 3, 4] = Outcome.value [[2, 4, 3]] ∧
    MatmulObj.inferShape infer_broadcast false false [2, 4, 3] [2, 3, 5] =
      Outcome.value [[2, 4, 5]] ∧
    MatmulObj.inferShape infer_broadcast true false [2, 3, 4] [2, 3, 5] =
      Outcome.value [[2, 4, 5]] ∧
    ∃ X', TransposeObj.inferShape [0, 2, 1] [2, 3, 4] = Outcome.value [X'] ∧
      MatmulObj.inferShape infer_broadcast false false X' [2, 3, 5] =
        MatmulObj.inferShape infer_broadcast (!false) false [2, 3, 4] [2, 3, 5] ∧
      MatmulObj.inferShape infer_broadcast false false [2, 3, 5] X' =
        MatmulObj.inferShape infer_broadcast false (!false) [2, 3, 5] [2, 3, 4] :=
  ⟨by decide, by decide, by decide,
    transpose_folds_into_matmul_shape infer_broadcast [0, 2, 1] [2, 3, 4] [2, 3, 5] false false
      (by decide) (by decide) (by decide) (by decide)⟩

/-! ## The free-block table -/

/-- C19, as amended. Along every run of `alloc` and `free` calls from a fresh
allocator in which each `free` releases one live allocation, every requested
size is from 1 to 2^64 - 8, the aligned sizes add up to less than 2^64 and no
`free` lowers `used` through an erased iterator (`Session.readsErased`): any two
blocks of the table lie apart with a gap between them (no overlap, not
adjacent), every block is non-empty and every block ends below `used`. -/
theorem free_blocks_apart_and_below_used (calls : List Call) (s : Session)
    (hrun : Session.init.run calls = some s) (hpos : positiveSizes calls)
    (hfit : totalAligned calls < SIZE_MOD)
    (hslip : Session.init.readsErased calls = false) :
    (∀ e1 ∈ s.a.freeBlocks, ∀ e2 ∈ s.a.freeBlocks, e1 ≠ e2 →
      e1.1 + e1.2 < e2.1 ∨ e2.1 + e2.2 < e1.1) ∧
    (∀ e ∈ s.a.freeBlocks, 0 < e.2 ∧ e.1 + e.2 < s.a.used) := by
  have h := tight_run calls Session.init s 0 safe_init peakBound_init tight_init hrun
    (by omega) hpos hslip
  obtain ⟨t1, t2, t3, _, _⟩ := h
  refine ⟨?_, t2⟩
  intro e1 h1 e2 h2 hne
  have hk : e1.1 ≠ e2.1 := fun hk => hne (keys_unique t1 h1 h2 hk)
  rcases Nat.lt_or_gt_of_ne hk with hlt | hgt
  · exact Or.inl (t3 e1 h1 e2 h2 hlt)
  · exact Or.inr (t3 e2 h2 e1 h1 hgt)

/-- C19, counterexample outside the slip of `free`. After `alloc(8)`, `alloc(0)`,
`free(0, 8)` the arena has shrunk to `used = 0` while the zero-size allocation
at offset 8 is live; `free(8, 0)` then leaves the block `(8, 0)`, which ends
above `used`. And after two requests of 2^63 bytes have wrapped `used` to 0,
`free(0, 2^63)` leaves a block of 2^63 bytes above `used = 0`. Neither run
reads an erased iterator. -/
theorem free_block_ends_above_used :
    (Session.init.run [Call.alloc 8, Call.alloc 0, Call.free 0 8, Call.free 8 0] =
      some { a := { used := 0, peak := 8, ptr := none, freeBlocks := [(8, 0)] },
             live := [] } ∧
     Session.init.readsErased [Call.alloc 8, Call.alloc 0, Call.free 0 8, Call.free 8 0]
      = false) ∧
    (Session.init.run [Call.alloc 9223372036854775808, Call.alloc 9223372036854775808,
        Call.free 0 9223372036854775808] =
      some { a := { used := 0, peak := 9223372036854775808, ptr := none,
                    freeBlocks := [(0, 9223372036854775808)] },
             live := [(9223372036854775808, 9223372036854775808)] } ∧
     Session.init.readsErased [Call.alloc 9223372036854775808,
        Call.alloc 9223372036854775808, Call.free 0 9223372036854775808] = false) := by
  decide

theorem free_blocks_apart_and_below_used_witness :
    Session.init.run [Call.alloc 16, Call.alloc 32, Call.alloc 16, Call.alloc 8,
        Call.free 16 32, Call.free 48 16] =
      some { a := { used := 72, peak := 72, ptr := none, freeBlocks := [(16, 48)] },
             live := [(64, 8), (0, 16)] } ∧
    positiveSizes [Call.alloc 16, Call.alloc 32, Call.alloc 16, Call.alloc 8,
        Call.free 16 32, Call.free 48 16] ∧
    totalAligned [Call.alloc 16, Call.alloc 32, Call.alloc 16, Call.alloc 8,
        Call.free 16 32, Call.free 48 16] < SIZE_MOD ∧
    Session.init.readsErased [Call.alloc 16, Call.alloc 32, Call.alloc 16, Call.alloc 8,
        Call.free 16 32, Call.free 48 16] = false ∧
    ((∀ e1 ∈ ([(16, 48)] : FreeMap), ∀ e2 ∈ ([(16, 48)] : FreeMap), e1 ≠ e2 →
      e1.1 + e1.2 < e2.1 ∨ e2.1 + e2.2 < e1.1) ∧
     (∀ e ∈ ([(16, 48)] : FreeMap), 0 < e.2 ∧ e.1 + e.2 < 72)) :=
  ⟨by decide, by simp [positiveSizes, SIZE_MOD], by decide, by decide,
    free_blocks_apart_and_below_used
      [Call.alloc 16, Call.alloc 32, Call.alloc 16, Call.alloc 8, Call.free 16 32,
        Call.free 48 16]
      { a := { used := 72, peak := 72, ptr := none, freeBlocks := [(16, 48)] },
        live := [(64, 8), (0, 16)] }
      (by decide) (by simp [positiveSizes, SIZE_MOD]) (by decide) (by decide)⟩

/-! ## The rewriter: what the elementary steps change -/

@[simp] theorem addTarget_ops (g : GraphObj) (t op : Nat) : (g.addTarget t op).ops = g.ops := rfl
@[simp] theorem addTarget_tensors (g : GraphObj) (t op : Nat) :
    (g.addTarget t op).tensors = g.tensors := rfl
@[simp] theorem addTarget_opObj (g : GraphObj) (t op : Nat) :
    (g.addTarget t op).opObj = g.opObj := rfl
@[simp] theorem removeTarget_ops (g : GraphObj) (t op : Nat) :
    (g.removeTarget t op).ops = g.ops := rfl
@[simp] theorem removeTarget_tensors (g : GraphObj) (t op : Nat) :
    (g.removeTarget t op).tensors = g.tensors := rfl
@[simp] theorem removeTarget_opObj (g : GraphObj) (t op : Nat) :
    (g.removeTarget t op).opObj = g.opObj := rfl
@[simp] theorem replaceInput_ops (g : GraphObj) (op t1 t2 : Nat) :
    (g.replaceInput op t1 t2).ops = g.ops := rfl
@[simp] theorem replaceInput_tensors (g : GraphObj) (op t1 t2 : Nat) :
    (g.replaceInput op t1 t2).tensors = g.tensors := rfl
@[simp] theorem replaceInput_tensorObj (g : GraphObj) (op t1 t2 : Nat) :
    (g.replaceInput op t1 t2).tensorObj = g.tensorObj := rfl

theorem addTarget_source (g : GraphObj) (t op x : Nat) :
    ((g.addTarget t op).tensorObj x).source = (g.tensorObj x).source := by
  unfold GraphObj.addTarget
  by_cases h : x = t
  · subst h; simp
  · simp [Function.update_noteq h]

theorem addTarget_fuid (g : GraphObj) (t op x : Nat) :
    ((g.addTarget t op).tensorObj x).fuid = (g.tensorObj x).fuid := by
  unfold GraphObj.addTarget
  by_cases h : x = t
  · subst h; simp
  · simp [Function.update_noteq h]

theorem addTarget_targets (g : GraphObj) (t op x : Nat) :
    ((g.addTarget t op).tensorObj x).targets =
      if x = t then (g.tensorObj x).targets ++ [op] else (g.tensorObj x).targets := by
  unfold GraphObj.addTarget
  by_cases h : x = t
  · subst h; simp
  · simp [Function.update_noteq h, h]

theorem removeTarget_source (g : GraphObj) (t op x : Nat) :
    ((g.removeTarget t op).tensorObj x).source = (g.tensorObj x).source := by
  unfold GraphObj.removeTarget
  by_cases h : x = t
  · subst h; simp
  · simp [Function.update_noteq h]

theorem removeTarget_fuid (g : GraphObj) (t op x : Nat) :
    ((g.removeTarget t op).tensorObj x).fuid = (g.tensorObj x).fuid := by
  unfold GraphObj.removeTarget
  by_cases h : x = t
  · subst h; simp
  · simp [Function.update_noteq h]

theorem removeTarget_targets (g : GraphObj) (t op x : Nat) :
    ((g.removeTarget t op).tensorObj x).targets =
      if x = t then (g.tensorObj x).targets.filter (fun o => decide (o ≠ op))
      else (g.tensorObj x).targets := by
  unfold GraphObj.removeTarget
  by_cases h : x = t
  · subst h; simp
  · simp [Function.update_noteq h, h]

theorem replaceInput_inputs (g : GraphObj) (op t1 t2 o : Nat) :
    ((g.replaceInput op t1 t2).opObj o).inputs =
      if o = op then (g.opObj o).inputs.map (fun t => if t = t1 then t2 else t)
      else (g.opObj o).inputs := by
  unfold GraphObj.replaceInput
  by_cases h : o = op
  · subst h; simp
  · simp [Function.update_noteq h, h]

theorem replaceInput_outputs (g : GraphObj) (op t1 t2 o : Nat) :
    ((g.replaceInput op t1 t2).opObj o).outputs = (g.opObj o).outputs := by
  unfold GraphObj.replaceInput
  by_cases h : o = op
  · subst h; simp
  · simp [Function.update_noteq h]

theorem replaceInput_opType (g : GraphObj) (op t1 t2 o : Nat) :
    ((g.replaceInput op t1 t2).opObj o).opType = (g.opObj o).opType := by
  unfold GraphObj.replaceInput
  by_cases h : o = op
  · subst h; simp
  · simp [Function.update_noteq h]

theorem replaceInput_permute (g : GraphObj) (op t1 t2 o : Nat) :
    ((g.replaceInput op t1 t2).opObj o).transposePermute = (g.opObj o).transposePermute := by
  unfold GraphObj.replaceInput
  by_cases h : o = op
  · subst h; simp
  · simp [Function.update_noteq h]

theorem replaceInput_transA (g : GraphObj) (op t1 t2 o : Nat) :
    ((g.replaceInput op t1 t2).opObj o).transA = (g.opObj o).transA := by
  unfold GraphObj.replaceInput
  by_cases h : o = op
  · subst h; simp
  · simp [Function.update_noteq h]

theorem replaceInput_transB (g : GraphObj) (op t1 t2 o : Nat) :
    ((g.replaceInput op t1 t2).opObj o).transB = (g.opObj o).transB := by
  unfold GraphObj.replaceInput
  by_cases h : o = op
  · subst h; simp
  · simp [Function.update_noteq h]

@[simp] theorem rewire_ops (g : GraphObj) (op t1 t2 : Nat) : (g.rewire op t1 t2).ops = g.ops := rfl
@[simp] theorem rewire_tensors (g : GraphObj) (op t1 t2 : Nat) :
    (g.rewire op t1 t2).tensors = g.tensors := rfl

theorem rewire_source (g : GraphObj) (op t1 t2 x : Nat) :
    ((g.rewire op t1 t2).tensorObj x).source = (g.tensorObj x).source := by
  unfold GraphObj.rewire
  rw [replaceInput_tensorObj, addTarget_source, removeTarget_source]

theorem rewire_fuid (g : GraphObj) (op t1 t2 x : Nat) :
    ((g.rewire op t1 t2).tensorObj x).fuid = (g.tensorObj x).fuid := by
  unfold GraphObj.rewire
  rw [replaceInput_tensorObj, addTarget_fuid, removeTarget_fuid]

theorem rewire_inputs (g : GraphObj) (op t1 t2 o : Nat) :
    ((g.rewire op t1 t2).opObj o).inputs =
      if o = op then (g.opObj o).inputs.map (fun t => if t = t1 then t2 else t)
      else (g.opObj o).inputs := by
  unfold GraphObj.rewire
  rw [replaceInput_inputs]
  rfl

theorem rewire_outputs (g : GraphObj) (op t1 t2 o : Nat) :
    ((g.rewire op t1 t2).opObj o).outputs = (g.opObj o).outputs := by
  unfold GraphObj.rewire
  rw [replaceInput_outputs]
  rfl

theorem rewire_opType (g : GraphObj) (op t1 t2 o : Nat) :
    ((g.rewire op t1 t2).opObj o).opType = (g.opObj o).opType := by
  unfold GraphObj.rewire
  rw [replaceInput_opType]
  rfl

theorem rewire_permute (g : GraphObj) (op t1 t2 o : Nat) :
    ((g.rewire op t1 t2).opObj o).transposePermute = (g.opObj o).transposePermute := by
  unfold GraphObj.rewire
  rw [replaceInput_permute]
  rfl

/-- Targets after the three statements that make `op` read `t2` instead of `t1`:
`op` leaves the targets of `t1` and is appended to those of `t2`. -/
theorem mem_rewire_targets (g : GraphObj) (op t1 t2 x o : Nat) :
    o ∈ ((g.rewire op t1 t2).tensorObj x).targets ↔
      (o ∈ (g.tensorObj x).targets ∧ (x = t1 → o ≠ op)) ∨ (x = t2 ∧ o = op) := by
  unfold GraphObj.rewire
  rw [replaceInput_tensorObj, addTarget_targets, removeTarget_targets]
  by_cases h2 : x = t2
  · by_cases h1 : x = t1
    · subst h2
      subst h1
      simp
    · subst h2
      simp [h1]
  · by_cases h1 : x = t1
    · subst h1
      simp [h2]
    · simp [h1, h2]

theorem mem_rewire_inputs (g : GraphObj) (op t1 t2 o t : Nat) :
    t ∈ ((g.rewire op t1 t2).opObj o).inputs ↔
      (t ∈ (g.opObj o).inputs ∧ (o = op → t ≠ t1)) ∨
        (o = op ∧ t = t2 ∧ t1 ∈ (g.opObj o).inputs) := by
  rw [rewire_inputs]
  by_cases ho : o = op
  · rw [if_pos ho, List.mem_map]
    constructor
    · rintro ⟨a, ha, rfl⟩
      by_cases h : a = t1
      · rw [if_pos h]
        right
        exact ⟨ho, rfl, h ▸ ha⟩
      · rw [if_neg h]
        left
        exact ⟨ha, fun _ => h⟩
    · rintro (⟨ht, hne⟩ | ⟨_, rfl, h1⟩)
      · exact ⟨t, ht, by rw [if_neg (hne ho)]⟩
      · exact ⟨t1, h1, by rw [if_pos rfl]⟩
  · rw [if_neg ho]
    simp [ho]

theorem inputWeight_congr (ρ : Nat → Nat) (g g' : GraphObj) (t : Nat)
    (h : (g'.tensorObj t).source = (g.tensorObj t).source) :
    inputWeight ρ g' t = inputWeight ρ g t := by
  unfold inputWeight
  rw [h]

theorem opWeight_congr (ρ : Nat → Nat) (g g' : GraphObj) (o : Nat)
    (hs : ∀ t, (g'.tensorObj t).source = (g.tensorObj t).source)
    (hi : (g'.opObj o).inputs = (g.opObj o).inputs) :
    opWeight ρ g' o = opWeight ρ g o := by
  unfold opWeight
  rw [hi]
  congr 2
  apply List.map_congr_left
  intro t _
  exact inputWeight_congr ρ g g' t (hs t)

theorem sameLinks_refl (g : GraphObj) : SameLinks g g :=
  ⟨rfl, rfl, fun _ => ⟨rfl, rfl, rfl, rfl⟩, fun _ => ⟨rfl, rfl, rfl⟩⟩

theorem sameLinks_trans {g1 g2 g3 : GraphObj} (h12 : SameLinks g1 g2) (h23 : SameLinks g2 g3) :
    SameLinks g1 g3 := by
  obtain ⟨a1, a2, a3, a4⟩ := h12
  obtain ⟨b1, b2, b3, b4⟩ := h23
  refine ⟨b1.trans a1, b2.trans a2, fun o => ?_, fun t => ?_⟩
  · exact ⟨(b3 o).1.trans (a3 o).1, (b3 o).2.1.trans (a3 o).2.1,
      (b3 o).2.2.1.trans (a3 o).2.2.1, (b3 o).2.2.2.trans (a3 o).2.2.2⟩
  · exact ⟨(b4 t).1.trans (a4 t).1, (b4 t).2.1.trans (a4 t).2.1, (b4 t).2.2.trans (a4 t).2.2⟩

theorem sameLinks_consistent {g g' : GraphObj} (h : SameLinks g g') (hc : Consistent g) :
    Consistent g' := by
  obtain ⟨h1, h2, h3, h4⟩ := h
  constructor
  · rw [h1]; exact hc.nodupOps
  · intro o ho ht
    rw [h1] at ho
    rw [(h3 o).2.2.1] at ht
    rw [(h3 o).1]
    exact hc.arityMatMul o ho ht
  · intro o ho ht
    rw [h1] at ho
    rw [(h3 o).2.2.1] at ht
    rw [(h3 o).1, (h3 o).2.1]
    exact hc.arityTranspose o ho ht
  · intro o ho t ht
    rw [h1] at ho
    rw [h2] at ht
    rw [(h3 o).1, (h4 t).1]
    exact hc.reads o ho t ht
  · intro o ho t ht
    rw [h1] at ho
    rw [(h3 o).2.1] at ht
    rw [(h4 t).2.1]
    exact hc.writes o ho t ht

theorem sameLinks_closed {g g' : GraphObj} (h : SameLinks g g') (hc : Closed g) :
    Closed g' := by
  obtain ⟨h1, h2, h3, h4⟩ := h
  constructor
  · intro t ht o ho
    rw [h2] at ht
    rw [(h4 t).1] at ho
    rw [h1]
    exact hc.targetsIn t ht o ho
  · intro t ht o ho
    rw [h2] at ht
    rw [(h4 t).2.1] at ho
    rw [h1]
    exact hc.sourceIn t ht o ho
  · intro o ho t ht
    rw [h1] at ho
    rw [(h3 o).1] at ht
    rw [h2]
    exact hc.inputsIn o ho t ht
  · intro o ho t ht
    rw [h1] at ho
    rw [(h3 o).2.1] at ht
    rw [h2]
    exact hc.outputsIn o ho t ht

theorem sameLinks_ranked {g g' : GraphObj} (ρ : Nat → Nat) (h : SameLinks g g')
    (hr : Ranked ρ g) : Ranked ρ g' := by
  obtain ⟨h1, h2, h3, h4⟩ := h
  intro q hq t ht p hp
  rw [h1] at hq
  rw [(h3 q).1] at ht
  rw [(h4 t).2.1] at hp
  exact hr q hq t ht p hp

theorem sameLinks_inv {g g' : GraphObj} (ρ : Nat → Nat) (h : SameLinks g g')
    (hi : RewriteInv ρ g) : RewriteInv ρ g' :=
  ⟨sameLinks_consistent h hi.1, sameLinks_closed h hi.2.1, sameLinks_ranked ρ h hi.2.2⟩

theorem sameLinks_weight {g g' : GraphObj} (ρ : Nat → Nat) (h : SameLinks g g') :
    graphWeight ρ g' = graphWeight ρ g := by
  obtain ⟨h1, h2, h3, h4⟩ := h
  unfold graphWeight
  rw [h1]
  apply congrArg
  apply List.map_congr_left
  intro o _
  exact opWeight_congr ρ g g' o (fun t => (h4 t).2.1) (h3 o).1

theorem sameLinks_unused {g g' : GraphObj} (h : SameLinks g g') (o : Nat) :
    g'.unused o = g.unused o := by
  obtain ⟨h1, h2, h3, h4⟩ := h
  unfold GraphObj.unused
  have hf : (fun out => (g'.tensorObj out).targets.isEmpty) =
      (fun out => (g.tensorObj out).targets.isEmpty) := by
    funext t
    rw [(h4 t).1]
  rw [(h3 o).2.2.1, (h3 o).2.1, hf]

theorem sameLinks_doomed {g g' : GraphObj} (h : SameLinks g g') (d : Nat) (hd : Doomed g d) :
    Doomed g' d := by
  refine ⟨by rw [h.1]; exact hd.1, ?_⟩
  rw [sameLinks_unused h]
  exact hd.2

theorem unused_iff (g : GraphObj) (o : Nat) :
    g.unused o = true ↔
      (g.opObj o).opType ≠ OpType.MatMul ∧ ∀ t ∈ (g.opObj o).outputs, (g.tensorObj t).targets = [] := by
  unfold GraphObj.unused
  simp [List.all_eq_true, List.isEmpty_iff]

theorem rewire_consistent (g : GraphObj) (op t1 t2 : Nat) (hc : Consistent g)
    (hreads : t1 ∈ (g.opObj op).inputs ∨ t2 ∈ (g.opObj op).inputs) :
    Consistent (g.rewire op t1 t2) := by
  constructor
  · exact hc.nodupOps
  · intro o ho ht
    rw [rewire_opType] at ht
    have := hc.arityMatMul o ho ht
    rw [rewire_inputs]
    split
    · simpa using this
    · exact this
  · intro o ho ht
    rw [rewire_opType] at ht
    have := hc.arityTranspose o ho ht
    rw [rewire_inputs, rewire_outputs]
    split
    · simpa using this
    · exact this
  · intro o ho t ht
    rw [mem_rewire_inputs, mem_rewire_targets]
    have hr := hc.reads o ho t ht
    constructor
    · rintro (⟨h1, h2⟩ | ⟨h1, h2, h3⟩)
      · left
        exact ⟨hr.1 h1, fun ht1 hop => h2 hop ht1⟩
      · right
        exact ⟨h2, h1⟩
    · rintro (⟨h1, h2⟩ | ⟨h1, h2⟩)
      · left
        exact ⟨hr.2 h1, fun hop ht1 => h2 ht1 hop⟩
      · subst h1
        subst h2
        by_cases h1 : t1 ∈ (g.opObj o).inputs
        · right
          exact ⟨rfl, rfl, h1⟩
        · left
          have h2 : t ∈ (g.opObj o).inputs := hreads.resolve_left h1
          refine ⟨h2, fun _ heq => ?_⟩
          rw [heq] at h2
          exact h1 h2
  · intro o ho t ht
    rw [rewire_outputs] at ht
    rw [rewire_source]
    exact hc.writes o ho t ht

theorem rewire_closed (g : GraphObj) (op t1 t2 : Nat) (hc : Closed g)
    (hop : op ∈ g.ops) (h2 : t2 ∈ g.tensors) : Closed (g.rewire op t1 t2) := by
  constructor
  · intro t ht o ho
    rw [mem_rewire_targets] at ho
    rcases ho with ⟨h, _⟩ | ⟨_, h⟩
    · exact hc.targetsIn t ht o h
    · rw [h]; exact hop
  · intro t ht o ho
    rw [rewire_source] at ho
    exact hc.sourceIn t ht o ho
  · intro o ho t ht
    rw [mem_rewire_inputs] at ht
    rcases ht with ⟨h, _⟩ | ⟨_, h, _⟩
    · exact hc.inputsIn o ho t h
    · rw [h]; exact h2
  · intro o ho t ht
    rw [rewire_outputs] at ht
    exact hc.outputsIn o ho t ht

theorem rewire_ranked (ρ : Nat → Nat) (g : GraphObj) (op t1 t2 : Nat) (hr : Ranked ρ g)
    (h2 : t1 ∈ (g.opObj op).inputs → ∀ p, (g.tensorObj t2).source = some p → ρ p < ρ op) :
    Ranked ρ (g.rewire op t1 t2) := by
  intro q hq t ht p hp
  rw [rewire_source] at hp
  rw [mem_rewire_inputs] at ht
  rcases ht with ⟨h, _⟩ | ⟨h, h3, h4⟩
  · exact hr q hq t h p hp
  · subst h
    subst h3
    exact h2 h4 p hp

theorem rewire_inputWeight (ρ : Nat → Nat) (g : GraphObj) (op t1 t2 t : Nat) :
    inputWeight ρ (g.rewire op t1 t2) t = inputWeight ρ g t :=
  inputWeight_congr ρ g _ t (rewire_source g op t1 t2 t)

theorem rewire_opWeight_of_ne (ρ : Nat → Nat) (g : GraphObj) (op t1 t2 o : Nat) (h : o ≠ op) :
    opWeight ρ (g.rewire op t1 t2) o = opWeight ρ g o := by
  apply opWeight_congr
  · intro t; exact rewire_source g op t1 t2 t
  · rw [rewire_inputs, if_neg h]

theorem rewire_opWeight_le (ρ : Nat → Nat) (g : GraphObj) (op t1 t2 o : Nat)
    (hw : inputWeight ρ g t2 ≤ inputWeight ρ g t1) :
    opWeight ρ (g.rewire op t1 t2) o ≤ opWeight ρ g o := by
  by_cases h : o = op
  · unfold opWeight
    rw [rewire_inputs, if_pos h, List.map_map]
    apply Nat.add_le_add_left
    apply List.sum_le_sum
    intro t _
    simp only [Function.comp, rewire_inputWeight]
    split
    · rename_i ht; rw [ht]; exact hw
    · exact le_refl _
  · rw [rewire_opWeight_of_ne ρ g op t1 t2 o h]

theorem rewire_opWeight_lt (ρ : Nat → Nat) (g : GraphObj) (op t1 t2 : Nat)
    (hw : inputWeight ρ g t2 < inputWeight ρ g t1) (h1 : t1 ∈ (g.opObj op).inputs) :
    opWeight ρ (g.rewire op t1 t2) op < opWeight ρ g op := by
  unfold opWeight
  rw [rewire_inputs, if_pos rfl, List.map_map]
  apply Nat.add_lt_add_left
  apply List.sum_lt_sum
  · intro t _
    simp only [Function.comp, rewire_inputWeight]
    split
    · rename_i ht; rw [ht]; exact hw.le
    · exact le_refl _
  · refine ⟨t1, h1, ?_⟩
    simp only [Function.comp, rewire_inputWeight, if_true]
    exact hw

theorem rewire_weight_le (ρ : Nat → Nat) (g : GraphObj) (op t1 t2 : Nat)
    (hw : inputWeight ρ g t2 ≤ inputWeight ρ g t1) :
    graphWeight ρ (g.rewire op t1 t2) ≤ graphWeight ρ g := by
  unfold graphWeight
  rw [rewire_ops]
  apply List.sum_le_sum
  intro o _
  exact rewire_opWeight_le ρ g op t1 t2 o hw

theorem rewire_weight_lt (ρ : Nat → Nat) (g : GraphObj) (op t1 t2 : Nat)
    (hw : inputWeight ρ g t2 < inputWeight ρ g t1) (h1 : t1 ∈ (g.opObj op).inputs)
    (hop : op ∈ g.ops) :
    graphWeight ρ (g.rewire op t1 t2) < graphWeight ρ g := by
  unfold graphWeight
  rw [rewire_ops]
  apply List.sum_lt_sum
  · intro o _
    exact rewire_opWeight_le ρ g op t1 t2 o hw.le
  · exact ⟨op, hop, rewire_opWeight_lt ρ g op t1 t2 hw h1⟩

theorem rewire_doomed (g : GraphObj) (op t1 t2 d : Nat) (hd : Doomed g d)
    (h2 : (g.tensorObj t2).targets ≠ []) : Doomed (g.rewire op t1 t2) d := by
  obtain ⟨hd1, hd2⟩ := hd
  rw [unused_iff] at hd2
  refine ⟨hd1, ?_⟩
  rw [unused_iff, rewire_opType, rewire_outputs]
  refine ⟨hd2.1, fun t ht => ?_⟩
  have h0 := hd2.2 t ht
  rw [List.eq_nil_iff_forall_not_mem]
  intro o ho
  rw [mem_rewire_targets] at ho
  rcases ho with ⟨h, _⟩ | ⟨h, _⟩
  · rw [h0] at h; simp at h
  · subst h
    exact h2 h0

theorem progress_refl (ρ : Nat → Nat) (st : RewriteState) : Progress ρ st st :=
  ⟨rfl, rfl, fun _ => ⟨rfl, rfl, rfl⟩, fun _ => ⟨rfl, rfl⟩, le_refl _, fun _ h => h,
    fun h => h, fun h => Or.inl h⟩

theorem progress_trans (ρ : Nat → Nat) {s1 s2 s3 : RewriteState} (h12 : Progress ρ s1 s2)
    (h23 : Progress ρ s2 s3) : Progress ρ s1 s3 := by
  obtain ⟨a1, a2, a3, a4, a5, a6, a7, a8⟩ := h12
  obtain ⟨b1, b2, b3, b4, b5, b6, b7, b8⟩ := h23
  refine ⟨b1.trans a1, b2.trans a2, fun o => ?_, fun t => ?_, le_trans b5 a5,
    fun d hd => b6 d (a6 d hd), fun h => b7 (a7 h), fun h => ?_⟩
  · exact ⟨(b3 o).1.trans (a3 o).1, (b3 o).2.1.trans (a3 o).2.1, (b3 o).2.2.trans (a3 o).2.2⟩
  · exact ⟨(b4 t).1.trans (a4 t).1, (b4 t).2.trans (a4 t).2⟩
  · rcases b8 h with h2 | h2 | h2
    · rcases a8 h2 with h1 | h1 | ⟨d, hd⟩
      · exact Or.inl h1
      · exact Or.inr (Or.inl (lt_of_le_of_lt b5 h1))
      · exact Or.inr (Or.inr ⟨d, b6 d hd⟩)
    · exact Or.inr (Or.inl (lt_of_lt_of_le h2 a5))
    · exact Or.inr (Or.inr h2)

theorem isSwapLastTwo_value (perm : List Int) : ∃ b, isSwapLastTwo perm = Outcome.value b := by
  obtain ⟨b, hb, _⟩ := isSwapLastTwo_spec perm
  exact ⟨b, hb⟩

/-- The weight of the input of a listed operator lies below the weight of a
tensor that operator writes. -/
theorem inputWeight_lt_of_source (ρ : Nat → Nat) (g : GraphObj) (hr : Ranked ρ g)
    (q t x : Nat) (hq : q ∈ g.ops) (ht : t ∈ (g.opObj q).inputs)
    (hx : (g.tensorObj x).source = some q) :
    inputWeight ρ g t < inputWeight ρ g x := by
  unfold inputWeight
  rw [hx]
  cases hs : (g.tensorObj t).source with
  | none => simp
  | some p =>
    have := hr q hq t ht p hs
    simp only
    omega

theorem getElem?_mem_inputs {l : List Nat} {i t : Nat} (h : l[i]? = some t) : t ∈ l :=
  List.getElem?_mem h

/-- Making the listed operator `op` read, instead of its input `t1` written by the
listed operator `prevOp`, an input `t2` of `prevOp`. -/
theorem rewire_up (ρ : Nat → Nat) (st : RewriteState) (op t1 t2 prevOp : Nat)
    (hinv : RewriteInv ρ st.g) (hop : op ∈ st.g.ops)
    (ht1 : t1 ∈ (st.g.opObj op).inputs)
    (hsrc : (st.g.tensorObj t1).source = some prevOp)
    (ht2 : t2 ∈ (st.g.opObj prevOp).inputs) :
    RewriteInv ρ (st.g.rewire op t1 t2) ∧
    Progress ρ st { g := st.g.rewire op t1 t2, changed := true } := by
  obtain ⟨hc, hcl, hr⟩ := hinv
  have h1t : t1 ∈ st.g.tensors := hcl.inputsIn op hop t1 ht1
  have hprev : prevOp ∈ st.g.ops := hcl.sourceIn t1 h1t prevOp hsrc
  have h2t : t2 ∈ st.g.tensors := hcl.inputsIn prevOp hprev t2 ht2
  have hw : inputWeight ρ st.g t2 < inputWeight ρ st.g t1 :=
    inputWeight_lt_of_source ρ st.g hr prevOp t2 t1 hprev ht2 hsrc
  have htg : (st.g.tensorObj t2).targets ≠ [] := by
    have := (hc.reads prevOp hprev t2 h2t).1 ht2
    intro h
    rw [h] at this
    simp at this
  refine ⟨⟨rewire_consistent st.g op t1 t2 hc (Or.inl ht1),
    rewire_closed st.g op t1 t2 hcl hop h2t, ?_⟩, ?_⟩
  · apply rewire_ranked ρ st.g op t1 t2 hr
    intro _ p hp
    have a := hr prevOp hprev t2 ht2 p hp
    have b := hr op hop t1 ht1 prevOp hsrc
    omega
  · refine ⟨rfl, rfl, fun o => ⟨rewire_opType _ _ _ _ _, rewire_outputs _ _ _ _ _,
      rewire_permute _ _ _ _ _⟩, fun t => ⟨rewire_source _ _ _ _ _, rewire_fuid _ _ _ _ _⟩,
      rewire_weight_le ρ st.g op t1 t2 hw.le,
      fun d hd => rewire_doomed st.g op t1 t2 d hd htg, fun _ => rfl, fun _ => ?_⟩
    exact Or.inr (Or.inl (rewire_weight_lt ρ st.g op t1 t2 hw ht1 hop))

theorem sameLinks_progress (ρ : Nat → Nat) {g g' : GraphObj} (h : SameLinks g g') (c : Bool) :
    Progress ρ { g := g, changed := c } { g := g', changed := c } := by
  refine ⟨h.1, h.2.1, fun o => ⟨(h.2.2.1 o).2.2.1, (h.2.2.1 o).2.1, (h.2.2.1 o).2.2.2⟩,
    fun t => ⟨(h.2.2.2 t).2.1, (h.2.2.2 t).2.2⟩, le_of_eq (sameLinks_weight ρ h),
    fun d hd => sameLinks_doomed h d hd, fun hc => hc, fun hc => Or.inl hc⟩

theorem sameLinks_update_op (g : GraphObj) (op : Nat) (obj : OperatorObj)
    (h1 : obj.inputs = (g.opObj op).inputs) (h2 : obj.outputs = (g.opObj op).outputs)
    (h3 : obj.opType = (g.opObj op).opType)
    (h4 : obj.transposePermute = (g.opObj op).transposePermute) :
    SameLinks g { g with opObj := Function.update g.opObj op obj } := by
  refine ⟨rfl, rfl, fun o => ?_, fun t => ⟨rfl, rfl, rfl⟩⟩
  by_cases h : o = op
  · subst h
    simp [h1, h2, h3, h4]
  · simp [Function.update_noteq h]

/-- Rule A on one operand of a listed MatMul: the step returns, keeps the invariant
and makes progress. -/
theorem foldTranspose_spec (ρ : Nat → Nat) (J : GraphObj → Prop) (hJ : StepInv ρ J)
    (st : RewriteState) (op i : Nat)
    (hinv : RewriteInv ρ st.g) (hop : op ∈ st.g.ops)
    (hmm : (st.g.opObj op).opType = OpType.MatMul)
    (hi : i < (st.g.opObj op).inputs.length) (hJst : J st.g) :
    ∃ st', foldTranspose st op i = Outcome.value st' ∧ RewriteInv ρ st'.g ∧
      Progress ρ st st' ∧
      (st'.g.opObj op).inputs.length = (st.g.opObj op).inputs.length ∧ J st'.g := by
  unfold foldTranspose
  have hin : (st.g.opObj op).inputs[i]? = some ((st.g.opObj op).inputs.get ⟨i, hi⟩) := by
    rw [List.getElem?_eq_getElem hi]; rfl
  generalize (st.g.opObj op).inputs.get ⟨i, hi⟩ = input at hin
  have hmem : input ∈ (st.g.opObj op).inputs := List.getElem?_mem hin
  rw [hin]
  simp only
  cases hsrc : (st.g.tensorObj input).source with
  | none => exact ⟨st, rfl, hinv, progress_refl ρ st, rfl, hJst⟩
  | some prevOp =>
    simp only
    by_cases hty : (st.g.opObj prevOp).opType = OpType.Transpose
    · rw [if_pos hty]
      obtain ⟨b, hb⟩ := isSwapLastTwo_value (st.g.opObj prevOp).transposePermute
      rw [hb]
      simp only [Outcome.bind]
      cases b with
      | false => exact ⟨st, by simp, hinv, progress_refl ρ st, rfl, hJst⟩
      | true =>
        simp only [if_true]
        have hinT : input ∈ st.g.tensors := hinv.2.1.inputsIn op hop input hmem
        have hprev : prevOp ∈ st.g.ops := hinv.2.1.sourceIn input hinT prevOp hsrc
        have har := (hinv.1.arityTranspose prevOp hprev hty).1
        have hsl : SameLinks st.g (st.g.flipTrans op i) := by
          unfold GraphObj.flipTrans
          apply sameLinks_update_op <;> split <;> rfl
        have hJ1 : J (st.g.flipTrans op i) := hJ.links _ _ hinv hsl hJst
        generalize st.g.flipTrans op i = g1 at hsl hJ1
        have hinv1 : RewriteInv ρ g1 := sameLinks_inv ρ hsl hinv
        have hlen1 : 0 < (g1.opObj prevOp).inputs.length := by
          rw [(hsl.2.2.1 prevOp).1]; omega
        have ho : (g1.opObj prevOp).inputs[0]? =
            some ((g1.opObj prevOp).inputs.get ⟨0, hlen1⟩) := by
          rw [List.getElem?_eq_getElem hlen1]; rfl
        generalize (g1.opObj prevOp).inputs.get ⟨0, hlen1⟩ = originIn at ho
        rw [ho]
        simp only
        have hmem1 : input ∈ (g1.opObj op).inputs := by rw [(hsl.2.2.1 op).1]; exact hmem
        have hsrc1 : (g1.tensorObj input).source = some prevOp := by
          rw [(hsl.2.2.2 input).2.1]; exact hsrc
        have hop1 : op ∈ g1.ops := by rw [hsl.1]; exact hop
        obtain ⟨r1, r2⟩ := rewire_up ρ { g := g1, changed := st.changed } op input originIn
          prevOp hinv1 hop1 hmem1 hsrc1 (List.getElem?_mem ho)
        refine ⟨_, rfl, r1, progress_trans ρ (sameLinks_progress ρ hsl st.changed) r2, ?_, ?_⟩
        · simp only [rewire_inputs, if_true, List.length_map]
          rw [(hsl.2.2.1 op).1]
        · apply hJ.fold g1 op input originIn hinv1 hJ1
          refine ⟨hop1, ?_, hmem1, prevOp, ?_, hsrc1, ⟨?_, ?_⟩, ho⟩
          · rw [(hsl.2.2.1 op).2.2.1]; exact hmm
          · rw [hsl.1]; exact hprev
          · rw [(hsl.2.2.1 prevOp).2.2.1]; exact hty
          · rw [(hsl.2.2.1 prevOp).2.2.2]; exact hb
    · rw [if_neg hty]
      exact ⟨st, rfl, hinv, progress_refl ρ st, rfl, hJst⟩

/-- Making the listed operator `op` read `t2` instead of `t1`, where `t2` weighs no
more than `t1`, has a target, and is written below `op`; `op` reads `t1` or
already reads `t2`. -/
theorem rewire_step (ρ : Nat → Nat) (g : GraphObj) (op t1 t2 : Nat) (c : Bool)
    (hinv : RewriteInv ρ g) (hop : op ∈ g.ops) (h2t : t2 ∈ g.tensors)
    (hreads : t1 ∈ (g.opObj op).inputs ∨ t2 ∈ (g.opObj op).inputs)
    (hw : inputWeight ρ g t2 ≤ inputWeight ρ g t1)
    (hrank : ∀ p, (g.tensorObj t2).source = some p → ρ p < ρ op)
    (htg : (g.tensorObj t2).targets ≠ []) :
    RewriteInv ρ (g.rewire op t1 t2) ∧
    Progress ρ { g := g, changed := c } { g := g.rewire op t1 t2, changed := c } := by
  obtain ⟨hc, hcl, hr⟩ := hinv
  refine ⟨⟨rewire_consistent g op t1 t2 hc hreads, rewire_closed g op t1 t2 hcl hop h2t,
    rewire_ranked ρ g op t1 t2 hr (fun _ => hrank)⟩, ?_⟩
  exact ⟨rfl, rfl, fun o => ⟨rewire_opType _ _ _ _ _, rewire_outputs _ _ _ _ _,
      rewire_permute _ _ _ _ _⟩, fun t => ⟨rewire_source _ _ _ _ _, rewire_fuid _ _ _ _ _⟩,
      rewire_weight_le ρ g op t1 t2 hw,
      fun d hd => rewire_doomed g op t1 t2 d hd htg, fun h => h, fun h => Or.inl h⟩

/-- A step of rule B keeps what lets rule B take its steps. -/
theorem bypassStep_rewire (g : GraphObj) (n n' t1 t2 v m q : Nat) (hn' : n' ∈ g.ops)
    (hv : v ∈ g.ops) (hsv : SwapT g v) (hout : (g.opObj v).outputs = [t1])
    (hm : (g.opObj v).inputs[0]? = some m) (hsrc : (g.tensorObj m).source = some q)
    (hq : q ∈ g.ops) (hsq : SwapT g q) (h2 : (g.opObj q).inputs[0]? = some t2)
    (hm1 : m ≠ t1) (h21 : t2 ≠ t1) :
    n' ∈ (g.rewire n t1 t2).ops ∧ v ∈ (g.rewire n t1 t2).ops ∧ SwapT (g.rewire n t1 t2) v ∧
    ((g.rewire n t1 t2).opObj v).outputs = [t1] ∧
    ((g.rewire n t1 t2).opObj v).inputs[0]? = some m ∧
    ((g.rewire n t1 t2).tensorObj m).source = some q ∧ q ∈ (g.rewire n t1 t2).ops ∧
    SwapT (g.rewire n t1 t2) q ∧ ((g.rewire n t1 t2).opObj q).inputs[0]? = some t2 := by
  have hfirst : ∀ o t, (g.opObj o).inputs[0]? = some t → t ≠ t1 →
      ((g.rewire n t1 t2).opObj o).inputs[0]? = some t := by
    intro o t ht hne
    rw [rewire_inputs]
    split
    · rw [List.getElem?_map, ht]
      simp [hne]
    · exact ht
  refine ⟨hn', hv, ?_, ?_, hfirst v m hm hm1, ?_, hq, ?_, hfirst q t2 h2 h21⟩
  · unfold SwapT
    rw [rewire_opType, rewire_permute]
    exact hsv
  · rw [rewire_outputs]; exact hout
  · rw [rewire_source]; exact hsrc
  · unfold SwapT
    rw [rewire_opType, rewire_permute]
    exact hsq

/-- The redirect loop of rule B over a list of readers. -/
theorem redirectTargets_spec (ρ : Nat → Nat) (J : GraphObj → Prop) (hJ : StepInv ρ J)
    (b X : Nat) (c : Bool) (hne : X ≠ b) (v m q : Nat) (hm1 : m ≠ b) :
    ∀ (l : List Nat) (g : GraphObj), RewriteInv ρ g → X ∈ g.tensors →
      inputWeight ρ g X ≤ inputWeight ρ g b → (g.tensorObj X).targets ≠ [] →
      (∀ n ∈ l, n ∈ g.ops ∧ (b ∈ (g.opObj n).inputs ∨ X ∈ (g.opObj n).inputs)) →
      (∀ n ∈ l, ∀ p, (g.tensorObj X).source = some p → ρ p < ρ n) →
      J g → v ∈ g.ops → SwapT g v → (g.opObj v).outputs = [b] →
      (g.opObj v).inputs[0]? = some m → (g.tensorObj m).source = some q → q ∈ g.ops →
      SwapT g q → (g.opObj q).inputs[0]? = some X →
      RewriteInv ρ (redirectTargets b X l g) ∧
      Progress ρ { g := g, changed := c } { g := redirectTargets b X l g, changed := c } ∧
      (∀ o, o ∈ ((redirectTargets b X l g).tensorObj b).targets ↔
        o ∈ (g.tensorObj b).targets ∧ o ∉ l) ∧
      J (redirectTargets b X l g) := by
  intro l
  induction l with
  | nil =>
    intro g hinv _ _ _ _ _ hJg _ _ _ _ _ _ _ _
    exact ⟨hinv, progress_refl ρ _, fun o => by simp [redirectTargets], hJg⟩
  | cons n rest ih =>
    intro g hinv hX hw htg hl hrank hJg hv hsv hout hm hsrc hq hsq h2
    have hn := hl n (List.mem_cons_self _ _)
    obtain ⟨s1, s2⟩ := rewire_step ρ g n b X c hinv hn.1 hX hn.2 hw
      (hrank n (List.mem_cons_self _ _)) htg
    have hJ1 : J (g.rewire n b X) :=
      hJ.bypass g n b X hinv hJg ⟨hn.1, v, m, q, hv, hsv, hout, hm, hsrc, hq, hsq, h2⟩
    obtain ⟨_, k1, k2, k3, k4, k5, k6, k7, k8⟩ :=
      bypassStep_rewire g n n b X v m q hn.1 hv hsv hout hm hsrc hq hsq h2 hm1 hne
    have hw' : inputWeight ρ (g.rewire n b X) X ≤ inputWeight ρ (g.rewire n b X) b := by
      rw [rewire_inputWeight, rewire_inputWeight]; exact hw
    have htg' : ((g.rewire n b X).tensorObj X).targets ≠ [] := by
      intro h
      have : n ∈ ((g.rewire n b X).tensorObj X).targets := by
        rw [mem_rewire_targets]; right; exact ⟨rfl, rfl⟩
      rw [h] at this
      simp at this
    have hl' : ∀ m ∈ rest, m ∈ (g.rewire n b X).ops ∧
        (b ∈ ((g.rewire n b X).opObj m).inputs ∨ X ∈ ((g.rewire n b X).opObj m).inputs) := by
      intro m hm
      have := hl m (List.mem_cons_of_mem _ hm)
      refine ⟨this.1, ?_⟩
      simp only [mem_rewire_inputs]
      by_cases hmn : m = n
      · right
        rcases this.2 with h | h
        · right; exact ⟨hmn, trivial, h⟩
        · left; exact ⟨h, fun _ => hne⟩
      · rcases this.2 with h | h
        · left; left; exact ⟨h, fun h' => absurd h' hmn⟩
        · right; left; exact ⟨h, fun h' => absurd h' hmn⟩
    have hrank' : ∀ m ∈ rest, ∀ p, ((g.rewire n b X).tensorObj X).source = some p →
        ρ p < ρ m := by
      intro m hm p hp
      rw [rewire_source] at hp
      exact hrank m (List.mem_cons_of_mem _ hm) p hp
    obtain ⟨i1, i2, i3, i4⟩ := ih (g.rewire n b X) s1 hX hw' htg' hl' hrank' hJ1
      k1 k2 k3 k4 k5 k6 k7 k8
    refine ⟨i1, progress_trans ρ s2 i2, fun o => ?_, i4⟩
    simp only [redirectTargets]
    rw [i3 o, mem_rewire_targets]
    simp only [List.mem_cons, not_or]
    constructor
    · rintro ⟨h1 | h1, h2⟩
      · exact ⟨h1.1, h1.2 trivial, h2⟩
      · exact absurd h1.1.symm hne
    · rintro ⟨h1, h2, h3⟩
      exact ⟨Or.inl ⟨h1, fun _ => h2⟩, h3⟩

theorem progress_set_changed (ρ : Nat → Nat) (st : RewriteState) (g' : GraphObj) (c : Bool)
    (h : Progress ρ st { g := g', changed := c }) (hd : ∃ d, Doomed g' d) :
    Progress ρ st { g := g', changed := true } := by
  obtain ⟨a1, a2, a3, a4, a5, a6, _, _⟩ := h
  exact ⟨a1, a2, a3, a4, a5, a6, fun _ => rfl, fun _ => Or.inr (Or.inr hd)⟩

theorem getOutput_of_single (g : GraphObj) (op : Nat) (h : (g.opObj op).outputs.length = 1) :
    ∃ b, (g.opObj op).outputs = [b] ∧ g.getOutput op = Outcome.value b := by
  unfold GraphObj.getOutput
  match hout : (g.opObj op).outputs with
  | [] => rw [hout] at h; simp at h
  | [b] => exact ⟨b, rfl, rfl⟩
  | _ :: _ :: _ => rw [hout] at h; simp at h

/-- Rule B on a listed Transpose: the step returns, keeps the invariant and makes
progress. -/
theorem dropDoubleTranspose_spec (ρ : Nat → Nat) (st : RewriteState) (op : Nat)
    (hinv : RewriteInv ρ st.g) (hop : op ∈ st.g.ops)
    (hty2 : (st.g.opObj op).opType = OpType.Transpose)
    (J : GraphObj → Prop) (hJ : StepInv ρ J) (hJst : J st.g) :
    ∃ st', dropDoubleTranspose st op = Outcome.value st' ∧ RewriteInv ρ st'.g ∧
      Progress ρ st st' ∧ J st'.g ∧
      (∀ m p, (st.g.opObj op).inputs[0]? = some m → (st.g.tensorObj m).source = some p →
        SwapT st.g p → SwapT st.g op → st'.changed = true ∧ Doomed st'.g op) := by
  unfold dropDoubleTranspose
  have har2 := hinv.1.arityTranspose op hop hty2
  have hlen2 : 0 < (st.g.opObj op).inputs.length := by omega
  have hin : (st.g.opObj op).inputs[0]? = some ((st.g.opObj op).inputs.get ⟨0, hlen2⟩) := by
    rw [List.getElem?_eq_getElem hlen2]; rfl
  generalize (st.g.opObj op).inputs.get ⟨0, hlen2⟩ = a at hin
  have hmem : a ∈ (st.g.opObj op).inputs := List.getElem?_mem hin
  rw [hin]
  simp only
  cases hsrc : (st.g.tensorObj a).source with
  | none =>
    refine ⟨st, rfl, hinv, progress_refl ρ st, hJst, fun m p h1 h2 _ _ => ?_⟩
    cases h1
    rw [hsrc] at h2
    cases h2
  | some prevOp =>
    have hpre : ∀ m p, some a = some m →
        (st.g.tensorObj m).source = some p → m = a ∧ p = prevOp := by
      intro m p h1 h2
      cases h1
      rw [hsrc] at h2
      cases h2
      exact ⟨rfl, rfl⟩
    simp only
    by_cases hty : (st.g.opObj prevOp).opType = OpType.Transpose
    · rw [if_pos hty]
      obtain ⟨b1, hb1⟩ := isSwapLastTwo_value (st.g.opObj prevOp).transposePermute
      obtain ⟨b2, hb2⟩ := isSwapLastTwo_value (st.g.opObj op).transposePermute
      rw [hb1]
      simp only [Outcome.bind]
      have hcase : b1 = false ∨ b2 = false ∨ (b1 = true ∧ b2 = true) := by
        cases b1 <;> cases b2 <;> simp
      rcases hcase with h | h | ⟨h1, h2⟩
      · subst h
        refine ⟨st, by simp [Outcome.bind], hinv, progress_refl ρ st, hJst,
          fun m p h1 h2 h3 _ => ?_⟩
        obtain ⟨_, hp⟩ := hpre m p h1 h2
        subst hp
        have := h3.2
        rw [hb1] at this
        cases this
      · subst h
        refine ⟨st, ?_, hinv, progress_refl ρ st, hJst, fun m p _ _ _ h4 => ?_⟩
        · cases b1 <;> simp [hb2, Outcome.bind]
        · have := h4.2
          rw [hb2] at this
          cases this
      · subst h1
        subst h2
        simp only [if_true, hb2, Outcome.bind]
        obtain ⟨hc, hcl, hr⟩ := hinv
        have haT : a ∈ st.g.tensors := hcl.inputsIn op hop a hmem
        have hprev : prevOp ∈ st.g.ops := hcl.sourceIn a haT prevOp hsrc
        have har1 := (hc.arityTranspose prevOp hprev hty).1
        have hlen1 : 0 < (st.g.opObj prevOp).inputs.length := by omega
        have ho : (st.g.opObj prevOp).inputs[0]? =
            some ((st.g.opObj prevOp).inputs.get ⟨0, hlen1⟩) := by
          rw [List.getElem?_eq_getElem hlen1]; rfl
        generalize (st.g.opObj prevOp).inputs.get ⟨0, hlen1⟩ = X at ho
        have hXmem : X ∈ (st.g.opObj prevOp).inputs := List.getElem?_mem ho
        rw [ho]
        simp only
        obtain ⟨b, hout, hget⟩ := getOutput_of_single st.g op har2.2
        rw [hget]
        simp only
        have hbmem : b ∈ (st.g.opObj op).outputs := by rw [hout]; simp
        have hbT : b ∈ st.g.tensors := hcl.outputsIn op hop b hbmem
        have hbsrc : (st.g.tensorObj b).source = some op := hc.writes op hop b hbmem
        have hXT : X ∈ st.g.tensors := hcl.inputsIn prevOp hprev X hXmem
        have hw1 : inputWeight ρ st.g X < inputWeight ρ st.g a :=
          inputWeight_lt_of_source ρ st.g hr prevOp X a hprev hXmem hsrc
        have hw2 : inputWeight ρ st.g a < inputWeight ρ st.g b :=
          inputWeight_lt_of_source ρ st.g hr op a b hop hmem hbsrc
        have hne : X ≠ b := by
          intro h
          rw [h] at hw1
          omega
        have htg : (st.g.tensorObj X).targets ≠ [] := by
          have := (hc.reads prevOp hprev X hXT).1 hXmem
          intro h
          rw [h] at this
          simp at this
        have hl : ∀ n ∈ (st.g.tensorObj b).targets,
            n ∈ st.g.ops ∧ (b ∈ (st.g.opObj n).inputs ∨ X ∈ (st.g.opObj n).inputs) := by
          intro n hn
          have hnops := hcl.targetsIn b hbT n hn
          exact ⟨hnops, Or.inl ((hc.reads n hnops b hbT).2 hn)⟩
        have hrank : ∀ n ∈ (st.g.tensorObj b).targets, ∀ p,
            (st.g.tensorObj X).source = some p → ρ p < ρ n := by
          intro n hn p hp
          have hnops := hcl.targetsIn b hbT n hn
          have hbn := (hc.reads n hnops b hbT).2 hn
          have e1 := hr prevOp hprev X hXmem p hp
          have e2 := hr op hop a hmem prevOp hsrc
          have e3 := hr n hnops b hbn op hbsrc
          omega
        have hab : a ≠ b := by
          intro h
          rw [h] at hw2
          omega
        obtain ⟨i1, i2, i3, i4⟩ := redirectTargets_spec ρ J hJ b X st.changed hne op a prevOp hab
          (st.g.tensorObj b).targets st.g ⟨hc, hcl, hr⟩ hXT (by omega) htg hl hrank hJst
          hop ⟨hty2, hb2⟩ hout hin hsrc hprev ⟨hty, hb1⟩ ho
        have hdoom : Doomed (redirectTargets b X (st.g.tensorObj b).targets st.g) op := by
          refine ⟨?_, ?_⟩
          · have := i2.1
            simp only at this
            rw [this]
            exact hop
          · rw [unused_iff]
            have e3 := i2.2.2.1 op
            simp only at e3
            rw [e3.1, e3.2.1, hty2, hout]
            refine ⟨by simp, ?_⟩
            intro t ht
            simp only [List.mem_singleton] at ht
            subst ht
            rw [List.eq_nil_iff_forall_not_mem]
            intro o ho
            have := (i3 o).1 ho
            exact this.2 this.1
        exact ⟨_, rfl, i1, progress_set_changed ρ st _ st.changed i2 ⟨op, hdoom⟩, i4,
          fun _ _ _ _ _ _ => ⟨rfl, hdoom⟩⟩
    · rw [if_neg hty]
      refine ⟨st, rfl, hinv, progress_refl ρ st, hJst, fun m p h1 h2 h3 _ => ?_⟩
      obtain ⟨_, hp⟩ := hpre m p h1 h2
      subst hp
      exact absurd h3.1 hty

/-- The body of the scan on a listed operator returns, keeps the invariant and
every property the steps of the rules keep, and makes progress; on a Transpose
that swaps the last two axes and reads the output of another one it sets
`changed` and leaves the Transpose without a reader. -/
theorem rewriteOp_spec (ρ : Nat → Nat) (J : GraphObj → Prop) (hJ : StepInv ρ J)
    (st : RewriteState) (op : Nat)
    (hinv : RewriteInv ρ st.g) (hop : op ∈ st.g.ops) (hJst : J st.g) :
    ∃ st', rewriteOp st op = Outcome.value st' ∧ RewriteInv ρ st'.g ∧ Progress ρ st st' ∧
      J st'.g ∧
      (∀ m p, (st.g.opObj op).inputs[0]? = some m → (st.g.tensorObj m).source = some p →
        SwapT st.g p → SwapT st.g op → st'.changed = true ∧ Doomed st'.g op) := by
  unfold rewriteOp
  by_cases hmm : (st.g.opObj op).opType = OpType.MatMul
  · rw [if_pos hmm]
    have har := hinv.1.arityMatMul op hop hmm
    obtain ⟨s1, e1, i1, p1, l1, j1⟩ :=
      foldTranspose_spec ρ J hJ st op 0 hinv hop hmm (by omega) hJst
    have hop1 : op ∈ s1.g.ops := by rw [p1.1]; exact hop
    have hmm1 : (s1.g.opObj op).opType = OpType.MatMul := by rw [(p1.2.2.1 op).1]; exact hmm
    obtain ⟨s2, e2, i2, p2, _, j2⟩ :=
      foldTranspose_spec ρ J hJ s1 op 1 i1 hop1 hmm1 (by omega) j1
    rw [e1]
    simp only [Outcome.bind]
    rw [e2]
    simp only [Outcome.bind]
    have hty : (s2.g.opObj op).opType ≠ OpType.Transpose := by
      rw [(p2.2.2.1 op).1, (p1.2.2.1 op).1, hmm]
      simp
    rw [if_neg hty]
    refine ⟨s2, rfl, i2, progress_trans ρ p1 p2, j2, fun _ _ _ _ _ h => ?_⟩
    have := h.1
    rw [hmm] at this
    cases this
  · rw [if_neg hmm]
    simp only [Outcome.bind]
    by_cases hty : (st.g.opObj op).opType = OpType.Transpose
    · rw [if_pos hty]
      exact dropDoubleTranspose_spec ρ st op hinv hop hty J hJ hJst
    · rw [if_neg hty]
      exact ⟨st, rfl, hinv, progress_refl ρ st, hJst, fun _ _ _ _ _ h => absurd h.1 hty⟩

/-- The steps of the rules keep the property that holds of every graph. -/
theorem stepInv_true (ρ : Nat → Nat) : StepInv ρ (fun _ => True) :=
  ⟨fun _ _ _ _ _ => trivial, fun _ _ _ _ _ _ _ => trivial, fun _ _ _ _ _ _ _ => trivial⟩

/-- Induction along the scan: a property `W` of the operators still to visit and
of the state, carried by every step from a state with the invariant, holds
after the scan. -/
theorem rewriteScan_induct (ρ : Nat → Nat) (W : List Nat → RewriteState → Prop)
    (hW : ∀ op rest st st', W (op :: rest) st → RewriteInv ρ st.g → op ∈ st.g.ops →
      rewriteOp st op = Outcome.value st' → RewriteInv ρ st'.g → Progress ρ st st' →
      W rest st') :
    ∀ (l : List Nat) (st : RewriteState), RewriteInv ρ st.g → (∀ o ∈ l, o ∈ st.g.ops) →
      W l st →
      ∃ st', rewriteScan l st = Outcome.value st' ∧ RewriteInv ρ st'.g ∧ Progress ρ st st' ∧
        W [] st' := by
  intro l
  induction l with
  | nil =>
    intro st hinv _ hw
    exact ⟨st, rfl, hinv, progress_refl ρ st, hw⟩
  | cons op rest ih =>
    intro st hinv hl hw
    have hop := hl op (List.mem_cons_self _ _)
    obtain ⟨s1, e1, i1, p1, _, _⟩ :=
      rewriteOp_spec ρ (fun _ => True) (stepInv_true ρ) st op hinv hop trivial
    have hl1 : ∀ o ∈ rest, o ∈ s1.g.ops := by
      intro o ho
      rw [p1.1]
      exact hl o (List.mem_cons_of_mem _ ho)
    obtain ⟨s2, e2, i2, p2, w2⟩ := ih s1 i1 hl1 (hW op rest st s1 hw hinv hop e1 i1 p1)
    refine ⟨s2, ?_, i2, progress_trans ρ p1 p2, w2⟩
    simp only [rewriteScan, e1, Outcome.bind, e2]

/-- The scan over listed operators returns, keeps the invariant and makes
progress. -/
theorem rewriteScan_spec (ρ : Nat → Nat) :
    ∀ (l : List Nat) (st : RewriteState), RewriteInv ρ st.g → (∀ o ∈ l, o ∈ st.g.ops) →
      ∃ st', rewriteScan l st = Outcome.value st' ∧ RewriteInv ρ st'.g ∧ Progress ρ st st' := by
  intro l st hinv hl
  obtain ⟨st', e, i, p, _⟩ := rewriteScan_induct ρ (fun _ _ => True)
    (fun _ _ _ _ _ _ _ _ _ _ => trivial) l st hinv hl trivial
  exact ⟨st', e, i, p⟩

/-! ## The rewriter: the sweeps -/

/-- Detaching an operator from a list of tensors changes targets only: the
operator leaves the targets of the tensors of the list. -/
theorem detachInputs_spec (o : Nat) : ∀ (ins : List Nat) (g : GraphObj),
    (detachInputs o ins g).ops = g.ops ∧ (detachInputs o ins g).tensors = g.tensors ∧
    (detachInputs o ins g).opObj = g.opObj ∧
    (∀ t, ((detachInputs o ins g).tensorObj t).source = (g.tensorObj t).source ∧
      ((detachInputs o ins g).tensorObj t).fuid = (g.tensorObj t).fuid) ∧
    (∀ t x, x ∈ ((detachInputs o ins g).tensorObj t).targets ↔
      x ∈ (g.tensorObj t).targets ∧ ¬ (x = o ∧ t ∈ ins)) := by
  intro ins
  induction ins with
  | nil =>
    intro g
    exact ⟨rfl, rfl, rfl, fun t => ⟨rfl, rfl⟩, fun t x => by simp [detachInputs]⟩
  | cons i rest ih =>
    intro g
    obtain ⟨h1, h2, h3, h4, h5⟩ := ih (g.removeTarget i o)
    simp only [detachInputs]
    refine ⟨h1, h2, h3, fun t => ?_, fun t x => ?_⟩
    · rw [(h4 t).1, (h4 t).2, removeTarget_source, removeTarget_fuid]
      exact ⟨rfl, rfl⟩
    · rw [h5 t x, removeTarget_targets]
      by_cases hti : t = i
      · subst hti
        simp only [if_true, List.mem_filter, decide_eq_true_eq, List.mem_cons, true_or,
          and_true]
        constructor
        · rintro ⟨⟨a, b⟩, _⟩
          exact ⟨a, b⟩
        · rintro ⟨a, b⟩
          exact ⟨⟨a, b⟩, fun h => b h.1⟩
      · simp [hti]

theorem unused_of_targets_subset (g g' : GraphObj) (d : Nat) (ho : g'.opObj = g.opObj)
    (ht : ∀ t x, x ∈ (g'.tensorObj t).targets → x ∈ (g.tensorObj t).targets)
    (h : g.unused d = true) : g'.unused d = true := by
  rw [unused_iff] at h ⊢
  rw [ho]
  refine ⟨h.1, fun t hmem => ?_⟩
  rw [List.eq_nil_iff_forall_not_mem]
  intro x hx
  have := ht t x hx
  rw [h.2 t hmem] at this
  simp at this

theorem sweepOps_cons_unused (o : Nat) (rest : List Nat) (st : SweepState)
    (h : st.g.unused o = true) :
    sweepOps (o :: rest) st =
      sweepOps rest { g := detachInputs o (st.g.opObj o).inputs st.g, kept := st.kept,
                      removed := st.removed ++ [o] } := by
  simp only [sweepOps, h, if_true]

theorem sweepOps_cons_used (o : Nat) (rest : List Nat) (st : SweepState)
    (h : ¬ st.g.unused o = true) :
    sweepOps (o :: rest) st =
      sweepOps rest { g := st.g, kept := st.kept ++ [o], removed := st.removed } := by
  simp only [sweepOps]
  rw [if_neg h]

/-- The sweep over operators: the graph keeps its lists, operators, sources and
ids; the operators `R` it removes leave the targets of their inputs; the
others are kept in order; an operator that is unused when the sweep starts is
removed. -/
theorem sweepOps_spec : ∀ (l : List Nat) (st : SweepState), l.Nodup →
    ∃ R : List Nat, R.Sublist l ∧
      (sweepOps l st).removed = st.removed ++ R ∧
      (sweepOps l st).kept = st.kept ++ l.filter (fun o => decide (o ∉ R)) ∧
      (sweepOps l st).g.ops = st.g.ops ∧ (sweepOps l st).g.tensors = st.g.tensors ∧
      (sweepOps l st).g.opObj = st.g.opObj ∧
      (∀ t, ((sweepOps l st).g.tensorObj t).source = (st.g.tensorObj t).source ∧
        ((sweepOps l st).g.tensorObj t).fuid = (st.g.tensorObj t).fuid) ∧
      (∀ t x, x ∈ ((sweepOps l st).g.tensorObj t).targets ↔
        x ∈ (st.g.tensorObj t).targets ∧ ¬ (x ∈ R ∧ t ∈ (st.g.opObj x).inputs)) ∧
      (∀ d ∈ l, st.g.unused d = true → d ∈ R) ∧
      (∀ d ∈ R, (st.g.opObj d).opType ≠ OpType.MatMul ∧
        ∀ t ∈ (st.g.opObj d).outputs, ∀ x ∈ (st.g.tensorObj t).targets,
          x ∈ R ∧ t ∈ (st.g.opObj x).inputs) := by
  intro l
  induction l with
  | nil =>
    intro st _
    exact ⟨[], List.Sublist.refl _, by simp [sweepOps], by simp [sweepOps], rfl, rfl, rfl,
      fun t => ⟨rfl, rfl⟩, fun t x => by simp [sweepOps], fun d hd => by simp at hd,
      fun d hd => by simp at hd⟩
  | cons o rest ih =>
    intro st hnd
    rw [List.nodup_cons] at hnd
    by_cases hu : st.g.unused o = true
    · obtain ⟨d1, d2, d3, d4, d5⟩ := detachInputs_spec o (st.g.opObj o).inputs st.g
      obtain ⟨R, r1, r2, r3, r4, r5, r6, r7, r8, r9, r10⟩ :=
        ih { g := detachInputs o (st.g.opObj o).inputs st.g, kept := st.kept,
             removed := st.removed ++ [o] } hnd.2
      have hoR : o ∉ R := fun h => hnd.1 (r1.subset h)
      refine ⟨o :: R, r1.cons₂ o, ?_, ?_, ?_, ?_, ?_, ?_, ?_, ?_, ?_⟩
      · rw [sweepOps_cons_unused o rest st hu]
        rw [r2]; simp
      · rw [sweepOps_cons_unused o rest st hu]
        rw [r3]
        simp only [List.mem_cons, not_or, List.filter_cons, not_true_eq_false, false_and,
          decide_False, Bool.false_eq_true, if_false]
        congr 1
        apply List.filter_congr
        intro x hx
        have : x ≠ o := fun h => hnd.1 (h ▸ hx)
        simp [this]
      · rw [sweepOps_cons_unused o rest st hu]; rw [r4]; exact d1
      · rw [sweepOps_cons_unused o rest st hu]; rw [r5]; exact d2
      · rw [sweepOps_cons_unused o rest st hu]; rw [r6]; exact d3
      · intro t
        rw [sweepOps_cons_unused o rest st hu]
        rw [(r7 t).1, (r7 t).2]
        exact d4 t
      · intro t x
        rw [sweepOps_cons_unused o rest st hu]
        rw [r8 t x, d5 t x]
        simp only [d3, List.mem_cons]
        constructor
        · rintro ⟨⟨a, b⟩, c⟩
          refine ⟨a, ?_⟩
          rintro ⟨h1 | h1, h2⟩
          · subst h1; exact b ⟨rfl, h2⟩
          · exact c ⟨h1, h2⟩
        · rintro ⟨a, b⟩
          refine ⟨⟨a, ?_⟩, ?_⟩
          · rintro ⟨h1, h2⟩
            subst h1
            exact b ⟨Or.inl rfl, h2⟩
          · rintro ⟨h1, h2⟩
            exact b ⟨Or.inr h1, h2⟩
      · intro d hd hdu
        simp only [List.mem_cons] at hd ⊢
        rcases hd with h | h
        · exact Or.inl h
        · right
          apply r9 d h
          exact unused_of_targets_subset st.g _ d d3 (fun t x hx => ((d5 t x).1 hx).1) hdu
      · intro d hd
        simp only [List.mem_cons] at hd
        rcases hd with h | h
        · subst h
          have hu' := (unused_iff st.g d).1 hu
          refine ⟨hu'.1, fun t ht x hx => ?_⟩
          rw [hu'.2 t ht] at hx
          simp at hx
        · obtain ⟨q1, q2⟩ := r10 d h
          simp only [d3] at q1 q2
          refine ⟨q1, fun t ht x hx => ?_⟩
          by_cases hxo : x = o ∧ t ∈ (st.g.opObj o).inputs
          · obtain ⟨hx1, hx2⟩ := hxo
            subst hx1
            exact ⟨List.mem_cons_self _ _, hx2⟩
          · have := q2 t ht x ((d5 t x).2 ⟨hx, hxo⟩)
            exact ⟨List.mem_cons_of_mem _ this.1, this.2⟩
    · obtain ⟨R, r1, r2, r3, r4, r5, r6, r7, r8, r9, r10⟩ :=
        ih { st with kept := st.kept ++ [o] } hnd.2
      have hoR : o ∉ R := fun h => hnd.1 (r1.subset h)
      refine ⟨R, r1.cons o, ?_, ?_, ?_, ?_, ?_, ?_, ?_, ?_, ?_⟩
      · rw [sweepOps_cons_used o rest st hu]
        exact r2
      · rw [sweepOps_cons_used o rest st hu]
        rw [r3]
        simp [List.filter_cons, hoR]
      · rw [sweepOps_cons_used o rest st hu]; exact r4
      · rw [sweepOps_cons_used o rest st hu]; exact r5
      · rw [sweepOps_cons_used o rest st hu]; exact r6
      · intro t
        rw [sweepOps_cons_used o rest st hu]
        exact r7 t
      · intro t x
        rw [sweepOps_cons_used o rest st hu]
        exact r8 t x
      · intro d hd hdu
        simp only [List.mem_cons] at hd
        rcases hd with h | h
        · subst h; exact absurd hdu hu
        · exact r9 d h hdu
      · intro d hd
        exact r10 d hd

theorem filter_sum_le (f f' : Nat → Nat) (p : Nat → Bool) :
    ∀ l : List Nat, (∀ x ∈ l, f' x ≤ f x) → ((l.filter p).map f').sum ≤ (l.map f).sum := by
  intro l
  induction l with
  | nil => intro _; simp
  | cons a rest ih =>
    intro h
    have h1 := h a (List.mem_cons_self _ _)
    have h2 := ih (fun x hx => h x (List.mem_cons_of_mem _ hx))
    by_cases hp : p a = true
    · simp only [List.filter_cons, hp, if_true, List.map_cons, List.sum_cons]
      omega
    · simp only [List.filter_cons, hp, List.map_cons, List.sum_cons]
      simp only [Bool.false_eq_true, if_false]
      omega

theorem filter_sum_lt (f f' : Nat → Nat) (p : Nat → Bool) :
    ∀ l : List Nat, (∀ x ∈ l, f' x ≤ f x) → (∃ d ∈ l, p d = false ∧ 0 < f d) →
      ((l.filter p).map f').sum < (l.map f).sum := by
  intro l
  induction l with
  | nil => intro _ h; obtain ⟨d, hd, _⟩ := h; simp at hd
  | cons a rest ih =>
    intro h hex
    have h1 := h a (List.mem_cons_self _ _)
    have hle := filter_sum_le f f' p rest (fun x hx => h x (List.mem_cons_of_mem _ hx))
    obtain ⟨d, hd, hpd, hfd⟩ := hex
    simp only [List.mem_cons] at hd
    by_cases hp : p a = true
    · have hda : d ≠ a := by
        intro heq
        rw [heq, hp] at hpd
        simp at hpd
      have h2 := ih (fun x hx => h x (List.mem_cons_of_mem _ hx))
        ⟨d, hd.resolve_left hda, hpd, hfd⟩
      simp only [List.filter_cons, hp, if_true, List.map_cons, List.sum_cons]
      omega
    · simp only [List.filter_cons, hp, List.map_cons, List.sum_cons]
      simp only [Bool.false_eq_true, if_false]
      rcases hd with hd | hd
      · subst hd
        omega
      · have h2 := ih (fun x hx => h x (List.mem_cons_of_mem _ hx)) ⟨d, hd, hpd, hfd⟩
        omega

@[simp] theorem expireSources_ops (g : GraphObj) (R : List Nat) :
    (g.expireSources R).ops = g.ops := rfl
@[simp] theorem expireSources_tensors (g : GraphObj) (R : List Nat) :
    (g.expireSources R).tensors = g.tensors := rfl
@[simp] theorem expireSources_opObj (g : GraphObj) (R : List Nat) :
    (g.expireSources R).opObj = g.opObj := rfl
@[simp] theorem sweepTensors_ops (g : GraphObj) : g.sweepTensors.ops = g.ops := rfl
@[simp] theorem sweepTensors_opObj (g : GraphObj) : g.sweepTensors.opObj = g.opObj := rfl
@[simp] theorem sweepTensors_tensorObj (g : GraphObj) :
    g.sweepTensors.tensorObj = g.tensorObj := rfl

theorem expireSources_targets (g : GraphObj) (R : List Nat) (t : Nat) :
    ((g.expireSources R).tensorObj t).targets = (g.tensorObj t).targets := by
  unfold GraphObj.expireSources
  simp only
  split
  · split <;> rfl
  · rfl

theorem expireSources_fuid (g : GraphObj) (R : List Nat) (t : Nat) :
    ((g.expireSources R).tensorObj t).fuid = (g.tensorObj t).fuid := by
  unfold GraphObj.expireSources
  simp only
  split
  · split <;> rfl
  · rfl

theorem expireSources_source (g : GraphObj) (R : List Nat) (t o : Nat) :
    ((g.expireSources R).tensorObj t).source = some o ↔
      (g.tensorObj t).source = some o ∧ ¬ (o ∈ R ∧ o ∉ g.ops) := by
  unfold GraphObj.expireSources
  simp only
  split
  · rename_i o' ho'
    split
    · rename_i hex
      rw [ho']
      simp only [Option.some.injEq]
      constructor
      · intro h; simp at h
      · rintro ⟨h1, h2⟩
        subst h1
        exact absurd hex h2
    · rename_i hex
      rw [ho']
      simp only [Option.some.injEq]
      constructor
      · intro h; subst h; exact ⟨rfl, hex⟩
      · rintro ⟨h1, _⟩; exact h1
  · rename_i hn
    rw [hn]
    simp

theorem expireSources_inputWeight_le (ρ : Nat → Nat) (g : GraphObj) (R : List Nat) (t : Nat) :
    inputWeight ρ (g.expireSources R) t ≤ inputWeight ρ g t := by
  unfold inputWeight
  cases h : ((g.expireSources R).tensorObj t).source with
  | none => simp
  | some o =>
    rw [((expireSources_source g R t o).1 h).1]

theorem mem_sweepTensors (g : GraphObj) (t : Nat) :
    t ∈ g.sweepTensors.tensors ↔
      t ∈ g.tensors ∧ ¬ ((g.tensorObj t).source = none ∧ (g.tensorObj t).targets = []) := by
  unfold GraphObj.sweepTensors
  simp only [List.mem_filter, Bool.not_eq_true', Bool.and_eq_false_iff, decide_eq_false_iff_not,
    List.isEmpty_iff, Bool.not_eq_true]
  constructor
  · rintro ⟨h1, h2⟩
    refine ⟨h1, fun h => ?_⟩
    rcases h2 with h2 | h2
    · exact h2 h.1
    · rw [h.2] at h2; simp at h2
  · rintro ⟨h1, h2⟩
    refine ⟨h1, ?_⟩
    by_cases hs : (g.tensorObj t).source = none
    · right
      cases htg : (g.tensorObj t).targets with
      | nil => exact absurd ⟨hs, htg⟩ h2
      | cons a b => rfl
    · left; exact hs

/-- What the statement that erases operators leaves, for a graph with no operator
listed twice: the operators outside a set `R` stay listed, in order; they
leave the targets of their inputs; the sources naming them expire. -/
theorem eraseOps_spec (g : GraphObj) (hnd : g.ops.Nodup) :
    ∃ R : List Nat,
      g.eraseOps.ops = g.ops.filter (fun o => decide (o ∉ R)) ∧
      g.eraseOps.tensors = g.tensors ∧ g.eraseOps.opObj = g.opObj ∧
      (∀ t, (g.eraseOps.tensorObj t).fuid = (g.tensorObj t).fuid) ∧
      (∀ t x, x ∈ (g.eraseOps.tensorObj t).targets ↔
        x ∈ (g.tensorObj t).targets ∧ ¬ (x ∈ R ∧ t ∈ (g.opObj x).inputs)) ∧
      (∀ t o, (g.eraseOps.tensorObj t).source = some o ↔
        (g.tensorObj t).source = some o ∧ o ∉ R) ∧
      (∀ d, Doomed g d → d ∈ R) ∧
      (∀ d ∈ R, (g.opObj d).opType ≠ OpType.MatMul ∧
        ∀ t ∈ (g.opObj d).outputs, ∀ x ∈ (g.tensorObj t).targets,
          x ∈ R ∧ t ∈ (g.opObj x).inputs) := by
  obtain ⟨R, r1, r2, r3, r4, r5, r6, r7, r8, r9, r10⟩ :=
    sweepOps_spec g.ops { g := g, kept := [], removed := [] } hnd
  simp only [List.nil_append] at r2 r3
  refine ⟨R, ?_, ?_, ?_, ?_, ?_, ?_, ?_, ?_⟩
  · unfold GraphObj.eraseOps
    rw [expireSources_ops]
    exact r3
  · unfold GraphObj.eraseOps
    rw [expireSources_tensors]
    exact r5
  · unfold GraphObj.eraseOps
    rw [expireSources_opObj]
    exact r6
  · intro t
    unfold GraphObj.eraseOps
    rw [expireSources_fuid]
    exact (r7 t).2
  · intro t x
    unfold GraphObj.eraseOps
    rw [expireSources_targets]
    exact r8 t x
  · intro t o
    unfold GraphObj.eraseOps
    rw [expireSources_source]
    simp only
    rw [(r7 t).1, r2, r3]
    constructor
    · rintro ⟨h1, h2⟩
      refine ⟨h1, fun hR => h2 ⟨hR, ?_⟩⟩
      simp [List.mem_filter, hR]
    · rintro ⟨h1, h2⟩
      exact ⟨h1, fun h => h2 h.1⟩
  · intro d hd
    exact r9 d hd.1 hd.2
  · intro d hd
    exact r10 d hd

/-- The two sweeps at the end of a pass keep the invariant, leave no tensor
without source and targets, do not raise the weight, and lower it when some
operator was to be swept. -/
theorem cleanup_spec (ρ : Nat → Nat) (g : GraphObj) (hinv : RewriteInv ρ g) :
    RewriteInv ρ g.eraseOps.sweepTensors ∧
    graphWeight ρ g.eraseOps.sweepTensors ≤ graphWeight ρ g ∧
    ((∃ d, Doomed g d) → graphWeight ρ g.eraseOps.sweepTensors < graphWeight ρ g) ∧
    (∀ t ∈ g.eraseOps.sweepTensors.tensors,
      ¬ ((g.eraseOps.sweepTensors.tensorObj t).source = none ∧
          (g.eraseOps.sweepTensors.tensorObj t).targets = [])) ∧
    g.eraseOps.sweepTensors.tensors.Sublist g.tensors ∧
    (∀ t, (g.eraseOps.sweepTensors.tensorObj t).fuid = (g.tensorObj t).fuid) := by
  obtain ⟨hc, hcl, hr⟩ := hinv
  obtain ⟨R, e1, e2, e3, e4, e5, e6, e7, _⟩ := eraseOps_spec g hc.nodupOps
  have hK : ∀ o, o ∈ g.eraseOps.ops ↔ o ∈ g.ops ∧ o ∉ R := by
    intro o
    rw [e1]
    simp [List.mem_filter]
  have hT : ∀ t, t ∈ g.eraseOps.sweepTensors.tensors → t ∈ g.tensors := by
    intro t ht
    rw [mem_sweepTensors, e2] at ht
    exact ht.1
  have hwle : ∀ o, opWeight ρ g.eraseOps.sweepTensors o ≤ opWeight ρ g o := by
    intro o
    unfold opWeight
    rw [sweepTensors_opObj, e3]
    apply Nat.add_le_add_left
    apply List.sum_le_sum
    intro t _
    unfold inputWeight
    rw [sweepTensors_tensorObj]
    cases h : (g.eraseOps.tensorObj t).source with
    | none => simp
    | some o' => rw [((e6 t o').1 h).1]
  refine ⟨⟨?_, ?_, ?_⟩, ?_, ?_, ?_, ?_, ?_⟩
  · -- Consistent
    constructor
    · rw [sweepTensors_ops, e1]
      exact hc.nodupOps.filter _
    · intro o ho hty
      rw [sweepTensors_ops] at ho
      rw [sweepTensors_opObj, e3] at hty ⊢
      exact hc.arityMatMul o ((hK o).1 ho).1 hty
    · intro o ho hty
      rw [sweepTensors_ops] at ho
      rw [sweepTensors_opObj, e3] at hty ⊢
      exact hc.arityTranspose o ((hK o).1 ho).1 hty
    · intro o ho t ht
      rw [sweepTensors_ops] at ho
      have ho' := (hK o).1 ho
      rw [sweepTensors_opObj, e3, sweepTensors_tensorObj, e5]
      have := hc.reads o ho'.1 t (hT t ht)
      constructor
      · intro h
        exact ⟨this.1 h, fun hx => ho'.2 hx.1⟩
      · intro h
        exact this.2 h.1
    · intro o ho t ht
      rw [sweepTensors_ops] at ho
      have ho' := (hK o).1 ho
      rw [sweepTensors_opObj, e3] at ht
      rw [sweepTensors_tensorObj, e6]
      exact ⟨hc.writes o ho'.1 t ht, ho'.2⟩
  · -- Closed
    constructor
    · intro t ht x hx
      rw [sweepTensors_tensorObj, e5] at hx
      rw [sweepTensors_ops, hK]
      have hxo := hcl.targetsIn t (hT t ht) x hx.1
      have hin := (hc.reads x hxo t (hT t ht)).2 hx.1
      exact ⟨hxo, fun hR => hx.2 ⟨hR, hin⟩⟩
    · intro t ht o ho
      rw [sweepTensors_tensorObj, e6] at ho
      rw [sweepTensors_ops, hK]
      exact ⟨hcl.sourceIn t (hT t ht) o ho.1, ho.2⟩
    · intro o ho t ht
      rw [sweepTensors_ops] at ho
      have ho' := (hK o).1 ho
      rw [sweepTensors_opObj, e3] at ht
      have htT := hcl.inputsIn o ho'.1 t ht
      rw [mem_sweepTensors, e2]
      refine ⟨htT, fun h => ?_⟩
      have hmem : o ∈ (g.eraseOps.tensorObj t).targets := by
        rw [e5]
        exact ⟨(hc.reads o ho'.1 t htT).1 ht, fun hx => ho'.2 hx.1⟩
      rw [h.2] at hmem
      simp at hmem
    · intro o ho t ht
      rw [sweepTensors_ops] at ho
      have ho' := (hK o).1 ho
      rw [sweepTensors_opObj, e3] at ht
      have htT := hcl.outputsIn o ho'.1 t ht
      rw [mem_sweepTensors, e2]
      refine ⟨htT, fun h => ?_⟩
      have hs : (g.eraseOps.tensorObj t).source = some o :=
        (e6 t o).2 ⟨hc.writes o ho'.1 t ht, ho'.2⟩
      rw [h.1] at hs
      simp at hs
  · -- Ranked
    intro q hq t ht p hp
    rw [sweepTensors_ops] at hq
    rw [sweepTensors_opObj, e3] at ht
    rw [sweepTensors_tensorObj, e6] at hp
    exact hr q ((hK q).1 hq).1 t ht p hp.1
  · unfold graphWeight
    rw [sweepTensors_ops, e1]
    exact filter_sum_le _ _ _ g.ops (fun o _ => hwle o)
  · rintro ⟨d, hd⟩
    unfold graphWeight
    rw [sweepTensors_ops, e1]
    apply filter_sum_lt _ _ _ g.ops (fun o _ => hwle o)
    refine ⟨d, hd.1, ?_, ?_⟩
    · simp [e7 d hd]
    · unfold opWeight; omega
  · intro t ht
    rw [mem_sweepTensors] at ht
    rw [sweepTensors_tensorObj]
    exact ht.2
  · unfold GraphObj.sweepTensors
    simp only
    rw [e2]
    exact List.filter_sublist _
  · intro t
    rw [sweepTensors_tensorObj]
    exact e4 t

/-! ## The rewriter: passes and the loop -/

/-- A pass on a graph with the invariant returns a graph with the invariant and
no orphaned tensor; it has lowered the weight when it reports a change. -/
theorem optimizePass_spec (ρ : Nat → Nat) (g : GraphObj) (hinv : RewriteInv ρ g) :
    ∃ st, optimizePass g = Outcome.value st ∧ RewriteInv ρ st.g ∧
      (st.changed = true → graphWeight ρ st.g < graphWeight ρ g) ∧
      NoOrphan st.g ∧ st.g.tensors.Sublist g.tensors ∧
      (∀ t, (st.g.tensorObj t).fuid = (g.tensorObj t).fuid) := by
  obtain ⟨s1, e1, i1, p1⟩ := rewriteScan_spec ρ g.ops { g := g, changed := false } hinv
    (fun o ho => ho)
  obtain ⟨c1, c2, c3, c4, c5, c6⟩ := cleanup_spec ρ s1.g i1
  obtain ⟨q1, q2, q3, q4, q5, q6, q7, q8⟩ := p1
  simp only at q1 q2 q3 q4 q5 q6 q7 q8
  refine ⟨{ g := s1.g.eraseOps.sweepTensors, changed := s1.changed }, ?_, c1, ?_, c4, ?_, ?_⟩
  · unfold optimizePass
    rw [e1]
    rfl
  · intro hch
    simp only at hch
    rcases q8 hch with h | h | h
    · simp at h
    · exact lt_of_le_of_lt c2 h
    · exact lt_of_lt_of_le (c3 h) q5
  · have := c5
    rw [q2] at this
    exact this
  · intro t
    simp only
    rw [c6 t, (q4 t).2]

/-- With more iterations than the weight of the graph the loop of the rewriter
ends, in a graph with the invariant and no orphaned tensor. -/
theorem optimizeLoop_spec (ρ : Nat → Nat) :
    ∀ (n : Nat) (g : GraphObj), RewriteInv ρ g → graphWeight ρ g < n →
      ∃ g', optimizeLoop n g = some (Outcome.value g') ∧ RewriteInv ρ g' ∧ NoOrphan g' ∧
        g'.tensors.Sublist g.tensors ∧
        (∀ t, (g'.tensorObj t).fuid = (g.tensorObj t).fuid) := by
  intro n
  induction n with
  | zero => intro g _ h; omega
  | succ n ih =>
    intro g hinv hw
    obtain ⟨st, e, i, hlt, hno, hsub, hf⟩ := optimizePass_spec ρ g hinv
    by_cases hch : st.changed = true
    · have hw' : graphWeight ρ st.g < n := by
        have := hlt hch
        omega
      obtain ⟨g', e', i', hno', hsub', hf'⟩ := ih st.g i hw'
      refine ⟨g', ?_, i', hno', hsub'.trans hsub, fun t => by rw [hf' t, hf t]⟩
      simp only [optimizeLoop, e, hch, if_true]
      exact e'
    · refine ⟨st.g, ?_, i, hno, hsub, hf⟩
      simp only [optimizeLoop, e]
      rw [if_neg hch]

/-! ## The rewriter: adjacency and validity -/

theorem checkValid_iff (g : GraphObj) :
    g.checkValid = true ↔
      NoOrphan g ∧ Closed g ∧ AdjacencyIn g ∧
        (g.tensors.map fun tensor => (g.tensorObj tensor).fuid).Nodup := by
  unfold GraphObj.checkValid NoOrphan AdjacencyIn
  simp only [Bool.and_eq_true, List.all_eq_true, decide_eq_true_eq, Bool.not_eq_true',
    Bool.and_eq_false_iff, decide_eq_false_iff_not, List.length_eq_zero]
  constructor
  · rintro ⟨⟨h1, h2⟩, h3⟩
    refine ⟨fun t ht hh => ?_, ⟨fun t ht o ho => ((h1 t ht).1.2) o ho, fun t ht o ho => ?_,
      fun o ho t ht => (h2 o ho).1.1.1 t ht, fun o ho t ht => (h2 o ho).1.1.2 t ht⟩,
      fun o ho => ⟨fun x hx => (h2 o ho).1.2 x hx, fun x hx => (h2 o ho).2 x hx⟩, h3⟩
    · rcases (h1 t ht).1.1 with h | h
      · exact h hh.2
      · exact h hh.1
    · have := (h1 t ht).2
      rw [ho] at this
      simpa using this
  · rintro ⟨h1, h2, h3, h4⟩
    refine ⟨⟨fun t ht => ⟨⟨?_, fun o ho => h2.targetsIn t ht o ho⟩, ?_⟩,
      fun o ho => ⟨⟨⟨fun t ht => h2.inputsIn o ho t ht, fun t ht => h2.outputsIn o ho t ht⟩,
        fun x hx => (h3 o ho).1 x hx⟩, fun x hx => (h3 o ho).2 x hx⟩⟩, h4⟩
    · by_cases hs : (g.tensorObj t).source = none
      · left
        intro htg
        exact h1 t ht ⟨hs, htg⟩
      · right; exact hs
    · cases hs : (g.tensorObj t).source with
      | none => rfl
      | some o => simpa using h2.sourceIn t ht o hs

theorem clearOp_sameLinks (g : GraphObj) (op : Nat) : SameLinks g (g.clearOp op) := by
  unfold GraphObj.clearOp
  exact sameLinks_update_op g op _ rfl rfl rfl rfl

theorem clearOp_self (g : GraphObj) (op : Nat) :
    ((g.clearOp op).opObj op).predecessors = [] ∧ ((g.clearOp op).opObj op).successors = [] := by
  unfold GraphObj.clearOp
  simp

theorem clearOp_other (g : GraphObj) (op o : Nat) (h : o ≠ op) :
    (g.clearOp op).opObj o = g.opObj o := by
  unfold GraphObj.clearOp
  simp [Function.update_noteq h]

theorem clearAdjacency_spec : ∀ (l : List Nat) (g : GraphObj),
    SameLinks g (clearAdjacency l g) ∧
    (∀ o, (o ∈ l ∨ ((g.opObj o).predecessors = [] ∧ (g.opObj o).successors = [])) →
      ((clearAdjacency l g).opObj o).predecessors = [] ∧
      ((clearAdjacency l g).opObj o).successors = []) := by
  intro l
  induction l with
  | nil =>
    intro g
    refine ⟨sameLinks_refl g, fun o h => ?_⟩
    rcases h with h | h
    · simp at h
    · exact h
  | cons op rest ih =>
    intro g
    obtain ⟨h1, h2⟩ := ih (g.clearOp op)
    refine ⟨sameLinks_trans (clearOp_sameLinks g op) h1, fun o h => ?_⟩
    simp only [clearAdjacency]
    apply h2 o
    by_cases ho : o = op
    · right
      subst ho
      exact clearOp_self g o
    · rcases h with h | h
      · simp only [List.mem_cons] at h
        exact Or.inl (h.resolve_left ho)
      · right
        rw [clearOp_other g op o ho]
        exact h

theorem addPredecessor_sameLinks (g : GraphObj) (op s : Nat) :
    SameLinks g (g.addPredecessor op s) := by
  unfold GraphObj.addPredecessor
  exact sameLinks_update_op g op _ rfl rfl rfl rfl

theorem addSuccessor_sameLinks (g : GraphObj) (s op : Nat) :
    SameLinks g (g.addSuccessor s op) := by
  unfold GraphObj.addSuccessor
  exact sameLinks_update_op g s _ rfl rfl rfl rfl

theorem addPredecessor_adjacency (g : GraphObj) (op s : Nat) (h : AdjacencyIn g)
    (hs : s ∈ g.ops) : AdjacencyIn (g.addPredecessor op s) := by
  intro o ho
  have hog : o ∈ g.ops := ho
  obtain ⟨a1, a2⟩ := h o hog
  unfold GraphObj.addPredecessor
  simp only
  by_cases h1 : o = op
  · subst h1
    simp only [Function.update_same, List.mem_append, List.mem_singleton]
    refine ⟨fun x hx => ?_, a2⟩
    rcases hx with hx | hx
    · exact a1 x hx
    · rw [hx]; exact hs
  · simp only [Function.update_noteq h1]
    exact ⟨a1, a2⟩

theorem addSuccessor_adjacency (g : GraphObj) (s op : Nat) (h : AdjacencyIn g)
    (hop : op ∈ g.ops) : AdjacencyIn (g.addSuccessor s op) := by
  intro o ho
  have hog : o ∈ g.ops := ho
  obtain ⟨a1, a2⟩ := h o hog
  unfold GraphObj.addSuccessor
  simp only
  by_cases h1 : o = s
  · subst h1
    simp only [Function.update_same, List.mem_append, List.mem_singleton]
    refine ⟨a1, fun x hx => ?_⟩
    rcases hx with hx | hx
    · exact a2 x hx
    · rw [hx]; exact hop
  · simp only [Function.update_noteq h1]
    exact ⟨a1, a2⟩

theorem connect_sameLinks (g : GraphObj) (op sourceOp : Nat) :
    SameLinks g (g.connect op sourceOp) := by
  unfold GraphObj.connect
  exact sameLinks_trans (addPredecessor_sameLinks g op sourceOp)
    (addSuccessor_sameLinks _ sourceOp op)

theorem connect_adjacency (g : GraphObj) (op sourceOp : Nat) (h : AdjacencyIn g)
    (hop : op ∈ g.ops) (hs : sourceOp ∈ g.ops) : AdjacencyIn (g.connect op sourceOp) := by
  unfold GraphObj.connect
  apply addSuccessor_adjacency _ sourceOp op (addPredecessor_adjacency g op sourceOp h hs)
  exact hop

theorem connectInputs_spec (op : Nat) : ∀ (ins : List Nat) (g : GraphObj),
    AdjacencyIn g → op ∈ g.ops →
    (∀ t ∈ ins, ∀ s, (g.tensorObj t).source = some s → s ∈ g.ops) →
    SameLinks g (connectInputs op ins g) ∧ AdjacencyIn (connectInputs op ins g) := by
  intro ins
  induction ins with
  | nil => intro g h _ _; exact ⟨sameLinks_refl g, h⟩
  | cons t rest ih =>
    intro g h hop hsrc
    cases hs : (g.tensorObj t).source with
    | none =>
      simp only [connectInputs, hs]
      exact ih g h hop (fun x hx => hsrc x (List.mem_cons_of_mem _ hx))
    | some s =>
      simp only [connectInputs, hs]
      have hsl := connect_sameLinks g op s
      have hso : s ∈ g.ops := hsrc t (List.mem_cons_self _ _) s hs
      obtain ⟨i1, i2⟩ := ih (g.connect op s) (connect_adjacency g op s h hop hso)
        (by rw [hsl.1]; exact hop)
        (fun x hx s' hs' => by
          rw [hsl.1]
          rw [(hsl.2.2.2 x).2.1] at hs'
          exact hsrc x (List.mem_cons_of_mem _ hx) s' hs')
      exact ⟨sameLinks_trans hsl i1, i2⟩

theorem connectOps_spec : ∀ (l : List Nat) (g : GraphObj),
    AdjacencyIn g → Closed g → (∀ o ∈ l, o ∈ g.ops) →
    SameLinks g (connectOps l g) ∧ AdjacencyIn (connectOps l g) := by
  intro l
  induction l with
  | nil => intro g h _ _; exact ⟨sameLinks_refl g, h⟩
  | cons op rest ih =>
    intro g h hcl hl
    have hop := hl op (List.mem_cons_self _ _)
    obtain ⟨c1, c2⟩ := connectInputs_spec op (g.opObj op).inputs g h hop
      (fun t ht s hs => hcl.sourceIn t (hcl.inputsIn op hop t ht) s hs)
    obtain ⟨i1, i2⟩ := ih (connectInputs op (g.opObj op).inputs g) c2 (sameLinks_closed c1 hcl)
      (fun o ho => by rw [c1.1]; exact hl o (List.mem_cons_of_mem _ ho))
    simp only [connectOps]
    exact ⟨sameLinks_trans c1 i1, i2⟩

/-- Rebuilding the adjacency keeps the lists and links and leaves caches that name
listed operators. -/
theorem rebuildAdjacency_spec (g : GraphObj) (hcl : Closed g) :
    SameLinks g g.rebuildAdjacency ∧ AdjacencyIn g.rebuildAdjacency := by
  obtain ⟨k1, k2⟩ := clearAdjacency_spec g.ops g
  have hadj : AdjacencyIn (clearAdjacency g.ops g) := by
    intro o ho
    rw [k1.1] at ho
    obtain ⟨a, b⟩ := k2 o (Or.inl ho)
    rw [a, b]
    simp
  obtain ⟨c1, c2⟩ := connectOps_spec g.ops (clearAdjacency g.ops g) hadj
    (sameLinks_closed k1 hcl) (fun o ho => by rw [k1.1]; exact ho)
  have hs := sameLinks_trans k1 c1
  unfold GraphObj.rebuildAdjacency
  exact ⟨⟨hs.1, hs.2.1, hs.2.2.1, hs.2.2.2⟩, c2⟩

/-- In a closed graph without a producer cycle through a listed operator, the
operators can be ranked along the producer relation. -/
theorem exists_rank (g : GraphObj) (hcl : Closed g)
    (hacyc : ∀ o ∈ g.ops, ¬ Relation.TransGen (produces g) o o) : ∃ ρ, Ranked ρ g := by
  classical
  refine ⟨fun q => (g.ops.toFinset.filter (fun p => Relation.TransGen (produces g) p q)).card,
    ?_⟩
  intro q hq t ht p hp
  have hprod : produces g p q := ⟨t, ht, hp⟩
  have hpo : p ∈ g.ops := hcl.sourceIn t (hcl.inputsIn q hq t ht) p hp
  apply Finset.card_lt_card
  rw [Finset.ssubset_iff_of_subset]
  · refine ⟨p, ?_, ?_⟩
    · simp only [Finset.mem_filter, List.mem_toFinset]
      exact ⟨hpo, Relation.TransGen.single hprod⟩
    · simp only [Finset.mem_filter, List.mem_toFinset, not_and]
      intro _
      exact hacyc p hpo
  · intro x hx
    simp only [Finset.mem_filter, List.mem_toFinset] at hx ⊢
    exact ⟨hx.1, Relation.TransGen.tail hx.2 hprod⟩

theorem sameLinks_noOrphan {g g' : GraphObj} (h : SameLinks g g') (hn : NoOrphan g) :
    NoOrphan g' := by
  intro t ht
  rw [h.2.1] at ht
  rw [(h.2.2.2 t).1, (h.2.2.2 t).2.1]
  exact hn t ht

/-- From a valid, consistent graph without a producer cycle the rewriter, given
enough iterations, returns a graph that is valid and consistent. -/
theorem optimize_spec (g : GraphObj) (hvalid : g.checkValid = true) (hcons : Consistent g)
    (hacyc : ∀ o ∈ g.ops, ¬ Relation.TransGen (produces g) o o) :
    ∃ N, ∀ fuel, N ≤ fuel →
      ∃ g', optimizeLoop fuel g = some (Outcome.value g') ∧
        g.optimize fuel = some (Outcome.value g'.rebuildAdjacency) ∧
        g'.rebuildAdjacency.checkValid = true ∧ Consistent g'.rebuildAdjacency := by
  obtain ⟨_, hcl, _, hfuid⟩ := (checkValid_iff g).1 hvalid
  obtain ⟨ρ, hρ⟩ := exists_rank g hcl hacyc
  refine ⟨graphWeight ρ g + 1, fun fuel hfuel => ?_⟩
  obtain ⟨g', e, i, hno, hsub, hf⟩ := optimizeLoop_spec ρ fuel g ⟨hcons, hcl, hρ⟩ (by omega)
  obtain ⟨s1, s2⟩ := rebuildAdjacency_spec g' i.2.1
  refine ⟨g', e, ?_, ?_, sameLinks_consistent s1 i.1⟩
  · unfold GraphObj.optimize
    rw [e]
  · rw [checkValid_iff]
    refine ⟨sameLinks_noOrphan s1 hno, sameLinks_closed s1 i.2.1, s2, ?_⟩
    have hmap : (g'.rebuildAdjacency.tensors.map
        fun tensor => (g'.rebuildAdjacency.tensorObj tensor).fuid) =
        g'.tensors.map fun tensor => (g.tensorObj tensor).fuid := by
      rw [s1.2.1]
      apply List.map_congr_left
      intro t _
      rw [(s1.2.2.2 t).2.2, hf t]
    rw [hmap]
    exact hfuid.sublist (hsub.map _)

/-! ## The rewriter: validity, termination, repeated runs -/

/-- C14, as amended. For every graph that passes `checkValid`, whose links are
consistent (`Consistent`: no operator listed twice, a MatMul with its two
inputs, a Transpose with an input and one output, an operator among the targets
of exactly the tensors it reads and the source of the tensors it writes) and
that has no producer cycle, `optimize` returns a graph that passes `checkValid`
and is consistent again. -/
theorem optimize_preserves_validity (g : GraphObj) (hvalid : g.checkValid = true)
    (hcons : Consistent g)
    (hacyc : ∀ o ∈ g.ops, ¬ Relation.TransGen (produces g) o o) :
    ∃ fuel g', g.optimize fuel = some (Outcome.value g') ∧ g'.checkValid = true ∧
      Consistent g' := by
  obtain ⟨N, hN⟩ := optimize_spec g hvalid hcons hacyc
  obtain ⟨g', _, e, hv, hc⟩ := hN N (le_refl N)
  exact ⟨N, g'.rebuildAdjacency, e, hv, hc⟩

theorem graphObj_ext (g h : GraphObj) (h1 : g.tensors = h.tensors) (h2 : g.ops = h.ops)
    (h3 : g.sorted = h.sorted) (h4 : g.allocator = h.allocator)
    (h5 : ∀ t, g.tensorObj t = h.tensorObj t) (h6 : ∀ o, g.opObj o = h.opObj o) : g = h := by
  cases g
  cases h
  simp only at h1 h2 h3 h4 h5 h6
  simp only [GraphObj.mk.injEq]
  exact ⟨h1, h2, h3, h4, funext h5, funext h6⟩

/-- A pass on `transposeCycleGraph` applies rule B to both Transposes, each time
redirecting the reader of a tensor to that same tensor: the pass reports a
change and gives the same graph back. -/
theorem transposeCycleGraph_pass :
    ∃ st, optimizePass transposeCycleGraph = Outcome.value st ∧ st.changed = true ∧
      st.g = transposeCycleGraph := by
  refine ⟨_, rfl, rfl, ?_⟩
  apply graphObj_ext
  · decide
  · decide
  · rfl
  · rfl
  · intro t
    match t with
    | 0 => decide
    | 1 => decide
    | n + 2 => rfl
  · intro o
    match o with
    | 0 => decide
    | 1 => decide
    | n + 2 => rfl

/-- C14, counterexample. `transposeCycleGraph`, two Transposes of the last two
axes that read each other's output, passes `checkValid` and has consistent
links, and `optimize` returns no graph for it: every pass of its loop sets
`changed`, so no number of iterations suffices. -/
theorem optimize_never_returns_on_transpose_cycle :
    transposeCycleGraph.checkValid = true ∧ Consistent transposeCycleGraph ∧
    (∀ fuel, transposeCycleGraph.optimize fuel = none) := by
  refine ⟨by decide, ⟨by decide, by decide, by decide, by decide, by decide⟩, fun fuel => ?_⟩
  have hloop : ∀ n, optimizeLoop n transposeCycleGraph = none := by
    intro n
    induction n with
    | zero => rfl
    | succ n ih =>
      obtain ⟨st, e, hc, hg⟩ := transposeCycleGraph_pass
      simp only [optimizeLoop, e, hc, if_true, hg]
      exact ih
  unfold GraphObj.optimize
  rw [hloop fuel]

/-- C15, as amended. For every graph that passes `checkValid`, whose links are
consistent (`Consistent`) and that has no producer cycle, there is a rank `ρ`
of the operators, growing along the producer relation, such that every pass of
the loop of `optimize` from a graph with the invariant `RewriteInv ρ` returns,
keeps the invariant, and lowers the weight `graphWeight ρ` of the graph (the
number of listed operators plus, for each of their inputs that has a source,
one more than the rank of the source) when it sets `changed`; so the loop ends
within as many iterations as the weight of the graph, plus one. -/
theorem optimize_loop_terminates (g : GraphObj) (hvalid : g.checkValid = true)
    (hcons : Consistent g)
    (hacyc : ∀ o ∈ g.ops, ¬ Relation.TransGen (produces g) o o) :
    ∃ ρ : Nat → Nat, RewriteInv ρ g ∧
      (∀ h, RewriteInv ρ h → ∃ st, optimizePass h = Outcome.value st ∧ RewriteInv ρ st.g ∧
        (st.changed = true → graphWeight ρ st.g < graphWeight ρ h)) ∧
      ∀ fuel, graphWeight ρ g < fuel →
        ∃ g', optimizeLoop fuel g = some (Outcome.value g') := by
  obtain ⟨_, hcl, _, _⟩ := (checkValid_iff g).1 hvalid
  obtain ⟨ρ, hρ⟩ := exists_rank g hcl hacyc
  refine ⟨ρ, ⟨hcons, hcl, hρ⟩, fun h hinv => ?_, fun fuel hf => ?_⟩
  · obtain ⟨st, e, i, hlt, _⟩ := optimizePass_spec ρ h hinv
    exact ⟨st, e, i, hlt⟩
  · obtain ⟨g', e, _⟩ := optimizeLoop_spec ρ fuel g ⟨hcons, hcl, hρ⟩ hf
    exact ⟨g', e⟩

/-- A pass on `unsourcedOutputGraph` applies rule B to `Transpose 1`, whose output has
`Transpose 0` as its only target and is also the tensor that target is
redirected to: the pass reports a change and gives the same graph back. -/
theorem unsourcedOutputGraph_pass :
    ∃ st, optimizePass unsourcedOutputGraph = Outcome.value st ∧ st.changed = true ∧
      st.g = unsourcedOutputGraph := by
  refine ⟨_, rfl, rfl, ?_⟩
  apply graphObj_ext
  · decide
  · decide
  · rfl
  · rfl
  · intro t
    match t with
    | 0 => decide
    | 1 => decide
    | n + 2 => rfl
  · intro o
    match o with
    | 0 => decide
    | 1 => decide
    | n + 2 => rfl

theorem unsourcedOutputGraph_produces (p q : Nat) (h : produces unsourcedOutputGraph p q) :
    p = 0 ∧ q ≠ 0 := by
  obtain ⟨t, ht, hsrc⟩ := h
  match q with
  | 0 =>
    simp only [unsourcedOutputGraph, List.mem_singleton] at ht
    subst ht
    simp [unsourcedOutputGraph] at hsrc
  | q + 1 =>
    simp only [unsourcedOutputGraph, List.mem_singleton] at ht
    subst ht
    simp only [unsourcedOutputGraph, Option.some.injEq] at hsrc
    exact ⟨hsrc.symm, by omega⟩

/-- C15, counterexample. `unsourcedOutputGraph` passes `checkValid` and has no producer
cycle, and the loop of `optimize` does not end on it: no number of iterations
suffices. -/
theorem optimize_loop_runs_forever :
    unsourcedOutputGraph.checkValid = true ∧
    (∀ o ∈ unsourcedOutputGraph.ops,
      ¬ Relation.TransGen (produces unsourcedOutputGraph) o o) ∧
    (∀ fuel, optimizeLoop fuel unsourcedOutputGraph = none) := by
  refine ⟨by decide, ?_, ?_⟩
  · apply acyclic_of_increasing
    intro p q h
    have := unsourcedOutputGraph_produces p q h
    omega
  · intro fuel
    induction fuel with
    | zero => rfl
    | succ n ih =>
      obtain ⟨st, e, hc, hg⟩ := unsourcedOutputGraph_pass
      simp only [optimizeLoop, e, hc, if_true, hg]
      exact ih

theorem transposeTailGraph_produces (p q : Nat) (h : produces transposeTailGraph p q) :
    p < q := by
  obtain ⟨t, ht, hsrc⟩ := h
  match q with
  | 0 =>
    simp only [transposeTailGraph, List.mem_singleton] at ht
    subst ht
    simp [transposeTailGraph] at hsrc
  | q + 1 =>
    simp only [transposeTailGraph, List.mem_singleton] at ht
    subst ht
    simp only [transposeTailGraph, Option.some.injEq] at hsrc
    omega

/-- C13, failing input. `transposeTailGraph` passes `checkValid` and has no producer
cycle. A first `optimize` removes the Transpose that writes the graph output
`b` and keeps the one before it; a second `optimize` right after removes that
one too, with the tensors `X` and `a`. -/
theorem optimize_twice_removes_more :
    transposeTailGraph.checkValid = true ∧
    (∀ o ∈ transposeTailGraph.ops,
      ¬ Relation.TransGen (produces transposeTailGraph) o o) ∧
    observe (fun g => (g.ops, g.tensors, g.checkValid)) (transposeTailGraph.optimize 3) =
      some ([0], [0, 1], true) ∧
    observe (fun g => (g.ops, g.tensors)) (optimizeTwice 3 transposeTailGraph) =
      some ([], []) :=
  ⟨by decide, acyclic_of_increasing transposeTailGraph transposeTailGraph_produces,
    by decide, by decide⟩

/-- C12, counterexample. In `tripleTransposeGraph` the chain `X -> Transpose 1 -> a ->
Transpose 2 -> b -> MatMul 3` is fed by a third last-two-axes Transpose.
`optimize` removes the three of them and leaves the MatMul reading `W = 0`
with its first flag flipped: it does not read `X = 1`, which has left the
tensor list. In `transposeReaderGraph` the chain `X -> Transpose 0 -> a ->
Transpose 1 -> b` is read by `Transpose 2`, which swaps the last two axes as
well and comes first in the operator list. `optimize` removes `Transpose 1` and
`Transpose 2` and has the reader of `d` read `a`: `Transpose 0` is still in the
operator list and `a = 1` in the tensor list. -/
theorem optimize_folds_third_transpose :
    observe
      (fun g => (g.ops, g.tensors, (g.opObj 3).inputs, (g.opObj 3).transA, (g.opObj 3).transB))
      (tripleTransposeGraph.optimize 3) = some ([3], [0, 4, 5], [0, 4], true, false) ∧
    observe (fun g => (g.ops, g.tensors, (g.opObj 3).inputs))
      (transposeReaderGraph.optimize 3) = some ([0, 3, 4], [0, 1, 4, 5, 6], [1]) := by
  decide

theorem doubleTransposeGraph_consistent : Consistent doubleTransposeGraph :=
  ⟨by decide, by decide, by decide, by decide, by decide⟩

theorem doubleTransposeGraph_produces (p q : Nat) (h : produces doubleTransposeGraph p q) :
    p < 2 ∧ p < q := by
  obtain ⟨t, ht, hsrc⟩ := h
  match q with
  | 0 =>
    simp only [doubleTransposeGraph, List.mem_singleton] at ht
    subst ht
    simp [doubleTransposeGraph] at hsrc
  | 1 =>
    simp only [doubleTransposeGraph, List.mem_singleton] at ht
    subst ht
    simp only [doubleTransposeGraph, Option.some.injEq] at hsrc
    omega
  | q + 2 =>
    simp only [doubleTransposeGraph, List.mem_cons, List.mem_singleton, List.not_mem_nil,
      or_false] at ht
    rcases ht with ht | ht
    · subst ht
      simp only [doubleTransposeGraph, Option.some.injEq] at hsrc
      omega
    · subst ht
      simp [doubleTransposeGraph] at hsrc

theorem doubleTransposeGraph_acyclic :
    ∀ o ∈ doubleTransposeGraph.ops, ¬ Relation.TransGen (produces doubleTransposeGraph) o o :=
  acyclic_of_increasing doubleTransposeGraph
    (fun p q h => (doubleTransposeGraph_produces p q h).2)

theorem optimize_preserves_validity_witness :
    doubleTransposeGraph.checkValid = true ∧ Consistent doubleTransposeGraph ∧
    (∀ o ∈ doubleTransposeGraph.ops,
      ¬ Relation.TransGen (produces doubleTransposeGraph) o o) ∧
    observe (fun g => (g.ops, g.tensors, g.checkValid)) (doubleTransposeGraph.optimize 3) =
      some ([2], [0, 3, 4], true) ∧
    ∃ fuel g', doubleTransposeGraph.optimize fuel = some (Outcome.value g') ∧
      g'.checkValid = true ∧ Consistent g' :=
  ⟨by decide, doubleTransposeGraph_consistent, doubleTransposeGraph_acyclic, by decide,
    optimize_preserves_validity doubleTransposeGraph (by decide)
      doubleTransposeGraph_consistent doubleTransposeGraph_acyclic⟩

theorem optimize_loop_terminates_witness :
    doubleTransposeGraph.checkValid = true ∧ Consistent doubleTransposeGraph ∧
    (∀ o ∈ doubleTransposeGraph.ops,
      ¬ Relation.TransGen (produces doubleTransposeGraph) o o) ∧
    observe (fun g => g.ops) (optimizeLoop 2 doubleTransposeGraph) = some [2] ∧
    ∃ ρ : Nat → Nat, RewriteInv ρ doubleTransposeGraph ∧
      (∀ h, RewriteInv ρ h → ∃ st, optimizePass h = Outcome.value st ∧ RewriteInv ρ st.g ∧
        (st.changed = true → graphWeight ρ st.g < graphWeight ρ h)) ∧
      ∀ fuel, graphWeight ρ doubleTransposeGraph < fuel →
        ∃ g', optimizeLoop fuel doubleTransposeGraph = some (Outcome.value g') :=
  ⟨by decide, doubleTransposeGraph_consistent, doubleTransposeGraph_acyclic, by decide,
    optimize_loop_terminates doubleTransposeGraph (by decide)
      doubleTransposeGraph_consistent doubleTransposeGraph_acyclic⟩

/-! ## The rewriter on a chain of two Transposes -/

theorem swapT_congr {g g' : GraphObj} (p : Nat)
    (h1 : (g'.opObj p).opType = (g.opObj p).opType)
    (h2 : (g'.opObj p).transposePermute = (g.opObj p).transposePermute) :
    SwapT g' p ↔ SwapT g p := by
  unfold SwapT
  rw [h1, h2]

theorem swapT_rewire (g : GraphObj) (n t1 t2 p : Nat) :
    SwapT (g.rewire n t1 t2) p ↔ SwapT g p :=
  swapT_congr p (rewire_opType _ _ _ _ _) (rewire_permute _ _ _ _ _)

theorem swapT_sameLinks {g g' : GraphObj} (h : SameLinks g g') (p : Nat) :
    SwapT g' p ↔ SwapT g p :=
  swapT_congr p (h.2.2.1 p).2.2.1 (h.2.2.1 p).2.2.2

/-- What an entry of the inputs of an operator was before the operator `n` was
made to read `t2` instead of `t1`. -/
theorem rewire_getElem? (g : GraphObj) (n t1 t2 o i t : Nat)
    (h : ((g.rewire n t1 t2).opObj o).inputs[i]? = some t) :
    ∃ t0, (g.opObj o).inputs[i]? = some t0 ∧
      ((t0 = t ∧ (o = n → t0 ≠ t1)) ∨ (o = n ∧ t0 = t1 ∧ t = t2)) := by
  rw [rewire_inputs] at h
  by_cases hon : o = n
  · rw [if_pos hon, List.getElem?_map] at h
    cases h0 : (g.opObj o).inputs[i]? with
    | none => rw [h0] at h; simp at h
    | some t0 =>
      rw [h0] at h
      simp only [Option.map_some', Option.some.injEq] at h
      refine ⟨t0, rfl, ?_⟩
      by_cases h01 : t0 = t1
      · rw [if_pos h01] at h
        exact Or.inr ⟨hon, h01, h.symm⟩
      · rw [if_neg h01] at h
        exact Or.inl ⟨h, fun _ => h01⟩
  · rw [if_neg hon] at h
    exact ⟨t, h, Or.inl ⟨rfl, fun h' => absurd h' hon⟩⟩

/-- An entry of the inputs of an operator after the operator `n` was made to read
`t2` instead of `t1`. -/
theorem getElem?_rewire (g : GraphObj) (n t1 t2 o i t0 : Nat)
    (h : (g.opObj o).inputs[i]? = some t0) :
    ((g.rewire n t1 t2).opObj o).inputs[i]? =
      some (if o = n ∧ t0 = t1 then t2 else t0) := by
  rw [rewire_inputs]
  by_cases hon : o = n
  · rw [if_pos hon, List.getElem?_map, h]
    simp [hon]
  · rw [if_neg hon, h]
    simp [hon]

/-- The two tensors of a step of either rule: what is known of the tensor given
up and of the tensor read instead. -/
theorem licensed_cases (g : GraphObj) (n t1 t2 : Nat) (hc : Consistent g)
    (h : FoldStep g n t1 t2 ∨ BypassStep g n t1 t2) :
    n ∈ g.ops ∧ (∃ p, p ∈ g.ops ∧ (g.tensorObj t1).source = some p ∧ SwapT g p) ∧
    (∃ q, q ∈ g.ops ∧ SwapT g q ∧ (g.opObj q).inputs[0]? = some t2) := by
  rcases h with ⟨hn, _, _, p, hp, hs, hsw, h2⟩ | ⟨hn, v, m, q, hv, hsv, hout, _, _, hq, hsq, h2⟩
  · exact ⟨hn, ⟨p, hp, hs, hsw⟩, ⟨p, hp, hsw, h2⟩⟩
  · refine ⟨hn, ⟨v, hv, hc.writes v hv t1 (by rw [hout]; simp), hsv⟩, ⟨q, hq, hsq, h2⟩⟩

/-- A step of either rule never has an operator read `a` in a new place, unless the
operator is a MatMul that read `b` there, and never has one read `b` in a new
place. -/
theorem chain_step_target (g : GraphObj) (first second x a b n t1 t2 : Nat)
    (hc : Consistent g) (hch : Chain g first second x a b)
    (h : FoldStep g n t1 t2 ∨ BypassStep g n t1 t2) :
    t2 ≠ b ∧ (t2 = a → (g.opObj n).opType = OpType.MatMul ∧ t1 = b) ∧ t1 ≠ x ∧
    (t1 = b → t2 = a ∨ t2 = x) ∧ (t1 = a → t2 = x) := by
  have hx : t1 ≠ x := by
    obtain ⟨_, ⟨p, _, hs, hsw⟩, _⟩ := licensed_cases g n t1 t2 hc h
    intro h1
    rw [h1] at hs
    exact hch.srcX p hs hsw
  rcases h with ⟨hn, hmm, _, p, hp, hs, hsw, h2⟩ | ⟨hn, v, m, q, hv, hsv, hout, hm, hsm, hq, hsq, h2⟩
  · have hh := hch.heads p hp hsw t2 h2
    refine ⟨hh.1, fun h2a => ⟨hmm, ?_⟩, hx, fun h1 => ?_, fun h1 => ?_⟩
    · have := hh.2 h2a
      subst this
      exact hch.onlyB t1 hs
    · subst h1
      have := hch.srcB p hs
      subst this
      rw [hch.inSecond] at h2
      cases h2
      exact Or.inl rfl
    · subst h1
      have := hch.srcA p hs
      subst this
      rw [hch.inFirst] at h2
      cases h2
      rfl
  · have hh := hch.heads q hq hsq t2 h2
    have hsv1 : (g.tensorObj t1).source = some v := hc.writes v hv t1 (by rw [hout]; simp)
    have hno : t2 ≠ a := by
      intro h2a
      have := hh.2 h2a
      subst this
      have hmb := hch.onlyB m hsm
      subst hmb
      exact (hch.heads v hv hsv m hm).1 rfl
    refine ⟨hh.1, fun h2a => absurd h2a hno, hx, fun h1 => ?_, fun h1 => ?_⟩
    · subst h1
      have := hch.srcB v hsv1
      subst this
      rw [hch.inSecond] at hm
      cases hm
      have := hch.srcA q hsm
      subst this
      rw [hch.inFirst] at h2
      cases h2
      exact Or.inr rfl
    · subst h1
      have := hch.srcA v hsv1
      subst this
      rw [hch.inFirst] at hm
      cases hm
      exact absurd hsq (hch.srcX q hsm)

/-- A step of either rule keeps the chain. -/
theorem chain_rewire (g : GraphObj) (first second x a b n t1 t2 : Nat)
    (hc : Consistent g) (hch : Chain g first second x a b)
    (h : FoldStep g n t1 t2 ∨ BypassStep g n t1 t2) :
    Chain (g.rewire n t1 t2) first second x a b := by
  obtain ⟨k1, k2, k3, k4, k5⟩ := chain_step_target g first second x a b n t1 t2 hc hch h
  have hfirst : ∀ o t, (g.opObj o).inputs[0]? = some t → t ≠ t1 →
      ((g.rewire n t1 t2).opObj o).inputs[0]? = some t := by
    intro o t ht hne
    rw [getElem?_rewire g n t1 t2 o 0 t ht]
    simp [hne]
  have hnot : ¬ ((g.opObj n).opType = OpType.MatMul ∧ SwapT g n) := by
    rintro ⟨h1, h2⟩
    have := h2.1
    rw [h1] at this
    cases this
  refine ⟨(swapT_rewire _ _ _ _ _).2 hch.swapFirst, (swapT_rewire _ _ _ _ _).2 hch.swapSecond,
    (rewire_outputs _ _ _ _ _).trans hch.outFirst,
    (rewire_outputs _ _ _ _ _).trans hch.outSecond,
    hfirst first x hch.inFirst (Ne.symm k3), ?_, ?_, ?_, ?_, ?_, ?_, ?_, ?_, hch.keepFirst,
    hch.goneA, hch.goneB⟩
  · rw [getElem?_rewire g n t1 t2 second 0 a hch.inSecond]
    by_cases hcase : second = n ∧ a = t1
    · exfalso
      obtain ⟨h1, h2⟩ := hcase
      subst h1
      subst h2
      rcases h with ⟨_, hmm, _⟩ | ⟨_, v, m, q, hv, hsv, hout, hm, hsm, hq, hsq, h2⟩
      · exact hnot ⟨hmm, hch.swapSecond⟩
      · have hsv1 : (g.tensorObj a).source = some v := hc.writes v hv a (by rw [hout]; simp)
        have := hch.srcA v hsv1
        subst this
        rw [hch.inFirst] at hm
        cases hm
        exact hch.srcX q hsm hsq
    · rw [if_neg hcase]
  · intro p hp
    rw [rewire_source] at hp
    rw [swapT_rewire]
    exact hch.srcX p hp
  · intro p hp
    rw [rewire_source] at hp
    exact hch.srcA p hp
  · intro p hp
    rw [rewire_source] at hp
    exact hch.srcB p hp
  · intro t ht
    rw [rewire_source] at ht
    exact hch.onlyB t ht
  · intro q hq hsq t ht
    rw [swapT_rewire] at hsq
    obtain ⟨t0, h0, hcase⟩ := rewire_getElem? g n t1 t2 q 0 t ht
    rcases hcase with ⟨h1, _⟩ | ⟨h1, _, h3⟩
    · subst h1
      exact hch.heads q hq hsq t0 h0
    · subst h1
      subst h3
      refine ⟨k1, fun h2a => ?_⟩
      exact absurd ⟨(k2 h2a).1, hsq⟩ hnot
  · intro o ho
    rw [rewire_opType]
    rw [mem_rewire_targets] at ho
    rcases ho with ⟨h1, _⟩ | ⟨h1, h2⟩
    · exact hch.readersA o h1
    · subst h2
      exact Or.inr (k2 h1.symm).1
  · intro o ho hmm
    rw [rewire_opType] at hmm
    rw [rewire_inputs]
    split
    · rw [List.length_map]
      exact hch.arity o ho hmm
    · exact hch.arity o ho hmm

theorem flipTrans_sameLinks (g : GraphObj) (op i : Nat) : SameLinks g (g.flipTrans op i) := by
  unfold GraphObj.flipTrans
  apply sameLinks_update_op <;> split <;> rfl

/-- The chain is kept when the operators keep their inputs, outputs, kinds and
permutations while operators leave the list, sources expire and targets are
dropped, as long as the writers of `a` and `b` leave in step with them. -/
theorem chain_mono (g g' : GraphObj) (first second x a b : Nat)
    (hobj : ∀ o, (g'.opObj o).inputs = (g.opObj o).inputs ∧
      (g'.opObj o).outputs = (g.opObj o).outputs ∧
      (g'.opObj o).opType = (g.opObj o).opType ∧
      (g'.opObj o).transposePermute = (g.opObj o).transposePermute)
    (hops : ∀ o, o ∈ g'.ops → o ∈ g.ops)
    (hsrc : ∀ t p, (g'.tensorObj t).source = some p → (g.tensorObj t).source = some p)
    (htg : ∀ t n, n ∈ (g'.tensorObj t).targets → n ∈ (g.tensorObj t).targets)
    (hch : Chain g first second x a b)
    (hk : second ∈ g'.ops → first ∈ g'.ops) (ha : first ∉ g'.ops → a ∉ g'.tensors)
    (hb : second ∉ g'.ops → b ∉ g'.tensors) : Chain g' first second x a b := by
  have hsw : ∀ p, SwapT g' p ↔ SwapT g p :=
    fun p => swapT_congr p (hobj p).2.2.1 (hobj p).2.2.2
  refine ⟨(hsw _).2 hch.swapFirst, (hsw _).2 hch.swapSecond, ?_, ?_, ?_, ?_, ?_, ?_, ?_, ?_, ?_,
    ?_, ?_, hk, ha, hb⟩
  · rw [(hobj first).2.1]; exact hch.outFirst
  · rw [(hobj second).2.1]; exact hch.outSecond
  · rw [(hobj first).1]; exact hch.inFirst
  · rw [(hobj second).1]; exact hch.inSecond
  · intro p hp
    rw [hsw]
    exact hch.srcX p (hsrc x p hp)
  · intro p hp
    exact hch.srcA p (hsrc a p hp)
  · intro p hp
    exact hch.srcB p (hsrc b p hp)
  · intro t ht
    exact hch.onlyB t (hsrc t second ht)
  · intro q hq hsq t ht
    rw [hsw] at hsq
    rw [(hobj q).1] at ht
    exact hch.heads q (hops q hq) hsq t ht
  · intro n hn
    rw [(hobj n).2.2.1]
    exact hch.readersA n (htg a n hn)
  · intro o ho hmm
    rw [(hobj o).2.2.1] at hmm
    rw [(hobj o).1]
    exact hch.arity o (hops o ho) hmm

theorem chain_sameLinks {g g' : GraphObj} (first second x a b : Nat) (h : SameLinks g g')
    (hch : Chain g first second x a b) : Chain g' first second x a b := by
  apply chain_mono g g' first second x a b h.2.2.1 (fun o ho => by rw [← h.1]; exact ho)
    (fun t p hp => by rw [← (h.2.2.2 t).2.1]; exact hp)
    (fun t n hn => by rw [← (h.2.2.2 t).1]; exact hn) hch
  · rw [h.1]; exact hch.keepFirst
  · rw [h.1, h.2.1]; exact hch.goneA
  · rw [h.1, h.2.1]; exact hch.goneB

theorem follows_congr (g g' : GraphObj) (op : Nat) (ins : List Nat) (x a b : Nat)
    (h : (g'.opObj op).inputs = (g.opObj op).inputs) (hf : Follows g op ins x a b) :
    Follows g' op ins x a b := by
  intro i hi
  rw [h]
  exact hf i hi

/-- A step of either rule keeps an operator that read `b` reading `b`, `a` or `x`
in that place. -/
theorem follows_rewire (g : GraphObj) (first second x a b n t1 t2 op : Nat) (ins : List Nat)
    (hc : Consistent g) (hch : Chain g first second x a b)
    (h : FoldStep g n t1 t2 ∨ BypassStep g n t1 t2) (hf : Follows g op ins x a b) :
    Follows (g.rewire n t1 t2) op ins x a b := by
  obtain ⟨k1, k2, k3, k4, k5⟩ := chain_step_target g first second x a b n t1 t2 hc hch h
  intro i hi
  have key : ∀ t0, (g.opObj op).inputs[i]? = some t0 → (t0 = b ∨ t0 = a ∨ t0 = x) →
      ((g.rewire n t1 t2).opObj op).inputs[i]? = some b ∨
      ((g.rewire n t1 t2).opObj op).inputs[i]? = some a ∨
      ((g.rewire n t1 t2).opObj op).inputs[i]? = some x := by
    intro t0 h0 hcase
    rw [getElem?_rewire g n t1 t2 op i t0 h0]
    by_cases hcond : op = n ∧ t0 = t1
    · rw [if_pos hcond]
      obtain ⟨_, h01⟩ := hcond
      subst h01
      rcases hcase with h1 | h1 | h1
      · rcases k4 h1 with h2 | h2
        · exact Or.inr (Or.inl (by rw [h2]))
        · exact Or.inr (Or.inr (by rw [h2]))
      · exact Or.inr (Or.inr (by rw [k5 h1]))
      · exact absurd h1 k3
    · rw [if_neg hcond]
      rcases hcase with h1 | h1 | h1
      · exact Or.inl (by rw [h1])
      · exact Or.inr (Or.inl (by rw [h1]))
      · exact Or.inr (Or.inr (by rw [h1]))
  rcases hf i hi with h0 | h0 | h0
  · exact key b h0 (Or.inl rfl)
  · exact key a h0 (Or.inr (Or.inl rfl))
  · exact key x h0 (Or.inr (Or.inr rfl))

/-- The steps of the rules keep the chain and keep the operator `op` on it. -/
theorem chain_stepInv (ρ : Nat → Nat) (first second x a b op : Nat) (ins : List Nat) :
    StepInv ρ (fun g => Chain g first second x a b ∧ Follows g op ins x a b) := by
  refine ⟨fun g g' _ hsl hJ => ?_, fun g n t1 t2 hinv hJ hstep => ?_,
    fun g n t1 t2 hinv hJ hstep => ?_⟩
  · exact ⟨chain_sameLinks first second x a b hsl hJ.1,
      follows_congr g g' op ins x a b (hsl.2.2.1 op).1 hJ.2⟩
  · exact ⟨chain_rewire g first second x a b n t1 t2 hinv.1 hJ.1 (Or.inl hstep),
      follows_rewire g first second x a b n t1 t2 op ins hinv.1 hJ.1 (Or.inl hstep) hJ.2⟩
  · exact ⟨chain_rewire g first second x a b n t1 t2 hinv.1 hJ.1 (Or.inr hstep),
      follows_rewire g first second x a b n t1 t2 op ins hinv.1 hJ.1 (Or.inr hstep) hJ.2⟩

/-- Once `second` has left the operator list, the steps of the rules give `a` no
new reader. -/
theorem chain_stepInv_readers (ρ : Nat → Nat) (first second x a b op : Nat) (ins S : List Nat) :
    StepInv ρ (fun g => (Chain g first second x a b ∧ Follows g op ins x a b) ∧
      second ∉ g.ops ∧ ∀ n ∈ (g.tensorObj a).targets, n ∈ S) := by
  have hbase := chain_stepInv ρ first second x a b op ins
  have hstep : ∀ g n t1 t2, RewriteInv ρ g → Chain g first second x a b →
      second ∉ g.ops → (∀ n ∈ (g.tensorObj a).targets, n ∈ S) →
      (FoldStep g n t1 t2 ∨ BypassStep g n t1 t2) →
      ∀ m ∈ ((g.rewire n t1 t2).tensorObj a).targets, m ∈ S := by
    intro g n t1 t2 hinv hch hsec hS hl m hm
    rw [mem_rewire_targets] at hm
    rcases hm with ⟨h1, _⟩ | ⟨h1, _⟩
    · exact hS m h1
    · exfalso
      obtain ⟨_, _, q, hq, hsq, h2⟩ := licensed_cases g n t1 t2 hinv.1 hl
      have := (hch.heads q hq hsq t2 h2).2 h1.symm
      rw [this] at hq
      exact hsec hq
  refine ⟨fun g g' hinv hsl hJ => ?_, fun g n t1 t2 hinv hJ hs => ?_,
    fun g n t1 t2 hinv hJ hs => ?_⟩
  · refine ⟨hbase.links g g' hinv hsl hJ.1, ?_, ?_⟩
    · rw [hsl.1]; exact hJ.2.1
    · rw [(hsl.2.2.2 a).1]; exact hJ.2.2
  · exact ⟨hbase.fold g n t1 t2 hinv hJ.1 hs, hJ.2.1,
      hstep g n t1 t2 hinv hJ.1.1 hJ.2.1 hJ.2.2 (Or.inl hs)⟩
  · exact ⟨hbase.bypass g n t1 t2 hinv hJ.1 hs, hJ.2.1,
      hstep g n t1 t2 hinv hJ.1.1 hJ.2.1 hJ.2.2 (Or.inr hs)⟩

/-- The two ways a round of rule A on an operand ends: the state is left alone,
the operand not being written by a Transpose that swaps the last two axes, or
the flag of the operand is flipped and the operator reads the first input of
that Transpose instead. -/
theorem foldTranspose_cases (st : RewriteState) (op i : Nat) (st' : RewriteState)
    (h : foldTranspose st op i = Outcome.value st') :
    (st' = st ∧ ∀ input p, (st.g.opObj op).inputs[i]? = some input →
      (st.g.tensorObj input).source = some p → ¬ SwapT st.g p) ∨
    (∃ input p t2, (st.g.opObj op).inputs[i]? = some input ∧
      (st.g.tensorObj input).source = some p ∧ SwapT st.g p ∧
      (st.g.opObj p).inputs[0]? = some t2 ∧
      st' = { g := (st.g.flipTrans op i).rewire op input t2, changed := true }) := by
  unfold foldTranspose at h
  cases hin : (st.g.opObj op).inputs[i]? with
  | none =>
    rw [hin] at h
    cases h
  | some input =>
    rw [hin] at h
    simp only at h
    cases hsrc : (st.g.tensorObj input).source with
    | none =>
      rw [hsrc] at h
      simp only [Outcome.value.injEq] at h
      refine Or.inl ⟨h.symm, fun input' p h1 h2 => ?_⟩
      cases h1
      rw [hsrc] at h2
      cases h2
    | some p =>
      rw [hsrc] at h
      simp only at h
      have hpre : ∀ input' p', some input = some input' →
          (st.g.tensorObj input').source = some p' → p' = p := by
        intro input' p' h1 h2
        cases h1
        rw [hsrc] at h2
        cases h2
        rfl
      by_cases hty : (st.g.opObj p).opType = OpType.Transpose
      · rw [if_pos hty] at h
        obtain ⟨bb, hb⟩ := isSwapLastTwo_value (st.g.opObj p).transposePermute
        rw [hb] at h
        simp only [Outcome.bind] at h
        cases bb with
        | false =>
          simp only [Bool.false_eq_true, if_false, Outcome.value.injEq] at h
          refine Or.inl ⟨h.symm, fun input' p' h1 h2 h3 => ?_⟩
          have := hpre input' p' h1 h2
          subst this
          have := h3.2
          rw [hb] at this
          cases this
        | true =>
          simp only [if_true] at h
          rw [((flipTrans_sameLinks st.g op i).2.2.1 p).1] at h
          cases h0 : (st.g.opObj p).inputs[0]? with
          | none =>
            rw [h0] at h
            cases h
          | some t2 =>
            rw [h0] at h
            simp only [Outcome.value.injEq] at h
            exact Or.inr ⟨input, p, t2, rfl, hsrc, ⟨hty, hb⟩, h0, h.symm⟩
      · rw [if_neg hty] at h
        simp only [Outcome.value.injEq] at h
        refine Or.inl ⟨h.symm, fun input' p' h1 h2 h3 => ?_⟩
        have := hpre input' p' h1 h2
        subst this
        exact hty h3.1

/-- Once `second` has left the operator list while `first` is still listed, a round
of rule A on operand `i` of a listed operator leaves that operand other than
`a`, and puts `a` in no place of the inputs. -/
theorem foldTranspose_clears (ρ : Nat → Nat) (st : RewriteState) (n i : Nat)
    (st' : RewriteState) (first second x a b : Nat)
    (hinv : RewriteInv ρ st.g) (hn : n ∈ st.g.ops) (hch : Chain st.g first second x a b)
    (hfirst : first ∈ st.g.ops) (hsec : second ∉ st.g.ops)
    (h : foldTranspose st n i = Outcome.value st') :
    (st'.g.opObj n).inputs[i]? ≠ some a ∧
    ∀ j : Nat, (st'.g.opObj n).inputs[j]? = some a → (st.g.opObj n).inputs[j]? = some a := by
  have hsa : (st.g.tensorObj a).source = some first :=
    hinv.1.writes first hfirst a (by rw [hch.outFirst]; simp)
  rcases foldTranspose_cases st n i st' h with ⟨h1, h2⟩ | ⟨input, p, t2, h1, h2, h3, h4, h5⟩
  · subst h1
    exact ⟨fun hia => h2 a first hia hsa hch.swapFirst, fun _ hj => hj⟩
  · subst h5
    simp only
    have hsl := flipTrans_sameLinks st.g n i
    have hmem : input ∈ (st.g.opObj n).inputs := List.getElem?_mem h1
    have hp : p ∈ st.g.ops :=
      hinv.2.1.sourceIn input (hinv.2.1.inputsIn n hn input hmem) p h2
    have hne : t2 ≠ a := by
      intro h2a
      have := (hch.heads p hp h3 t2 h4).2 h2a
      rw [this] at hp
      exact hsec hp
    constructor
    · have h1' : ((st.g.flipTrans n i).opObj n).inputs[i]? = some input := by
        rw [(hsl.2.2.1 n).1]; exact h1
      rw [getElem?_rewire _ n input t2 n i input h1']
      simp only [and_self, if_true, ne_eq, Option.some.injEq]
      exact hne
    · intro j hj
      obtain ⟨t0, h0, hcase⟩ := rewire_getElem? _ n input t2 n j a hj
      rw [(hsl.2.2.1 n).1] at h0
      rcases hcase with ⟨h6, _⟩ | ⟨_, _, h6⟩
      · rw [h6] at h0
        exact h0
      · exact absurd h6.symm hne

/-- Once `second` has left the operator list while `first` is still listed, the body
of the scan on a listed MatMul leaves it not reading `a`. -/
theorem rewriteOp_clears (ρ : Nat → Nat) (st : RewriteState) (n : Nat)
    (st' : RewriteState) (first second x a b op : Nat) (ins : List Nat)
    (hinv : RewriteInv ρ st.g) (hn : n ∈ st.g.ops)
    (hmm : (st.g.opObj n).opType = OpType.MatMul)
    (hch : Chain st.g first second x a b ∧ Follows st.g op ins x a b)
    (hfirst : first ∈ st.g.ops) (hsec : second ∉ st.g.ops)
    (h : rewriteOp st n = Outcome.value st') :
    a ∉ (st'.g.opObj n).inputs := by
  have hJ := chain_stepInv ρ first second x a b op ins
  have har := hinv.1.arityMatMul n hn hmm
  obtain ⟨s1, e1, i1, p1, l1, j1⟩ :=
    foldTranspose_spec ρ _ hJ st n 0 hinv hn hmm (by omega) hch
  have hn1 : n ∈ s1.g.ops := by rw [p1.1]; exact hn
  have hmm1 : (s1.g.opObj n).opType = OpType.MatMul := by rw [(p1.2.2.1 n).1]; exact hmm
  obtain ⟨s2, e2, i2, p2, l2, j2⟩ :=
    foldTranspose_spec ρ _ hJ s1 n 1 i1 hn1 hmm1 (by omega) j1
  have hty : (s2.g.opObj n).opType ≠ OpType.Transpose := by
    rw [(p2.2.2.1 n).1, hmm1]
    simp
  have hs : st' = s2 := by
    unfold rewriteOp at h
    rw [if_pos hmm, e1] at h
    simp only [Outcome.bind] at h
    rw [e2] at h
    simp only [Outcome.bind] at h
    rw [if_neg hty] at h
    cases h
    rfl
  subst hs
  obtain ⟨c1, _⟩ := foldTranspose_clears ρ st n 0 s1 first second x a b hinv hn hch.1
    hfirst hsec e1
  obtain ⟨c3, c4⟩ := foldTranspose_clears ρ s1 n 1 st' first second x a b i1 hn1 j1.1
    (by rw [p1.1]; exact hfirst) (by rw [p1.1]; exact hsec) e2
  have hn2 : n ∈ st'.g.ops := by rw [p2.1]; exact hn1
  have hmm2 : (st'.g.opObj n).opType = OpType.MatMul := by rw [(p2.2.2.1 n).1]; exact hmm1
  have hlen := j2.1.arity n hn2 hmm2
  intro hmem
  obtain ⟨j, hj⟩ := List.mem_iff_getElem?.1 hmem
  have hjlt : j < (st'.g.opObj n).inputs.length := by
    by_contra hge
    rw [List.getElem?_eq_none (by omega)] at hj
    cases hj
  have hj01 : j = 0 ∨ j = 1 := by omega
  rcases hj01 with h0 | h0
  · subst h0
    exact c1 (c4 0 hj)
  · subst h0
    exact c3 hj

/-- The scan keeps the chain and keeps the operator `op` on it. -/
theorem rewriteScan_chain (ρ : Nat → Nat) (first second x a b op : Nat) (ins : List Nat)
    (l : List Nat) (st : RewriteState) (hinv : RewriteInv ρ st.g) (hl : ∀ o ∈ l, o ∈ st.g.ops)
    (hch : Chain st.g first second x a b ∧ Follows st.g op ins x a b) :
    ∃ st', rewriteScan l st = Outcome.value st' ∧ RewriteInv ρ st'.g ∧ Progress ρ st st' ∧
      (Chain st'.g first second x a b ∧ Follows st'.g op ins x a b) := by
  apply rewriteScan_induct ρ
    (fun _ s => Chain s.g first second x a b ∧ Follows s.g op ins x a b) ?_ l st hinv hl hch
  intro o rest s s' hw hi ho e _ _
  obtain ⟨s1, e1, _, _, j1, _⟩ :=
    rewriteOp_spec ρ _ (chain_stepInv ρ first second x a b op ins) s o hi ho hw
  rw [e] at e1
  cases e1
  exact j1

/-- A scan that visits `second` sets `changed` and leaves `second` without a reader
of its output. -/
theorem rewriteScan_dooms (ρ : Nat → Nat) (first second x a b op : Nat) (ins : List Nat)
    (l : List Nat) (st : RewriteState) (hinv : RewriteInv ρ st.g) (hl : ∀ o ∈ l, o ∈ st.g.ops)
    (hch : Chain st.g first second x a b ∧ Follows st.g op ins x a b)
    (hsec : second ∈ l) :
    ∃ st', rewriteScan l st = Outcome.value st' ∧ RewriteInv ρ st'.g ∧ Progress ρ st st' ∧
      (Chain st'.g first second x a b ∧ Follows st'.g op ins x a b) ∧
      st'.changed = true ∧ Doomed st'.g second := by
  have key : ∃ st', rewriteScan l st = Outcome.value st' ∧ RewriteInv ρ st'.g ∧
      Progress ρ st st' ∧
      ((Chain st'.g first second x a b ∧ Follows st'.g op ins x a b) ∧
        (second ∈ ([] : List Nat) ∨ (st'.changed = true ∧ Doomed st'.g second))) := by
    apply rewriteScan_induct ρ
      (fun rest s => (Chain s.g first second x a b ∧ Follows s.g op ins x a b) ∧
        (second ∈ rest ∨ (s.changed = true ∧ Doomed s.g second))) ?_ l st hinv hl
      ⟨hch, Or.inl hsec⟩
    intro o rest s s' hw hi ho e _ _
    obtain ⟨s1, e1, _, q1, j1, f1⟩ :=
      rewriteOp_spec ρ _ (chain_stepInv ρ first second x a b op ins) s o hi ho hw.1
    rw [e] at e1
    cases e1
    refine ⟨j1, ?_⟩
    by_cases hos : o = second
    · subst hos
      right
      have hfirst := hw.1.1.keepFirst ho
      exact f1 a first hw.1.1.inSecond
        (hi.1.writes first hfirst a (by rw [hw.1.1.outFirst]; simp))
        hw.1.1.swapFirst hw.1.1.swapSecond
    · rcases hw.2 with h | h
      · left
        simp only [List.mem_cons] at h
        rcases h with h | h
        · exact absurd h.symm hos
        · exact h
      · right
        exact ⟨q1.2.2.2.2.2.2.1 h.1, q1.2.2.2.2.2.1 second h.2⟩
  obtain ⟨st', e, i, p, w1, w2⟩ := key
  rcases w2 with h | h
  · simp at h
  · exact ⟨st', e, i, p, w1, h⟩

/-- A scan over all operators, once `second` has left the list while `first` is
still listed, leaves `a` without a reader. -/
theorem rewriteScan_clears (ρ : Nat → Nat) (first second x a b op : Nat) (ins : List Nat)
    (st : RewriteState) (hinv : RewriteInv ρ st.g)
    (hch : Chain st.g first second x a b ∧ Follows st.g op ins x a b)
    (hfirst : first ∈ st.g.ops) (hsec : second ∉ st.g.ops) :
    ∃ st', rewriteScan st.g.ops st = Outcome.value st' ∧ RewriteInv ρ st'.g ∧
      Progress ρ st st' ∧
      (Chain st'.g first second x a b ∧ Follows st'.g op ins x a b) ∧
      (st'.g.tensorObj a).targets = [] := by
  have haT : a ∈ st.g.tensors :=
    hinv.2.1.outputsIn first hfirst a (by rw [hch.1.outFirst]; simp)
  have key : ∃ st', rewriteScan st.g.ops st = Outcome.value st' ∧ RewriteInv ρ st'.g ∧
      Progress ρ st st' ∧
      ((Chain st'.g first second x a b ∧ Follows st'.g op ins x a b) ∧
        second ∉ st'.g.ops ∧ first ∈ st'.g.ops ∧ a ∈ st'.g.tensors ∧
        ∀ n ∈ (st'.g.tensorObj a).targets, n ∈ ([] : List Nat)) := by
    apply rewriteScan_induct ρ
      (fun rest s => (Chain s.g first second x a b ∧ Follows s.g op ins x a b) ∧
        second ∉ s.g.ops ∧ first ∈ s.g.ops ∧ a ∈ s.g.tensors ∧
        ∀ n ∈ (s.g.tensorObj a).targets, n ∈ rest) ?_ st.g.ops st hinv (fun _ h => h)
      ⟨hch, hsec, hfirst, haT, fun n hn => hinv.2.1.targetsIn a haT n hn⟩
    intro o rest s s' hw hi ho e i' q
    obtain ⟨hK, hs, hf, haT', hS⟩ := hw
    obtain ⟨s1, e1, _, _, j1, _⟩ :=
      rewriteOp_spec ρ _ (chain_stepInv_readers ρ first second x a b op ins (o :: rest)) s o hi
        ho ⟨hK, hs, hS⟩
    rw [e] at e1
    cases e1
    obtain ⟨jK, js, jS⟩ := j1
    have ho' : o ∈ s'.g.ops := by rw [q.1]; exact ho
    have haT2 : a ∈ s'.g.tensors := by rw [q.2.1]; exact haT'
    refine ⟨jK, js, by rw [q.1]; exact hf, haT2, fun n hn => ?_⟩
    have hmem := jS n hn
    simp only [List.mem_cons] at hmem
    rcases hmem with h | h
    · exfalso
      subst h
      have hreads : a ∈ (s'.g.opObj n).inputs := (i'.1.reads n ho' a haT2).2 hn
      by_cases hmm : (s.g.opObj n).opType = OpType.MatMul
      · exact rewriteOp_clears ρ s n s' first second x a b op ins hi ho hmm hK hf hs e hreads
      · rcases jK.1.readersA n hn with h1 | h1
        · rw [h1] at ho'
          exact js ho'
        · rw [(q.2.2.1 n).1] at h1
          exact hmm h1
    · exact h
  obtain ⟨st', e, i, p, w1, _, _, _, w5⟩ := key
  refine ⟨st', e, i, p, w1, ?_⟩
  rw [List.eq_nil_iff_forall_not_mem]
  intro n hn
  have := w5 n hn
  simp at this

/-- The cleanup keeps the chain and keeps `op` on it; it removes the operators
that were to be swept, no MatMul and no operator that was not listed. -/
theorem cleanup_chain (ρ : Nat → Nat) (g : GraphObj) (first second x a b op : Nat)
    (ins : List Nat) (hinv : RewriteInv ρ g)
    (hch : Chain g first second x a b ∧ Follows g op ins x a b) :
    (Chain g.eraseOps.sweepTensors first second x a b ∧
      Follows g.eraseOps.sweepTensors op ins x a b) ∧
    (∀ d, Doomed g d → d ∉ g.eraseOps.sweepTensors.ops) ∧
    (∀ o ∈ g.ops, (g.opObj o).opType = OpType.MatMul → o ∈ g.eraseOps.sweepTensors.ops) ∧
    (∀ o ∈ g.eraseOps.sweepTensors.ops, o ∈ g.ops) ∧
    (∀ o, (g.eraseOps.sweepTensors.opObj o) = g.opObj o) := by
  obtain ⟨hc, hcl, _⟩ := hinv
  obtain ⟨R, e1, e2, e3, _, e5, e6, e7, e8⟩ := eraseOps_spec g hc.nodupOps
  have hK : ∀ o, o ∈ g.eraseOps.sweepTensors.ops ↔ o ∈ g.ops ∧ o ∉ R := by
    intro o
    rw [sweepTensors_ops, e1]
    simp
  have hobj : ∀ o, g.eraseOps.sweepTensors.opObj o = g.opObj o := by
    intro o
    rw [sweepTensors_opObj, e3]
  have hgone : ∀ w t, w ∈ g.ops → (g.opObj w).outputs = [t] →
      (∀ p, (g.tensorObj t).source = some p → p = w) →
      w ∉ g.eraseOps.sweepTensors.ops → t ∉ g.eraseOps.sweepTensors.tensors := by
    intro w t hw hout hsrc hnot
    have hwR : w ∈ R := by
      by_contra h
      exact hnot ((hK w).2 ⟨hw, h⟩)
    rw [mem_sweepTensors]
    rintro ⟨_, h2⟩
    apply h2
    constructor
    · cases hs : (g.eraseOps.tensorObj t).source with
      | none => rfl
      | some o =>
        exfalso
        obtain ⟨h3, h4⟩ := (e6 t o).1 hs
        rw [hsrc o h3] at h4
        exact h4 hwR
    · rw [List.eq_nil_iff_forall_not_mem]
      intro n hn
      obtain ⟨h3, h4⟩ := (e5 t n).1 hn
      exact h4 ((e8 w hwR).2 t (by rw [hout]; simp) n h3)
  refine ⟨⟨?_, ?_⟩, ?_, ?_, ?_, hobj⟩
  · apply chain_mono g g.eraseOps.sweepTensors first second x a b
      (fun o => by rw [hobj o]; exact ⟨rfl, rfl, rfl, rfl⟩)
      (fun o ho => ((hK o).1 ho).1)
      (fun t p hp => by
        rw [sweepTensors_tensorObj] at hp
        exact ((e6 t p).1 hp).1)
      (fun t n hn => by
        rw [sweepTensors_tensorObj] at hn
        exact ((e5 t n).1 hn).1) hch.1
    · intro hs
      obtain ⟨hs1, hs2⟩ := (hK second).1 hs
      have hf := hch.1.keepFirst hs1
      refine (hK first).2 ⟨hf, fun hfR => ?_⟩
      have haT : a ∈ g.tensors := hcl.outputsIn first hf a (by rw [hch.1.outFirst]; simp)
      have hrd : second ∈ (g.tensorObj a).targets :=
        (hc.reads second hs1 a haT).1 (List.getElem?_mem hch.1.inSecond)
      exact hs2 ((e8 first hfR).2 a (by rw [hch.1.outFirst]; simp) second hrd).1
    · intro hf
      by_cases hfo : first ∈ g.ops
      · exact hgone first a hfo hch.1.outFirst hch.1.srcA hf
      · intro hmem
        rw [mem_sweepTensors, e2] at hmem
        exact hch.1.goneA hfo hmem.1
    · intro hs
      by_cases hso : second ∈ g.ops
      · exact hgone second b hso hch.1.outSecond hch.1.srcB hs
      · intro hmem
        rw [mem_sweepTensors, e2] at hmem
        exact hch.1.goneB hso hmem.1
  · exact follows_congr g _ op ins x a b (by rw [hobj op]) hch.2
  · intro d hd hmem
    exact ((hK d).1 hmem).2 (e7 d hd)
  · intro o ho hmm
    exact (hK o).2 ⟨ho, fun hR => (e8 o hR).1 hmm⟩
  · intro o ho
    exact ((hK o).1 ho).1

/-- A pass keeps the chain and keeps `op` on it. A pass that starts with `second`
listed sets `changed` and removes `second`; a pass that starts without it
removes `first`. No MatMul is removed and no operator is added. -/
theorem optimizePass_chain (ρ : Nat → Nat) (g : GraphObj) (first second x a b op : Nat)
    (ins : List Nat) (hinv : RewriteInv ρ g)
    (hch : Chain g first second x a b ∧ Follows g op ins x a b)
    (st : RewriteState) (h : optimizePass g = Outcome.value st) :
    (Chain st.g first second x a b ∧ Follows st.g op ins x a b) ∧
    (second ∈ g.ops → st.changed = true ∧ second ∉ st.g.ops) ∧
    (second ∉ g.ops → first ∉ st.g.ops) ∧
    (∀ o ∈ g.ops, (g.opObj o).opType = OpType.MatMul →
      o ∈ st.g.ops ∧ (st.g.opObj o).opType = OpType.MatMul) ∧
    (∀ o ∈ st.g.ops, o ∈ g.ops) := by
  have hfin : ∀ s : RewriteState, rewriteScan g.ops { g := g, changed := false } =
      Outcome.value s → st = { g := s.g.eraseOps.sweepTensors, changed := s.changed } := by
    intro s e
    unfold optimizePass at h
    rw [e] at h
    simp only [Outcome.bind, Outcome.value.injEq] at h
    exact h.symm
  have hcommon : ∀ s : RewriteState, RewriteInv ρ s.g →
      Progress ρ { g := g, changed := false } s →
      (Chain s.g first second x a b ∧ Follows s.g op ins x a b) →
      (Chain s.g.eraseOps.sweepTensors first second x a b ∧
        Follows s.g.eraseOps.sweepTensors op ins x a b) ∧
      (∀ o ∈ g.ops, (g.opObj o).opType = OpType.MatMul →
        o ∈ s.g.eraseOps.sweepTensors.ops ∧
        (s.g.eraseOps.sweepTensors.opObj o).opType = OpType.MatMul) ∧
      (∀ o ∈ s.g.eraseOps.sweepTensors.ops, o ∈ g.ops) := by
    intro s i p k
    obtain ⟨c1, _, c3, c4, c5⟩ := cleanup_chain ρ s.g first second x a b op ins i k
    refine ⟨c1, fun o ho hmm => ?_, fun o ho => ?_⟩
    · have hmm' : (s.g.opObj o).opType = OpType.MatMul := by
        rw [(p.2.2.1 o).1]; exact hmm
      refine ⟨c3 o (by rw [p.1]; exact ho) hmm', ?_⟩
      rw [c5 o]
      exact hmm'
    · have := c4 o ho
      rw [p.1] at this
      exact this
  by_cases hsec : second ∈ g.ops
  · obtain ⟨s, e, i, p, k, hchg, hd⟩ := rewriteScan_dooms ρ first second x a b op ins g.ops
      { g := g, changed := false } hinv (fun _ ho => ho) hch hsec
    have := hfin s e
    subst this
    obtain ⟨c1, c2, c3⟩ := hcommon s i p k
    obtain ⟨_, d2, _⟩ := cleanup_chain ρ s.g first second x a b op ins i k
    exact ⟨c1, fun _ => ⟨hchg, d2 second hd⟩, fun h' => absurd hsec h', c2, c3⟩
  · by_cases hfirst : first ∈ g.ops
    · obtain ⟨s, e, i, p, k, htg⟩ := rewriteScan_clears ρ first second x a b op ins
        { g := g, changed := false } hinv hch hfirst hsec
      have := hfin s e
      subst this
      obtain ⟨c1, c2, c3⟩ := hcommon s i p k
      obtain ⟨_, d2, _⟩ := cleanup_chain ρ s.g first second x a b op ins i k
      refine ⟨c1, fun h' => absurd h' hsec, fun _ => ?_, c2, c3⟩
      apply d2 first
      refine ⟨by rw [p.1]; exact hfirst, ?_⟩
      rw [unused_iff, k.1.outFirst]
      refine ⟨?_, ?_⟩
      · rw [k.1.swapFirst.1]
        simp
      · intro t ht
        simp only [List.mem_singleton] at ht
        rw [ht]
        exact htg
    · obtain ⟨s, e, i, p, k⟩ := rewriteScan_chain ρ first second x a b op ins g.ops
        { g := g, changed := false } hinv (fun _ ho => ho) hch
      have := hfin s e
      subst this
      obtain ⟨c1, c2, c3⟩ := hcommon s i p k
      exact ⟨c1, fun h' => absurd h' hsec, fun _ hmem => hfirst (c3 first hmem), c2, c3⟩

/-- With more iterations than the weight of the graph the loop of the rewriter
ends, in a graph with the invariant that holds the chain no more: `first` and
`second` have left the operator list, and `op` is still on the chain. -/
theorem optimizeLoop_chain (ρ : Nat → Nat) (first second x a b op : Nat) (ins : List Nat) :
    ∀ (n : Nat) (g : GraphObj), RewriteInv ρ g → graphWeight ρ g < n →
      (Chain g first second x a b ∧ Follows g op ins x a b) →
      ∃ g', optimizeLoop n g = some (Outcome.value g') ∧ RewriteInv ρ g' ∧
        (Chain g' first second x a b ∧ Follows g' op ins x a b) ∧
        first ∉ g'.ops ∧ second ∉ g'.ops ∧
        (∀ o ∈ g.ops, (g.opObj o).opType = OpType.MatMul → o ∈ g'.ops) := by
  intro n
  induction n with
  | zero => intro g _ h; omega
  | succ n ih =>
    intro g hinv hw hch
    obtain ⟨st, e, i, hlt, _, _, _⟩ := optimizePass_spec ρ g hinv
    obtain ⟨k1, k2, k3, k4, k5⟩ := optimizePass_chain ρ g first second x a b op ins hinv hch st e
    by_cases hchg : st.changed = true
    · have hw' : graphWeight ρ st.g < n := by
        have := hlt hchg
        omega
      obtain ⟨g', e', i', j1, j2, j3, j4⟩ := ih st.g i hw' k1
      refine ⟨g', ?_, i', j1, j2, j3, fun o ho hmm => ?_⟩
      · simp only [optimizeLoop, e, hchg, if_true]
        exact e'
      · obtain ⟨h1, h2⟩ := k4 o ho hmm
        exact j4 o h1 h2
    · have hsec : second ∉ g.ops := fun h => hchg (k2 h).1
      refine ⟨st.g, ?_, i, k1, k3 hsec, fun h => hsec (k5 second h),
        fun o ho hmm => (k4 o ho hmm).1⟩
      simp only [optimizeLoop, e]
      rw [if_neg hchg]

/-- The chain as the graph to be rewritten holds it has the properties that the
rewriter keeps. -/
theorem chain_of_transposeChain (g : GraphObj) (first second x a b : Nat) (hc : Consistent g)
    (hcl : Closed g) (h : TransposeChain g first second x a b) :
    Chain g first second x a b := by
  have hsa : (g.tensorObj a).source = some first :=
    hc.writes first h.firstIn a (by rw [h.outFirst]; simp)
  have hsb : (g.tensorObj b).source = some second :=
    hc.writes second h.secondIn b (by rw [h.outSecond]; simp)
  have haT : a ∈ g.tensors := hcl.outputsIn first h.firstIn a (by rw [h.outFirst]; simp)
  have hbT : b ∈ g.tensors := hcl.outputsIn second h.secondIn b (by rw [h.outSecond]; simp)
  refine ⟨h.swapFirst, h.swapSecond, h.outFirst, h.outSecond, by rw [h.inFirst]; rfl,
    by rw [h.inSecond]; rfl, h.plainSource, ?_, ?_, h.onlyOutput, ?_, ?_, h.arity,
    fun _ => h.firstIn, fun hf => absurd h.firstIn hf, fun hs => absurd h.secondIn hs⟩
  · intro p hp
    rw [hsa] at hp
    cases hp
    rfl
  · intro p hp
    rw [hsb] at hp
    cases hp
    rfl
  · intro q hq hsq t ht
    have hmem : t ∈ (g.opObj q).inputs := List.getElem?_mem ht
    constructor
    · intro htb
      subst htb
      exact h.plainReaders q ((hc.reads q hq t hbT).1 hmem) hsq
    · intro hta
      subst hta
      have := (hc.reads q hq t haT).1 hmem
      rw [h.onlyReader] at this
      simpa using this
  · intro n hn
    rw [h.onlyReader] at hn
    left
    simpa using hn

/-- C12, as amended. Let a graph pass `checkValid`, have consistent links
(`Consistent`) and no producer cycle, and hold the chain
`x -> Transpose first -> a -> Transpose second -> b` (`TransposeChain`): both
permutations swap the last two axes, `a` is consumed only by `second`, `x` is
not itself written by a Transpose that swaps the last two axes, `b` is the
only tensor naming `second` as its source, no consumer of `b` is a Transpose
that swaps the last two axes, and every MatMul has two inputs. Then `optimize`,
given enough iterations, returns a graph in which `first` and `second` are not
in the operator list, `a` and `b` are not in the tensor list, and every listed
operator `op` of the graph that is still listed, as every MatMul is, reads `x`
wherever it read `b`. -/
theorem optimize_drops_double_transpose (g : GraphObj) (first second op x a b : Nat)
    (hvalid : g.checkValid = true) (hcons : Consistent g)
    (hacyc : ∀ o ∈ g.ops, ¬ Relation.TransGen (produces g) o o)
    (hchain : TransposeChain g first second x a b) (hop : op ∈ g.ops) :
    ∃ N, ∀ fuel, N ≤ fuel → ∃ g', g.optimize fuel = some (Outcome.value g') ∧
      first ∉ g'.ops ∧ second ∉ g'.ops ∧ a ∉ g'.tensors ∧ b ∉ g'.tensors ∧
      ((g.opObj op).opType = OpType.MatMul → op ∈ g'.ops) ∧
      (op ∈ g'.ops → ∀ i : Nat, (g.opObj op).inputs[i]? = some b →
        (g'.opObj op).inputs[i]? = some x) := by
  obtain ⟨_, hcl, _, _⟩ := (checkValid_iff g).1 hvalid
  obtain ⟨ρ, hρ⟩ := exists_rank g hcl hacyc
  refine ⟨graphWeight ρ g + 1, fun fuel hfuel => ?_⟩
  obtain ⟨g', e, i, k, nf, ns, hmm⟩ :=
    optimizeLoop_chain ρ first second x a b op (g.opObj op).inputs fuel g ⟨hcons, hcl, hρ⟩
      (by omega)
      ⟨chain_of_transposeChain g first second x a b hcons hcl hchain, fun _ h => Or.inl h⟩
  obtain ⟨s1, _⟩ := rebuildAdjacency_spec g' i.2.1
  refine ⟨g'.rebuildAdjacency, ?_, ?_, ?_, ?_, ?_, ?_, ?_⟩
  · unfold GraphObj.optimize
    rw [e]
  · rw [s1.1]; exact nf
  · rw [s1.1]; exact ns
  · rw [s1.2.1]; exact k.1.goneA nf
  · rw [s1.2.1]; exact k.1.goneB ns
  · intro h
    rw [s1.1]
    exact hmm op hop h
  · intro hmem j hj
    rw [s1.1] at hmem
    rw [(s1.2.2.1 op).1]
    have hin : ∀ t, (g'.opObj op).inputs[j]? = some t → t ∈ g'.tensors :=
      fun t ht => i.2.1.inputsIn op hmem t (List.getElem?_mem ht)
    rcases k.2 j hj with h | h | h
    · exact absurd (hin b h) (k.1.goneB ns)
    · exact absurd (hin a h) (k.1.goneA nf)
    · exact h

theorem doubleTransposeGraph_chain : TransposeChain doubleTransposeGraph 0 1 0 1 2 := by
  refine ⟨by decide, by decide, ⟨rfl, rfl⟩, ⟨rfl, rfl⟩, rfl, rfl, rfl, rfl, rfl, ?_, ?_, ?_, ?_⟩
  · intro p hp
    simp [doubleTransposeGraph] at hp
  · intro t ht
    match t with
    | 0 => simp [doubleTransposeGraph] at ht
    | 1 => simp [doubleTransposeGraph] at ht
    | 2 => rfl
    | 3 => simp [doubleTransposeGraph] at ht
    | n + 4 => simp [doubleTransposeGraph] at ht
  · intro n hn
    simp only [doubleTransposeGraph, List.mem_singleton] at hn
    subst hn
    intro h
    have := h.1
    simp [doubleTransposeGraph] at this
  · decide

theorem optimize_drops_double_transpose_witness :
    doubleTransposeGraph.checkValid = true ∧ Consistent doubleTransposeGraph ∧
    (∀ o ∈ doubleTransposeGraph.ops,
      ¬ Relation.TransGen (produces doubleTransposeGraph) o o) ∧
    TransposeChain doubleTransposeGraph 0 1 0 1 2 ∧ 2 ∈ doubleTransposeGraph.ops ∧
    observe (fun g => (g.ops, g.tensors, (g.opObj 2).inputs))
      (doubleTransposeGraph.optimize 3) = some ([2], [0, 3, 4], [0, 3]) ∧
    ∃ N, ∀ fuel, N ≤ fuel →
      ∃ g', doubleTransposeGraph.optimize fuel = some (Outcome.value g') ∧
        0 ∉ g'.ops ∧ 1 ∉ g'.ops ∧ 1 ∉ g'.tensors ∧ 2 ∉ g'.tensors ∧
        ((doubleTransposeGraph.opObj 2).opType = OpType.MatMul → 2 ∈ g'.ops) ∧
        (2 ∈ g'.ops → ∀ i : Nat, (doubleTransposeGraph.opObj 2).inputs[i]? = some 2 →
          (g'.opObj 2).inputs[i]? = some 0) :=
  ⟨by decide, doubleTransposeGraph_consistent, doubleTransposeGraph_acyclic,
    doubleTransposeGraph_chain, by decide, by decide,
    optimize_drops_double_transpose doubleTransposeGraph 0 1 2 0 1 2 (by decide)
      doubleTransposeGraph_consistent doubleTransposeGraph_acyclic doubleTransposeGraph_chain
      (by decide)⟩

/-! ## The rewriter on a MatMul fed by two Transposes -/

theorem sameCore_refl (g : GraphObj) : SameCore g g :=
  ⟨rfl, rfl, rfl, fun _ => ⟨rfl, rfl, rfl, rfl, rfl, rfl⟩⟩

theorem sameCore_trans {g1 g2 g3 : GraphObj} (h12 : SameCore g1 g2) (h23 : SameCore g2 g3) :
    SameCore g1 g3 := by
  obtain ⟨a1, a2, a3, a4⟩ := h12
  obtain ⟨b1, b2, b3, b4⟩ := h23
  refine ⟨b1.trans a1, b2.trans a2, b3.trans a3, fun o => ?_⟩
  obtain ⟨c1, c2, c3, c4, c5, c6⟩ := a4 o
  obtain ⟨d1, d2, d3, d4, d5, d6⟩ := b4 o
  exact ⟨d1.trans c1, d2.trans c2, d3.trans c3, d4.trans c4, d5.trans c5, d6.trans c6⟩

theorem sameCore_update_op (g : GraphObj) (op : Nat) (obj : OperatorObj)
    (h1 : obj.inputs = (g.opObj op).inputs) (h2 : obj.outputs = (g.opObj op).outputs)
    (h3 : obj.opType = (g.opObj op).opType)
    (h4 : obj.transposePermute = (g.opObj op).transposePermute)
    (h5 : obj.transA = (g.opObj op).transA) (h6 : obj.transB = (g.opObj op).transB) :
    SameCore g { g with opObj := Function.update g.opObj op obj } := by
  refine ⟨rfl, rfl, rfl, fun o => ?_⟩
  by_cases h : o = op
  · subst h
    simp [h1, h2, h3, h4, h5, h6]
  · simp [Function.update_noteq h]

theorem clearAdjacency_sameCore : ∀ (l : List Nat) (g : GraphObj),
    SameCore g (clearAdjacency l g) := by
  intro l
  induction l with
  | nil => intro g; exact sameCore_refl g
  | cons op rest ih =>
    intro g
    have h1 : SameCore g (g.clearOp op) := by
      unfold GraphObj.clearOp
      exact sameCore_update_op g op _ rfl rfl rfl rfl rfl rfl
    exact sameCore_trans h1 (ih (g.clearOp op))

theorem connect_sameCore (g : GraphObj) (op sourceOp : Nat) :
    SameCore g (g.connect op sourceOp) := by
  have h1 : SameCore g (g.addPredecessor op sourceOp) := by
    unfold GraphObj.addPredecessor
    exact sameCore_update_op g op _ rfl rfl rfl rfl rfl rfl
  have h2 : SameCore (g.addPredecessor op sourceOp)
      ((g.addPredecessor op sourceOp).addSuccessor sourceOp op) := by
    unfold GraphObj.addSuccessor
    exact sameCore_update_op _ sourceOp _ rfl rfl rfl rfl rfl rfl
  exact sameCore_trans h1 h2

theorem connectInputs_sameCore (op : Nat) : ∀ (ins : List Nat) (g : GraphObj),
    SameCore g (connectInputs op ins g) := by
  intro ins
  induction ins with
  | nil => intro g; exact sameCore_refl g
  | cons t rest ih =>
    intro g
    cases hs : (g.tensorObj t).source with
    | none =>
      simp only [connectInputs, hs]
      exact ih g
    | some s =>
      simp only [connectInputs, hs]
      exact sameCore_trans (connect_sameCore g op s) (ih (g.connect op s))

theorem connectOps_sameCore : ∀ (l : List Nat) (g : GraphObj), SameCore g (connectOps l g) := by
  intro l
  induction l with
  | nil => intro g; exact sameCore_refl g
  | cons op rest ih =>
    intro g
    simp only [connectOps]
    exact sameCore_trans (connectInputs_sameCore op (g.opObj op).inputs g) (ih _)

/-- Rebuilding the adjacency changes the adjacency caches and the `sorted` flag
only. -/
theorem rebuildAdjacency_sameCore (g : GraphObj) : SameCore g g.rebuildAdjacency := by
  have h := sameCore_trans (clearAdjacency_sameCore g.ops g)
    (connectOps_sameCore g.ops (clearAdjacency g.ops g))
  unfold GraphObj.rebuildAdjacency
  exact h

theorem flipTrans_flags (g : GraphObj) (op i o : Nat) :
    ((g.flipTrans op i).opObj o).transA =
      (if o = op ∧ i = 0 then !(g.opObj o).transA else (g.opObj o).transA) ∧
    ((g.flipTrans op i).opObj o).transB =
      (if o = op ∧ i ≠ 0 then !(g.opObj o).transB else (g.opObj o).transB) := by
  unfold GraphObj.flipTrans
  by_cases h : o = op
  · subst h
    by_cases hi : i = 0
    · simp [hi]
    · simp [hi]
  · simp [Function.update_noteq h, h]

theorem rewire_flags (g : GraphObj) (op t1 t2 o : Nat) :
    ((g.rewire op t1 t2).opObj o).transA = (g.opObj o).transA ∧
    ((g.rewire op t1 t2).opObj o).transB = (g.opObj o).transB := by
  unfold GraphObj.rewire
  rw [replaceInput_transA, replaceInput_transB]
  exact ⟨rfl, rfl⟩

/-- The body of the scan leaves the state alone on a Transpose whose first input
has no source. -/
theorem rewriteOp_transpose_inert (st : RewriteState) (t u : Nat)
    (hty : (st.g.opObj t).opType = OpType.Transpose)
    (hin : (st.g.opObj t).inputs[0]? = some u) (hsrc : (st.g.tensorObj u).source = none) :
    rewriteOp st t = Outcome.value st := by
  unfold rewriteOp
  have hne : (st.g.opObj t).opType ≠ OpType.MatMul := by rw [hty]; simp
  rw [if_neg hne]
  simp only [Outcome.bind]
  rw [if_pos hty]
  unfold dropDoubleTranspose
  rw [hin]
  simp only
  rw [hsrc]

/-- A round of rule A leaves the state alone on an operand without a source. -/
theorem foldTranspose_inert (st : RewriteState) (op i u : Nat)
    (hin : (st.g.opObj op).inputs[i]? = some u) (hsrc : (st.g.tensorObj u).source = none) :
    foldTranspose st op i = Outcome.value st := by
  unfold foldTranspose
  rw [hin]
  simp only
  rw [hsrc]

/-- The body of the scan leaves the state alone on a MatMul whose two operands
have no source. -/
theorem rewriteOp_matmul_inert (st : RewriteState) (mm x y : Nat)
    (hty : (st.g.opObj mm).opType = OpType.MatMul)
    (hin : (st.g.opObj mm).inputs = [x, y]) (hx : (st.g.tensorObj x).source = none)
    (hy : (st.g.tensorObj y).source = none) :
    rewriteOp st mm = Outcome.value st := by
  unfold rewriteOp
  rw [if_pos hty]
  rw [foldTranspose_inert st mm 0 x (by rw [hin]; rfl) hx]
  simp only [Outcome.bind]
  rw [foldTranspose_inert st mm 1 y (by rw [hin]; rfl) hy]
  simp only
  have hne : (st.g.opObj mm).opType ≠ OpType.Transpose := by rw [hty]; simp
  rw [if_neg hne]

/-- A round of rule A on an operand written by a Transpose that swaps the last two
axes. -/
theorem foldTranspose_fires (st : RewriteState) (op i input p t2 : Nat)
    (hin : (st.g.opObj op).inputs[i]? = some input)
    (hsrc : (st.g.tensorObj input).source = some p) (hsw : SwapT st.g p)
    (h2 : (st.g.opObj p).inputs[0]? = some t2) :
    foldTranspose st op i =
      Outcome.value { g := (st.g.flipTrans op i).rewire op input t2, changed := true } := by
  unfold foldTranspose
  rw [hin]
  simp only
  rw [hsrc]
  simp only
  rw [if_pos hsw.1, hsw.2]
  simp only [Outcome.bind, if_true]
  rw [((flipTrans_sameLinks st.g op i).2.2.1 p).1, h2]

theorem rewriteScan_inert : ∀ (l : List Nat) (st : RewriteState),
    (∀ o ∈ l, rewriteOp st o = Outcome.value st) → rewriteScan l st = Outcome.value st := by
  intro l
  induction l with
  | nil => intro st _; rfl
  | cons o rest ih =>
    intro st h
    simp only [rewriteScan, h o (List.mem_cons_self _ _), Outcome.bind]
    exact ih st (fun o' ho' => h o' (List.mem_cons_of_mem _ ho'))

theorem rewriteScan_append : ∀ (l1 l2 : List Nat) (st : RewriteState),
    rewriteScan (l1 ++ l2) st = (rewriteScan l1 st).bind fun s => rewriteScan l2 s := by
  intro l1
  induction l1 with
  | nil => intro l2 st; rfl
  | cons o rest ih =>
    intro l2 st
    simp only [List.cons_append, rewriteScan]
    cases h : rewriteOp st o with
    | value s =>
      simp only [Outcome.bind]
      exact ih l2 s
    | fatal => rfl
    | undefined => rfl

theorem fusion_distinct {g : GraphObj} {ta tb mm x y a b : Nat}
    (h : FusionPattern g ta tb mm x y a b) :
    a ≠ b ∧ x ≠ a ∧ x ≠ b ∧ y ≠ a ∧ y ≠ b ∧ mm ≠ ta ∧ mm ≠ tb := by
  have hA := h.srcA
  have hB := h.srcB
  have hX := h.srcX
  have hY := h.srcY
  have hk := h.kind
  have h1 := h.swapA.1
  have h2 := h.swapB.1
  have hd := h.distinct
  refine ⟨?_, ?_, ?_, ?_, ?_, ?_, ?_⟩
  · intro e; subst e; rw [hA] at hB; cases hB; exact hd rfl
  · intro e; subst e; rw [hA] at hX; cases hX
  · intro e; subst e; rw [hB] at hX; cases hX
  · intro e; subst e; rw [hA] at hY; cases hY
  · intro e; subst e; rw [hB] at hY; cases hY
  · intro e; subst e; rw [hk] at h1; cases h1
  · intro e; subst e; rw [hk] at h2; cases h2

/-- The fields of the graph after a step of rule A: the flag of operand `i` of `op`
flipped and `op` made to read `t2` instead of `t1`. -/
theorem foldStep_fields (g : GraphObj) (op i t1 t2 : Nat) :
    (∀ o, ((g.flipTrans op i).rewire op t1 t2 |>.opObj o).inputs =
      if o = op then (g.opObj o).inputs.map (fun t => if t = t1 then t2 else t)
      else (g.opObj o).inputs) ∧
    (∀ o, ((g.flipTrans op i).rewire op t1 t2 |>.opObj o).outputs = (g.opObj o).outputs ∧
      ((g.flipTrans op i).rewire op t1 t2 |>.opObj o).opType = (g.opObj o).opType ∧
      ((g.flipTrans op i).rewire op t1 t2 |>.opObj o).transposePermute =
        (g.opObj o).transposePermute) ∧
    (∀ t, ((g.flipTrans op i).rewire op t1 t2 |>.tensorObj t).source =
      (g.tensorObj t).source) ∧
    (∀ t o, o ∈ ((g.flipTrans op i).rewire op t1 t2 |>.tensorObj t).targets ↔
      (o ∈ (g.tensorObj t).targets ∧ (t = t1 → o ≠ op)) ∨ (t = t2 ∧ o = op)) ∧
    (∀ o, ((g.flipTrans op i).rewire op t1 t2 |>.opObj o).transA =
        (if o = op ∧ i = 0 then !(g.opObj o).transA else (g.opObj o).transA) ∧
      ((g.flipTrans op i).rewire op t1 t2 |>.opObj o).transB =
        (if o = op ∧ i ≠ 0 then !(g.opObj o).transB else (g.opObj o).transB)) := by
  have hsl := flipTrans_sameLinks g op i
  refine ⟨fun o => ?_, fun o => ⟨?_, ?_, ?_⟩, fun t => ?_, fun t o => ?_, fun o => ?_⟩
  · rw [rewire_inputs, (hsl.2.2.1 o).1]
  · rw [rewire_outputs, (hsl.2.2.1 o).2.1]
  · rw [rewire_opType, (hsl.2.2.1 o).2.2.1]
  · rw [rewire_permute, (hsl.2.2.1 o).2.2.2]
  · rw [rewire_source, (hsl.2.2.2 t).2.1]
  · rw [mem_rewire_targets, (hsl.2.2.2 t).1]
  · rw [(rewire_flags _ op t1 t2 o).1, (rewire_flags _ op t1 t2 o).2]
    exact flipTrans_flags g op i o

theorem foldStep_ops (g : GraphObj) (op i t1 t2 : Nat) :
    ((g.flipTrans op i).rewire op t1 t2).ops = g.ops := by
  rw [rewire_ops]
  rfl

/-- The graph after rule A has folded both Transposes into the MatMul `mm`. -/
theorem fused_fields {g : GraphObj} {ta tb mm x y a b : Nat}
    (h : FusionPattern g ta tb mm x y a b) :
    ((((g.flipTrans mm 0).rewire mm a x).flipTrans mm 1).rewire mm b y |>.opObj mm).inputs =
      [x, y] ∧
    (∀ o, o ≠ mm →
      ((((g.flipTrans mm 0).rewire mm a x).flipTrans mm 1).rewire mm b y |>.opObj o).inputs =
        (g.opObj o).inputs) ∧
    (∀ o, ((((g.flipTrans mm 0).rewire mm a x).flipTrans mm 1).rewire mm b y
        |>.opObj o).outputs = (g.opObj o).outputs ∧
      ((((g.flipTrans mm 0).rewire mm a x).flipTrans mm 1).rewire mm b y
        |>.opObj o).opType = (g.opObj o).opType ∧
      ((((g.flipTrans mm 0).rewire mm a x).flipTrans mm 1).rewire mm b y
        |>.opObj o).transposePermute = (g.opObj o).transposePermute) ∧
    (∀ t, ((((g.flipTrans mm 0).rewire mm a x).flipTrans mm 1).rewire mm b y
        |>.tensorObj t).source = (g.tensorObj t).source) ∧
    ((((g.flipTrans mm 0).rewire mm a x).flipTrans mm 1).rewire mm b y |>.tensorObj a).targets
      = [] ∧
    ((((g.flipTrans mm 0).rewire mm a x).flipTrans mm 1).rewire mm b y |>.tensorObj b).targets
      = [] ∧
    ((((g.flipTrans mm 0).rewire mm a x).flipTrans mm 1).rewire mm b y |>.opObj mm).transA =
      (!(g.opObj mm).transA) ∧
    ((((g.flipTrans mm 0).rewire mm a x).flipTrans mm 1).rewire mm b y |>.opObj mm).transB =
      (!(g.opObj mm).transB) := by
  obtain ⟨d1, d2, d3, d4, d5, d6, d7⟩ := fusion_distinct h
  obtain ⟨f1, f2, f3, f4, f5⟩ := foldStep_fields g mm 0 a x
  obtain ⟨g1, g2, g3, g4, g5⟩ := foldStep_fields ((g.flipTrans mm 0).rewire mm a x) mm 1 b y
  refine ⟨?_, fun o ho => ?_, fun o => ?_, fun t => ?_, ?_, ?_, ?_, ?_⟩
  · rw [g1 mm, if_pos rfl, f1 mm, if_pos rfl, h.operands]
    simp [d1, d1.symm, d3, d2]
  · rw [g1 o, if_neg ho, f1 o, if_neg ho]
  · exact ⟨(g2 o).1.trans (f2 o).1, (g2 o).2.1.trans (f2 o).2.1,
      (g2 o).2.2.trans (f2 o).2.2⟩
  · rw [g3 t, f3 t]
  · rw [List.eq_nil_iff_forall_not_mem]
    intro o ho
    rw [g4 a o, f4 a o, h.onlyA] at ho
    rcases ho with ⟨⟨h1, h2⟩ | ⟨h1, _⟩, _⟩ | ⟨h1, _⟩
    · simp only [List.mem_singleton] at h1
      exact h2 rfl h1
    · exact d2 h1.symm
    · exact d4 h1.symm
  · rw [List.eq_nil_iff_forall_not_mem]
    intro o ho
    rw [g4 b o, f4 b o, h.onlyB] at ho
    rcases ho with ⟨⟨h1, _⟩ | ⟨h1, _⟩, h3⟩ | ⟨h1, _⟩
    · simp only [List.mem_singleton] at h1
      exact h3 rfl h1
    · exact d3 h1.symm
    · exact d5 h1.symm
  · rw [(g5 mm).1, (f5 mm).1]
    simp
  · rw [(g5 mm).2, (f5 mm).2]
    simp

/-- The body of the scan on the MatMul of the pattern folds both Transposes. -/
theorem rewriteOp_fuses {g : GraphObj} {ta tb mm x y a b : Nat}
    (h : FusionPattern g ta tb mm x y a b) (c : Bool) :
    rewriteOp { g := g, changed := c } mm =
      Outcome.value
        { g := ((((g.flipTrans mm 0).rewire mm a x).flipTrans mm 1).rewire mm b y),
          changed := true } := by
  obtain ⟨d1, d2, d3, d4, d5, d6, d7⟩ := fusion_distinct h
  obtain ⟨f1, f2, f3, f4, f5⟩ := foldStep_fields g mm 0 a x
  obtain ⟨k1, k2, k3, k4, k5, k6, k7, k8⟩ := fused_fields h
  unfold rewriteOp
  simp only
  rw [if_pos h.kind]
  rw [foldTranspose_fires { g := g, changed := c } mm 0 a ta x (by rw [h.operands]; rfl)
    h.srcA h.swapA (by rw [h.inA]; rfl)]
  simp only [Outcome.bind]
  rw [foldTranspose_fires { g := ((g.flipTrans mm 0).rewire mm a x), changed := true } mm 1 b tb y
    (by
      simp only
      rw [f1 mm, if_pos rfl, h.operands]
      simp [d1.symm])
    (by simp only; rw [f3 b]; exact h.srcB)
    (by
      simp only
      exact (swapT_congr tb (f2 tb).2.1 (f2 tb).2.2).2 h.swapB)
    (by
      simp only
      rw [f1 tb, if_neg (Ne.symm d7), h.inB]
      rfl)]
  simp only
  have hne : ((((g.flipTrans mm 0).rewire mm a x).flipTrans mm 1).rewire mm b y
      |>.opObj mm).opType ≠ OpType.Transpose := by
    rw [(k3 mm).2.1, h.kind]
    simp
  rw [if_neg hne]

/-- The scan over the operators of the pattern, in whatever order they are listed,
folds both Transposes into the MatMul and sets `changed`. -/
theorem rewriteScan_fuses {g : GraphObj} {ta tb mm x y a b : Nat}
    (h : FusionPattern g ta tb mm x y a b) :
    rewriteScan g.ops { g := g, changed := false } =
      Outcome.value
        { g := ((((g.flipTrans mm 0).rewire mm a x).flipTrans mm 1).rewire mm b y),
          changed := true } := by
  obtain ⟨d1, d2, d3, d4, d5, d6, d7⟩ := fusion_distinct h
  obtain ⟨k1, k2, k3, k4, k5, k6, k7, k8⟩ := fused_fields h
  have hnd : g.ops.Nodup := by
    rw [List.Perm.nodup_iff h.made]
    simp [h.distinct, Ne.symm d6, Ne.symm d7]
  have hmem : ∀ o, o ∈ g.ops ↔ o = ta ∨ o = tb ∨ o = mm := by
    intro o
    rw [List.Perm.mem_iff h.made]
    simp
  obtain ⟨l1, l2, hsplit⟩ := List.append_of_mem ((hmem mm).2 (Or.inr (Or.inr rfl)))
  have hnot : mm ∉ l1 ∧ mm ∉ l2 := by
    rw [hsplit] at hnd
    have h1 := List.nodup_append.1 hnd
    have h2 := List.nodup_cons.1 h1.2.1
    refine ⟨fun hm => ?_, h2.1⟩
    exact h1.2.2 hm (List.mem_cons_self _ _)
  have hside : ∀ o, (o ∈ l1 ∨ o ∈ l2) → o = ta ∨ o = tb := by
    intro o ho
    have hog : o ∈ g.ops := by
      rw [hsplit]
      rcases ho with ho | ho
      · exact List.mem_append_left _ ho
      · exact List.mem_append_right _ (List.mem_cons_of_mem _ ho)
    rcases (hmem o).1 hog with h1 | h1 | h1
    · exact Or.inl h1
    · exact Or.inr h1
    · exfalso
      subst h1
      rcases ho with ho | ho
      · exact hnot.1 ho
      · exact hnot.2 ho
  have hstart : ∀ o, (o = ta ∨ o = tb) →
      rewriteOp { g := g, changed := false } o =
        Outcome.value { g := g, changed := false } := by
    intro o ho
    rcases ho with ho | ho
    · subst ho
      exact rewriteOp_transpose_inert _ o x h.swapA.1 (by simp only; rw [h.inA]; rfl) h.srcX
    · subst ho
      exact rewriteOp_transpose_inert _ o y h.swapB.1 (by simp only; rw [h.inB]; rfl) h.srcY
  have hend : ∀ o, (o = ta ∨ o = tb) →
      rewriteOp
          { g := ((((g.flipTrans mm 0).rewire mm a x).flipTrans mm 1).rewire mm b y),
            changed := true } o =
        Outcome.value
          { g := ((((g.flipTrans mm 0).rewire mm a x).flipTrans mm 1).rewire mm b y),
            changed := true } := by
    intro o ho
    rcases ho with ho | ho
    · subst ho
      apply rewriteOp_transpose_inert _ o x
      · simp only; rw [(k3 o).2.1]; exact h.swapA.1
      · simp only; rw [k2 o (Ne.symm d6), h.inA]; rfl
      · simp only; rw [k4 x]; exact h.srcX
    · subst ho
      apply rewriteOp_transpose_inert _ o y
      · simp only; rw [(k3 o).2.1]; exact h.swapB.1
      · simp only; rw [k2 o (Ne.symm d7), h.inB]; rfl
      · simp only; rw [k4 y]; exact h.srcY
  rw [hsplit, rewriteScan_append,
    rewriteScan_inert l1 _ (fun o ho => hstart o (hside o (Or.inl ho)))]
  simp only [Outcome.bind, rewriteScan]
  rw [rewriteOp_fuses h false]
  simp only
  exact rewriteScan_inert l2 _ (fun o ho => hend o (hside o (Or.inr ho)))

/-- The cleanup of a graph made of a MatMul and two Transposes whose outputs have no
reader left: the MatMul alone stays listed and the two outputs leave the tensor
list. -/
theorem cleanup_fused (G : GraphObj) (ta tb mm a b : Nat)
    (hmade : G.ops.Perm [ta, tb, mm]) (hd : ta ≠ tb) (h6 : mm ≠ ta) (h7 : mm ≠ tb)
    (hta : (G.opObj ta).opType = OpType.Transpose)
    (htb : (G.opObj tb).opType = OpType.Transpose)
    (hmm : (G.opObj mm).opType = OpType.MatMul)
    (houtA : (G.opObj ta).outputs = [a]) (houtB : (G.opObj tb).outputs = [b])
    (hsa : (G.tensorObj a).source = some ta) (hsb : (G.tensorObj b).source = some tb)
    (htgA : (G.tensorObj a).targets = []) (htgB : (G.tensorObj b).targets = []) :
    G.eraseOps.sweepTensors.ops = [mm] ∧ G.eraseOps.sweepTensors.opObj = G.opObj ∧
    a ∉ G.eraseOps.sweepTensors.tensors ∧ b ∉ G.eraseOps.sweepTensors.tensors ∧
    (∀ t, (G.tensorObj t).source = none →
      (G.eraseOps.sweepTensors.tensorObj t).source = none) := by
  have hnd : G.ops.Nodup := by
    rw [List.Perm.nodup_iff hmade]
    simp [hd, Ne.symm h6, Ne.symm h7]
  have hmem : ∀ o, o ∈ G.ops ↔ o = ta ∨ o = tb ∨ o = mm := by
    intro o
    rw [List.Perm.mem_iff hmade]
    simp
  obtain ⟨R, e1, e2, e3, _, e5, e6, e7, e8⟩ := eraseOps_spec G hnd
  have hdoom : ∀ w t, w ∈ G.ops → (G.opObj w).opType = OpType.Transpose →
      (G.opObj w).outputs = [t] → (G.tensorObj t).targets = [] → w ∈ R := by
    intro w t hw hty hout htg
    apply e7 w
    refine ⟨hw, ?_⟩
    rw [unused_iff, hout, hty]
    refine ⟨by simp, fun t' ht' => ?_⟩
    simp only [List.mem_singleton] at ht'
    rw [ht']
    exact htg
  have haR : ta ∈ R := hdoom ta a ((hmem ta).2 (Or.inl rfl)) hta houtA htgA
  have hbR : tb ∈ R := hdoom tb b ((hmem tb).2 (Or.inr (Or.inl rfl))) htb houtB htgB
  have hmR : mm ∉ R := fun hR => (e8 mm hR).1 hmm
  have hgone : ∀ w t, w ∈ R → (G.tensorObj t).source = some w →
      (G.tensorObj t).targets = [] → t ∉ G.eraseOps.sweepTensors.tensors := by
    intro w t hw hsrc htg
    rw [mem_sweepTensors]
    rintro ⟨_, h2⟩
    apply h2
    constructor
    · cases hs : (G.eraseOps.tensorObj t).source with
      | none => rfl
      | some o =>
        exfalso
        obtain ⟨h3, h4⟩ := (e6 t o).1 hs
        rw [hsrc] at h3
        cases h3
        exact h4 hw
    · rw [List.eq_nil_iff_forall_not_mem]
      intro n hn
      have := ((e5 t n).1 hn).1
      rw [htg] at this
      simp at this
  refine ⟨?_, ?_, hgone ta a haR hsa htgA, hgone tb b hbR hsb htgB, ?_⟩
  · rw [sweepTensors_ops, e1]
    have hp := List.Perm.filter (fun o => decide (o ∉ R)) hmade
    have hf : List.filter (fun o => decide (o ∉ R)) [ta, tb, mm] = [mm] := by
      simp [List.filter, haR, hbR, hmR]
    rw [hf] at hp
    exact List.perm_singleton.1 hp
  · rw [sweepTensors_opObj, e3]
  · intro t ht
    rw [sweepTensors_tensorObj]
    cases hs : (G.eraseOps.tensorObj t).source with
    | none => rfl
    | some o =>
      have := ((e6 t o).1 hs).1
      rw [ht] at this
      cases this

/-- A pass on a graph whose only operator is a MatMul with two operands without a
source changes nothing but the tensor list, and does not set `changed`. -/
theorem optimizePass_settled (h : GraphObj) (mm x y : Nat) (hops : h.ops = [mm])
    (hty : (h.opObj mm).opType = OpType.MatMul) (hin : (h.opObj mm).inputs = [x, y])
    (hx : (h.tensorObj x).source = none) (hy : (h.tensorObj y).source = none) :
    optimizePass h = Outcome.value { g := h.eraseOps.sweepTensors, changed := false } ∧
    h.eraseOps.sweepTensors.ops = [mm] ∧ h.eraseOps.sweepTensors.opObj = h.opObj ∧
    ∀ t ∈ h.eraseOps.sweepTensors.tensors, t ∈ h.tensors := by
  have hnd : h.ops.Nodup := by rw [hops]; simp
  obtain ⟨R, e1, e2, e3, _, _, _, _, e8⟩ := eraseOps_spec h hnd
  have hmR : mm ∉ R := fun hR => (e8 mm hR).1 hty
  refine ⟨?_, ?_, ?_, ?_⟩
  · unfold optimizePass
    rw [hops, rewriteScan_inert [mm] { g := h, changed := false } (fun o ho => by
      simp only [List.mem_singleton] at ho
      subst ho
      exact rewriteOp_matmul_inert _ o x y hty hin hx hy)]
    rfl
  · rw [sweepTensors_ops, e1, hops]
    simp [List.filter, hmR]
  · rw [sweepTensors_opObj, e3]
  · intro t ht
    rw [mem_sweepTensors, e2] at ht
    exact ht.1

/-- C11. For every graph made of a MatMul `mm` and two Transposes `ta : x -> a` and
`tb : y -> b` that swap the last two axes and write operand 0 and operand 1 of
`mm`, where `a` and `b` have no other reader (`FusionPattern`), `optimize` with
at least two iterations returns a graph whose operator list is `mm` alone, so it
holds the MatMul and no Transpose; the inputs of `mm` are `x` and `y`, its two
flags are the negations of what they were, and `a` and `b` are not in the
tensor list. -/
theorem optimize_fuses_both_transposes (g : GraphObj) (ta tb mm x y a b : Nat)
    (h : FusionPattern g ta tb mm x y a b) (fuel : Nat) (hfuel : 2 ≤ fuel) :
    ∃ g', g.optimize fuel = some (Outcome.value g') ∧ g'.ops = [mm] ∧
      (∀ o ∈ g'.ops, (g'.opObj o).opType ≠ OpType.Transpose) ∧
      (g'.opObj mm).opType = OpType.MatMul ∧ (g'.opObj mm).inputs = [x, y] ∧
      (g'.opObj mm).transA = (!(g.opObj mm).transA) ∧
      (g'.opObj mm).transB = (!(g.opObj mm).transB) ∧
      a ∉ g'.tensors ∧ b ∉ g'.tensors := by
  obtain ⟨d1, d2, d3, d4, d5, d6, d7⟩ := fusion_distinct h
  obtain ⟨k1, k2, k3, k4, k5, k6, k7, k8⟩ := fused_fields h
  have hscan := rewriteScan_fuses h
  have hGops : ((((g.flipTrans mm 0).rewire mm a x).flipTrans mm 1).rewire mm b y).ops =
      g.ops := by
    rw [foldStep_ops, foldStep_ops]
  generalize (((g.flipTrans mm 0).rewire mm a x).flipTrans mm 1).rewire mm b y = G
    at k1 k2 k3 k4 k5 k6 k7 k8 hscan hGops
  obtain ⟨c1, c2, c3, c4, c5⟩ := cleanup_fused G ta tb mm a b (by rw [hGops]; exact h.made)
    h.distinct d6 d7 (by rw [(k3 ta).2.1]; exact h.swapA.1)
    (by rw [(k3 tb).2.1]; exact h.swapB.1) (by rw [(k3 mm).2.1]; exact h.kind)
    (by rw [(k3 ta).1]; exact h.outA) (by rw [(k3 tb).1]; exact h.outB)
    (by rw [k4 a]; exact h.srcA) (by rw [k4 b]; exact h.srcB) k5 k6
  have hpass1 : optimizePass g =
      Outcome.value { g := G.eraseOps.sweepTensors, changed := true } := by
    unfold optimizePass
    rw [hscan]
    rfl
  obtain ⟨p1, p2, p3, p4⟩ := optimizePass_settled G.eraseOps.sweepTensors mm x y c1
    (by rw [c2, (k3 mm).2.1]; exact h.kind) (by rw [c2]; exact k1)
    (c5 x (by rw [k4 x]; exact h.srcX)) (c5 y (by rw [k4 y]; exact h.srcY))
  obtain ⟨n, rfl⟩ : ∃ n, fuel = n + 2 := ⟨fuel - 2, by omega⟩
  have hloop : optimizeLoop (n + 2) g =
      some (Outcome.value G.eraseOps.sweepTensors.eraseOps.sweepTensors) := by
    simp only [optimizeLoop, hpass1, if_true, p1]
    rfl
  obtain ⟨s1, s2, _, s4⟩ :=
    rebuildAdjacency_sameCore G.eraseOps.sweepTensors.eraseOps.sweepTensors
  have hobj : ∀ o, G.eraseOps.sweepTensors.eraseOps.sweepTensors.opObj o = G.opObj o := by
    intro o
    rw [p3, c2]
  refine ⟨G.eraseOps.sweepTensors.eraseOps.sweepTensors.rebuildAdjacency,
    ?_, ?_, ?_, ?_, ?_, ?_, ?_, ?_, ?_⟩
  · unfold GraphObj.optimize
    rw [hloop]
  · rw [s1]; exact p2
  · intro o ho
    rw [s1, p2] at ho
    simp only [List.mem_singleton] at ho
    subst ho
    rw [(s4 o).2.2.1, hobj o, (k3 o).2.1, h.kind]
    simp
  · rw [(s4 mm).2.2.1, hobj mm, (k3 mm).2.1]; exact h.kind
  · rw [(s4 mm).1, hobj mm]; exact k1
  · rw [(s4 mm).2.2.2.2.1, hobj mm]; exact k7
  · rw [(s4 mm).2.2.2.2.2, hobj mm]; exact k8
  · rw [s2]
    exact fun hm => c3 (p4 a hm)
  · rw [s2]
    exact fun hm => c4 (p4 b hm)

theorem fusionGraph_pattern : FusionPattern fusionGraph 0 1 2 0 1 2 3 :=
  ⟨List.Perm.refl _, by decide, ⟨rfl, rfl⟩, ⟨rfl, rfl⟩, rfl, rfl, rfl, rfl, rfl, rfl, rfl, rfl,
    rfl, rfl, rfl, rfl⟩

theorem optimize_fuses_both_transposes_witness :
    FusionPattern fusionGraph 0 1 2 0 1 2 3 ∧ 2 ≤ 2 ∧
    observe (fun g => (g.ops, g.tensors, (g.opObj 2).inputs, (g.opObj 2).transA,
      (g.opObj 2).transB)) (fusionGraph.optimize 2) = some ([2], [0, 1, 4], [0, 1], true, true) ∧
    ∃ g', fusionGraph.optimize 2 = some (Outcome.value g') ∧ g'.ops = [2] ∧
      (∀ o ∈ g'.ops, (g'.opObj o).opType ≠ OpType.Transpose) ∧
      (g'.opObj 2).opType = OpType.MatMul ∧ (g'.opObj 2).inputs = [0, 1] ∧
      (g'.opObj 2).transA = (!(fusionGraph.opObj 2).transA) ∧
      (g'.opObj 2).transB = (!(fusionGraph.opObj 2).transB) ∧
      2 ∉ g'.tensors ∧ 3 ∉ g'.tensors :=
  ⟨fusionGraph_pattern, by decide, by decide,
    optimize_fuses_both_transposes fusionGraph 0 1 2 0 1 2 3 fusionGraph_pattern 2 (by decide)⟩

/-! ## `Allocator::getAlignedSize` -/

/-- C21. For every size `s` up to `2^64 - 8`: when `1 ≤ s`, `getAlignedSize s` is the
least multiple of 8 that is at least `s`, so `s ≤ getAlignedSize s < s + 8` and
`getAlignedSize s % 8 = 0`; when `s = 0`, the subtraction `s - 1` wraps to
`2^64 - 1` and the result is 0. -/
theorem getAlignedSize_rounds_up (s : Nat) (h : s ≤ SIZE_MOD - 8) :
    (1 ≤ s → s ≤ getAlignedSize s ∧ getAlignedSize s < s + 8 ∧ getAlignedSize s % 8 = 0 ∧
      ∀ m, m % 8 = 0 → s ≤ m → getAlignedSize s ≤ m) ∧
    (s = 0 → sizeMinusOne s = SIZE_MOD - 1 ∧ getAlignedSize s = 0) := by
  simp only [getAlignedSize, sizeMinusOne, alignment, SIZE_MOD_eq] at *
  constructor
  · intro h1
    rw [if_neg (by omega)]
    refine ⟨by omega, by omega, by omega, fun m hm hs => ?_⟩
    omega
  · intro h0
    subst h0
    simp

theorem getAlignedSize_rounds_up_witness :
    13 ≤ SIZE_MOD - 8 ∧ getAlignedSize 13 = 16 ∧ getAlignedSize 16 = 16 ∧
    getAlignedSize (SIZE_MOD - 8) = SIZE_MOD - 8 ∧ getAlignedSize (SIZE_MOD - 7) = 0 ∧
    ((1 ≤ 13 → 13 ≤ getAlignedSize 13 ∧ getAlignedSize 13 < 13 + 8 ∧
        getAlignedSize 13 % 8 = 0 ∧ ∀ m, m % 8 = 0 → 13 ≤ m → getAlignedSize 13 ≤ m) ∧
      (13 = 0 → sizeMinusOne 13 = SIZE_MOD - 1 ∧ getAlignedSize 13 = 0)) :=
  ⟨by decide, by decide, by decide, by decide, by decide,
    getAlignedSize_rounds_up 13 (by decide)⟩

/-! ## The rewriter on a graph in which no rule matches -/

/-- A round of rule A leaves the state alone on an operand that no Transpose
swapping the last two axes writes. -/
theorem foldTranspose_idle (st : RewriteState) (op i t : Nat)
    (hin : (st.g.opObj op).inputs[i]? = some t)
    (h : ∀ p, (st.g.tensorObj t).source = some p → ¬ SwapT st.g p) :
    foldTranspose st op i = Outcome.value st := by
  unfold foldTranspose
  rw [hin]
  simp only
  cases hsrc : (st.g.tensorObj t).source with
  | none => rfl
  | some p =>
    simp only
    by_cases hty : (st.g.opObj p).opType = OpType.Transpose
    · rw [if_pos hty]
      obtain ⟨b, hb⟩ := isSwapLastTwo_value (st.g.opObj p).transposePermute
      cases b with
      | false =>
        rw [hb]
        simp [Outcome.bind]
      | true => exact absurd ⟨hty, hb⟩ (h p hsrc)
    · rw [if_neg hty]

/-- Rule B leaves the state alone on a Transpose that does not swap the last two
axes or whose input no Transpose swapping the last two axes writes. -/
theorem dropDoubleTranspose_idle (st : RewriteState) (op t : Nat)
    (hin : (st.g.opObj op).inputs[0]? = some t)
    (h : ∀ p, (st.g.tensorObj t).source = some p → SwapT st.g p →
      isSwapLastTwo (st.g.opObj op).transposePermute ≠ Outcome.value true) :
    dropDoubleTranspose st op = Outcome.value st := by
  unfold dropDoubleTranspose
  rw [hin]
  simp only
  cases hsrc : (st.g.tensorObj t).source with
  | none => rfl
  | some p =>
    simp only
    by_cases hty : (st.g.opObj p).opType = OpType.Transpose
    · rw [if_pos hty]
      obtain ⟨b1, hb1⟩ := isSwapLastTwo_value (st.g.opObj p).transposePermute
      obtain ⟨b2, hb2⟩ := isSwapLastTwo_value (st.g.opObj op).transposePermute
      cases b1 with
      | false =>
        rw [hb1]
        simp [Outcome.bind]
      | true =>
        cases b2 with
        | false =>
          rw [hb1, hb2]
          simp [Outcome.bind]
        | true => exact absurd hb2 (h p hsrc ⟨hty, hb1⟩)
    · rw [if_neg hty]

/-- The body of the scan leaves the state alone on a listed operator of a graph in
which no rule matches. -/
theorem rewriteOp_idle (g : GraphObj) (c : Bool) (op : Nat) (hop : op ∈ g.ops)
    (harM : ∀ o ∈ g.ops, (g.opObj o).opType = OpType.MatMul → 2 ≤ (g.opObj o).inputs.length)
    (harT : ∀ o ∈ g.ops, (g.opObj o).opType = OpType.Transpose →
      1 ≤ (g.opObj o).inputs.length)
    (hno : NoMatch g) :
    rewriteOp { g := g, changed := c } op = Outcome.value { g := g, changed := c } := by
  unfold rewriteOp
  simp only
  by_cases hmm : (g.opObj op).opType = OpType.MatMul
  · rw [if_pos hmm]
    have hlen := harM op hop hmm
    have h0 : (g.opObj op).inputs[0]? = some ((g.opObj op).inputs.get ⟨0, by omega⟩) := by
      rw [List.getElem?_eq_getElem (by omega)]; rfl
    have h1 : (g.opObj op).inputs[1]? = some ((g.opObj op).inputs.get ⟨1, by omega⟩) := by
      rw [List.getElem?_eq_getElem (by omega)]; rfl
    rw [foldTranspose_idle { g := g, changed := c } op 0 _ h0
      (hno.1 op hop hmm 0 (by omega) _ h0)]
    simp only [Outcome.bind]
    rw [foldTranspose_idle { g := g, changed := c } op 1 _ h1
      (hno.1 op hop hmm 1 (by omega) _ h1)]
    simp only
    have hne : (g.opObj op).opType ≠ OpType.Transpose := by rw [hmm]; simp
    rw [if_neg hne]
  · rw [if_neg hmm]
    simp only [Outcome.bind]
    by_cases hty : (g.opObj op).opType = OpType.Transpose
    · rw [if_pos hty]
      have hlen := harT op hop hty
      have h0 : (g.opObj op).inputs[0]? = some ((g.opObj op).inputs.get ⟨0, by omega⟩) := by
        rw [List.getElem?_eq_getElem (by omega)]; rfl
      apply dropDoubleTranspose_idle { g := g, changed := c } op _ h0
      intro p hp hsw hperm
      exact hno.2 op hop ⟨hty, hperm⟩ _ h0 p hp hsw
    · rw [if_neg hty]

/-- The sweep over operators that all have a reader, or are MatMuls, keeps them
all and leaves the graph alone. -/
theorem sweepOps_keeps : ∀ (l : List Nat) (st : SweepState),
    (∀ o ∈ l, st.g.unused o = false) →
    sweepOps l st = { g := st.g, kept := st.kept ++ l, removed := st.removed } := by
  intro l
  induction l with
  | nil => intro st _; simp [sweepOps]
  | cons o rest ih =>
    intro st h
    have ho := h o (List.mem_cons_self _ _)
    simp only [sweepOps]
    rw [if_neg (by rw [ho]; simp)]
    rw [ih { g := st.g, kept := st.kept ++ [o], removed := st.removed }
      (fun o' ho' => h o' (List.mem_cons_of_mem _ ho'))]
    simp

/-- A pass on a graph in which no rule matches and every listed operator either is
a MatMul or has an output with a reader: `changed` stays clear and the operator
list and the tensor list are as before. -/
theorem optimizePass_idle (g : GraphObj) (hvalid : g.checkValid = true)
    (harM : ∀ o ∈ g.ops, (g.opObj o).opType = OpType.MatMul → 2 ≤ (g.opObj o).inputs.length)
    (harT : ∀ o ∈ g.ops, (g.opObj o).opType = OpType.Transpose →
      1 ≤ (g.opObj o).inputs.length)
    (hno : NoMatch g)
    (hused : ∀ o ∈ g.ops, (g.opObj o).opType = OpType.MatMul ∨
      ∃ t ∈ (g.opObj o).outputs, (g.tensorObj t).targets ≠ []) :
    optimizePass g = Outcome.value { g := g.eraseOps.sweepTensors, changed := false } ∧
    g.eraseOps.sweepTensors.ops = g.ops ∧ g.eraseOps.sweepTensors.tensors = g.tensors := by
  obtain ⟨hno', _, _, _⟩ := (checkValid_iff g).1 hvalid
  have hun : ∀ o ∈ g.ops, g.unused o = false := by
    intro o ho
    cases hu : g.unused o with
    | false => rfl
    | true =>
      exfalso
      obtain ⟨h1, h2⟩ := (unused_iff g o).1 hu
      rcases hused o ho with h | ⟨t, ht, htg⟩
      · exact h1 h
      · exact htg (h2 t ht)
  have hsweep := sweepOps_keeps g.ops { g := g, kept := [], removed := [] } hun
  simp only [List.nil_append] at hsweep
  have hops : g.eraseOps.ops = g.ops := by
    unfold GraphObj.eraseOps
    rw [hsweep]
    rfl
  have htens : g.eraseOps.tensors = g.tensors := by
    unfold GraphObj.eraseOps
    rw [hsweep]
    rfl
  have hobj : ∀ t, g.eraseOps.tensorObj t = g.tensorObj t := by
    intro t
    unfold GraphObj.eraseOps
    rw [hsweep]
    unfold GraphObj.expireSources
    simp only
    split <;> simp
  refine ⟨?_, ?_, ?_⟩
  · unfold optimizePass
    rw [rewriteScan_inert g.ops { g := g, changed := false }
      (fun o ho => rewriteOp_idle g false o ho harM harT hno)]
    rfl
  · rw [sweepTensors_ops, hops]
  · unfold GraphObj.sweepTensors
    simp only
    rw [htens, List.filter_eq_self]
    intro t ht
    rw [hobj t]
    have := hno' t ht
    simp only [Bool.not_eq_true', Bool.and_eq_false_iff, decide_eq_false_iff_not,
      List.isEmpty_eq_false, ne_eq]
    by_cases hs : (g.tensorObj t).source = none
    · exact Or.inr (fun h => this ⟨hs, h⟩)
    · exact Or.inl hs

/-- On a graph that passes `checkValid`, whose MatMuls have their two operands and
whose Transposes their input, in which no rule matches and every listed
operator either is a MatMul or has an output with a reader, `optimize` returns
after one pass with the operator list and the tensor list as they were. -/
theorem optimize_idle (g : GraphObj) (hvalid : g.checkValid = true)
    (harM : ∀ o ∈ g.ops, (g.opObj o).opType = OpType.MatMul → 2 ≤ (g.opObj o).inputs.length)
    (harT : ∀ o ∈ g.ops, (g.opObj o).opType = OpType.Transpose →
      1 ≤ (g.opObj o).inputs.length)
    (hno : NoMatch g)
    (hused : ∀ o ∈ g.ops, (g.opObj o).opType = OpType.MatMul ∨
      ∃ t ∈ (g.opObj o).outputs, (g.tensorObj t).targets ≠ [])
    (fuel : Nat) (hfuel : 1 ≤ fuel) :
    ∃ g', g.optimize fuel = some (Outcome.value g') ∧ g'.ops = g.ops ∧
      g'.tensors = g.tensors := by
  obtain ⟨p1, p2, p3⟩ := optimizePass_idle g hvalid harM harT hno hused
  obtain ⟨n, rfl⟩ : ∃ n, fuel = n + 1 := ⟨fuel - 1, by omega⟩
  obtain ⟨s1, s2, _, _⟩ := rebuildAdjacency_sameCore g.eraseOps.sweepTensors
  refine ⟨g.eraseOps.sweepTensors.rebuildAdjacency, ?_, s1.trans p2, s2.trans p3⟩
  unfold GraphObj.optimize
  simp only [optimizeLoop, p1]
  rfl

theorem matmulTransposeGraph_noMatch : NoMatch matmulTransposeGraph := by
  constructor
  · intro op hop hmm i hi t ht p hp
    simp only [matmulTransposeGraph, List.mem_cons, List.mem_singleton, List.not_mem_nil,
      or_false] at hop
    rcases hop with h | h
    · subst h
      have hi' : i = 0 ∨ i = 1 := by omega
      rcases hi' with h | h <;> subst h
      · simp only [matmulTransposeGraph] at ht
        cases ht
        simp [matmulTransposeGraph] at hp
      · simp only [matmulTransposeGraph] at ht
        cases ht
        simp [matmulTransposeGraph] at hp
    · subst h
      simp [matmulTransposeGraph] at hmm
  · intro op hop hsw t ht p hp hsp
    simp only [matmulTransposeGraph, List.mem_cons, List.mem_singleton, List.not_mem_nil,
      or_false] at hop
    rcases hop with h | h
    · subst h
      have := hsw.1
      simp [matmulTransposeGraph] at this
    · subst h
      simp [matmulTransposeGraph] at ht
      subst ht
      simp [matmulTransposeGraph] at hp
      subst hp
      have := hsp.1
      simp [matmulTransposeGraph] at this

/-- C22, failing input. `matmulTransposeGraph` passes `checkValid` and no rule matches
in it: its MatMul reads two graph inputs and its Transpose reads the output of
the MatMul. `optimize` removes the Transpose, which writes the graph output
`d`, and removes `d`: the operator list `[0, 1]` becomes `[0]` and the tensor
list `[0, 1, 2, 3]` becomes `[0, 1, 2]`. -/
theorem optimize_removes_output_producer :
    matmulTransposeGraph.checkValid = true ∧ NoMatch matmulTransposeGraph ∧
    matmulTransposeGraph.ops = [0, 1] ∧ matmulTransposeGraph.tensors = [0, 1, 2, 3] ∧
    observe (fun g => (g.ops, g.tensors, g.checkValid)) (matmulTransposeGraph.optimize 1) =
      some ([0], [0, 1, 2], true) :=
  ⟨by decide, matmulTransposeGraph_noMatch, rfl, rfl, by decide⟩

end infini
